import Mathlib

/-!
# lz77: verification of the codecs `lz77+bn.h` (adaptive) and `lz77.h` (baseline)

Shallow embedding of the C sources.  Conventions:

* `uint64_t`, `size_t`, `uint32_t`, `uint8_t` values are `Nat`, with an explicit
  `% 2 ^ w` where the C operation can wrap; `int32_t` values are `Int`.
* The tables `ns`, `sx`, `fq` of a heap are total functions on `Int`; every C
  subscript is checked against the table capacity `lz77_alphabet` and an access
  outside `[0, lz77_alphabet)` ends the run with `Fault.table`.
* The byte buffer `data` is a total function on `Nat` together with its length
  `bytes`; the decoder checks every subscript against `[0, bytes)`.  The encoder
  reads `data[j + k]` and `data[i + k]` only with `j < i` and `k < bytes - i`,
  that is below `bytes`.
* The caller supplied `read`/`write` function pointers and the `that` pointer
  are a `Transport` over an arbitrary state type.
* The assertion macros `lz77_assert` and `rt_assert` and the histogram macros
  expand to nothing.
* A loop whose number of iterations is not fixed on entry runs on an iteration
  budget; `Fault.fuel` tells that the budget did not suffice.
-/

namespace Lz77bn

/-! ## Constants -/

/-- Source: `lz77_min_window = 10`. -/
def lz77_min_window : Nat := 10

/-- Source: `lz77_max_window = 12`. -/
def lz77_max_window : Nat := 12

/-- Source: `lz77_alphabet = 1 << lz77_max_window`. -/
def lz77_alphabet : Int := 2 ^ lz77_max_window

/-- The value of `EINVAL` from `errno.h`. -/
def EINVAL : Int := 22

/-- The value of `EIO` from `errno.h`; used by the in-memory transport only. -/
def EIO : Int := 5

/-- Ways a run leaves defined C behaviour (or the iteration budget of the model). -/
inductive Fault where
  /-- subscript of `ns`, `sx` or `fq` outside `[0, lz77_alphabet)` -/
  | table
  /-- subscript of `data` outside `[0, bytes)` -/
  | buffer
  /-- shift count not below the width of the shifted operand -/
  | shift
  /-- the loop did not finish within the iteration budget given to the model -/
  | fuel
  /-- subscript of `pos_freq` or `len_freq` (baseline codec) outside `[0, 64 * 1024)` -/
  | freq
  /-- the condition of an `rt_swear` (baseline codec) was false -/
  | swear
  deriving DecidableEq, Repr

/-- Conversion `int32_t -> uint64_t` (sign extension, then reinterpretation). -/
def toU64 (x : Int) : Nat := (x % 2 ^ 64).toNat

/-- Conversion `uint64_t -> int32_t` (truncation to 32 bits, two's complement). -/
def toI32 (n : Nat) : Int :=
  if n % 2 ^ 32 < 2 ^ 31 then ((n % 2 ^ 32 : Nat) : Int) else ((n % 2 ^ 32 : Nat) : Int) - 2 ^ 32

/-- Checked table read `a[i]`. -/
def rd {α : Type} (a : Int → α) (i : Int) : Except Fault α :=
  if 0 ≤ i ∧ i < lz77_alphabet then .ok (a i) else .error .table

/-- Checked table write `a[i] = v`. -/
def wr {α : Type} (a : Int → α) (i : Int) (v : α) : Except Fault (Int → α) :=
  if 0 ≤ i ∧ i < lz77_alphabet then .ok (Function.update a i v) else .error .table

/-! ## Binary heap -/

/-- Source: `lz77_binheap_t`. -/
structure lz77_binheap_t where
  /-- nodes: slot -> symbol -/
  ns : Int → Int
  /-- symbol -> slot in `ns` -/
  sx : Int → Int
  /-- frequency of a symbol -/
  fq : Int → Nat
  /-- node count -/
  nc : Int

/-- Source: `lz77_binheap_swap`. -/
def lz77_binheap_swap (t : lz77_binheap_t) (ix0 ix1 : Int) : Except Fault lz77_binheap_t := do
  let s0 ← rd t.ns ix0
  let s1 ← rd t.ns ix1
  let ns := Function.update (Function.update t.ns ix0 s1) ix1 s0
  let x0 ← rd t.sx s0
  let x1 ← rd t.sx s1
  let sx := Function.update (Function.update t.sx s0 x1) s1 x0
  pure { t with ns := ns, sx := sx }

/-- The `while (ix > 0)` loop of `lz77_binheap_up_heapify`; every iteration replaces `ix`
by `(ix - 1) / 2 < ix`, so a budget of `ix` iterations is never exhausted. -/
def lz77_binheap_up_heapify_loop : Nat → lz77_binheap_t → Int → Except Fault (lz77_binheap_t × Int)
  | 0, t, ix => if ix > 0 then .error .fuel else .ok (t, ix)
  | f + 1, t, ix =>
    if ix > 0 then do
      let p := (ix - 1) / 2
      let sp ← rd t.ns p
      let fp ← rd t.fq sp
      let si ← rd t.ns ix
      let fi ← rd t.fq si
      if fp ≥ fi then pure (t, ix)
      else do
        let t ← lz77_binheap_swap t ix p
        lz77_binheap_up_heapify_loop f t p
    else pure (t, ix)

/-- Source: `lz77_binheap_up_heapify`. -/
def lz77_binheap_up_heapify (t : lz77_binheap_t) (ix : Int) : Except Fault (lz77_binheap_t × Int) :=
  lz77_binheap_up_heapify_loop ix.toNat t ix

/-- Source: `lz77_binheap_add`. -/
def lz77_binheap_add (t : lz77_binheap_t) (sym : Int) : Except Fault (lz77_binheap_t × Int) := do
  let ns ← wr t.ns t.nc sym
  let fq ← wr t.fq sym 0
  let sx ← wr t.sx sym t.nc
  let t : lz77_binheap_t := { ns := ns, sx := sx, fq := fq, nc := t.nc + 1 }
  lz77_binheap_up_heapify t (t.nc - 1)

/-- Source: `lz77_binheap_inc_freq`. -/
def lz77_binheap_inc_freq (t : lz77_binheap_t) (sym : Int) : Except Fault (lz77_binheap_t × Int) := do
  let ix ← rd t.sx sym
  let f ← rd t.fq sym
  let t : lz77_binheap_t := { t with fq := Function.update t.fq sym ((f + 1) % 2 ^ 64) }
  lz77_binheap_up_heapify t ix

/-- The `for (s = 0; s < nc; s++)` loop of `lz77_binheap_init`, by the number of
iterations left. -/
def lz77_binheap_init_loop : Nat → Int → lz77_binheap_t → Except Fault lz77_binheap_t
  | 0, _, t => .ok t
  | c + 1, s, t => do
    let (t, _) ← lz77_binheap_add t s
    lz77_binheap_init_loop c (s + 1) t

/-- Source: `lz77_binheap_init`.  The three `memset` calls overwrite the whole tables, so the
previous content of `t` is not used. -/
def lz77_binheap_init (_t : lz77_binheap_t) (nc : Int) : Except Fault lz77_binheap_t :=
  lz77_binheap_init_loop nc.toNat 0
    { ns := fun _ => -1, sx := fun _ => -1, fq := fun _ => 0, nc := 0 }

/-! ## Session and transport -/

/-- Source: `lz77_t`.  The function pointers `read` and `write` are kept apart in a
`Transport`; `that` is the caller supplied data they work on. -/
structure lz77_t (σ : Type) where
  /-- caller supplied data -/
  that : σ
  /-- sticky error -/
  error : Int
  /-- bytes written -/
  written : Nat
  /-- heap of the literals -/
  bh_txt : lz77_binheap_t
  /-- heap of the distances -/
  bh_pos : lz77_binheap_t
  /-- heap of the lengths -/
  bh_len : lz77_binheap_t

/-- The caller supplied callbacks.  `read` returns the word read, the new caller data and
the error code it stored in the session (`0`: it stored none); `write` receives the word and
returns the new caller data and the error code it stored. -/
structure Transport (σ : Type) where
  /-- `uint64_t (*read)(lz77_t*)` -/
  read : σ → Nat × σ × Int
  /-- `void (*write)(lz77_t*, uint64_t b64)` -/
  write : σ → Nat → σ × Int

/-- Invocation of `lz->write(lz, w)`. -/
def call_write {σ : Type} (tr : Transport σ) (lz : lz77_t σ) (w : Nat) : lz77_t σ :=
  let r := tr.write lz.that w
  { lz with that := r.1, error := if r.2 ≠ 0 then r.2 else lz.error }

/-- Invocation of `lz->read(lz)`; the result is a `uint64_t`. -/
def call_read {σ : Type} (tr : Transport σ) (lz : lz77_t σ) : lz77_t σ × Nat :=
  let r := tr.read lz.that
  ({ lz with that := r.2.1, error := if r.2.2 ≠ 0 then r.2.2 else lz.error }, r.1 % 2 ^ 64)

/-- The pair of locals `uint64_t b64; uint32_t bp` of the bit channel. -/
structure Acc where
  /-- accumulated word -/
  b64 : Nat
  /-- bit position -/
  bp : Nat
  deriving DecidableEq, Repr

/-! ## Bit channel, writer side -/

/-- Source: `lz77_write_bit`. -/
def lz77_write_bit {σ : Type} (tr : Transport σ) (lz : lz77_t σ) (a : Acc) (bit : Nat) :
    Except Fault (lz77_t σ × Acc) :=
  let r : lz77_t σ × Acc :=
    if a.bp = 64 ∧ lz.error = 0 then
      let lz1 := call_write tr lz a.b64
      (if lz1.error = 0 then { lz1 with written := (lz1.written + 8) % 2 ^ 64 } else lz1, ⟨0, 0⟩)
    else (lz, a)
  if r.2.bp < 64 then .ok (r.1, ⟨r.2.b64 ||| ((bit <<< r.2.bp) % 2 ^ 64), r.2.bp + 1⟩)
  else .error .shift

/-- Source: `lz77_write_bits`, by the count `n`. -/
def lz77_write_bits {σ : Type} (tr : Transport σ) (lz : lz77_t σ) (a : Acc) (bits : Nat) :
    Nat → Except Fault (lz77_t σ × Acc)
  | 0 => .ok (lz, a)
  | n + 1 => do
    let r ← lz77_write_bit tr lz a (bits &&& 1)
    lz77_write_bits tr r.1 r.2 (bits >>> 1) n

/-- The `do ... while (bits != 0)` loop of `lz77_write_number`. -/
def lz77_write_number_loop {σ : Type} (tr : Transport σ) (base : Nat) :
    Nat → lz77_t σ → Acc → Nat → Except Fault (lz77_t σ × Acc)
  | 0, _, _, _ => .error .fuel
  | f + 1, lz, a, bits => do
    let r ← lz77_write_bits tr lz a bits base
    let bits := bits >>> base
    let r ← lz77_write_bit tr r.1 r.2 (if bits ≠ 0 then 1 else 0)
    if bits ≠ 0 then lz77_write_number_loop tr base f r.1 r.2 bits else pure r

/-- Source: `lz77_write_number`.  For `base >= 1` a `uint64_t` is zero after at most 64
shifts, so 64 iterations are never exceeded. -/
def lz77_write_number {σ : Type} (tr : Transport σ) (lz : lz77_t σ) (a : Acc) (bits base : Nat) :
    Except Fault (lz77_t σ × Acc) :=
  lz77_write_number_loop tr base 64 lz a bits

/-- Source: `lz77_flush`. -/
def lz77_flush {σ : Type} (tr : Transport σ) (lz : lz77_t σ) (a : Acc) : lz77_t σ :=
  if a.bp > 0 ∧ lz.error = 0 then
    let lz1 := call_write tr lz a.b64
    if lz1.error = 0 then { lz1 with written := (lz1.written + 8) % 2 ^ 64 } else lz1
  else lz

/-- Source: `lz77_write_header`. -/
def lz77_write_header {σ : Type} (tr : Transport σ) (lz : lz77_t σ) (bytes window_bits : Nat) :
    lz77_t σ :=
  if lz.error ≠ 0 then lz
  else if window_bits < 10 ∨ window_bits > 20 then { lz with error := EINVAL }
  else
    let lz1 := call_write tr lz (bytes % 2 ^ 64)
    if lz1.error ≠ 0 then lz1
    else call_write tr lz1 window_bits

/-! ## Compress -/

/-- The inner loop `while (k < n && data[j + k] == data[i + k]) k++` of the match search,
by the number `n - k` of bytes left. -/
def lz77_match_run (data : Nat → Nat) (i j : Nat) : Nat → Nat → Nat
  | 0, k => k
  | r + 1, k => if data (j + k) = data (i + k) then lz77_match_run data i j r (k + 1) else k

/-- The loop `while (j > min_j) { ...; j--; }` of the match search, by the number
`j - min_j` of iterations left; returns `(len, pos)`. -/
def lz77_match_scan (data : Nat → Nat) (bytes i min_j : Nat) : Nat → Nat → Nat → Nat × Nat
  | 0, len, pos => (len, pos)
  | c + 1, len, pos =>
    let j := min_j + (c + 1)
    let k := lz77_match_run data i j (bytes - i) 0
    if k > len then lz77_match_scan data bytes i min_j c k (i - j)
    else lz77_match_scan data bytes i min_j c len pos

/-- The match search of `lz77_compress` (the statements from `size_t len = 0;` to the end
of `if (i >= 1)`); returns `(len, pos)`. -/
def lz77_match (data : Nat → Nat) (bytes window i : Nat) : Nat × Nat :=
  if i ≥ 1 then
    let j := i - 1
    let min_j := if i > window then i - window else 0
    lz77_match_scan data bytes i min_j (j - min_j) 0 0
  else (0, 0)

/-- The back-reference branch of `lz77_compress` (`if (len > 2) { ... }` up to, not
including, `i += len`).  Returns the session and the accumulator, or `none` for the
accumulator when one of the `lz77_if_error_return` statements returned. -/
def lz77_emit_backref {σ : Type} (tr : Transport σ) (lz : lz77_t σ) (a : Acc)
    (pos len window base : Nat) : Except Fault (lz77_t σ × Option Acc) := do
  let r ← lz77_write_bits tr lz a 3 2
  if r.1.error ≠ 0 then pure (r.1, none) else do
  let rank ← rd r.1.bh_pos.sx pos
  let r ← lz77_write_number tr r.1 r.2 (toU64 rank) base
  let h ← lz77_binheap_inc_freq r.1.bh_pos (toI32 pos)
  let lz1 : lz77_t σ := { r.1 with bh_pos := h.1 }
  if lz1.error ≠ 0 then pure (lz1, none) else do
  let r ← lz77_write_bit tr lz1 r.2 (if len ≥ window then 1 else 0)
  if r.1.error ≠ 0 then pure (r.1, none) else do
  let r ←
    if len ≥ window then lz77_write_number tr r.1 r.2 len base
    else do
      let rank ← rd r.1.bh_len.sx len
      let r ← lz77_write_number tr r.1 r.2 (toU64 rank) base
      let h ← lz77_binheap_inc_freq r.1.bh_len (toI32 len)
      pure ({ r.1 with bh_len := h.1 }, r.2)
  if r.1.error ≠ 0 then pure (r.1, none) else
  pure (r.1, some r.2)

/-- The literal branch of `lz77_compress` (the `else` of `if (len > 2)` up to, not
including, `i++`), for the byte `b = data[i]`. -/
def lz77_emit_literal {σ : Type} (tr : Transport σ) (lz : lz77_t σ) (a : Acc) (b : Nat) :
    Except Fault (lz77_t σ × Option Acc) :=
  if b < 0x80 then do
    let r ← lz77_write_bit tr lz a 0
    if r.1.error ≠ 0 then pure (r.1, none) else do
    let rank ← rd r.1.bh_txt.sx b
    let bh := toU64 rank % 256
    let r ← lz77_write_number tr r.1 r.2 bh 2
    let h ← lz77_binheap_inc_freq r.1.bh_txt b
    let lz1 : lz77_t σ := { r.1 with bh_txt := h.1 }
    if lz1.error ≠ 0 then pure (lz1, none) else
    pure (lz1, some r.2)
  else do
    let r ← lz77_write_bit tr lz a 1
    let r ← lz77_write_bit tr r.1 r.2 0
    if r.1.error ≠ 0 then pure (r.1, none) else do
    let rank ← rd r.1.bh_txt.sx (b &&& 0x7F : Nat)
    let bh := toU64 rank % 256
    let r ← lz77_write_number tr r.1 r.2 bh 2
    let h ← lz77_binheap_inc_freq r.1.bh_txt (b &&& 0x7F : Nat)
    let lz1 : lz77_t σ := { r.1 with bh_txt := h.1 }
    if lz1.error ≠ 0 then pure (lz1, none) else
    pure (lz1, some r.2)

/-- The `while (i < bytes)` loop of `lz77_compress` followed by the final `lz77_flush`.
Every iteration advances `i`, so a budget of `bytes` iterations is never exhausted. -/
def lz77_compress_loop {σ : Type} (tr : Transport σ) (data : Nat → Nat) (bytes window base : Nat) :
    Nat → lz77_t σ → Acc → Nat → Except Fault (lz77_t σ)
  | 0, lz, a, i => if i < bytes then .error .fuel else .ok (lz77_flush tr lz a)
  | f + 1, lz, a, i =>
    if i < bytes then
      let m := lz77_match data bytes window i
      let len := m.1
      let pos := m.2
      if len > 2 then do
        let e ← lz77_emit_backref tr lz a pos len window base
        match e.2 with
        | none => pure e.1
        | some a1 => lz77_compress_loop tr data bytes window base f e.1 a1 (i + len)
      else do
        let e ← lz77_emit_literal tr lz a (data i)
        match e.2 with
        | none => pure e.1
        | some a1 => lz77_compress_loop tr data bytes window base f e.1 a1 (i + 1)
    else .ok (lz77_flush tr lz a)

/-- Source: `lz77_compress`.  `data` holds `bytes` bytes (values below 256), `window_bits`
is a `uint8_t`. -/
def lz77_compress {σ : Type} (tr : Transport σ) (lz : lz77_t σ) (data : Nat → Nat)
    (bytes window_bits : Nat) : Except Fault (lz77_t σ) :=
  if lz.error ≠ 0 then .ok lz
  else if window_bits < 10 ∨ window_bits > 20 then .ok { lz with error := EINVAL }
  else do
    let window := (1 <<< window_bits) % 2 ^ 64
    let base := 4
    let txt ← lz77_binheap_init lz.bh_txt 0x80
    let pos ← lz77_binheap_init lz.bh_pos (toI32 window)
    let len ← lz77_binheap_init lz.bh_len (toI32 window)
    lz77_compress_loop tr data bytes window base bytes
      { lz with bh_txt := txt, bh_pos := pos, bh_len := len } ⟨0, 0⟩ 0

/-! ## Bit channel, reader side -/

/-- Source: `lz77_read_bit`; returns the session, the accumulator and the bit. -/
def lz77_read_bit {σ : Type} (tr : Transport σ) (lz : lz77_t σ) (a : Acc) :
    lz77_t σ × Acc × Nat :=
  let r : lz77_t σ × Acc :=
    if a.bp = 0 then
      let c := call_read tr lz
      (c.1, { a with b64 := c.2 })
    else (lz, a)
  let bit := (r.2.b64 >>> r.2.bp) &&& 1
  (r.1, ⟨r.2.b64, if r.2.bp = 63 then 0 else r.2.bp + 1⟩, bit)

/-- The `for (i = 0; i < n && lz->error == 0; i++)` loop of `lz77_read_bits`, by the number
`n - i` of iterations left. -/
def lz77_read_bits_loop {σ : Type} (tr : Transport σ) :
    Nat → lz77_t σ → Acc → Nat → Nat → lz77_t σ × Acc × Nat
  | 0, lz, a, bits, _ => (lz, a, bits)
  | r + 1, lz, a, bits, i =>
    if lz.error = 0 then
      let b := lz77_read_bit tr lz a
      lz77_read_bits_loop tr r b.1 b.2.1 (bits ||| ((b.2.2 <<< i) % 2 ^ 64)) (i + 1)
    else (lz, a, bits)

/-- Source: `lz77_read_bits`. -/
def lz77_read_bits {σ : Type} (tr : Transport σ) (lz : lz77_t σ) (a : Acc) (n : Nat) :
    lz77_t σ × Acc × Nat :=
  lz77_read_bits_loop tr n lz a 0 0

/-- The `do ... while (bit && lz->error == 0)` loop of `lz77_read_number`.  The shift
`<< shift` is undefined from `shift = 64` on. -/
def lz77_read_number_loop {σ : Type} (tr : Transport σ) (base : Nat) :
    Nat → lz77_t σ → Acc → Nat → Nat → Except Fault (lz77_t σ × Acc × Nat)
  | 0, _, _, _, _ => .error .fuel
  | f + 1, lz, a, bits, shift =>
    let c := lz77_read_bits tr lz a base
    if shift ≥ 64 then .error .shift
    else
      let bits := bits ||| ((c.2.2 <<< shift) % 2 ^ 64)
      let shift := (shift + base) % 2 ^ 32
      let b := lz77_read_bit tr c.1 c.2.1
      if b.2.2 ≠ 0 ∧ b.1.error = 0 then lz77_read_number_loop tr base f b.1 b.2.1 bits shift
      else .ok (b.1, b.2.1, bits)

/-- Source: `lz77_read_number`.  For `base >= 1` the shift count reaches 64 within 65
iterations. -/
def lz77_read_number {σ : Type} (tr : Transport σ) (lz : lz77_t σ) (a : Acc) (base : Nat) :
    Except Fault (lz77_t σ × Acc × Nat) :=
  lz77_read_number_loop tr base 65 lz a 0 0

/-- Source: `lz77_read_header`.  `bytes` and `window_bits` are the values of the two
out-parameters before the call; the result carries their values after it. -/
def lz77_read_header {σ : Type} (tr : Transport σ) (lz : lz77_t σ) (bytes window_bits : Nat) :
    lz77_t σ × Nat × Nat :=
  if lz.error ≠ 0 then (lz, bytes, window_bits)
  else
    let c0 := call_read tr lz
    let c1 := call_read tr c0.1
    let wb := c1.2 % 256
    if wb < 10 ∨ wb > 20 then ({ c1.1 with error := EINVAL }, c0.2, wb)
    else (c1.1, c0.2, wb)

/-! ## Decompress -/

/-- The copy loop `while (i < n) { data[i] = s[i]; i++; }` with `s = data - pos`, by the
number `n - i` of iterations left; returns the buffer and `i`. -/
def lz77_copy_loop (bytes pos : Nat) : Nat → (Nat → Nat) → Nat → Except Fault ((Nat → Nat) × Nat)
  | 0, data, i => .ok (data, i)
  | c + 1, data, i =>
    if i < pos ∨ bytes ≤ i - pos then .error .buffer
    else if bytes ≤ i then .error .buffer
    else lz77_copy_loop bytes pos c (Function.update data i (data (i - pos))) (i + 1)

/-- The decoding of one back-reference in `lz77_decompress`: the statements from
`uint64_t pos = lz77_read_number(...)` up to the two `rt_assert`/validation lines.
Returns the session, the accumulator and `some (pos, len)`, or `none` when one of the
`lz77_if_error_return` statements returned. -/
def lz77_decode_backref {σ : Type} (tr : Transport σ) (lz : lz77_t σ) (a : Acc) (base : Nat) :
    Except Fault (lz77_t σ × Acc × Option (Nat × Nat)) := do
  let r ← lz77_read_number tr lz a base
  if r.1.error ≠ 0 then pure (r.1, r.2.1, none) else do
  let sym ← rd r.1.bh_pos.ns r.2.2
  let pos := toU64 sym
  let h ← lz77_binheap_inc_freq r.1.bh_pos (toI32 pos)
  let lz1 : lz77_t σ := { r.1 with bh_pos := h.1 }
  let b := lz77_read_bit tr lz1 r.2.1
  if b.1.error ≠ 0 then pure (b.1, b.2.1, none) else
  if b.2.2 ≠ 0 then do
    let r ← lz77_read_number tr b.1 b.2.1 base
    if r.1.error ≠ 0 then pure (r.1, r.2.1, none) else
    pure (r.1, r.2.1, some (pos, r.2.2))
  else do
    let r ← lz77_read_number tr b.1 b.2.1 base
    if r.1.error ≠ 0 then pure (r.1, r.2.1, none) else do
    let sym ← rd r.1.bh_len.ns r.2.2
    let len := toU64 sym
    let h ← lz77_binheap_inc_freq r.1.bh_len (toI32 len)
    pure ({ r.1 with bh_len := h.1 }, r.2.1, some (pos, len))

/-- The decoding of one literal in `lz77_decompress` (both literal branches; `hi` is
`0x80` in the branch `byte >= 0x80` and `0` in the ASCII branch).  Returns the session, the
accumulator and the buffer; `none` when `lz77_if_error_return` returned. -/
def lz77_decode_literal {σ : Type} (tr : Transport σ) (lz : lz77_t σ) (a : Acc)
    (data : Nat → Nat) (bytes i hi : Nat) :
    Except Fault (lz77_t σ × Option (Acc × (Nat → Nat))) := do
  let r ← lz77_read_number tr lz a 2
  if r.1.error ≠ 0 then pure (r.1, none) else do
  let b := r.2.2 % 256
  let sym ← rd r.1.bh_txt.ns b
  let s := toU64 sym % 256
  if bytes ≤ i then .error .buffer else do
  let data := Function.update data i (hi ||| s)
  let h ← lz77_binheap_inc_freq r.1.bh_txt s
  pure ({ r.1 with bh_txt := h.1 }, some (r.2.1, data))

/-- The `while (i < bytes)` loop of `lz77_decompress`, with an iteration budget: a
back-reference whose `i + len` wraps around leaves `i` unchanged, so the number of
iterations is not bounded by `bytes` for every stream. -/
def lz77_decompress_loop {σ : Type} (tr : Transport σ) (bytes window base : Nat) :
    Nat → lz77_t σ → Acc → (Nat → Nat) → Nat → Except Fault (lz77_t σ × (Nat → Nat))
  | 0, lz, _, data, i => if i < bytes then .error .fuel else .ok (lz, data)
  | f + 1, lz, a, data, i =>
    if i < bytes then
      let b0 := lz77_read_bit tr lz a
      if b0.1.error ≠ 0 then .ok (b0.1, data) else
      if b0.2.2 ≠ 0 then
        let b1 := lz77_read_bit tr b0.1 b0.2.1
        if b1.1.error ≠ 0 then .ok (b1.1, data) else
        if b1.2.2 ≠ 0 then do
          let d ← lz77_decode_backref tr b1.1 b1.2.1 base
          match d.2.2 with
          | none => pure (d.1, data)
          | some (pos, len) =>
            if ¬ (0 < pos ∧ pos < window) then pure ({ d.1 with error := EINVAL }, data) else
            if len = 0 then pure ({ d.1 with error := EINVAL }, data) else do
            let n := (i + len) % 2 ^ 64
            let c ← lz77_copy_loop bytes pos (n - i) data i
            lz77_decompress_loop tr bytes window base f d.1 d.2.1 c.1 c.2
        else do
          let d ← lz77_decode_literal tr b1.1 b1.2.1 data bytes i 0x80
          match d.2 with
          | none => pure (d.1, data)
          | some (a1, data1) => lz77_decompress_loop tr bytes window base f d.1 a1 data1 (i + 1)
      else do
        let d ← lz77_decode_literal tr b0.1 b0.2.1 data bytes i 0
        match d.2 with
        | none => pure (d.1, data)
        | some (a1, data1) => lz77_decompress_loop tr bytes window base f d.1 a1 data1 (i + 1)
    else .ok (lz, data)

/-- Source: `lz77_decompress`; `fuel` bounds the iterations of its main loop. -/
def lz77_decompress {σ : Type} (tr : Transport σ) (fuel : Nat) (lz : lz77_t σ)
    (data : Nat → Nat) (bytes window_bits : Nat) : Except Fault (lz77_t σ × (Nat → Nat)) :=
  if lz.error ≠ 0 then .ok (lz, data)
  else if window_bits < 10 ∨ window_bits > 20 then .ok ({ lz with error := EINVAL }, data)
  else do
    let window := (1 <<< window_bits) % 2 ^ 64
    let base := 4
    let txt ← lz77_binheap_init lz.bh_txt 0x80
    let pos ← lz77_binheap_init lz.bh_pos (toI32 window)
    let len ← lz77_binheap_init lz.bh_len (toI32 window)
    lz77_decompress_loop tr bytes window base fuel
      { lz with bh_txt := txt, bh_pos := pos, bh_len := len } ⟨0, 0⟩ data 0

/-! ## In-memory transport -/

/-- Caller data of the in-memory transport: the words still to be read and the words
written so far, oldest first. -/
structure Mem where
  /-- words the `read` callback will return, in order -/
  input : List Nat
  /-- words the `write` callback has received, in order -/
  output : List Nat
  deriving DecidableEq, Repr

/-- In-memory transport: `write` never fails and appends the word to `output`; `read`
returns the words of `input` in order, and stores `EIO` once they are used up. -/
def memTransport : Transport Mem where
  read m :=
    match m.input with
    | [] => (0, m, EIO)
    | w :: ws => (w, { m with input := ws }, 0)
  write m w := ({ m with output := m.output ++ [w] }, 0)

/-- An arbitrary heap value for sessions that have not run yet. -/
def blankHeap : lz77_binheap_t :=
  { ns := fun _ => 0, sx := fun _ => 0, fq := fun _ => 0, nc := 0 }

/-- A fresh session over the in-memory transport with the given words to read. -/
def memSession (input : List Nat) : lz77_t Mem :=
  { that := { input := input, output := [] }, error := 0, written := 0,
    bh_txt := blankHeap, bh_pos := blankHeap, bh_len := blankHeap }

/-- The buffer holding the bytes of a list. -/
def bufferOf (bs : List Nat) : Nat → Nat := fun i => bs.getD i 0

/-! ## Vocabulary of the proofs -/

/-- The heap `lz77_binheap_init` builds for `n` symbols: symbol `i` in slot `i`, all
frequencies zero, the filler `-1` elsewhere. -/
def idHeap (n : Int) : lz77_binheap_t :=
  { ns := fun i => if 0 ≤ i ∧ i < n then i else -1,
    sx := fun i => if 0 ≤ i ∧ i < n then i else -1,
    fq := fun _ => 0, nc := n }

/-- Index consistency of a heap with `n` symbols within the table capacity: `ns` and `sx`
are mutually inverse on `[0, n)`. -/
structure HInv (t : lz77_binheap_t) (n : Int) : Prop where
  nc : t.nc = n
  lo : 0 ≤ n
  hi : n ≤ 4096
  ns_lt : ∀ i, 0 ≤ i → i < n → 0 ≤ t.ns i ∧ t.ns i < n
  sx_ns : ∀ i, 0 ≤ i → i < n → t.sx (t.ns i) = i
  sx_lt : ∀ s, 0 ≤ s → s < n → 0 ≤ t.sx s ∧ t.sx s < n
  ns_sx : ∀ s, 0 ≤ s → s < n → t.ns (t.sx s) = s

/-- The heap after `lz77_binheap_swap t a b`. -/
def swapHeap (t : lz77_binheap_t) (a b : Int) : lz77_binheap_t :=
  { t with
    ns := Function.update (Function.update t.ns a (t.ns b)) b (t.ns a),
    sx := Function.update (Function.update t.sx (t.ns a) (t.sx (t.ns b))) (t.ns b) (t.sx (t.ns a)) }

/-- The bits `lo, lo + 1, ..., lo + n - 1` of `w`, least significant first. -/
def bitsFrom (w : Nat) : Nat → Nat → List Bool
  | _, 0 => []
  | lo, n + 1 => w.testBit lo :: bitsFrom w (lo + 1) n

/-- The bits of a list of 64-bit words, in stream order. -/
def wordsBits : List Nat → List Bool
  | [] => []
  | w :: ws => bitsFrom w 0 64 ++ wordsBits ws

/-- All bits a writer has produced: the words emitted and the bits in the accumulator. -/
def wbits (lz : lz77_t Mem) (a : Acc) : List Bool :=
  wordsBits lz.that.output ++ bitsFrom a.b64 0 a.bp

/-- All bits a reader has still to deliver: the rest of the current word and the words
not yet read. -/
def rbits (lz : lz77_t Mem) (a : Acc) : List Bool :=
  (if a.bp = 0 then [] else bitsFrom a.b64 a.bp (64 - a.bp)) ++ wordsBits lz.that.input

/-- State of a writer that has met no error. -/
structure WOk (lz : lz77_t Mem) (a : Acc) : Prop where
  err : lz.error = 0
  bp : a.bp ≤ 64
  b64 : a.b64 < 2 ^ a.bp

/-- The writer went from its first to its second state by appending the bits `bs`,
heaps untouched. -/
structure Wrote (lz : lz77_t Mem) (a : Acc) (lz' : lz77_t Mem) (a' : Acc) (bs : List Bool) :
    Prop where
  ok : WOk lz' a'
  bits : wbits lz' a' = wbits lz a ++ bs
  txt : lz'.bh_txt = lz.bh_txt
  pos : lz'.bh_pos = lz.bh_pos
  len : lz'.bh_len = lz.bh_len
  input : lz'.that.input = lz.that.input
  out : ∃ ws, lz'.that.output = lz.that.output ++ ws ∧
    lz'.written % 2 ^ 64 = (lz.written + 8 * ws.length) % 2 ^ 64

/-- The bits of the variable-length code of `v` with chunk width `base`: chunks from the
least significant one, each followed by its continuation bit. -/
def varintBits (base : Nat) : Nat → Nat → List Bool
  | 0, _ => []
  | f + 1, v =>
    bitsFrom v 0 base ++
      (if v >>> base ≠ 0 then true :: varintBits base f (v >>> base) else [false])

/-- The variable-length code of a `uint64_t`. -/
def varint (base v : Nat) : List Bool := varintBits base 64 v

/-- State of a reader that has met no error. -/
structure ROk (lz : lz77_t Mem) (a : Acc) : Prop where
  err : lz.error = 0
  bp : a.bp < 64

/-- The reader went from its first to its second state with `rest` left to deliver,
heaps and writer side untouched. -/
structure Took (lz : lz77_t Mem) (lz' : lz77_t Mem) (a' : Acc) (rest : List Bool) :
    Prop where
  ok : ROk lz' a'
  bits : rbits lz' a' = rest
  txt : lz'.bh_txt = lz.bh_txt
  pos : lz'.bh_pos = lz.bh_pos
  len : lz'.bh_len = lz.bh_len
  output : lz'.that.output = lz.that.output
  written : lz'.written = lz.written

/-- A candidate `(len, pos)` of the match search at position `i`. -/
structure MatchOk (data : Nat → Nat) (bytes i min_j len pos : Nat) : Prop where
  len_le : len ≤ bytes - i
  pos_pos : 0 < pos
  pos_lt : pos + min_j < i
  eq : ∀ m, m < len → data (i - pos + m) = data (i + m)

/-- The writer went from its first to its second state by appending the bits `bs`. -/
structure Emit (lz : lz77_t Mem) (a : Acc) (lz' : lz77_t Mem) (a' : Acc) (bs : List Bool) :
    Prop where
  ok : WOk lz' a'
  bits : wbits lz' a' = wbits lz a ++ bs
  input : lz'.that.input = lz.that.input
  out : ∃ ws, lz'.that.output = lz.that.output ++ ws ∧
    lz'.written % 2 ^ 64 = (lz.written + 8 * ws.length) % 2 ^ 64

/-- The bits of a literal token for the byte `b` under the literal heap `t`. -/
def litBits (t : lz77_binheap_t) (b : Nat) : List Bool :=
  (if b < 128 then [false] else [true, false]) ++ varint 2 (t.sx ((b % 128 : Nat) : Int)).toNat

/-- The third heap is the result of `lz77_binheap_inc_freq t s`. -/
def Bumped (t : lz77_binheap_t) (s : Int) (t' : lz77_binheap_t) : Prop :=
  ∃ r, lz77_binheap_inc_freq t s = .ok (t', r)

/-- The bits of a back-reference token under the distance heap `tp` and length heap `tl`. -/
def refBits (tp tl : lz77_binheap_t) (pos len window : Nat) : List Bool :=
  [true, true] ++ varint 4 (tp.sx (pos : Int)).toNat ++
    (if len ≥ window then true :: varint 4 len else false :: varint 4 (tl.sx (len : Int)).toNat)

/-- What the decoder does on the bits `bs` from position `i`, for an encoder that ended in
`lzf`. -/
def Decodes (data : Nat → Nat) (bytes window i : Nat) (lz lzf : lz77_t Mem) (bs : List Bool) :
    Prop :=
  ∀ (fuelD : Nat) (lzd : lz77_t Mem) (ad : Acc) (out : Nat → Nat),
    bytes - i ≤ fuelD → ROk lzd ad → rbits lzd ad = bs →
    lzd.bh_txt = lz.bh_txt → lzd.bh_pos = lz.bh_pos → lzd.bh_len = lz.bh_len →
    (∀ m, m < i → out m = data m) →
    ∃ lzd' out', lz77_decompress_loop memTransport bytes window 4 fuelD lzd ad out i
        = .ok (lzd', out') ∧ lzd'.error = 0 ∧
      (∀ m, m < bytes → out' m = data m) ∧ (∀ m, bytes ≤ m → out' m = out m) ∧
      lzd'.bh_txt = lzf.bh_txt ∧ lzd'.bh_pos = lzf.bh_pos ∧ lzd'.bh_len = lzf.bh_len

/-- The session after the three `lz77_binheap_init` calls of compress and decompress. -/
def reinit {σ : Type} (lz : lz77_t σ) (window : Int) : lz77_t σ :=
  { lz with bh_txt := idHeap 128, bh_pos := idHeap window, bh_len := idHeap window }

/-- The `(pos, len)` pair of a decoded back-reference, `none` when the decoding returned
early or faulted. -/
def backrefOf {σ : Type} (r : Except Fault (lz77_t σ × Acc × Option (Nat × Nat))) :
    Option (Nat × Nat) :=
  match r with
  | .ok d => d.2.2
  | .error _ => none

/-- A decoder session at the start of its main loop (window 1024) whose stream holds one
back-reference with distance rank 0, that is distance 0, and length rank 5. -/
def rejectSession : lz77_t Mem := reinit (memSession [1283]) 1024

/-- The 35 bytes of the scenario text. -/
def helloBytes : List Nat := "Hello World Hello.World Hello World".toList.map Char.toNat

/-- Observation of a finished compress run: no error, the given words, the given count. -/
def outputIs (r : Except Fault (lz77_t Mem)) (ws : List Nat) (written : Nat) : Bool :=
  match r with
  | .ok lz => decide (lz.error = 0) && decide (lz.that.output = ws) && decide (lz.written = written)
  | .error _ => false

/-- Runs `lz77_binheap_inc_freq` on the symbols of a list, in order. -/
def inc_freq_all (t : lz77_binheap_t) : List Int → Except Fault lz77_binheap_t
  | [] => .ok t
  | s :: ss => do
    let r ← lz77_binheap_inc_freq t s
    inc_freq_all r.1 ss

/-- The heap after `lz77_binheap_init` for `n` symbols followed by `lz77_binheap_inc_freq`
on the symbols of a list, in order. -/
def heap_after (n : Int) (ss : List Int) : Except Fault lz77_binheap_t := do
  let t ← lz77_binheap_init blankHeap n
  inc_freq_all t ss

/-- Heap order: the symbol of every non-root slot is no more frequent than the symbol of
the parent slot. -/
def HeapOrd (t : lz77_binheap_t) : Prop :=
  ∀ ix, 0 < ix → ix < t.nc → t.fq (t.ns ix) ≤ t.fq (t.ns ((ix - 1) / 2))

/-- Heap order everywhere but at the slot `ix` that is being sifted up, whose children are
already below its parent. -/
structure AlmostOrd (t : lz77_binheap_t) (ix : Int) : Prop where
  other : ∀ j, 0 < j → j < t.nc → j ≠ ix → t.fq (t.ns j) ≤ t.fq (t.ns ((j - 1) / 2))
  child : 0 < ix → ∀ j, 0 < j → j < t.nc → (j - 1) / 2 = ix →
    t.fq (t.ns j) ≤ t.fq (t.ns ((ix - 1) / 2))

/-- A decoder session at the start of its main loop (window 1024) whose stream holds one
back-reference with distance rank 1, that is distance 1, and length rank 10, that is
length 10. -/
def overlapSession : lz77_t Mem := reinit (memSession [2567]) 1024

/-- The buffer and the position a copy loop returns, `none` when it faulted. -/
def copiedBytes (r : Except Fault ((Nat → Nat) × Nat)) (n : Nat) : Option (List Nat × Nat) :=
  match r with
  | .ok c => some ((List.range n).map c.1, c.2)
  | .error _ => none

/-- A fresh session over arbitrary caller data. -/
def freshSession {σ : Type} (that : σ) : lz77_t σ :=
  { that := that, error := 0, written := 0,
    bh_txt := blankHeap, bh_pos := blankHeap, bh_len := blankHeap }

/-- A transport whose caller data counts the invocations of `read`: the first invocation
stores `EIO`, the later ones store nothing, and all of them return the word 0. -/
def failingReader : Transport Nat where
  read n := (0, n + 1, if n = 0 then EIO else 0)
  write n _ := (n, 0)

/-- Writes the bits of a list with `lz77_write_bit`, in order. -/
def write_bit_seq {σ : Type} (tr : Transport σ) :
    List Bool → lz77_t σ → Acc → Except Fault (lz77_t σ × Acc)
  | [], lz, a => .ok (lz, a)
  | b :: bs, lz, a => do
    let r ← lz77_write_bit tr lz a b.toNat
    write_bit_seq tr bs r.1 r.2

/-- The words emitted once the bits written are flushed, `none` when the writes faulted. -/
def flushedWords (r : Except Fault (lz77_t Mem × Acc)) : Option (List Nat) :=
  match r with
  | .ok w => some (lz77_flush memTransport w.1 w.2).that.output
  | .error _ => none

/-- The transport `tr` with a log of its write callback: the caller data carries, oldest
first, the error code each invocation of the write callback stored in the session (`0`: it
stored none). -/
def logWrites {σ : Type} (tr : Transport σ) : Transport (σ × List Int) where
  read s := ((tr.read s.1).1, ((tr.read s.1).2.1, s.2), (tr.read s.1).2.2)
  write s w := (((tr.write s.1 w).1, s.2 ++ [(tr.write s.1 w).2]), (tr.write s.1 w).2)

/-- A write callback that never stores an error code. -/
def NeverFails {σ : Type} (tr : Transport σ) : Prop := ∀ s w, (tr.write s w).2 = 0

/-- The emission of one word by `lz77_write_bit` and `lz77_flush`: the invocation of the
write callback followed by `if (lz->error == 0) lz->written += 8`. -/
def sendWord {σ : Type} (tr : Transport σ) (lz : lz77_t σ) (w : Nat) : lz77_t σ :=
  if (call_write tr lz w).error = 0 then
    { call_write tr lz w with written := ((call_write tr lz w).written + 8) % 2 ^ 64 }
  else call_write tr lz w

/-- What a stretch of a writer did to the transport: `codes` are the error codes its
invocations of the write callback stored.  From a session with an error there is no
invocation; otherwise every invocation but possibly the last stored none, `error` is what
the last one stored, and `written` grew by 8 for each invocation that stored none. -/
structure Sent {σ : Type} (tr : Transport σ) (lz lz' : lz77_t (σ × List Int))
    (codes : List Int) : Prop where
  log : lz'.that.2 = lz.that.2 ++ codes
  src : ∀ c, c ∈ codes → ∃ s w, c = (tr.write s w).2
  stuck : lz.error ≠ 0 → codes = [] ∧ lz'.error = lz.error ∧ lz'.written = lz.written
  good : lz.error = 0 → lz'.error = 0 →
    (∀ c, c ∈ codes → c = 0) ∧ lz'.written % 2 ^ 64 = (lz.written + 8 * codes.length) % 2 ^ 64
  bad : lz.error = 0 → lz'.error ≠ 0 →
    ∃ pre, codes = pre ++ [lz'.error] ∧ (∀ c, c ∈ pre → c = 0) ∧
      lz'.written % 2 ^ 64 = (lz.written + 8 * pre.length) % 2 ^ 64
  bound : lz.written < 2 ^ 64 → lz'.written < 2 ^ 64

/-- Room in the accumulator for `m` more bits: without an error the accumulator is flushed
when full; with an error it is not, and the bit position has to stay below 64. -/
def Bud {σ : Type} (lz : lz77_t σ) (a : Acc) (m : Nat) : Prop :=
  (lz.error = 0 → a.bp ≤ 64) ∧ (lz.error ≠ 0 → a.bp + m ≤ 64)

/-- A stretch of a writer that left the heaps alone and room for `m` more bits. -/
structure Went {σ : Type} (tr : Transport σ) (lz lz' : lz77_t (σ × List Int)) (a' : Acc)
    (m : Nat) : Prop where
  sent : ∃ codes, Sent tr lz lz' codes
  bud : Bud lz' a' m
  txt : lz'.bh_txt = lz.bh_txt
  pos : lz'.bh_pos = lz.bh_pos
  len : lz'.bh_len = lz.bh_len

/-- The buffer "abc" followed by zero bytes. -/
def abcZeros : Nat → Nat :=
  fun i => if i = 0 then 97 else if i = 1 then 98 else if i = 2 then 99 else 0

/-- A transport whose write callback stores `EIO` at its `k`-th invocation and nothing at
the other ones; the caller data counts the invocations. -/
def failsAt (k : Nat) : Transport Nat where
  read n := (0, n, 0)
  write n _ := (n + 1, if n + 1 = k then EIO else 0)

/-- Observation of a finished run over a logged transport: the log, `error` and `written`;
`none` when the run faulted. -/
def logOf {σ : Type} (r : Except Fault (lz77_t (σ × List Int))) : Option (List Int × Int × Nat) :=
  match r with
  | .ok lz => some (lz.that.2, lz.error, lz.written)
  | .error _ => none

/-- The fault of a run, `none` when it returned. -/
def faultOf {α : Type} (r : Except Fault α) : Option Fault :=
  match r with
  | .ok _ => none
  | .error e => some e

/-- The slot reached from `ix` by `k` steps to the parent `(ix - 1) / 2`. -/
def parentIter : Nat → Int → Int
  | 0, ix => ix
  | k + 1, ix => parentIter k ((ix - 1) / 2)

/-- The slot `j` lies on the path from the slot `ix` up to the slot `r`: it is reached from
`ix` by steps to the parent and is not above `r`. -/
def OnPath (ix r j : Int) : Prop := r ≤ j ∧ ∃ k, parentIter k ix = j

/-- The number of chunks of width `w` in the variable-length code of `v`:
`max(1, ceil(bitlength(v) / w))`. -/
def chunkCount (w v : Nat) : Nat := max 1 ((Nat.size v + w - 1) / w)

/-- A decoder session whose stream starts with a literal token of rank 200, a rank the
literal heap of 128 symbols does not have. -/
def rankSession : lz77_t Mem := memSession [3688]

/-- A decoder session whose stream starts with a back-reference token of distance rank
2000, a rank the distance heap of 1024 symbols does not have. -/
def distanceRankSession : lz77_t Mem := memSession [32451]

/-- Observation of a decoded literal: the byte stored at `i` and the frequency of the
symbol `s` afterwards; `none` when the decoding returned early or faulted. -/
def literalOf (r : Except Fault (lz77_t Mem × Option (Acc × (Nat → Nat)))) (i : Nat) (s : Int) :
    Option (Nat × Nat × Int) :=
  match r with
  | .ok d =>
    match d.2 with
    | some w => some (w.2 i, d.1.bh_txt.fq s, d.1.bh_txt.nc)
    | none => none
  | .error _ => none

/-- The session with `written` replaced. -/
def setW {σ : Type} (lz : lz77_t σ) (w : Nat) : lz77_t σ := { lz with written := w }

/-- The session without its byte counter. -/
def wipe {σ : Type} (lz : lz77_t σ) : lz77_t σ := { lz with written := 0 }

/-- A result without the byte counter of its session. -/
def wipeR {σ α : Type} (r : lz77_t σ × α) : lz77_t σ × α := (wipe r.1, r.2)

/-- Two runs agree but for the byte counter: both fault alike, or both return and the
sessions differ in `written` at most. -/
def Agree {σ α : Type} (x y : Except Fault (lz77_t σ × α)) : Prop :=
  x.map wipeR = y.map wipeR

/-- Two runs that return a session agree but for the byte counter. -/
def AgreeS {σ : Type} (x y : Except Fault (lz77_t σ)) : Prop :=
  x.map wipe = y.map wipe

/-- Observation of a run of decompress: the error code and the first `n` bytes of the
buffer; `none` when it faulted. -/
def decodedOf (r : Except Fault (lz77_t Mem × (Nat → Nat))) (n : Nat) :
    Option (Int × List Nat) :=
  match r with
  | .ok d => some (d.1.error, (List.range n).map d.2)
  | .error _ => none

/-- The slots of `ns` from `nc` on hold the filler `-1` of `lz77_binheap_init`. -/
def Filler (t : lz77_binheap_t) : Prop := ∀ j, t.nc ≤ j → t.ns j = -1

/-- A decoder session at the start of its main loop (window 1024) whose stream holds a
back-reference of distance 1 and raw length `2 ^ 64 - 1`, followed by the literal 66. -/
def wrapSession : lz77_t Mem := reinit (memSession [18446744073709551495, 27053260799]) 1024

/-! ## The baseline codec `lz77.h`

`lz77.h` has the bit channel (`lz77_write_bit` to `lz77_flush`, `lz77_read_bit` to
`lz77_read_number`), the two header functions and the match search of `lz77+bn.h` word for
word; the definitions above stand for both files.  A session of the baseline codec has no
heaps: the definitions below neither read nor write the three heap fields of `lz77_t`.
Its `lz77_compress` keeps statistics in the statics `pos_freq`, `len_freq`, `map`, `lens`
and `poss`, which are passed along as a `Stats`. -/

namespace Baseline

/-- Source: `rt_countof(pos_freq)` and `rt_countof(len_freq)`, `64 * 1024`. -/
def freq_count : Nat := 64 * 1024

/-- Source: `rt_countof(map->entry)`, `512 * 1024`. -/
def entry_count : Nat := 512 * 1024

/-- Source: `map_t`; `entry i k` is the byte `entry[i][k]` of the `map_entry_t` in slot
`i`, whose byte 0 is the number of bytes of the key and whose bytes from 1 on are the key. -/
structure map_t where
  /-- `map_entry_t entry[512 * 1024]` -/
  entry : Nat → Nat → Nat
  /-- number of keys -/
  entries : Int
  /-- longest probe sequence so far -/
  max_chain : Int
  /-- longest key so far -/
  max_bytes : Int

/-- The statics of `lz77.h` that `lz77_compress` works on. -/
structure Stats where
  /-- `static uint64_t pos_freq[64 * 1024]` -/
  pos_freq : Nat → Nat
  /-- `static uint64_t len_freq[64 * 1024]` -/
  len_freq : Nat → Nat
  /-- `static map_t map` -/
  map : map_t
  /-- `static map_t lens` -/
  lens : map_t
  /-- `static map_t poss` -/
  poss : map_t

/-- The macro `rt_swear`, which `lz77.h` uses and does not define: taken as a check in
every build that ends the run when its condition is false. -/
def rt_swear (c : Prop) [Decidable c] : Except Fault Unit :=
  if c then .ok () else .error .swear

/-- The `for` loop of `map_hash64` for `bytes > 0`, by the number of bytes left. -/
def map_hash64_loop (data : Nat → Nat) : Nat → Nat → Nat → Nat
  | 0, _, hash => hash
  | c + 1, i, hash =>
    map_hash64_loop data c (i + 1) (((hash ^^^ data i) * 0x100000001b3) % 2 ^ 64)

/-- Source: `map_hash64`, for `bytes > 0`.  Its branch for `bytes <= 0` (a zero-terminated
key) is not reached from `map_put`, which swears `2 <= bytes` first. -/
def map_hash64 (data : Nat → Nat) (bytes : Nat) : Nat :=
  map_hash64_loop data bytes 0 0xcbf29ce484222325

/-- Source: `map_init`; the loop `for (i = 0; i < rt_countof(map->entry); i++)
map->entry[i][0] = 0` as the table it leaves. -/
def map_init (m : map_t) : map_t :=
  { entry := fun i k => if i < entry_count ∧ k = 0 then 0 else m.entry i k,
    entries := 0, max_chain := 0, max_bytes := 0 }

/-- The test `memcmp(&map->entry[i][1], data, bytes) == 0`. -/
def map_key_eq (m : map_t) (i : Nat) (data : Nat → Nat) (bytes : Nat) : Bool :=
  (List.range bytes).all (fun k => m.entry i (k + 1) == data k)

/-- The probing loop `while (map->entry[i][0] > 0) { ... }` of `map_put`; returns the
slot `i`, the count `rehash` and whether the key was found there.  The loop has no bound
in the source: on a table without a free slot and without the key it does not end
(`Fault.fuel` after `entry_count` probes). -/
def map_put_probe (m : map_t) (data : Nat → Nat) (bytes : Nat) :
    Nat → Nat → Int → Except Fault (Nat × Int × Bool)
  | 0, _, _ => .error .fuel
  | f + 1, i, rehash =>
    if m.entry i 0 > 0 then
      if m.entry i 0 = bytes ∧ map_key_eq m i data bytes = true then .ok (i, rehash, true)
      else map_put_probe m data bytes f ((i + 1) % entry_count) (rehash + 1)
    else .ok (i, rehash, false)

/-- Source: `map_put`; `bytes` is a `uint8_t`. -/
def map_put (m : map_t) (data : Nat → Nat) (bytes : Nat) : Except Fault map_t := do
  rt_swear (2 ≤ bytes ∧ bytes < 256)
  rt_swear (m.entries < ((entry_count * 3 / 4 : Nat) : Int))
  let hash := map_hash64 data bytes
  let p ← map_put_probe m data bytes entry_count (hash % entry_count) 0
  if p.2.2 = true then pure m
  else
    pure { entry := Function.update m.entry p.1
            (fun k => if k = 0 then bytes else if k ≤ bytes then data (k - 1) else m.entry p.1 k),
           entries := m.entries + 1,
           max_chain := if p.2.1 > m.max_chain then p.2.1 else m.max_chain,
           max_bytes := if (bytes : Int) > m.max_bytes then (bytes : Int) else m.max_bytes }

/-- The statement `freq[i]++` on `pos_freq` or `len_freq`. -/
def freq_inc (freq : Nat → Nat) (i : Nat) : Except Fault (Nat → Nat) :=
  if i < freq_count then .ok (Function.update freq i ((freq i + 1) % 2 ^ 64))
  else .error .freq

/-- One of the two loops `for (int32_t i = 0; i < n; i++)` of `lz77_entropy`, each of which
reads `freq[i]`, by the number `n - i` of iterations left. -/
def lz77_entropy_loop (freq : Nat → Nat) : Nat → Nat → Except Fault Unit
  | 0, _ => .ok ()
  | c + 1, i => if i < freq_count then lz77_entropy_loop freq c (i + 1) else .error .freq

/-- Source: `lz77_entropy`, as to its subscripts.  The `double` it computes goes to
`lz77_println` only, which expands to nothing. -/
def lz77_entropy (freq : Nat → Nat) (n : Int) : Except Fault Unit := do
  lz77_entropy_loop freq n.toNat 0
  lz77_entropy_loop freq n.toNat 0

/-- The bytes of a `size_t` object, least significant first (the byte order decides which
slot of a map a key lands in, nothing else). -/
def size_bytes (v : Nat) : Nat → Nat := fun k => (v >>> (8 * k)) % 256

/-- The statistics statements of the match branch of `lz77_compress`, from
`if (len < window) { len_freq[len]++; }` to `map_put(&poss, ...)`. -/
def lz77_count_match (st : Stats) (data : Nat → Nat) (i pos len window : Nat) :
    Except Fault Stats := do
  let lf ← (if len < window then freq_inc st.len_freq len else pure st.len_freq)
  let pf ← (if pos < window then freq_inc st.pos_freq pos else pure st.pos_freq)
  let m ← (if len ≤ 255 then map_put st.map (fun k => data (i + k)) (len % 256)
    else pure st.map)
  let l ← map_put st.lens (size_bytes len) 8
  let p ← map_put st.poss (size_bytes pos) 8
  pure { pos_freq := pf, len_freq := lf, map := m, lens := l, poss := p }

/-- The back-reference branch of `lz77_compress` up to the third `lz77_if_error_return`.
Returns the session and the accumulator, or `none` for the accumulator when one of the
`lz77_if_error_return` statements returned. -/
def lz77_emit_backref {σ : Type} (tr : Transport σ) (lz : lz77_t σ) (a : Acc)
    (pos len base : Nat) : Except Fault (lz77_t σ × Option Acc) := do
  let r ← lz77_write_bits tr lz a 3 2
  if r.1.error ≠ 0 then pure (r.1, none) else do
  let r ← lz77_write_number tr r.1 r.2 pos base
  if r.1.error ≠ 0 then pure (r.1, none) else do
  let r ← lz77_write_number tr r.1 r.2 len base
  if r.1.error ≠ 0 then pure (r.1, none) else
  pure (r.1, some r.2)

/-- The literal branch of `lz77_compress` (the `else` of `if (len > 2)` up to, not
including, `i++`), for the byte `b = data[i]`. -/
def lz77_emit_literal {σ : Type} (tr : Transport σ) (lz : lz77_t σ) (a : Acc) (b : Nat) :
    Except Fault (lz77_t σ × Option Acc) :=
  if b < 0x80 then do
    let r ← lz77_write_bit tr lz a 0
    if r.1.error ≠ 0 then pure (r.1, none) else do
    let r ← lz77_write_bits tr r.1 r.2 b 7
    if r.1.error ≠ 0 then pure (r.1, none) else
    pure (r.1, some r.2)
  else do
    let r ← lz77_write_bit tr lz a 1
    let r ← lz77_write_bit tr r.1 r.2 0
    if r.1.error ≠ 0 then pure (r.1, none) else do
    let r ← lz77_write_bits tr r.1 r.2 b 7
    if r.1.error ≠ 0 then pure (r.1, none) else
    pure (r.1, some r.2)

/-- The `while (i < bytes)` loop of `lz77_compress`.  Every iteration advances `i`, so a
budget of `bytes` iterations is never exhausted.  Returns the session, the statics and the
accumulator, or `none` for the accumulator when `lz77_if_error_return` returned. -/
def lz77_compress_loop {σ : Type} (tr : Transport σ) (data : Nat → Nat) (bytes window base : Nat) :
    Nat → Stats → lz77_t σ → Acc → Nat → Except Fault (lz77_t σ × Stats × Option Acc)
  | 0, st, lz, a, i => if i < bytes then .error .fuel else .ok (lz, st, some a)
  | f + 1, st, lz, a, i =>
    if i < bytes then
      let m := lz77_match data bytes window i
      let len := m.1
      let pos := m.2
      if len > 2 then do
        let e ← lz77_emit_backref tr lz a pos len base
        match e.2 with
        | none => pure (e.1, st, none)
        | some a1 => do
          let st1 ← lz77_count_match st data i pos len window
          lz77_compress_loop tr data bytes window base f st1 e.1 a1 (i + len)
      else do
        let e ← lz77_emit_literal tr lz a (data i)
        match e.2 with
        | none => pure (e.1, st, none)
        | some a1 => lz77_compress_loop tr data bytes window base f st e.1 a1 (i + 1)
    else .ok (lz, st, some a)

/-- The first five statements of `lz77_compress`: the two `memset` calls and the three
`map_init` calls. -/
def lz77_reset_stats (st : Stats) : Stats :=
  { pos_freq := fun i => if i < freq_count then 0 else st.pos_freq i,
    len_freq := fun i => if i < freq_count then 0 else st.len_freq i,
    map := map_init st.map, lens := map_init st.lens, poss := map_init st.poss }

/-- Source: `lz77_compress` of `lz77.h`.  `st` is the state of the statics on entry; the
result carries their state on return. -/
def lz77_compress {σ : Type} (tr : Transport σ) (st : Stats) (lz : lz77_t σ)
    (data : Nat → Nat) (bytes window_bits : Nat) : Except Fault (lz77_t σ × Stats) :=
  let st0 := lz77_reset_stats st
  if lz.error ≠ 0 then .ok (lz, st0)
  else if window_bits < 10 ∨ window_bits > 20 then .ok ({ lz with error := EINVAL }, st0)
  else do
    let window := (1 <<< window_bits) % 2 ^ 64
    let base := ((window_bits - 4) / 2) % 256
    let r ← lz77_compress_loop tr data bytes window base bytes st0 lz ⟨0, 0⟩ 0
    match r.2.2 with
    | none => pure (r.1, r.2.1)
    | some a => do
      let lz1 := lz77_flush tr r.1 a
      lz77_entropy r.2.1.len_freq (toI32 window)
      lz77_entropy r.2.1.pos_freq (toI32 window)
      pure (lz1, r.2.1)

/-- The `while (i < bytes)` loop of `lz77_decompress` of `lz77.h`, with an iteration
budget (a back-reference whose `i + len` wraps around leaves `i` unchanged). -/
def lz77_decompress_loop {σ : Type} (tr : Transport σ) (bytes window base : Nat) :
    Nat → lz77_t σ → Acc → (Nat → Nat) → Nat → Except Fault (lz77_t σ × (Nat → Nat))
  | 0, lz, _, data, i => if i < bytes then .error .fuel else .ok (lz, data)
  | f + 1, lz, a, data, i =>
    if i < bytes then
      let b0 := lz77_read_bit tr lz a
      if b0.1.error ≠ 0 then .ok (b0.1, data) else
      if b0.2.2 ≠ 0 then
        let b1 := lz77_read_bit tr b0.1 b0.2.1
        if b1.1.error ≠ 0 then .ok (b1.1, data) else
        if b1.2.2 ≠ 0 then do
          let p ← lz77_read_number tr b1.1 b1.2.1 base
          if p.1.error ≠ 0 then pure (p.1, data) else do
          let l ← lz77_read_number tr p.1 p.2.1 base
          if l.1.error ≠ 0 then pure (l.1, data) else
          if ¬ (0 < p.2.2 ∧ p.2.2 < window) then pure ({ l.1 with error := EINVAL }, data) else
          if l.2.2 = 0 then pure ({ l.1 with error := EINVAL }, data) else do
          let n := (i + l.2.2) % 2 ^ 64
          let c ← lz77_copy_loop bytes p.2.2 (n - i) data i
          lz77_decompress_loop tr bytes window base f l.1 l.2.1 c.1 c.2
        else
          let b := lz77_read_bits tr b1.1 b1.2.1 7
          if b.1.error ≠ 0 then .ok (b.1, data) else
          lz77_decompress_loop tr bytes window base f b.1 b.2.1
            (Function.update data i ((b.2.2 % 256) ||| 0x80)) (i + 1)
      else
        let b := lz77_read_bits tr b0.1 b0.2.1 7
        if b.1.error ≠ 0 then .ok (b.1, data) else
        lz77_decompress_loop tr bytes window base f b.1 b.2.1
          (Function.update data i (b.2.2 % 256)) (i + 1)
    else .ok (lz, data)

/-- Source: `lz77_decompress` of `lz77.h`; `fuel` bounds the iterations of its main loop. -/
def lz77_decompress {σ : Type} (tr : Transport σ) (fuel : Nat) (lz : lz77_t σ)
    (data : Nat → Nat) (bytes window_bits : Nat) : Except Fault (lz77_t σ × (Nat → Nat)) :=
  if lz.error ≠ 0 then .ok (lz, data)
  else if window_bits < 10 ∨ window_bits > 20 then .ok ({ lz with error := EINVAL }, data)
  else
    let window := (1 <<< window_bits) % 2 ^ 64
    let base := ((window_bits - 4) / 2) % 256
    lz77_decompress_loop tr bytes window base fuel lz ⟨0, 0⟩ data 0

/-- The statics as the C runtime sets them up: all zero. -/
def zeroStats : Stats :=
  { pos_freq := fun _ => 0, len_freq := fun _ => 0,
    map := { entry := fun _ _ => 0, entries := 0, max_chain := 0, max_bytes := 0 },
    lens := { entry := fun _ _ => 0, entries := 0, max_chain := 0, max_bytes := 0 },
    poss := { entry := fun _ _ => 0, entries := 0, max_chain := 0, max_bytes := 0 } }

/-- A map into which at most `k` keys were put: its count is at most `k` and its occupied
slots lie in a set of at most `k` slots. -/
def MInv (m : map_t) (k : Nat) : Prop :=
  0 ≤ m.entries ∧ m.entries ≤ (k : Int) ∧
    ∃ S : Finset Nat, S.card ≤ k ∧ ∀ i, i < entry_count → 0 < m.entry i 0 → i ∈ S

/-- The statics after at most `k` match tokens. -/
structure SInv (st : Stats) (k : Nat) : Prop where
  map : MInv st.map k
  lens : MInv st.lens k
  poss : MInv st.poss k

/-- The bits of a literal token of the baseline codec. -/
def litBits (b : Nat) : List Bool :=
  (if b < 128 then [false] else [true, false]) ++ bitsFrom b 0 7

/-- The bits of a back-reference token of the baseline codec. -/
def refBits (base pos len : Nat) : List Bool :=
  [true, true] ++ varint base pos ++ varint base len

/-- What the baseline decoder does on the bits `bs` from position `i`. -/
def Decodes (data : Nat → Nat) (bytes window base i : Nat) (bs : List Bool) : Prop :=
  ∀ (fuelD : Nat) (lzd : lz77_t Mem) (ad : Acc) (out : Nat → Nat),
    bytes - i ≤ fuelD → ROk lzd ad → rbits lzd ad = bs →
    (∀ m, m < i → out m = data m) →
    ∃ lzd' out', lz77_decompress_loop memTransport bytes window base fuelD lzd ad out i
        = .ok (lzd', out') ∧ lzd'.error = 0 ∧
      (∀ m, m < bytes → out' m = data m) ∧ (∀ m, bytes ≤ m → out' m = out m)

end Baseline

/-! ## Sequencing of fallible steps -/

@[simp] theorem except_bind_ok {ε α β : Type} (a : α) (f : α → Except ε β) :
    (Except.ok a >>= f) = f a := rfl

@[simp] theorem except_bind_error {ε α β : Type} (e : ε) (f : α → Except ε β) :
    (Except.error e >>= f) = Except.error e := rfl

@[simp] theorem except_pure {ε α : Type} (a : α) : (pure a : Except ε α) = Except.ok a := rfl

/-! ## Heap -/

theorem lz77_alphabet_eq : lz77_alphabet = 4096 := by
  simp [lz77_alphabet, lz77_max_window]

theorem rd_ok {α : Type} (a : Int → α) (i : Int) (h0 : 0 ≤ i) (h1 : i < 4096) :
    rd a i = .ok (a i) := by
  simp [rd, lz77_alphabet_eq, h0, h1]

theorem wr_ok {α : Type} (a : Int → α) (i : Int) (v : α) (h0 : 0 ≤ i) (h1 : i < 4096) :
    wr a i v = .ok (Function.update a i v) := by
  simp [wr, lz77_alphabet_eq, h0, h1]

theorem rd_fault {α : Type} (a : Int → α) (i : Int) (h : i < 0 ∨ 4096 ≤ i) :
    rd a i = .error .table := by
  have : ¬ (0 ≤ i ∧ i < 4096) := by omega
  simp [rd, lz77_alphabet_eq, this]

theorem wr_fault {α : Type} (a : Int → α) (i : Int) (v : α) (h : i < 0 ∨ 4096 ≤ i) :
    wr a i v = .error .table := by
  have : ¬ (0 ≤ i ∧ i < 4096) := by omega
  simp [wr, lz77_alphabet_eq, this]

theorem swap_eq (t : lz77_binheap_t) (n a b : Int) (h : HInv t n)
    (ha0 : 0 ≤ a) (ha : a < n) (hb0 : 0 ≤ b) (hb : b < n) :
    lz77_binheap_swap t a b = .ok (swapHeap t a b) := by
  have hn := h.hi
  have hsa := h.ns_lt a ha0 ha
  have hsb := h.ns_lt b hb0 hb
  simp only [lz77_binheap_swap, bind, Except.bind]
  rw [rd_ok _ a ha0 (by omega), rd_ok _ b hb0 (by omega)]
  simp only []
  rw [rd_ok _ _ hsa.1 (by omega), rd_ok _ _ hsb.1 (by omega)]
  rfl

theorem swap_inv (t : lz77_binheap_t) (n a b : Int) (h : HInv t n)
    (ha0 : 0 ≤ a) (ha : a < n) (hb0 : 0 ≤ b) (hb : b < n) :
    HInv (swapHeap t a b) n := by
  have hsa := h.ns_lt a ha0 ha
  have hsb := h.ns_lt b hb0 hb
  have haa := h.sx_ns a ha0 ha
  have hbb := h.sx_ns b hb0 hb
  unfold swapHeap
  rw [haa, hbb]
  constructor
  · exact h.nc
  · exact h.lo
  · exact h.hi
  · intro i hi0 hi
    simp only [Function.update_apply]
    split_ifs
    · exact hsa
    · exact hsb
    · exact h.ns_lt i hi0 hi
  · intro i hi0 hi
    have hii := h.sx_ns i hi0 hi
    simp only [Function.update_apply]
    by_cases e1 : i = b
    · subst e1
      simp only [if_true]
      by_cases e2 : t.ns a = t.ns i
      · rw [if_pos e2]; rw [e2] at haa; omega
      · rw [if_neg e2]
    · rw [if_neg e1]
      by_cases e3 : i = a
      · subst e3; simp
      · rw [if_neg e3]
        have n1 : t.ns i ≠ t.ns b := fun e => e1 (by rw [← hii, e, hbb])
        have n2 : t.ns i ≠ t.ns a := fun e => e3 (by rw [← hii, e, haa])
        rw [if_neg n1, if_neg n2]; exact hii
  · intro s hs0 hs
    have hss := h.sx_lt s hs0 hs
    simp only [Function.update_apply]
    split_ifs
    · exact ⟨ha0, ha⟩
    · exact ⟨hb0, hb⟩
    · exact hss
  · intro s hs0 hs
    have hss := h.ns_sx s hs0 hs
    have hsl := h.sx_lt s hs0 hs
    simp only [Function.update_apply]
    by_cases e1 : s = t.ns b
    · subst e1
      simp only [if_true]
      by_cases e2 : a = b
      · rw [if_pos e2]; rw [e2]
      · rw [if_neg e2]
    · rw [if_neg e1]
      by_cases e3 : s = t.ns a
      · subst e3; simp
      · rw [if_neg e3]
        have n1 : t.sx s ≠ b := fun e => e1 (by rw [← hss, e])
        have n2 : t.sx s ≠ a := fun e => e3 (by rw [← hss, e])
        rw [if_neg n1, if_neg n2]; exact hss

@[simp] theorem swapHeap_fq (t : lz77_binheap_t) (a b : Int) : (swapHeap t a b).fq = t.fq := rfl
@[simp] theorem swapHeap_nc (t : lz77_binheap_t) (a b : Int) : (swapHeap t a b).nc = t.nc := rfl

theorem up_heapify_loop_ok (n : Int) : ∀ (fuel : Nat) (t : lz77_binheap_t) (ix : Int),
    HInv t n → 0 ≤ ix → ix < n → ix.toNat ≤ fuel →
    ∃ t' r, lz77_binheap_up_heapify_loop fuel t ix = .ok (t', r) ∧ HInv t' n ∧ t'.fq = t.fq
      ∧ 0 ≤ r ∧ r ≤ ix := by
  intro fuel
  induction fuel with
  | zero =>
    intro t ix h h0 h1 hf
    have : ix = 0 := by omega
    subst this
    exact ⟨t, 0, by simp [lz77_binheap_up_heapify_loop], h, rfl, le_refl _, le_refl _⟩
  | succ f ih =>
    intro t ix h h0 h1 hf
    have hn := h.hi
    unfold lz77_binheap_up_heapify_loop
    by_cases hpos : ix > 0
    · rw [if_pos hpos]
      have hp0 : 0 ≤ (ix - 1) / 2 := by omega
      have hp1 : (ix - 1) / 2 < ix := by omega
      have hsp := h.ns_lt _ hp0 (by omega)
      have hsi := h.ns_lt ix h0 h1
      simp only [bind, Except.bind]
      rw [rd_ok _ _ hp0 (by omega)]
      simp only []
      rw [rd_ok _ _ hsp.1 (by omega)]
      simp only []
      rw [rd_ok _ _ h0 (by omega)]
      simp only []
      rw [rd_ok _ _ hsi.1 (by omega)]
      simp only []
      split_ifs with hge
      · exact ⟨t, ix, rfl, h, rfl, h0, le_refl _⟩
      · rw [swap_eq t n ix _ h h0 h1 hp0 (by omega)]
        simp only []
        obtain ⟨t', r, e, hi', hfq, hr0, hr1⟩ :=
          ih (swapHeap t ix ((ix - 1) / 2)) ((ix - 1) / 2)
            (swap_inv t n ix _ h h0 h1 hp0 (by omega)) hp0 (by omega) (by omega)
        exact ⟨t', r, e, hi', by rw [hfq]; rfl, hr0, by omega⟩
    · rw [if_neg hpos]
      exact ⟨t, ix, rfl, h, rfl, h0, le_refl _⟩

theorem inc_freq_ok (t : lz77_binheap_t) (n s : Int) (h : HInv t n) (h0 : 0 ≤ s) (h1 : s < n) :
    ∃ t' r, lz77_binheap_inc_freq t s = .ok (t', r) ∧ HInv t' n := by
  have hn := h.hi
  have hx := h.sx_lt s h0 h1
  unfold lz77_binheap_inc_freq lz77_binheap_up_heapify
  simp only [bind, Except.bind]
  rw [rd_ok _ _ h0 (by omega)]
  simp only []
  rw [rd_ok _ _ h0 (by omega)]
  simp only []
  have h2 : HInv { t with fq := Function.update t.fq s ((t.fq s + 1) % 2 ^ 64) } n :=
    ⟨h.nc, h.lo, h.hi, h.ns_lt, h.sx_ns, h.sx_lt, h.ns_sx⟩
  obtain ⟨t', r, e, hi', _, _, _⟩ := up_heapify_loop_ok n _ _ (t.sx s) h2 hx.1 hx.2 (le_refl _)
  exact ⟨t', r, e, hi'⟩

theorem idHeap_zero :
    ({ ns := fun _ => -1, sx := fun _ => -1, fq := fun _ => 0, nc := 0 } : lz77_binheap_t)
      = idHeap 0 := by
  unfold idHeap
  congr 1 <;> (funext i; rw [if_neg (by omega)])

theorem idHeap_update (s : Int) (h0 : 0 ≤ s) :
    Function.update (fun i : Int => if 0 ≤ i ∧ i < s then i else -1) s s
      = fun i : Int => if 0 ≤ i ∧ i < s + 1 then i else -1 := by
  funext i
  simp only [Function.update_apply]
  by_cases e : i = s
  · subst e
    rw [if_pos rfl, if_pos ⟨h0, by omega⟩]
  · rw [if_neg e]
    by_cases c : 0 ≤ i ∧ i < s
    · rw [if_pos c, if_pos ⟨c.1, by omega⟩]
    · rw [if_neg c, if_neg (by omega)]

theorem idHeap_inv (n : Int) (h0 : 0 ≤ n) (h1 : n ≤ 4096) : HInv (idHeap n) n := by
  constructor
  · rfl
  · exact h0
  · exact h1
  · intro i hi0 hi
    simp [idHeap, hi0, hi]
  · intro i hi0 hi
    simp [idHeap, hi0, hi]
  · intro i hi0 hi
    simp [idHeap, hi0, hi]
  · intro i hi0 hi
    simp [idHeap, hi0, hi]

theorem add_idHeap (s : Int) (h0 : 0 ≤ s) (h1 : s < 4096) :
    lz77_binheap_add (idHeap s) s = .ok (idHeap (s + 1), s) := by
  unfold lz77_binheap_add
  simp only [bind, Except.bind, idHeap]
  simp only [wr_ok _ _ _ h0 h1]
  rw [idHeap_update s h0]
  have hfq : Function.update (fun _ : Int => (0 : Nat)) s 0 = fun _ => 0 := by
    funext i; simp [Function.update_apply]
  rw [hfq]
  have e1 : s + 1 - 1 = s := by omega
  rw [e1]
  unfold lz77_binheap_up_heapify
  by_cases hs : s = 0
  · subst hs
    simp [lz77_binheap_up_heapify_loop]
  · obtain ⟨f, hf⟩ : ∃ f, s.toNat = f + 1 := ⟨s.toNat - 1, by omega⟩
    rw [hf]
    unfold lz77_binheap_up_heapify_loop
    have hpos : s > 0 := by omega
    rw [if_pos hpos]
    have hp0 : 0 ≤ (s - 1) / 2 := by omega
    have hp1 : (s - 1) / 2 < s := by omega
    simp only [bind, Except.bind]
    rw [rd_ok _ _ hp0 (by omega)]
    simp only []
    rw [if_pos ⟨hp0, by omega⟩]
    rw [rd_ok _ _ hp0 (by omega)]
    simp only []
    rw [rd_ok _ _ h0 (by omega)]
    simp only []
    rw [if_pos ⟨h0, by omega⟩]
    rw [rd_ok _ _ h0 (by omega)]
    simp

theorem init_loop_idHeap : ∀ (c : Nat) (s : Int), 0 ≤ s → s + c ≤ 4096 →
    lz77_binheap_init_loop c s (idHeap s) = .ok (idHeap (s + c)) := by
  intro c
  induction c with
  | zero => intro s _ _; simp [lz77_binheap_init_loop]
  | succ c ih =>
    intro s h0 h1
    unfold lz77_binheap_init_loop
    simp only [bind, Except.bind]
    rw [add_idHeap s h0 (by omega)]
    simp only []
    rw [ih (s + 1) (by omega) (by push_cast at h1; omega)]
    congr 2
    push_cast; ring

theorem init_loop_fault : ∀ (c : Nat) (s : Int), 0 ≤ s → s ≤ 4096 → 4096 < s + c →
    lz77_binheap_init_loop c s (idHeap s) = .error .table := by
  intro c
  induction c with
  | zero => intro s _ h1 h2; simp at h2; omega
  | succ c ih =>
    intro s h0 h1 h2
    unfold lz77_binheap_init_loop
    simp only [bind, Except.bind]
    by_cases hs : s = 4096
    · subst hs
      simp only [lz77_binheap_add, idHeap, bind, Except.bind]
      rw [wr_fault _ _ _ (by omega)]
    · rw [add_idHeap s h0 (by omega)]
      simp only []
      exact ih (s + 1) (by omega) (by omega) (by push_cast at h2; omega)

theorem init_eq (t : lz77_binheap_t) (n : Int) (h0 : 0 ≤ n) (h1 : n ≤ 4096) :
    lz77_binheap_init t n = .ok (idHeap n) := by
  unfold lz77_binheap_init
  rw [idHeap_zero]
  have := init_loop_idHeap n.toNat 0 (le_refl _) (by omega)
  rw [this]
  congr 2
  omega

theorem init_fault (t : lz77_binheap_t) (n : Int) (h : 4096 < n) :
    lz77_binheap_init t n = .error .table := by
  unfold lz77_binheap_init
  rw [idHeap_zero]
  exact init_loop_fault n.toNat 0 (le_refl _) (by omega) (by omega)

/-! ## Bit channel, writer -/

theorem bitsFrom_length (w : Nat) : ∀ (n lo : Nat), (bitsFrom w lo n).length = n := by
  intro n
  induction n with
  | zero => intro lo; rfl
  | succ n ih => intro lo; simp [bitsFrom, ih]

theorem bitsFrom_append (w : Nat) : ∀ (m lo n : Nat),
    bitsFrom w lo (m + n) = bitsFrom w lo m ++ bitsFrom w (lo + m) n := by
  intro m
  induction m with
  | zero => intro lo n; simp [bitsFrom]
  | succ m ih =>
    intro lo n
    have e : m + 1 + n = (m + n) + 1 := by omega
    rw [e]
    simp only [bitsFrom, List.cons_append]
    rw [ih (lo + 1) n]
    have e2 : lo + 1 + m = lo + (m + 1) := by omega
    rw [e2]

theorem bitsFrom_concat (w lo n : Nat) :
    bitsFrom w lo (n + 1) = bitsFrom w lo n ++ [w.testBit (lo + n)] := by
  rw [bitsFrom_append w n lo 1]
  rfl

theorem bitsFrom_congr (w v : Nat) : ∀ (n lo lo2 : Nat),
    (∀ i, i < n → w.testBit (lo + i) = v.testBit (lo2 + i)) →
    bitsFrom w lo n = bitsFrom v lo2 n := by
  intro n
  induction n with
  | zero => intro lo lo2 _; rfl
  | succ n ih =>
    intro lo lo2 h
    simp only [bitsFrom]
    have h0 := h 0 (by omega)
    simp only [Nat.add_zero] at h0
    rw [h0, ih (lo + 1) (lo2 + 1)]
    intro i hi
    have := h (i + 1) (by omega)
    have e1 : lo + 1 + i = lo + (i + 1) := by omega
    have e2 : lo2 + 1 + i = lo2 + (i + 1) := by omega
    rw [e1, e2]; exact this

theorem bitsFrom_zero_of_lt (w lo : Nat) (h : w < 2 ^ lo) : ∀ (n k : Nat),
    bitsFrom w (lo + k) n = List.replicate n false := by
  intro n
  induction n with
  | zero => intro k; rfl
  | succ n ih =>
    intro k
    simp only [bitsFrom, List.replicate_succ]
    have hlt : w < 2 ^ (lo + k) :=
      lt_of_lt_of_le h (Nat.pow_le_pow_right (by omega) (by omega))
    rw [Nat.testBit_lt_two_pow hlt]
    have := ih (k + 1)
    have e : lo + (k + 1) = lo + k + 1 := by omega
    rw [e] at this
    rw [this]

theorem wordsBits_append (xs ys : List Nat) :
    wordsBits (xs ++ ys) = wordsBits xs ++ wordsBits ys := by
  induction xs with
  | nil => rfl
  | cons x xs ih => simp [wordsBits, ih]

theorem wordsBits_length (xs : List Nat) : (wordsBits xs).length = 64 * xs.length := by
  induction xs with
  | nil => rfl
  | cons x xs ih => simp [wordsBits, ih, bitsFrom_length]; omega

theorem wrote_refl (lz : lz77_t Mem) (a : Acc) (h : WOk lz a) : Wrote lz a lz a [] :=
  ⟨h, by simp, rfl, rfl, rfl, rfl, ⟨[], by simp, by simp⟩⟩

theorem wrote_trans {lz1 lz2 lz3 : lz77_t Mem} {a1 a2 a3 : Acc} {xs ys : List Bool}
    (h1 : Wrote lz1 a1 lz2 a2 xs) (h2 : Wrote lz2 a2 lz3 a3 ys) :
    Wrote lz1 a1 lz3 a3 (xs ++ ys) := by
  obtain ⟨ws1, e1, w1⟩ := h1.out
  obtain ⟨ws2, e2, w2⟩ := h2.out
  refine ⟨h2.ok, ?_, ?_, ?_, ?_, ?_, ⟨ws1 ++ ws2, ?_, ?_⟩⟩
  · rw [h2.bits, h1.bits, List.append_assoc]
  · rw [h2.txt, h1.txt]
  · rw [h2.pos, h1.pos]
  · rw [h2.len, h1.len]
  · rw [h2.input, h1.input]
  · rw [e2, e1, List.append_assoc]
  · rw [w2, List.length_append]
    omega

theorem bit_testBit (bit : Nat) (h : bit ≤ 1) : bit.testBit 0 = decide (bit = 1) := by
  interval_cases bit <;> simp

theorem write_bit_mem (lz : lz77_t Mem) (a : Acc) (bit : Nat) (h : WOk lz a) (hb : bit ≤ 1) :
    ∃ lz' a', lz77_write_bit memTransport lz a bit = .ok (lz', a') ∧
      Wrote lz a lz' a' [decide (bit = 1)] := by
  have herr := h.err
  have hbp := h.bp
  have hlt := h.b64
  by_cases h64 : a.bp = 64
  · have e : lz77_write_bit memTransport lz a bit = .ok
        ({ lz with that := { lz.that with output := lz.that.output ++ [a.b64] },
                   written := (lz.written + 8) % 2 ^ 64 }, ⟨bit, 1⟩) := by
      simp only [lz77_write_bit, h64, herr, call_write, memTransport, and_self, if_true]
      simp
      omega
    refine ⟨_, _, e, ⟨herr, by simp, by simp; omega⟩, ?_, rfl, rfl, rfl, rfl, ⟨[a.b64], rfl, by simp⟩⟩
    simp only [wbits, wordsBits_append, wordsBits, List.append_nil, h64, List.append_assoc]
    congr 2
    simp [bitsFrom]
    interval_cases bit <;> simp
  · have hb63 : a.bp < 64 := by omega
    have hsh : (bit <<< a.bp) % 2 ^ 64 = bit <<< a.bp := by
      apply Nat.mod_eq_of_lt
      rw [Nat.shiftLeft_eq]
      calc bit * 2 ^ a.bp ≤ 1 * 2 ^ a.bp := Nat.mul_le_mul_right _ hb
        _ < 2 ^ 64 := by rw [Nat.one_mul]; exact Nat.pow_lt_pow_right (by omega) hb63
    have e : lz77_write_bit memTransport lz a bit = .ok
        (lz, ⟨a.b64 ||| (bit <<< a.bp), a.bp + 1⟩) := by
      simp only [lz77_write_bit, h64, false_and, if_false, hb63, if_true, hsh]
    have htb : ∀ i, (a.b64 ||| (bit <<< a.bp)).testBit i =
        if i < a.bp then a.b64.testBit i else (decide (i = a.bp) && decide (bit = 1)) := by
      intro i
      rw [Nat.testBit_or, Nat.testBit_shiftLeft]
      by_cases hi : i < a.bp
      · rw [if_pos hi]
        have : ¬ i ≥ a.bp := by omega
        simp [this]
      · rw [if_neg hi]
        have hge : i ≥ a.bp := by omega
        have hlt2 : a.b64 < 2 ^ i := lt_of_lt_of_le hlt (Nat.pow_le_pow_right (by omega) hge)
        rw [Nat.testBit_lt_two_pow hlt2]
        by_cases hie : i = a.bp
        · subst hie
          simp
          interval_cases bit <;> simp
        · have : i - a.bp = (i - a.bp - 1) + 1 := by omega
          simp [hge, hie]
          rw [this, Nat.testBit_succ]
          interval_cases bit <;> simp
    refine ⟨_, _, e, ⟨herr, by simp; omega, ?_⟩, ?_, rfl, rfl, rfl, rfl, ⟨[], by simp, by simp⟩⟩
    · apply Nat.lt_pow_two_of_testBit
      intro i hi
      rw [htb i]
      simp at hi
      have h1 : ¬ i < a.bp := by omega
      have h2 : ¬ i = a.bp := by omega
      simp [h1, h2]
    · simp only [wbits, List.append_assoc]
      congr 1
      rw [bitsFrom_concat]
      congr 1
      · apply bitsFrom_congr
        intro i hi
        rw [htb]
        simp at *
        simp [hi]
      · simp [htb]

theorem write_bits_mem : ∀ (n v : Nat) (lz : lz77_t Mem) (a : Acc), WOk lz a →
    ∃ lz' a', lz77_write_bits memTransport lz a v n = .ok (lz', a') ∧
      Wrote lz a lz' a' (bitsFrom v 0 n) := by
  intro n
  induction n with
  | zero =>
    intro v lz a h
    exact ⟨lz, a, rfl, wrote_refl lz a h⟩
  | succ n ih =>
    intro v lz a h
    obtain ⟨lz1, a1, e1, w1⟩ := write_bit_mem lz a (v &&& 1) h (by simp; omega)
    obtain ⟨lz2, a2, e2, w2⟩ := ih (v >>> 1) lz1 a1 w1.ok
    refine ⟨lz2, a2, ?_, ?_⟩
    · simp only [lz77_write_bits, bind, Except.bind, e1, e2]
    · have := wrote_trans w1 w2
      have e : bitsFrom v 0 (n + 1) = [decide (v &&& 1 = 1)] ++ bitsFrom (v >>> 1) 0 n := by
        simp only [bitsFrom, List.singleton_append]
        congr 1
        · simp
        · apply bitsFrom_congr
          intro i _
          rw [Nat.testBit_shiftRight]
          congr 1
          omega
      rw [e]; exact this

theorem write_number_loop_mem (base : Nat) (hbase : 0 < base) : ∀ (f v : Nat) (lz : lz77_t Mem)
    (a : Acc), WOk lz a → v < 2 ^ (f + 1) →
    ∃ lz' a', lz77_write_number_loop memTransport base (f + 1) lz a v = .ok (lz', a') ∧
      Wrote lz a lz' a' (varintBits base (f + 1) v) := by
  intro f
  induction f with
  | zero =>
    intro v lz a h hv
    obtain ⟨lz1, a1, e1, w1⟩ := write_bits_mem base v lz a h
    have hz : v >>> base = 0 := by
      rw [Nat.shiftRight_eq_div_pow]
      apply Nat.div_eq_of_lt
      calc v < 2 ^ 1 := hv
        _ ≤ 2 ^ base := Nat.pow_le_pow_right (by omega) hbase
    obtain ⟨lz2, a2, e2, w2⟩ := write_bit_mem lz1 a1 0 w1.ok (by omega)
    refine ⟨lz2, a2, ?_, ?_⟩
    · simp only [lz77_write_number_loop, bind, Except.bind, e1, hz, ne_eq, not_true, if_false, e2]
      rfl
    · have := wrote_trans w1 w2
      simpa [varintBits, hz] using this
  | succ f ih =>
    intro v lz a h hv
    obtain ⟨lz1, a1, e1, w1⟩ := write_bits_mem base v lz a h
    by_cases hz : v >>> base = 0
    · obtain ⟨lz2, a2, e2, w2⟩ := write_bit_mem lz1 a1 0 w1.ok (by omega)
      refine ⟨lz2, a2, ?_, ?_⟩
      · rw [lz77_write_number_loop]
        simp only [bind, Except.bind, e1, hz, ne_eq, not_true, if_false, e2]
        rfl
      · have := wrote_trans w1 w2
        rw [varintBits]
        simpa [hz] using this
    · obtain ⟨lz2, a2, e2, w2⟩ := write_bit_mem lz1 a1 1 w1.ok (by omega)
      have hv2 : v >>> base < 2 ^ (f + 1) := by
        rw [Nat.shiftRight_eq_div_pow]
        apply Nat.div_lt_of_lt_mul
        calc v < 2 ^ (f + 1 + 1) := hv
          _ = 2 ^ 1 * 2 ^ (f + 1) := by rw [← Nat.pow_add]; congr 1; omega
          _ ≤ 2 ^ base * 2 ^ (f + 1) :=
            Nat.mul_le_mul_right _ (Nat.pow_le_pow_right (by omega) hbase)
      obtain ⟨lz3, a3, e3, w3⟩ := ih (v >>> base) lz2 a2 w2.ok hv2
      refine ⟨lz3, a3, ?_, ?_⟩
      · rw [lz77_write_number_loop]
        simp only [bind, Except.bind, e1, hz, ne_eq, not_false_eq_true, if_true, e2, e3]
      · have := wrote_trans (wrote_trans w1 w2) w3
        rw [varintBits]
        simpa [hz] using this

theorem write_number_mem (base v : Nat) (hbase : 0 < base) (lz : lz77_t Mem) (a : Acc)
    (h : WOk lz a) (hv : v < 2 ^ 64) :
    ∃ lz' a', lz77_write_number memTransport lz a v base = .ok (lz', a') ∧
      Wrote lz a lz' a' (varint base v) :=
  write_number_loop_mem base hbase 63 v lz a h hv

theorem flush_mem (lz : lz77_t Mem) (a : Acc) (h : WOk lz a) :
    (lz77_flush memTransport lz a).error = 0 ∧
    (∃ k, wordsBits (lz77_flush memTransport lz a).that.output
      = wbits lz a ++ List.replicate k false) ∧
    (lz77_flush memTransport lz a).bh_txt = lz.bh_txt ∧
    (lz77_flush memTransport lz a).bh_pos = lz.bh_pos ∧
    (lz77_flush memTransport lz a).bh_len = lz.bh_len := by
  have herr := h.err
  by_cases hbp : a.bp > 0
  · have e : lz77_flush memTransport lz a =
        { lz with that := { lz.that with output := lz.that.output ++ [a.b64] },
                  written := (lz.written + 8) % 2 ^ 64 } := by
      simp [lz77_flush, hbp, herr, call_write, memTransport]
    rw [e]
    refine ⟨herr, ⟨64 - a.bp, ?_⟩, rfl, rfl, rfl⟩
    simp only [wbits, wordsBits_append, wordsBits, List.append_nil, List.append_assoc]
    congr 1
    have hb := h.bp
    have e64 : 64 = a.bp + (64 - a.bp) := by omega
    conv_lhs => rw [e64]
    rw [bitsFrom_append]
    congr 1
    have := bitsFrom_zero_of_lt a.b64 a.bp h.b64 (64 - a.bp) 0
    simpa using this
  · have e : lz77_flush memTransport lz a = lz := by
      simp [lz77_flush, hbp]
    rw [e]
    refine ⟨herr, ⟨0, ?_⟩, rfl, rfl, rfl⟩
    have : a.bp = 0 := by omega
    simp [wbits, this, bitsFrom]

theorem took_trans {lz1 lz2 lz3 : lz77_t Mem} {a2 a3 : Acc} {r2 r3 : List Bool}
    (h1 : Took lz1 lz2 a2 r2) (h2 : Took lz2 lz3 a3 r3) : Took lz1 lz3 a3 r3 :=
  ⟨h2.ok, h2.bits, by rw [h2.txt, h1.txt], by rw [h2.pos, h1.pos], by rw [h2.len, h1.len],
    by rw [h2.output, h1.output], by rw [h2.written, h1.written]⟩

/-! ## Bit channel, reader -/

theorem shr_and_one (w i : Nat) : (w >>> i) &&& 1 = (w.testBit i).toNat := by
  rw [Nat.and_one_is_mod, Nat.shiftRight_eq_div_pow, Nat.toNat_testBit]

theorem bitsFrom_cons (w lo n : Nat) (h : 0 < n) :
    bitsFrom w lo n = w.testBit lo :: bitsFrom w (lo + 1) (n - 1) := by
  obtain ⟨m, rfl⟩ : ∃ m, n = m + 1 := ⟨n - 1, by omega⟩
  rfl

theorem read_bit_mem (lz : lz77_t Mem) (a : Acc) (b : Bool) (rest : List Bool)
    (h : ROk lz a) (hb : rbits lz a = b :: rest) :
    ∃ lz' a', lz77_read_bit memTransport lz a = (lz', a', b.toNat) ∧ Took lz lz' a' rest := by
  have herr := h.err
  have hbp := h.bp
  by_cases h0 : a.bp = 0
  · simp only [rbits, h0, if_true, List.nil_append] at hb
    cases hin : lz.that.input with
    | nil => rw [hin] at hb; simp [wordsBits] at hb
    | cons w ws =>
      rw [hin] at hb
      rw [wordsBits, bitsFrom_cons w 0 64 (by omega)] at hb
      simp only [List.cons_append, List.cons.injEq] at hb
      obtain ⟨hb1, hb2⟩ := hb
      have e : lz77_read_bit memTransport lz a =
          ({ lz with that := { lz.that with input := ws } }, ⟨w % 2 ^ 64, 1⟩, b.toNat) := by
        simp only [lz77_read_bit, h0, if_true, call_read, memTransport, hin]
        simp only [ne_eq, not_true, if_false, Nat.shiftRight_zero]
        congr 2
        rw [← hb1, Nat.and_one_is_mod, Nat.testBit_zero]
        have : w % 2 ^ 64 % 2 = w % 2 := by omega
        rw [this]
        rcases Nat.mod_two_eq_zero_or_one w with h2 | h2 <;> simp [h2]
      refine ⟨_, _, e, ⟨herr, by simp⟩, ?_, rfl, rfl, rfl, rfl, rfl⟩
      simp only [rbits]
      rw [if_neg (by simp), ← hb2]
      congr 1
      apply bitsFrom_congr
      intro i hi
      rw [Nat.testBit_mod_two_pow]
      have : 0 + 1 + i < 64 := by omega
      simp [this]
  · simp only [rbits, h0, if_false] at hb
    rw [bitsFrom_cons _ _ _ (by omega)] at hb
    simp only [List.cons_append, List.cons.injEq] at hb
    obtain ⟨hb1, hb2⟩ := hb
    have e : lz77_read_bit memTransport lz a =
        (lz, ⟨a.b64, if a.bp = 63 then 0 else a.bp + 1⟩, b.toNat) := by
      simp only [lz77_read_bit, h0, if_false]
      rw [shr_and_one, hb1]
    refine ⟨_, _, e, ⟨herr, ?_⟩, ?_, rfl, rfl, rfl, rfl, rfl⟩
    · simp only; split_ifs <;> omega
    · by_cases h63 : a.bp = 63
      · simp only [rbits, h63, if_true]
        rw [← hb2, h63]
        simp [bitsFrom]
      · simp only [rbits, h63, if_false]
        rw [if_neg (by omega), ← hb2]
        congr 2

theorem mod_or_bit (v i : Nat) :
    (v % 2 ^ i) ||| ((v.testBit i).toNat <<< i) = v % 2 ^ (i + 1) := by
  apply Nat.eq_of_testBit_eq
  intro k
  rw [Nat.testBit_or, Nat.testBit_shiftLeft, Nat.testBit_mod_two_pow, Nat.testBit_mod_two_pow]
  by_cases h1 : k < i
  · have : ¬ k ≥ i := by omega
    have h2 : k < i + 1 := by omega
    simp [h1, this, h2]
  · by_cases h2 : k = i
    · subst h2
      simp
      cases v.testBit k <;> simp
    · have h3 : ¬ k < i + 1 := by omega
      have h4 : k ≥ i := by omega
      have h5 : k - i = (k - i - 1) + 1 := by omega
      simp [h1, h3, h4]
      rw [h5, Nat.testBit_succ]
      cases v.testBit i <;> simp

theorem read_bits_loop_mem (v : Nat) (rest : List Bool) : ∀ (r : Nat) (lz : lz77_t Mem) (a : Acc)
    (acc i : Nat), ROk lz a → rbits lz a = bitsFrom v i r ++ rest → i + r ≤ 64 →
    acc = v % 2 ^ i →
    ∃ lz' a', lz77_read_bits_loop memTransport r lz a acc i = (lz', a', v % 2 ^ (i + r)) ∧
      (r = 0 → lz' = lz ∧ a' = a) ∧ Took lz lz' a' rest := by
  intro r
  induction r with
  | zero =>
    intro lz a acc i h hb _ hacc
    simp only [bitsFrom, List.nil_append] at hb
    exact ⟨lz, a, by simp [lz77_read_bits_loop, hacc], fun _ => ⟨rfl, rfl⟩,
      ⟨h, hb, rfl, rfl, rfl, rfl, rfl⟩⟩
  | succ r ih =>
    intro lz a acc i h hb hi hacc
    simp only [bitsFrom, List.cons_append] at hb
    obtain ⟨lz1, a1, e1, t1⟩ := read_bit_mem lz a _ _ h hb
    have hsh : ((v.testBit i).toNat <<< i) % 2 ^ 64 = (v.testBit i).toNat <<< i := by
      apply Nat.mod_eq_of_lt
      rw [Nat.shiftLeft_eq]
      have : (v.testBit i).toNat ≤ 1 := by cases v.testBit i <;> simp
      calc (v.testBit i).toNat * 2 ^ i ≤ 1 * 2 ^ i := Nat.mul_le_mul_right _ this
        _ < 2 ^ 64 := by rw [Nat.one_mul]; exact Nat.pow_lt_pow_right (by omega) (by omega)
    obtain ⟨lz2, a2, e2, _, t2⟩ := ih lz1 a1 (acc ||| (((v.testBit i).toNat <<< i) % 2 ^ 64))
      (i + 1) t1.ok t1.bits (by omega) (by rw [hsh, hacc, mod_or_bit])
    refine ⟨lz2, a2, ?_, fun hh => by omega, took_trans t1 t2⟩
    rw [lz77_read_bits_loop, if_pos h.err]
    simp only [e1]
    rw [e2]
    have e3 : i + 1 + r = i + (r + 1) := by omega
    rw [e3]

theorem read_bits_mem (v n : Nat) (rest : List Bool) (lz : lz77_t Mem) (a : Acc)
    (h : ROk lz a) (hb : rbits lz a = bitsFrom v 0 n ++ rest) (hn : n ≤ 64) :
    ∃ lz' a', lz77_read_bits memTransport lz a n = (lz', a', v % 2 ^ n) ∧
      Took lz lz' a' rest := by
  obtain ⟨lz1, a1, e, _, t⟩ :=
    read_bits_loop_mem v rest n lz a 0 0 h hb (by omega) (by simp [Nat.mod_one])
  exact ⟨lz1, a1, by simpa [lz77_read_bits] using e, t⟩

theorem or_shift_eq_add (acc c shift : Nat) (hacc : acc < 2 ^ shift)
    (hlt : c * 2 ^ shift < 2 ^ 64) :
    acc ||| ((c <<< shift) % 2 ^ 64) = acc + c * 2 ^ shift := by
  rw [Nat.shiftLeft_eq, Nat.mod_eq_of_lt hlt, Nat.or_comm, Nat.mul_comm c,
    ← Nat.mul_add_lt_is_or hacc, Nat.add_comm]

theorem shift_lt_64 (v shift acc : Nat) (hv : 1 ≤ v ∨ shift = 0)
    (h : acc + v * 2 ^ shift < 2 ^ 64) : shift < 64 := by
  rcases hv with hv | hv
  · by_contra hge
    have h1 : 2 ^ 64 ≤ 2 ^ shift := Nat.pow_le_pow_right (by omega) (by omega)
    have h2 : 2 ^ shift ≤ v * 2 ^ shift := Nat.le_mul_of_pos_left _ hv
    omega
  · omega

theorem read_number_loop_mem (base : Nat) (hbase : 0 < base) (hb64 : base ≤ 64)
    (rest : List Bool) : ∀ (g v f : Nat) (lz : lz77_t Mem) (a : Acc) (acc shift : Nat),
    ROk lz a → v < 2 ^ (g + 1) → rbits lz a = varintBits base (g + 1) v ++ rest →
    acc < 2 ^ shift → acc + v * 2 ^ shift < 2 ^ 64 → (1 ≤ v ∨ shift = 0) → 65 ≤ f + shift →
    ∃ lz' a', lz77_read_number_loop memTransport base f lz a acc shift
        = .ok (lz', a', acc + v * 2 ^ shift) ∧ Took lz lz' a' rest := by
  intro g
  induction g with
  | zero =>
    intro v f lz a acc shift h hv hb hacc hsum hv1 hf
    have hsh := shift_lt_64 v shift acc hv1 hsum
    obtain ⟨f', rfl⟩ : ∃ f', f = f' + 1 := ⟨f - 1, by omega⟩
    have hz : v >>> base = 0 := by
      rw [Nat.shiftRight_eq_div_pow]
      apply Nat.div_eq_of_lt
      calc v < 2 ^ 1 := hv
        _ ≤ 2 ^ base := Nat.pow_le_pow_right (by omega) hbase
    have hvb : v < 2 ^ base := by
      calc v < 2 ^ 1 := hv
        _ ≤ 2 ^ base := Nat.pow_le_pow_right (by omega) hbase
    simp only [varintBits, hz, ne_eq, not_true, if_false, List.append_assoc] at hb
    obtain ⟨lz1, a1, e1, t1⟩ := read_bits_mem v base _ lz a h hb hb64
    obtain ⟨lz2, a2, e2, t2⟩ := read_bit_mem lz1 a1 false rest t1.ok (by simpa using t1.bits)
    refine ⟨lz2, a2, ?_, took_trans t1 t2⟩
    rw [lz77_read_number_loop]
    simp only [e1, e2]
    rw [if_neg (by omega)]
    simp only [Bool.toNat_false, ne_eq, not_true, false_and, if_false]
    rw [Nat.mod_eq_of_lt hvb, or_shift_eq_add acc v shift hacc (by omega)]
  | succ g ih =>
    intro v f lz a acc shift h hv hb hacc hsum hv1 hf
    have hsh := shift_lt_64 v shift acc hv1 hsum
    obtain ⟨f', rfl⟩ : ∃ f', f = f' + 1 := ⟨f - 1, by omega⟩
    rw [varintBits] at hb
    have hdm : v % 2 ^ base + 2 ^ base * (v / 2 ^ base) = v := Nat.mod_add_div v (2 ^ base)
    by_cases hz : v >>> base = 0
    · have hvb : v < 2 ^ base := by
        rw [Nat.shiftRight_eq_div_pow] at hz
        have := (Nat.div_eq_zero_iff (Nat.two_pow_pos base)).mp hz
        exact this
      simp only [hz, ne_eq, not_true, if_false, List.append_assoc] at hb
      obtain ⟨lz1, a1, e1, t1⟩ := read_bits_mem v base _ lz a h hb hb64
      obtain ⟨lz2, a2, e2, t2⟩ := read_bit_mem lz1 a1 false rest t1.ok (by simpa using t1.bits)
      refine ⟨lz2, a2, ?_, took_trans t1 t2⟩
      rw [lz77_read_number_loop]
      simp only [e1, e2]
      rw [if_neg (by omega)]
      simp only [Bool.toNat_false, ne_eq, not_true, false_and, if_false]
      rw [Nat.mod_eq_of_lt hvb, or_shift_eq_add acc v shift hacc (by omega)]
    · simp only [hz, ne_eq, not_false_eq_true, if_true, List.append_assoc,
        List.cons_append] at hb
      obtain ⟨lz1, a1, e1, t1⟩ := read_bits_mem v base _ lz a h hb hb64
      obtain ⟨lz2, a2, e2, t2⟩ := read_bit_mem lz1 a1 true _ t1.ok t1.bits
      have hv2 : v >>> base < 2 ^ (g + 1) := by
        rw [Nat.shiftRight_eq_div_pow]
        apply Nat.div_lt_of_lt_mul
        calc v < 2 ^ (g + 1 + 1) := hv
          _ = 2 ^ 1 * 2 ^ (g + 1) := by rw [← Nat.pow_add]; congr 1; omega
          _ ≤ 2 ^ base * 2 ^ (g + 1) :=
            Nat.mul_le_mul_right _ (Nat.pow_le_pow_right (by omega) hbase)
      have hcle : v % 2 ^ base * 2 ^ shift ≤ v * 2 ^ shift :=
        Nat.mul_le_mul_right _ (Nat.mod_le _ _)
      have hor := or_shift_eq_add acc (v % 2 ^ base) shift hacc (by omega)
      have hshift : (shift + base) % 2 ^ 32 = shift + base := Nat.mod_eq_of_lt (by omega)
      have hpow : 2 ^ (shift + base) = 2 ^ shift * 2 ^ base := Nat.pow_add 2 shift base
      have hq : v >>> base = v / 2 ^ base := Nat.shiftRight_eq_div_pow v base
      have hsum2 : acc + v % 2 ^ base * 2 ^ shift + (v >>> base) * 2 ^ (shift + base)
          = acc + v * 2 ^ shift := by
        rw [hpow, hq]
        conv_rhs => rw [← hdm]
        ring
      have hacc2 : acc + v % 2 ^ base * 2 ^ shift < 2 ^ (shift + base) := by
        rw [hpow]
        have h1 : v % 2 ^ base < 2 ^ base := Nat.mod_lt _ (Nat.two_pow_pos base)
        have h2 : (v % 2 ^ base + 1) * 2 ^ shift ≤ 2 ^ base * 2 ^ shift :=
          Nat.mul_le_mul_right _ h1
        have h3 : (v % 2 ^ base + 1) * 2 ^ shift = v % 2 ^ base * 2 ^ shift + 2 ^ shift := by
          ring
        rw [Nat.mul_comm (2 ^ shift)]
        omega
      obtain ⟨lz3, a3, e3, t3⟩ := ih (v >>> base) f' lz2 a2
        (acc + v % 2 ^ base * 2 ^ shift) (shift + base) t2.ok hv2 t2.bits hacc2
        (by rw [hsum2]; exact hsum) (Or.inl (Nat.pos_of_ne_zero hz)) (by omega)
      refine ⟨lz3, a3, ?_, took_trans (took_trans t1 t2) t3⟩
      rw [lz77_read_number_loop]
      simp only [e1, e2]
      rw [if_neg (by omega)]
      simp only [Bool.toNat_true, ne_eq, one_ne_zero, not_false_eq_true, t2.ok.err, and_self,
        if_true, hor, hshift]
      rw [e3, hsum2]

theorem read_number_mem (base v : Nat) (hbase : 0 < base) (hb64 : base ≤ 64)
    (rest : List Bool) (lz : lz77_t Mem) (a : Acc) (h : ROk lz a) (hv : v < 2 ^ 64)
    (hb : rbits lz a = varint base v ++ rest) :
    ∃ lz' a', lz77_read_number memTransport lz a base = .ok (lz', a', v) ∧
      Took lz lz' a' rest := by
  obtain ⟨lz1, a1, e, t⟩ := read_number_loop_mem base hbase hb64 rest 63 v 65 lz a 0 0 h hv hb
    (by simp) (by simpa using hv) (Or.inr rfl) (by omega)
  exact ⟨lz1, a1, by simpa [lz77_read_number] using e, t⟩

/-! ## Match search and copy -/

theorem match_run_spec (data : Nat → Nat) (i j : Nat) : ∀ (r k : Nat),
    k ≤ lz77_match_run data i j r k ∧ lz77_match_run data i j r k ≤ k + r ∧
    (∀ m, k ≤ m → m < lz77_match_run data i j r k → data (j + m) = data (i + m)) ∧
    (lz77_match_run data i j r k < k + r →
      data (j + lz77_match_run data i j r k) ≠ data (i + lz77_match_run data i j r k)) := by
  intro r
  induction r with
  | zero =>
    intro k
    simp only [lz77_match_run]
    exact ⟨le_refl _, le_refl _, fun m h1 h2 => by omega, fun h => by omega⟩
  | succ r ih =>
    intro k
    rw [lz77_match_run]
    by_cases e : data (j + k) = data (i + k)
    · rw [if_pos e]
      obtain ⟨h1, h2, h3, h4⟩ := ih (k + 1)
      refine ⟨by omega, by omega, ?_, fun h => h4 (by omega)⟩
      intro m hm1 hm2
      by_cases hmk : m = k
      · subst hmk; exact e
      · exact h3 m (by omega) hm2
    · rw [if_neg e]
      exact ⟨le_refl _, by omega, fun m h1 h2 => by omega, fun _ => e⟩

theorem match_scan_spec (data : Nat → Nat) (bytes i min_j : Nat) : ∀ (c len pos : Nat),
    min_j + c < i →
    (lz77_match_scan data bytes i min_j c len pos = (len, pos)) ∨
    (len < (lz77_match_scan data bytes i min_j c len pos).1 ∧
      MatchOk data bytes i min_j (lz77_match_scan data bytes i min_j c len pos).1
        (lz77_match_scan data bytes i min_j c len pos).2) := by
  intro c
  induction c with
  | zero => intro len pos _; left; rfl
  | succ c ih =>
    intro len pos hc
    rw [lz77_match_scan]
    obtain ⟨h1, h2, h3, _⟩ := match_run_spec data i (min_j + (c + 1)) (bytes - i) 0
    by_cases hk : lz77_match_run data i (min_j + (c + 1)) (bytes - i) 0 > len
    · rw [if_pos hk]
      have hv : MatchOk data bytes i min_j
          (lz77_match_run data i (min_j + (c + 1)) (bytes - i) 0) (i - (min_j + (c + 1))) := by
        refine ⟨by omega, by omega, by omega, ?_⟩
        intro m hm
        have := h3 m (by omega) hm
        have e : i - (i - (min_j + (c + 1))) = min_j + (c + 1) := by omega
        rw [e]; exact this
      rcases ih (lz77_match_run data i (min_j + (c + 1)) (bytes - i) 0)
          (i - (min_j + (c + 1))) (by omega) with h | ⟨h4, h5⟩
      · right
        rw [h]
        exact ⟨hk, hv⟩
      · right
        exact ⟨by omega, h5⟩
    · rw [if_neg hk]
      exact ih len pos (by omega)

theorem match_valid (data : Nat → Nat) (bytes window i : Nat) (hw : 0 < window)
    (h : 0 < (lz77_match data bytes window i).1) :
    MatchOk data bytes i 0 (lz77_match data bytes window i).1 (lz77_match data bytes window i).2
      ∧ (lz77_match data bytes window i).2 < window := by
  unfold lz77_match at h ⊢
  by_cases hi : i ≥ 1
  · rw [if_pos hi] at h ⊢
    simp only [] at h ⊢
    have hmj : ∃ mj, (if i > window then i - window else 0) = mj ∧ mj < i ∧ i ≤ mj + window := by
      by_cases c : i > window
      · exact ⟨i - window, by rw [if_pos c], by omega, by omega⟩
      · exact ⟨0, by rw [if_neg c], by omega, by omega⟩
    obtain ⟨mj, e1, e2, e3⟩ := hmj
    rw [e1] at h ⊢
    rcases match_scan_spec data bytes i mj (i - 1 - mj) 0 0 (by omega) with e | ⟨_, hv⟩
    · rw [e] at h; simp at h
    · refine ⟨⟨hv.len_le, hv.pos_pos, ?_, hv.eq⟩, ?_⟩
      · have := hv.pos_lt; omega
      · have := hv.pos_lt; omega
  · rw [if_neg hi] at h
    simp at h

theorem copy_loop_ok (data : Nat → Nat) (bytes pos : Nat) (hpos : 0 < pos) :
    ∀ (len i : Nat) (out : Nat → Nat), pos ≤ i → i + len ≤ bytes →
    (∀ m, m < i → out m = data m) →
    (∀ m, m < len → data (i - pos + m) = data (i + m)) →
    ∃ out', lz77_copy_loop bytes pos len out i = .ok (out', i + len) ∧
      (∀ m, m < i + len → out' m = data m) ∧ (∀ m, i + len ≤ m → out' m = out m) := by
  intro len
  induction len with
  | zero =>
    intro i out _ _ hout _
    exact ⟨out, rfl, hout, fun _ _ => rfl⟩
  | succ len ih =>
    intro i out hpi hle hout heq
    rw [lz77_copy_loop]
    rw [if_neg (by omega), if_neg (by omega)]
    obtain ⟨out', e, h1, h2⟩ := ih (i + 1) (Function.update out i (out (i - pos)))
      (by omega) (by omega)
      (by
        intro m hm
        simp only [Function.update_apply]
        by_cases hmi : m = i
        · rw [if_pos hmi, hout (i - pos) (by omega), hmi]
          have := heq 0 (by omega)
          simpa using this
        · rw [if_neg hmi]; exact hout m (by omega))
      (by
        intro m hm
        have := heq (m + 1) (by omega)
        have e1 : i + 1 - pos + m = i - pos + (m + 1) := by omega
        have e2 : i + 1 + m = i + (m + 1) := by omega
        rw [e1, e2]; exact this)
    refine ⟨out', ?_, ?_, ?_⟩
    · rw [e]; congr 2; omega
    · intro m hm; exact h1 m (by omega)
    · intro m hm
      rw [h2 m (by omega)]
      simp only [Function.update_apply]
      rw [if_neg (by omega)]

/-! ## Tokens, encoder side -/

theorem wrote_emit {lz lz' : lz77_t Mem} {a a' : Acc} {bs : List Bool}
    (h : Wrote lz a lz' a' bs) : Emit lz a lz' a' bs :=
  ⟨h.ok, h.bits, h.input, h.out⟩

theorem emit_trans {lz1 lz2 lz3 : lz77_t Mem} {a1 a2 a3 : Acc} {xs ys : List Bool}
    (h1 : Emit lz1 a1 lz2 a2 xs) (h2 : Emit lz2 a2 lz3 a3 ys) :
    Emit lz1 a1 lz3 a3 (xs ++ ys) := by
  obtain ⟨ws1, e1, w1⟩ := h1.out
  obtain ⟨ws2, e2, w2⟩ := h2.out
  refine ⟨h2.ok, ?_, ?_, ⟨ws1 ++ ws2, ?_, ?_⟩⟩
  · rw [h2.bits, h1.bits, List.append_assoc]
  · rw [h2.input, h1.input]
  · rw [e2, e1, List.append_assoc]
  · rw [w2, List.length_append]
    omega

/-- Replacing heaps of a session does not change what has been written. -/
theorem emit_heaps {lz lz' : lz77_t Mem} {a a' : Acc} {bs : List Bool}
    (h : Emit lz a lz' a' bs) (t p l : lz77_binheap_t) :
    Emit lz a { lz' with bh_txt := t, bh_pos := p, bh_len := l } a' bs :=
  ⟨⟨h.ok.err, h.ok.bp, h.ok.b64⟩, h.bits, h.input, h.out⟩

theorem toU64_of_nonneg (x : Int) (h0 : 0 ≤ x) (h1 : x < 2 ^ 64) : toU64 x = x.toNat := by
  unfold toU64
  rw [Int.emod_eq_of_lt h0 h1]

theorem toI32_of_lt (n : Nat) (h : n < 2 ^ 31) : toI32 n = (n : Int) := by
  unfold toI32
  have : n % 2 ^ 32 = n := Nat.mod_eq_of_lt (by omega)
  rw [this, if_pos h]

theorem and_7F (b : Nat) : b &&& 0x7F = b % 128 := by
  have := Nat.and_pow_two_sub_one_eq_mod b 7
  simpa using this

theorem emit_literal_mem (lz : lz77_t Mem) (a : Acc) (b : Nat) (h : WOk lz a)
    (ht : HInv lz.bh_txt 128) (hb : b < 256) :
    ∃ lz' a', lz77_emit_literal memTransport lz a b = .ok (lz', some a') ∧
      Emit lz a lz' a' (litBits lz.bh_txt b) ∧
      Bumped lz.bh_txt ((b % 128 : Nat) : Int) lz'.bh_txt ∧ HInv lz'.bh_txt 128 ∧
      lz'.bh_pos = lz.bh_pos ∧ lz'.bh_len = lz.bh_len := by
  have hs0 : (0 : Int) ≤ ((b % 128 : Nat) : Int) := by omega
  have hs1 : ((b % 128 : Nat) : Int) < 128 := by omega
  have hx := ht.sx_lt _ hs0 hs1
  obtain ⟨t', r, ei, hi'⟩ := inc_freq_ok lz.bh_txt 128 _ ht hs0 hs1
  have hrank : toU64 (lz.bh_txt.sx ((b % 128 : Nat) : Int)) % 256
      = (lz.bh_txt.sx ((b % 128 : Nat) : Int)).toNat := by
    rw [toU64_of_nonneg _ hx.1 (by omega)]
    omega
  have hv : (lz.bh_txt.sx ((b % 128 : Nat) : Int)).toNat < 2 ^ 64 := by omega
  by_cases hlt : b < 128
  · have hbm : b % 128 = b := Nat.mod_eq_of_lt hlt
    rw [hbm] at hs0 hs1 hx ei hrank hv
    obtain ⟨lz1, a1, e1, w1⟩ := write_bit_mem lz a 0 h (by omega)
    obtain ⟨lz2, a2, e2, w2⟩ := write_number_mem 2 _ (by omega) lz1 a1 w1.ok hv
    refine ⟨{ lz2 with bh_txt := t' }, a2, ?_, ?_, ?_, hi', ?_, ?_⟩
    · unfold lz77_emit_literal
      have hlt2 : b < 0x80 := hlt
      rw [if_pos hlt2, e1, except_bind_ok]
      try dsimp only
      rw [if_neg (by simp [w1.ok.err])]
      rw [w1.txt, rd_ok _ _ hs0 (by omega), except_bind_ok]
      try dsimp only
      rw [hrank, e2, except_bind_ok]
      try dsimp only
      rw [w2.txt, w1.txt, ei, except_bind_ok]
      try dsimp only
      rw [if_neg (by simp [w2.ok.err])]
      rfl
    · have := wrote_emit (wrote_trans w1 w2)
      have e : litBits lz.bh_txt b = [decide (0 = 1)] ++ varint 2 (lz.bh_txt.sx (b : Int)).toNat := by
        simp [litBits, hlt, hbm]
      rw [e]
      exact ⟨⟨this.ok.err, this.ok.bp, this.ok.b64⟩, this.bits, this.input, this.out⟩
    · rw [hbm]; exact ⟨r, ei⟩
    · show lz2.bh_pos = lz.bh_pos
      rw [w2.pos, w1.pos]
    · show lz2.bh_len = lz.bh_len
      rw [w2.len, w1.len]
  · obtain ⟨lz0, a0, e0, w0⟩ := write_bit_mem lz a 1 h (by omega)
    obtain ⟨lz1, a1, e1, w1⟩ := write_bit_mem lz0 a0 0 w0.ok (by omega)
    obtain ⟨lz2, a2, e2, w2⟩ := write_number_mem 2 _ (by omega) lz1 a1 w1.ok hv
    refine ⟨{ lz2 with bh_txt := t' }, a2, ?_, ?_, ?_, hi', ?_, ?_⟩
    · unfold lz77_emit_literal
      have hlt2 : ¬ b < 0x80 := hlt
      rw [if_neg hlt2, e0, except_bind_ok]
      try dsimp only
      rw [e1, except_bind_ok]
      try dsimp only
      rw [if_neg (by simp [w1.ok.err])]
      rw [and_7F, w1.txt, w0.txt, rd_ok _ _ hs0 (by omega), except_bind_ok]
      try dsimp only
      rw [hrank, e2, except_bind_ok]
      try dsimp only
      rw [w2.txt, w1.txt, w0.txt, ei, except_bind_ok]
      try dsimp only
      rw [if_neg (by simp [w2.ok.err])]
      rfl
    · have := wrote_emit (wrote_trans (wrote_trans w0 w1) w2)
      have e : litBits lz.bh_txt b = ([decide (1 = 1)] ++ [decide (0 = 1)]) ++
          varint 2 (lz.bh_txt.sx ((b % 128 : Nat) : Int)).toNat := by
        simp [litBits, hlt]
      rw [e]
      exact ⟨⟨this.ok.err, this.ok.bp, this.ok.b64⟩, this.bits, this.input, this.out⟩
    · exact ⟨r, ei⟩
    · show lz2.bh_pos = lz.bh_pos
      rw [w2.pos, w1.pos, w0.pos]
    · show lz2.bh_len = lz.bh_len
      rw [w2.len, w1.len, w0.len]

theorem bitsFrom_3_2 : bitsFrom 3 0 2 = [true, true] := by
  decide

theorem emit_backref_mem (lz : lz77_t Mem) (a : Acc) (pos len window : Nat) (h : WOk lz a)
    (hp : HInv lz.bh_pos window) (hl : HInv lz.bh_len window)
    (hpos : pos < window) (hlen : len < 2 ^ 64) :
    ∃ lz' a', lz77_emit_backref memTransport lz a pos len window 4 = .ok (lz', some a') ∧
      Emit lz a lz' a' (refBits lz.bh_pos lz.bh_len pos len window) ∧
      Bumped lz.bh_pos (pos : Int) lz'.bh_pos ∧ HInv lz'.bh_pos window ∧
      (if len ≥ window then lz'.bh_len = lz.bh_len else Bumped lz.bh_len (len : Int) lz'.bh_len) ∧
      HInv lz'.bh_len window ∧ lz'.bh_txt = lz.bh_txt := by
  have hw := hp.hi
  have hp0 : (0 : Int) ≤ (pos : Int) := by omega
  have hp1 : (pos : Int) < window := by omega
  have hx := hp.sx_lt _ hp0 hp1
  obtain ⟨tp, rp, eip, hip⟩ := inc_freq_ok lz.bh_pos window _ hp hp0 hp1
  have hrank : toU64 (lz.bh_pos.sx (pos : Int)) = (lz.bh_pos.sx (pos : Int)).toNat :=
    toU64_of_nonneg _ hx.1 (by omega)
  have hv : (lz.bh_pos.sx (pos : Int)).toNat < 2 ^ 64 := by omega
  have hi32 : toI32 pos = (pos : Int) := toI32_of_lt pos (by omega)
  obtain ⟨lz1, a1, e1, w1⟩ := write_bits_mem 2 3 lz a h
  rw [bitsFrom_3_2] at w1
  obtain ⟨lz2, a2, e2, w2⟩ := write_number_mem 4 _ (by omega) lz1 a1 w1.ok hv
  have hok2 : WOk { lz2 with bh_pos := tp } a2 := ⟨w2.ok.err, w2.ok.bp, w2.ok.b64⟩
  obtain ⟨lz3, a3, e3, w3⟩ := write_bit_mem { lz2 with bh_pos := tp } a2
    (if len ≥ window then 1 else 0) hok2 (by split_ifs <;> omega)
  have em12 : Emit lz a { lz2 with bh_pos := tp } a2
      ([true, true] ++ varint 4 (lz.bh_pos.sx (pos : Int)).toNat) := by
    have := wrote_emit (wrote_trans w1 w2)
    exact ⟨hok2, this.bits, this.input, this.out⟩
  have em3 := emit_trans em12 (wrote_emit w3)
  have h3txt : lz3.bh_txt = lz.bh_txt := by
    rw [w3.txt]; show lz2.bh_txt = lz.bh_txt; rw [w2.txt, w1.txt]
  have h3pos : lz3.bh_pos = tp := by rw [w3.pos]
  have h3len : lz3.bh_len = lz.bh_len := by
    rw [w3.len]; show lz2.bh_len = lz.bh_len; rw [w2.len, w1.len]
  have start : lz77_emit_backref memTransport lz a pos len window 4 =
      (do
        let r ←
          if len ≥ window then lz77_write_number memTransport lz3 a3 len 4
          else do
            let rank ← rd lz3.bh_len.sx len
            let r ← lz77_write_number memTransport lz3 a3 (toU64 rank) 4
            let h ← lz77_binheap_inc_freq r.1.bh_len (toI32 len)
            pure ({ r.1 with bh_len := h.1 }, r.2)
        if r.1.error ≠ 0 then pure (r.1, none) else
        pure (r.1, some r.2)) := by
    unfold lz77_emit_backref
    rw [e1, except_bind_ok]
    try dsimp only
    rw [if_neg (by simp [w1.ok.err])]
    rw [w1.pos, rd_ok _ _ hp0 (by omega), except_bind_ok]
    try dsimp only
    rw [hrank, e2, except_bind_ok]
    try dsimp only
    rw [hi32, w2.pos, w1.pos, eip, except_bind_ok]
    try dsimp only
    rw [if_neg (by simp [w2.ok.err])]
    rw [e3, except_bind_ok]
    try dsimp only
    rw [if_neg (by simp [w3.ok.err])]
  rw [start]
  by_cases hlong : len ≥ window
  · obtain ⟨lz4, a4, e4, w4⟩ := write_number_mem 4 len (by omega) lz3 a3 w3.ok hlen
    refine ⟨lz4, a4, ?_, ?_, ?_, ?_, ?_, ?_, ?_⟩
    · rw [if_pos hlong, e4, except_bind_ok]
      try dsimp only
      rw [if_neg (by simp [w4.ok.err])]
      rfl
    · have := emit_trans em3 (wrote_emit w4)
      simpa [refBits, hlong] using this
    · rw [w4.pos, h3pos]; exact ⟨rp, eip⟩
    · rw [w4.pos, h3pos]; exact hip
    · rw [if_pos hlong, w4.len, h3len]
    · rw [w4.len, h3len]; exact hl
    · rw [w4.txt, h3txt]
  · have hl0 : (0 : Int) ≤ (len : Int) := by omega
    have hl1 : (len : Int) < window := by omega
    have hxl := hl.sx_lt _ hl0 hl1
    obtain ⟨tl, rl, eil, hil⟩ := inc_freq_ok lz.bh_len window _ hl hl0 hl1
    have hrankl : toU64 (lz.bh_len.sx (len : Int)) = (lz.bh_len.sx (len : Int)).toNat :=
      toU64_of_nonneg _ hxl.1 (by omega)
    have hvl : (lz.bh_len.sx (len : Int)).toNat < 2 ^ 64 := by omega
    have hi32l : toI32 len = (len : Int) := toI32_of_lt len (by omega)
    obtain ⟨lz4, a4, e4, w4⟩ := write_number_mem 4 _ (by omega) lz3 a3 w3.ok hvl
    refine ⟨{ lz4 with bh_len := tl }, a4, ?_, ?_, ?_, ?_, ?_, ?_, ?_⟩
    · rw [if_neg hlong, h3len, rd_ok _ _ hl0 (by omega), except_bind_ok]
      try dsimp only
      rw [hrankl, e4, except_bind_ok]
      try dsimp only
      rw [hi32l, w4.len, h3len, eil, except_bind_ok]
      try dsimp only
      rw [except_pure, except_bind_ok]
      try dsimp only
      rw [if_neg (by simp [w4.ok.err])]
      rfl
    · have := emit_trans em3 (wrote_emit w4)
      have e : refBits lz.bh_pos lz.bh_len pos len window =
          [true, true] ++ varint 4 (lz.bh_pos.sx (pos : Int)).toNat ++
            [decide ((if len ≥ window then 1 else 0) = 1)] ++
            varint 4 (lz.bh_len.sx (len : Int)).toNat := by
        simp [refBits, hlong]
      rw [e]
      exact ⟨⟨this.ok.err, this.ok.bp, this.ok.b64⟩, this.bits, this.input, this.out⟩
    · show Bumped lz.bh_pos (pos : Int) lz4.bh_pos
      rw [w4.pos, h3pos]; exact ⟨rp, eip⟩
    · show HInv lz4.bh_pos window
      rw [w4.pos, h3pos]; exact hip
    · rw [if_neg hlong]; exact ⟨rl, eil⟩
    · exact hil
    · show lz4.bh_txt = lz.bh_txt
      rw [w4.txt, h3txt]

/-! ## Tokens, decoder side -/

theorem or_of_lt_128 (s : Nat) (hs : s < 128) : 0x80 ||| s = 128 + s := by
  have h : 2 ^ 7 * 1 + s = 2 ^ 7 * 1 ||| s := Nat.mul_add_lt_is_or (by simpa using hs) 1
  simpa using h.symm

theorem decode_literal_mem (lzd : lz77_t Mem) (ad : Acc) (out : Nat → Nat) (bytes i hi s : Nat)
    (rest : List Bool) (t' : lz77_binheap_t) (h : ROk lzd ad) (ht : HInv lzd.bh_txt 128)
    (hs : s < 128) (hb : rbits lzd ad = varint 2 (lzd.bh_txt.sx (s : Int)).toNat ++ rest)
    (hib : i < bytes) (hbump : Bumped lzd.bh_txt (s : Int) t') :
    ∃ lzd' ad', lz77_decode_literal memTransport lzd ad out bytes i hi
        = .ok (lzd', some (ad', Function.update out i (hi ||| s))) ∧
      ROk lzd' ad' ∧ rbits lzd' ad' = rest ∧ lzd'.bh_txt = t' ∧
      lzd'.bh_pos = lzd.bh_pos ∧ lzd'.bh_len = lzd.bh_len := by
  have hs0 : (0 : Int) ≤ (s : Int) := by omega
  have hs1 : (s : Int) < 128 := by omega
  have hx := ht.sx_lt _ hs0 hs1
  have hns := ht.ns_sx _ hs0 hs1
  obtain ⟨r, ei⟩ := hbump
  obtain ⟨lz1, a1, e1, t1⟩ := read_number_mem 2 (lzd.bh_txt.sx (s : Int)).toNat (by omega)
    (by omega) rest lzd ad h (by omega) hb
  have hmod : (lzd.bh_txt.sx (s : Int)).toNat % 256 = (lzd.bh_txt.sx (s : Int)).toNat := by
    omega
  have hcast : (((lzd.bh_txt.sx (s : Int)).toNat : Nat) : Int) = lzd.bh_txt.sx (s : Int) := by
    omega
  have hsym : toU64 (s : Int) % 256 = s := by
    rw [toU64_of_nonneg _ hs0 (by omega)]
    omega
  refine ⟨{ lz1 with bh_txt := t' }, a1, ?_, ⟨t1.ok.err, t1.ok.bp⟩, t1.bits, rfl, t1.pos, t1.len⟩
  unfold lz77_decode_literal
  rw [e1, except_bind_ok]
  try dsimp only
  rw [if_neg (by simp [t1.ok.err])]
  rw [hmod, hcast, t1.txt, rd_ok _ _ hx.1 (by omega), except_bind_ok]
  try dsimp only
  rw [hns, hsym, if_neg (by omega), ei, except_bind_ok]
  rfl

theorem decode_backref_mem (lzd : lz77_t Mem) (ad : Acc) (pos len window : Nat)
    (rest : List Bool) (tp tl : lz77_binheap_t) (h : ROk lzd ad)
    (hp : HInv lzd.bh_pos window) (hl : HInv lzd.bh_len window)
    (hpos : pos < window) (hlen : len < 2 ^ 64)
    (hb : rbits lzd ad = varint 4 (lzd.bh_pos.sx (pos : Int)).toNat ++
      (if len ≥ window then true :: varint 4 len
        else false :: varint 4 (lzd.bh_len.sx (len : Int)).toNat) ++ rest)
    (hbp : Bumped lzd.bh_pos (pos : Int) tp)
    (hbl : if len ≥ window then tl = lzd.bh_len else Bumped lzd.bh_len (len : Int) tl) :
    ∃ lzd' ad', lz77_decode_backref memTransport lzd ad 4 = .ok (lzd', ad', some (pos, len)) ∧
      ROk lzd' ad' ∧ rbits lzd' ad' = rest ∧ lzd'.bh_pos = tp ∧ lzd'.bh_len = tl ∧
      lzd'.bh_txt = lzd.bh_txt := by
  have hw := hp.hi
  have hp0 : (0 : Int) ≤ (pos : Int) := by omega
  have hp1 : (pos : Int) < window := by omega
  have hx := hp.sx_lt _ hp0 hp1
  have hns := hp.ns_sx _ hp0 hp1
  obtain ⟨rp, eip⟩ := hbp
  rw [List.append_assoc] at hb
  obtain ⟨lz1, a1, e1, t1⟩ := read_number_mem 4 (lzd.bh_pos.sx (pos : Int)).toNat (by omega)
    (by omega) _ lzd ad h (by omega) hb
  have hcast : (((lzd.bh_pos.sx (pos : Int)).toNat : Nat) : Int) = lzd.bh_pos.sx (pos : Int) := by
    omega
  have hu : toU64 (pos : Int) = pos := by
    rw [toU64_of_nonneg _ hp0 (by omega)]; omega
  have hi32 : toI32 pos = (pos : Int) := toI32_of_lt pos (by omega)
  have hok1 : ROk { lz1 with bh_pos := tp } a1 := ⟨t1.ok.err, t1.ok.bp⟩
  have start : lz77_decode_backref memTransport lzd ad 4 =
      (let b := lz77_read_bit memTransport { lz1 with bh_pos := tp } a1
       if b.1.error ≠ 0 then pure (b.1, b.2.1, none) else
       if b.2.2 ≠ 0 then do
         let r ← lz77_read_number memTransport b.1 b.2.1 4
         if r.1.error ≠ 0 then pure (r.1, r.2.1, none) else
         pure (r.1, r.2.1, some (pos, r.2.2))
       else do
         let r ← lz77_read_number memTransport b.1 b.2.1 4
         if r.1.error ≠ 0 then pure (r.1, r.2.1, none) else do
         let sym ← rd r.1.bh_len.ns r.2.2
         let len := toU64 sym
         let h ← lz77_binheap_inc_freq r.1.bh_len (toI32 len)
         pure ({ r.1 with bh_len := h.1 }, r.2.1, some (pos, len))) := by
    unfold lz77_decode_backref
    rw [e1, except_bind_ok]
    try dsimp only
    rw [if_neg (by simp [t1.ok.err])]
    rw [hcast, t1.pos, rd_ok _ _ hx.1 (by omega), except_bind_ok]
    try dsimp only
    rw [hns, hu, hi32, eip, except_bind_ok]
  rw [start]
  by_cases hlong : len ≥ window
  · rw [if_pos hlong] at hb hbl
    have hb1 : rbits { lz1 with bh_pos := tp } a1 = true :: (varint 4 len ++ rest) := by
      have := t1.bits
      rw [if_pos hlong] at this
      simpa [rbits] using this
    obtain ⟨lz2, a2, e2, t2⟩ := read_bit_mem _ a1 true _ hok1 hb1
    obtain ⟨lz3, a3, e3, t3⟩ := read_number_mem 4 len (by omega) (by omega) rest lz2 a2 t2.ok
      hlen t2.bits
    refine ⟨lz3, a3, ?_, t3.ok, t3.bits, ?_, ?_, ?_⟩
    · dsimp only
      rw [e2]
      dsimp only
      rw [if_neg (by simp [t2.ok.err])]
      rw [if_pos (by simp)]
      rw [e3, except_bind_ok]
      try dsimp only
      rw [if_neg (by simp [t3.ok.err])]
      rfl
    · rw [t3.pos, t2.pos]
    · rw [t3.len, t2.len, hbl]; exact t1.len
    · rw [t3.txt, t2.txt]; exact t1.txt
  · rw [if_neg hlong] at hb hbl
    obtain ⟨rl, eil⟩ := hbl
    have hl0 : (0 : Int) ≤ (len : Int) := by omega
    have hl1 : (len : Int) < window := by omega
    have hxl := hl.sx_lt _ hl0 hl1
    have hnsl := hl.ns_sx _ hl0 hl1
    have hb1 : rbits { lz1 with bh_pos := tp } a1 =
        false :: (varint 4 (lzd.bh_len.sx (len : Int)).toNat ++ rest) := by
      have := t1.bits
      rw [if_neg hlong] at this
      simpa [rbits] using this
    obtain ⟨lz2, a2, e2, t2⟩ := read_bit_mem _ a1 false _ hok1 hb1
    obtain ⟨lz3, a3, e3, t3⟩ := read_number_mem 4 (lzd.bh_len.sx (len : Int)).toNat (by omega)
      (by omega) rest lz2 a2 t2.ok (by omega) t2.bits
    have hcastl : (((lzd.bh_len.sx (len : Int)).toNat : Nat) : Int) = lzd.bh_len.sx (len : Int) := by
      omega
    have hul : toU64 (len : Int) = len := by
      rw [toU64_of_nonneg _ hl0 (by omega)]; omega
    have hi32l : toI32 len = (len : Int) := toI32_of_lt len (by omega)
    have h3len : lz3.bh_len = lzd.bh_len := by
      rw [t3.len, t2.len]; exact t1.len
    refine ⟨{ lz3 with bh_len := tl }, a3, ?_, ⟨t3.ok.err, t3.ok.bp⟩, t3.bits, ?_, rfl, ?_⟩
    · dsimp only
      rw [e2]
      dsimp only
      rw [if_neg (by simp [t2.ok.err])]
      rw [if_neg (by simp)]
      rw [e3, except_bind_ok]
      try dsimp only
      rw [if_neg (by simp [t3.ok.err])]
      rw [hcastl, h3len, rd_ok _ _ hxl.1 (by omega), except_bind_ok]
      try dsimp only
      rw [hnsl, hul, hi32l, eil, except_bind_ok]
      rfl
    · show lz3.bh_pos = tp
      rw [t3.pos, t2.pos]
    · show lz3.bh_txt = lzd.bh_txt
      rw [t3.txt, t2.txt]; exact t1.txt

/-! ## Round trip of the main loops -/

theorem decodes_done (data : Nat → Nat) (bytes window i : Nat) (lz lzf : lz77_t Mem)
    (bs : List Bool) (hi : ¬ i < bytes) (h1 : lzf.bh_txt = lz.bh_txt)
    (h2 : lzf.bh_pos = lz.bh_pos) (h3 : lzf.bh_len = lz.bh_len) :
    Decodes data bytes window i lz lzf bs := by
  intro fuelD lzd ad out _ hr _ e1 e2 e3 hout
  refine ⟨lzd, out, ?_, hr.err, fun m hm => hout m (by omega), fun _ _ => rfl,
    by rw [e1, h1], by rw [e2, h2], by rw [e3, h3]⟩
  cases fuelD with
  | zero => rw [lz77_decompress_loop, if_neg hi]
  | succ f => rw [lz77_decompress_loop, if_neg hi]

theorem compress_loop_done (data : Nat → Nat) (bytes window base i fuel : Nat)
    (lz : lz77_t Mem) (a : Acc) (hi : ¬ i < bytes) :
    lz77_compress_loop memTransport data bytes window base fuel lz a i
      = .ok (lz77_flush memTransport lz a) := by
  cases fuel with
  | zero => rw [lz77_compress_loop, if_neg hi]
  | succ f => rw [lz77_compress_loop, if_neg hi]

theorem roundtrip_loop (data : Nat → Nat) (bytes window : Nat) (hw0 : 0 < window)
    (hbytes : bytes < 2 ^ 64) (hdata : ∀ i, i < bytes → data i < 256) :
    ∀ (fuel : Nat) (lz : lz77_t Mem) (a : Acc) (i : Nat), bytes - i ≤ fuel → i ≤ bytes →
    WOk lz a → HInv lz.bh_txt 128 → HInv lz.bh_pos window → HInv lz.bh_len window →
    ∃ lzf bs, lz77_compress_loop memTransport data bytes window 4 fuel lz a i = .ok lzf ∧
      lzf.error = 0 ∧ wordsBits lzf.that.output = wbits lz a ++ bs ∧
      Decodes data bytes window i lz lzf bs := by
  intro fuel
  induction fuel with
  | zero =>
    intro lz a i hf hi h ht hp hl
    have hi2 : ¬ i < bytes := by omega
    obtain ⟨he, ⟨k, hk⟩, f1, f2, f3⟩ := flush_mem lz a h
    exact ⟨_, _, compress_loop_done data bytes window 4 i 0 lz a hi2, he, hk,
      decodes_done data bytes window i lz _ _ hi2 f1 f2 f3⟩
  | succ f ih =>
    intro lz a i hf hi h ht hp hl
    by_cases hi2 : i < bytes
    · rw [lz77_compress_loop, if_pos hi2]
      dsimp only
      by_cases hlen : (lz77_match data bytes window i).1 > 2
      · -- back-reference
        rw [if_pos hlen]
        obtain ⟨hm, hposw⟩ := match_valid data bytes window i hw0 (by omega)
        obtain ⟨lz1, a1, e1, em, bp, hp1, bl, hl1, htxt⟩ := emit_backref_mem lz a
          (lz77_match data bytes window i).2 (lz77_match data bytes window i).1 window h hp hl
          hposw (by have := hm.len_le; omega)
        have hlen_le := hm.len_le
        obtain ⟨lzf, bs1, ec, herr, hbits, hdec⟩ := ih lz1 a1
          (i + (lz77_match data bytes window i).1) (by omega) (by omega) em.ok
          (by rw [htxt]; exact ht) hp1 hl1
        refine ⟨lzf, refBits lz.bh_pos lz.bh_len (lz77_match data bytes window i).2
          (lz77_match data bytes window i).1 window ++ bs1, ?_, herr, ?_, ?_⟩
        · rw [e1, except_bind_ok]
          dsimp only
          exact ec
        · rw [hbits, em.bits, List.append_assoc]
        · intro fuelD lzd ad out hfd hr hrb t1 t2 t3 hout
          obtain ⟨fd, rfl⟩ : ∃ fd, fuelD = fd + 1 := ⟨fuelD - 1, by omega⟩
          rw [refBits, List.append_assoc, List.append_assoc] at hrb
          simp only [List.cons_append, List.nil_append] at hrb
          obtain ⟨lzd1, ad1, r1, k1⟩ := read_bit_mem lzd ad true _ hr hrb
          obtain ⟨lzd2, ad2, r2, k2⟩ := read_bit_mem lzd1 ad1 true _ k1.ok k1.bits
          have k12 := took_trans k1 k2
          obtain ⟨lzd3, ad3, r3, hr3, hb3, p3, l3, x3⟩ := decode_backref_mem lzd2 ad2
            (lz77_match data bytes window i).2 (lz77_match data bytes window i).1 window bs1
            lz1.bh_pos lz1.bh_len k2.ok (by rw [k12.pos, t2]; exact hp)
            (by rw [k12.len, t3]; exact hl) hposw (by omega)
            (by rw [k12.pos, k12.len, t2, t3, List.append_assoc]; exact k2.bits)
            (by rw [k12.pos, t2]; exact bp)
            (by rw [k12.len, t3]
                by_cases c : (lz77_match data bytes window i).1 ≥ window
                · rw [if_pos c] at bl ⊢; exact bl
                · rw [if_neg c] at bl ⊢; exact bl)
          obtain ⟨out1, c1, c2, c3⟩ := copy_loop_ok data bytes (lz77_match data bytes window i).2
            hm.pos_pos (lz77_match data bytes window i).1 i out (by have := hm.pos_lt; omega)
            (by omega) hout hm.eq
          obtain ⟨lzd4, out4, d1, d2, d3, d4, d5⟩ := hdec fd lzd3 ad3 out1 (by omega) hr3 hb3
            (by rw [x3, k12.txt, t1, htxt]) p3 l3 c2
          refine ⟨lzd4, out4, ?_, d2, d3, ?_, d5⟩
          · rw [lz77_decompress_loop, if_pos hi2]
            dsimp only
            rw [r1]
            dsimp only
            rw [if_neg (by simp [k1.ok.err]), if_pos (by simp)]
            rw [r2]
            dsimp only
            rw [if_neg (by simp [k2.ok.err]), if_pos (by simp)]
            rw [r3, except_bind_ok]
            dsimp only
            rw [if_neg (by
              have := hm.pos_pos
              simp only [not_not]
              exact ⟨this, hposw⟩)]
            rw [if_neg (by omega)]
            have hn : (i + (lz77_match data bytes window i).1) % 2 ^ 64 - i
                = (lz77_match data bytes window i).1 := by
              rw [Nat.mod_eq_of_lt (by omega)]; omega
            rw [hn, c1, except_bind_ok]
            dsimp only
            exact d1
          · intro m hm2
            rw [d4 m hm2, c3 m (by omega)]
      · -- literal
        rw [if_neg hlen]
        have hb256 := hdata i hi2
        obtain ⟨lz1, a1, e1, em, bt, ht1, hpos1, hlen1⟩ := emit_literal_mem lz a (data i) h ht hb256
        obtain ⟨lzf, bs1, ec, herr, hbits, hdec⟩ := ih lz1 a1 (i + 1) (by omega) (by omega) em.ok
          ht1 (by rw [hpos1]; exact hp) (by rw [hlen1]; exact hl)
        refine ⟨lzf, litBits lz.bh_txt (data i) ++ bs1, ?_, herr, ?_, ?_⟩
        · rw [e1, except_bind_ok]
          dsimp only
          exact ec
        · rw [hbits, em.bits, List.append_assoc]
        · intro fuelD lzd ad out hfd hr hrb t1 t2 t3 hout
          obtain ⟨fd, rfl⟩ : ∃ fd, fuelD = fd + 1 := ⟨fuelD - 1, by omega⟩
          rw [litBits, List.append_assoc] at hrb
          have hs : data i % 128 < 128 := Nat.mod_lt _ (by omega)
          by_cases hlt : data i < 128
          · rw [if_pos hlt] at hrb
            simp only [List.cons_append, List.nil_append] at hrb
            obtain ⟨lzd1, ad1, r1, k1⟩ := read_bit_mem lzd ad false _ hr hrb
            obtain ⟨lzd3, ad3, r3, hr3, hb3, x3, p3, l3⟩ := decode_literal_mem lzd1 ad1 out bytes
              i 0 (data i % 128) bs1 lz1.bh_txt k1.ok (by rw [k1.txt, t1]; exact ht) hs
              (by rw [k1.txt, t1]; exact k1.bits) hi2 (by rw [k1.txt, t1]; exact bt)
            have hval : 0 ||| data i % 128 = data i := by
              rw [Nat.zero_or, Nat.mod_eq_of_lt hlt]
            rw [hval] at r3
            obtain ⟨lzd4, out4, d1, d2, d3, d4, d5⟩ := hdec fd lzd3 ad3
              (Function.update out i (data i)) (by omega) hr3 hb3 x3
              (by rw [p3, k1.pos, t2, hpos1]) (by rw [l3, k1.len, t3, hlen1])
              (by
                intro m hm
                simp only [Function.update_apply]
                by_cases e : m = i
                · rw [if_pos e, e]
                · rw [if_neg e]; exact hout m (by omega))
            refine ⟨lzd4, out4, ?_, d2, d3, ?_, d5⟩
            · rw [lz77_decompress_loop, if_pos hi2]
              dsimp only
              rw [r1]
              dsimp only
              rw [if_neg (by simp [k1.ok.err]), if_neg (by simp)]
              rw [r3, except_bind_ok]
              dsimp only
              exact d1
            · intro m hm2
              rw [d4 m hm2]
              simp only [Function.update_apply]
              rw [if_neg (by omega)]
          · rw [if_neg hlt] at hrb
            simp only [List.cons_append, List.nil_append] at hrb
            obtain ⟨lzd1, ad1, r1, k1⟩ := read_bit_mem lzd ad true _ hr hrb
            obtain ⟨lzd2, ad2, r2, k2⟩ := read_bit_mem lzd1 ad1 false _ k1.ok k1.bits
            have k12 := took_trans k1 k2
            obtain ⟨lzd3, ad3, r3, hr3, hb3, x3, p3, l3⟩ := decode_literal_mem lzd2 ad2 out bytes
              i 0x80 (data i % 128) bs1 lz1.bh_txt k2.ok (by rw [k12.txt, t1]; exact ht) hs
              (by rw [k12.txt, t1]; exact k2.bits) hi2 (by rw [k12.txt, t1]; exact bt)
            have hval : 0x80 ||| data i % 128 = data i := by
              rw [or_of_lt_128 _ hs]; omega
            rw [hval] at r3
            obtain ⟨lzd4, out4, d1, d2, d3, d4, d5⟩ := hdec fd lzd3 ad3
              (Function.update out i (data i)) (by omega) hr3 hb3 x3
              (by rw [p3, k12.pos, t2, hpos1]) (by rw [l3, k12.len, t3, hlen1])
              (by
                intro m hm
                simp only [Function.update_apply]
                by_cases e : m = i
                · rw [if_pos e, e]
                · rw [if_neg e]; exact hout m (by omega))
            refine ⟨lzd4, out4, ?_, d2, d3, ?_, d5⟩
            · rw [lz77_decompress_loop, if_pos hi2]
              dsimp only
              rw [r1]
              dsimp only
              rw [if_neg (by simp [k1.ok.err]), if_pos (by simp)]
              rw [r2]
              dsimp only
              rw [if_neg (by simp [k2.ok.err]), if_neg (by simp)]
              rw [r3, except_bind_ok]
              dsimp only
              exact d1
            · intro m hm2
              rw [d4 m hm2]
              simp only [Function.update_apply]
              rw [if_neg (by omega)]
    · have hi3 : i = bytes := by omega
      obtain ⟨he, ⟨k, hk⟩, f1, f2, f3⟩ := flush_mem lz a h
      exact ⟨_, _, compress_loop_done data bytes window 4 i (f + 1) lz a hi2, he, hk,
        decodes_done data bytes window i lz _ _ hi2 f1 f2 f3⟩

theorem window_of_bits (wb : Nat) (h1 : 10 ≤ wb) (h2 : wb ≤ 12) :
    (1 <<< wb) % 2 ^ 64 = 2 ^ wb ∧ toI32 ((1 <<< wb) % 2 ^ 64) = ((2 ^ wb : Nat) : Int) ∧
    0 < 2 ^ wb ∧ 2 ^ wb ≤ 4096 := by
  interval_cases wb <;> simp [toI32]

theorem compress_eq_loop {σ : Type} (tr : Transport σ) (lz : lz77_t σ) (data : Nat → Nat)
    (bytes wb : Nat) (h0 : lz.error = 0) (h1 : 10 ≤ wb) (h2 : wb ≤ 12) :
    lz77_compress tr lz data bytes wb =
      lz77_compress_loop tr data bytes (2 ^ wb) 4 bytes
        (reinit lz ((2 ^ wb : Nat) : Int)) ⟨0, 0⟩ 0 := by
  obtain ⟨w1, w2, w3, w4⟩ := window_of_bits wb h1 h2
  have hw4 : ((2 ^ wb : Nat) : Int) ≤ 4096 := by exact_mod_cast w4
  have hw0 : (0 : Int) ≤ ((2 ^ wb : Nat) : Int) := by positivity
  have hc : ¬ (wb < 10 ∨ wb > 20) := by omega
  unfold lz77_compress
  rw [if_neg (by simp [h0]), if_neg hc]
  rw [init_eq _ 0x80 (by omega) (by omega), except_bind_ok]
  rw [w2, w1, init_eq _ _ hw0 hw4, except_bind_ok, init_eq _ _ hw0 hw4, except_bind_ok]
  rfl

theorem decompress_eq_loop {σ : Type} (tr : Transport σ) (fuel : Nat) (lz : lz77_t σ)
    (data : Nat → Nat) (bytes wb : Nat) (h0 : lz.error = 0) (h1 : 10 ≤ wb) (h2 : wb ≤ 12) :
    lz77_decompress tr fuel lz data bytes wb =
      lz77_decompress_loop tr bytes (2 ^ wb) 4 fuel
        (reinit lz ((2 ^ wb : Nat) : Int)) ⟨0, 0⟩ data 0 := by
  obtain ⟨w1, w2, w3, w4⟩ := window_of_bits wb h1 h2
  have hw4 : ((2 ^ wb : Nat) : Int) ≤ 4096 := by exact_mod_cast w4
  have hw0 : (0 : Int) ≤ ((2 ^ wb : Nat) : Int) := by positivity
  have hc : ¬ (wb < 10 ∨ wb > 20) := by omega
  unfold lz77_decompress
  rw [if_neg (by simp [h0]), if_neg hc]
  rw [init_eq _ 0x80 (by omega) (by omega), except_bind_ok]
  rw [w2, w1, init_eq _ _ hw0 hw4, except_bind_ok, init_eq _ _ hw0 hw4, except_bind_ok]
  rfl

theorem roundtrip_core (data : Nat → Nat) (bytes wb : Nat) (h1 : 10 ≤ wb) (h2 : wb ≤ 12)
    (hbytes : bytes < 2 ^ 64) (hdata : ∀ i, i < bytes → data i < 256)
    (lz0 : lz77_t Mem) (h0 : lz0.error = 0) (hout : lz0.that.output = []) :
    ∃ lzc, lz77_compress memTransport lz0 data bytes wb = .ok lzc ∧ lzc.error = 0 ∧
      ∀ (fuel : Nat) (lzd0 : lz77_t Mem) (buf : Nat → Nat), bytes ≤ fuel → lzd0.error = 0 →
        lzd0.that.input = lzc.that.output →
        ∃ lzd out, lz77_decompress memTransport fuel lzd0 buf bytes wb = .ok (lzd, out) ∧
          lzd.error = 0 ∧ (∀ m, m < bytes → out m = data m) ∧ (∀ m, bytes ≤ m → out m = buf m) ∧
          lzd.bh_txt = lzc.bh_txt ∧ lzd.bh_pos = lzc.bh_pos ∧ lzd.bh_len = lzc.bh_len := by
  obtain ⟨w1, w2, w3, w4⟩ := window_of_bits wb h1 h2
  have hw4 : ((2 ^ wb : Nat) : Int) ≤ 4096 := by exact_mod_cast w4
  have hw0 : (0 : Int) ≤ ((2 ^ wb : Nat) : Int) := by positivity
  obtain ⟨lzf, bs, ec, herr, hbits, hdec⟩ := roundtrip_loop data bytes (2 ^ wb) w3 hbytes hdata
    bytes (reinit lz0 ((2 ^ wb : Nat) : Int)) ⟨0, 0⟩ 0 (by omega) (by omega)
    ⟨h0, by simp, by simp⟩ (idHeap_inv 128 (by omega) (by omega))
    (idHeap_inv _ hw0 hw4) (idHeap_inv _ hw0 hw4)
  refine ⟨lzf, ?_, herr, ?_⟩
  · rw [compress_eq_loop memTransport lz0 data bytes wb h0 h1 h2]
    exact ec
  · intro fuel lzd0 buf hf hd0 hin
    have hb0 : wbits (reinit lz0 ((2 ^ wb : Nat) : Int)) ⟨0, 0⟩ = [] := by
      simp [wbits, reinit, hout, wordsBits, bitsFrom]
    rw [hb0, List.nil_append] at hbits
    obtain ⟨lzd, out, d1, d2, d3, d4, d5⟩ := hdec fuel
      (reinit lzd0 ((2 ^ wb : Nat) : Int)) ⟨0, 0⟩ buf (by omega)
      ⟨hd0, by simp⟩ (by simp [rbits, reinit, hin, hbits]) rfl rfl rfl (fun m hm => by omega)
    refine ⟨lzd, out, ?_, d2, d3, d4, d5⟩
    rw [decompress_eq_loop memTransport fuel lzd0 buf bytes wb hd0 h1 h2]
    exact d1

theorem map_range_eq (bs : List Nat) (out : Nat → Nat)
    (h : ∀ m, m < bs.length → out m = bufferOf bs m) :
    (List.range bs.length).map out = bs := by
  apply List.ext_getElem
  · simp
  · intro n h1 h2
    simp only [List.getElem_map, List.getElem_range]
    rw [h n h2]
    simp [bufferOf, List.getD, h2]

theorem bufferOf_lt (bs : List Nat) (hb : ∀ b, b ∈ bs → b < 256) :
    ∀ i, i < bs.length → bufferOf bs i < 256 := by
  intro i hi
  have : bufferOf bs i = bs[i] := by simp [bufferOf, List.getD, hi]
  rw [this]
  exact hb _ (List.getElem_mem hi)

/-! ## Claims -/

/-- C2 (invalid `window_bits` is rejected before any work).  For every `window_bits` below
10 or above 20, every transport and every session with `error = 0`, each of write_header,
compress and decompress returns the session it was given with `error` set to `EINVAL` and
nothing else changed: the caller data `that` (so neither callback ran, whatever the
callbacks are), `written`, the three heaps, and for decompress the data buffer. -/
theorem invalid_window_bits_rejected {σ : Type} (tr : Transport σ) (lz : lz77_t σ)
    (data : Nat → Nat) (n bytes window_bits fuel : Nat) (herr : lz.error = 0)
    (hwb : window_bits < 10 ∨ window_bits > 20) :
    lz77_write_header tr lz n window_bits = { lz with error := EINVAL } ∧
    lz77_compress tr lz data bytes window_bits = .ok { lz with error := EINVAL } ∧
    lz77_decompress tr fuel lz data bytes window_bits = .ok ({ lz with error := EINVAL }, data) := by
  refine ⟨?_, ?_, ?_⟩
  · unfold lz77_write_header
    rw [if_neg (by simp [herr]), if_pos hwb]
  · unfold lz77_compress
    rw [if_neg (by simp [herr]), if_pos hwb]
  · unfold lz77_decompress
    rw [if_neg (by simp [herr]), if_pos hwb]

/-- Witness of C2 at `window_bits = 9`. -/
theorem invalid_window_bits_rejected_witness :
    (memSession []).error = 0 ∧ ((9 : Nat) < 10 ∨ (9 : Nat) > 20) ∧
    (lz77_write_header memTransport (memSession []) 5 9 = { memSession [] with error := EINVAL } ∧
     lz77_compress memTransport (memSession []) (bufferOf [1, 2, 3, 4, 5]) 5 9
       = .ok { memSession [] with error := EINVAL } ∧
     lz77_decompress memTransport 5 (memSession []) (bufferOf [1, 2, 3, 4, 5]) 5 9
       = .ok ({ memSession [] with error := EINVAL }, bufferOf [1, 2, 3, 4, 5])) :=
  ⟨rfl, Or.inl (by decide),
    invalid_window_bits_rejected memTransport (memSession []) _ _ _ 9 _ rfl (Or.inl (by decide))⟩

/-- C5 (sticky error at entry).  For every transport and every session whose `error` is not
zero, each of write_header, compress, read_header and decompress returns the session
unchanged in every field, the caller data `that` included (so neither callback ran), with the
data buffer and the out-parameters of read_header unchanged. -/
theorem sticky_error_at_entry {σ : Type} (tr : Transport σ) (lz : lz77_t σ)
    (data : Nat → Nat) (n bytes window_bits fuel out_bytes out_window_bits : Nat)
    (herr : lz.error ≠ 0) :
    lz77_write_header tr lz n window_bits = lz ∧
    lz77_compress tr lz data bytes window_bits = .ok lz ∧
    lz77_read_header tr lz out_bytes out_window_bits = (lz, out_bytes, out_window_bits) ∧
    lz77_decompress tr fuel lz data bytes window_bits = .ok (lz, data) := by
  refine ⟨?_, ?_, ?_, ?_⟩
  · unfold lz77_write_header
    rw [if_pos herr]
  · unfold lz77_compress
    rw [if_pos herr]
  · unfold lz77_read_header
    rw [if_pos herr]
  · unfold lz77_decompress
    rw [if_pos herr]

/-- Witness of C5 at a session whose `error` is `EIO`. -/
theorem sticky_error_at_entry_witness :
    ({ memSession [7, 10] with error := EIO } : lz77_t Mem).error ≠ 0 ∧
    (lz77_write_header memTransport { memSession [7, 10] with error := EIO } 7 10
        = { memSession [7, 10] with error := EIO } ∧
     lz77_compress memTransport { memSession [7, 10] with error := EIO } (bufferOf [1]) 1 10
        = .ok { memSession [7, 10] with error := EIO } ∧
     lz77_read_header memTransport { memSession [7, 10] with error := EIO } 0 0
        = ({ memSession [7, 10] with error := EIO }, 0, 0) ∧
     lz77_decompress memTransport 1 { memSession [7, 10] with error := EIO } (bufferOf [1]) 1 10
        = .ok ({ memSession [7, 10] with error := EIO }, bufferOf [1])) :=
  ⟨by decide,
    sticky_error_at_entry memTransport { memSession [7, 10] with error := EIO } _ _ _ _ _ _ _
      (by decide)⟩

/-- C6 (header round trip).  For every byte count `n` below `2 ^ 64` and every `window_bits`
from 10 to 20, write_header on a session with `error = 0` over the in-memory transport
appends exactly the two words `n`, `window_bits` and changes nothing else, and read_header on
a session with `error = 0` whose next two words are these returns `bytes = n` and the same
`window_bits`, consumes the two words and leaves `error` at 0. -/
theorem header_round_trip (n window_bits : Nat) (hn : n < 2 ^ 64)
    (h1 : 10 ≤ window_bits) (h2 : window_bits ≤ 20) (lz : lz77_t Mem) (h0 : lz.error = 0) :
    lz77_write_header memTransport lz n window_bits
      = { lz with that := { lz.that with output := lz.that.output ++ [n, window_bits] } } ∧
    ∀ (lzr : lz77_t Mem) (rest : List Nat) (out_bytes out_window_bits : Nat),
      lzr.error = 0 → lzr.that.input = [n, window_bits] ++ rest →
      lz77_read_header memTransport lzr out_bytes out_window_bits
        = ({ lzr with that := { lzr.that with input := rest } }, n, window_bits) := by
  have hc : ¬ (window_bits < 10 ∨ window_bits > 20) := by omega
  refine ⟨?_, ?_⟩
  · unfold lz77_write_header
    rw [if_neg (by simp [h0]), if_neg hc]
    have hn2 : n % 2 ^ 64 = n := Nat.mod_eq_of_lt hn
    simp only [call_write, memTransport, h0, hn2]
    simp
  · intro lzr rest ob ow hr hin
    unfold lz77_read_header
    rw [if_neg (by simp [hr])]
    have hw : window_bits % 2 ^ 64 % 256 = window_bits := by omega
    have hn2 : n % 2 ^ 64 = n := Nat.mod_eq_of_lt hn
    simp only [call_read, memTransport, hin, hr, hn2, hw, List.cons_append, List.nil_append]
    rw [if_neg hc]
    simp

/-- Witness of C6 at `n = 35`, `window_bits = 10`. -/
theorem header_round_trip_witness :
    (35 : Nat) < 2 ^ 64 ∧ (10 : Nat) ≤ 10 ∧ (10 : Nat) ≤ 20 ∧ (memSession []).error = 0 ∧
    (lz77_write_header memTransport (memSession []) 35 10
      = { memSession [] with
          that := { (memSession []).that with output := (memSession []).that.output ++ [35, 10] } } ∧
    ∀ (lzr : lz77_t Mem) (rest : List Nat) (out_bytes out_window_bits : Nat),
      lzr.error = 0 → lzr.that.input = [35, 10] ++ rest →
      lz77_read_header memTransport lzr out_bytes out_window_bits
        = ({ lzr with that := { lzr.that with input := rest } }, 35, 10)) :=
  ⟨by decide, by decide, by decide, rfl,
    header_round_trip 35 10 (by decide) (by decide) (by decide) (memSession []) rfl⟩

/-- C7, counterexample.  For the header words `(0, 266)` read_header leaves `error` at 0
although 266 is not between 10 and 20: the word is narrowed to `uint8_t` first, and
`266 mod 256 = 10`. -/
theorem read_header_accepts_266 :
    ¬ ((lz77_read_header memTransport (memSession [0, 266]) 0 0).1.error = 0 ↔
        (10 ≤ (266 : Nat) ∧ (266 : Nat) ≤ 20)) := by
  decide

/-- C7, as amended.  For every pair of 64-bit words `(n, w)` delivered by the read callback
to a session with `error = 0`, read_header leaves `error` at 0 if and only if
`10 <= w mod 256 <= 20`, sets `error` to `EINVAL` otherwise, and returns `bytes = n` and
`window_bits = w mod 256`. -/
theorem read_header_validates_low_byte (n w : Nat) (hn : n < 2 ^ 64) (hw : w < 2 ^ 64)
    (lzr : lz77_t Mem) (rest : List Nat) (out_bytes out_window_bits : Nat)
    (hr : lzr.error = 0) (hin : lzr.that.input = n :: w :: rest) :
    ((lz77_read_header memTransport lzr out_bytes out_window_bits).1.error = 0 ↔
        (10 ≤ w % 256 ∧ w % 256 ≤ 20)) ∧
    (¬ (10 ≤ w % 256 ∧ w % 256 ≤ 20) →
      (lz77_read_header memTransport lzr out_bytes out_window_bits).1.error = EINVAL) ∧
    (lz77_read_header memTransport lzr out_bytes out_window_bits).2 = (n, w % 256) := by
  unfold lz77_read_header
  rw [if_neg (by simp [hr])]
  have hw2 : w % 2 ^ 64 = w := Nat.mod_eq_of_lt hw
  have hn2 : n % 2 ^ 64 = n := Nat.mod_eq_of_lt hn
  simp only [call_read, memTransport, hin, hr, hn2, hw2]
  by_cases hc : w % 256 < 10 ∨ w % 256 > 20
  · have hc2 : ¬ (10 ≤ w % 256 ∧ w % 256 ≤ 20) := by omega
    rw [if_pos hc]
    simp only [hc2, iff_false, not_false_eq_true, true_implies, and_true]
    simp [EINVAL]
  · have hc2 : (10 ≤ w % 256 ∧ w % 256 ≤ 20) := by omega
    rw [if_neg hc]
    simp only [hc2, iff_true, not_true, false_implies, and_true, true_and]
    simp

/-- Witness of the amended C7 at the words `(35, 266)`. -/
theorem read_header_validates_low_byte_witness :
    (35 : Nat) < 2 ^ 64 ∧ (266 : Nat) < 2 ^ 64 ∧ (memSession [35, 266]).error = 0 ∧
    (memSession [35, 266]).that.input = 35 :: 266 :: [] ∧
    (((lz77_read_header memTransport (memSession [35, 266]) 0 0).1.error = 0 ↔
        (10 ≤ 266 % 256 ∧ 266 % 256 ≤ 20)) ∧
    (¬ (10 ≤ 266 % 256 ∧ 266 % 256 ≤ 20) →
      (lz77_read_header memTransport (memSession [35, 266]) 0 0).1.error = EINVAL) ∧
    (lz77_read_header memTransport (memSession [35, 266]) 0 0).2 = (35, 266 % 256)) :=
  ⟨by decide, by decide, rfl, rfl,
    read_header_validates_low_byte 35 266 (by decide) (by decide) (memSession [35, 266]) [] 0 0
      rfl rfl⟩

theorem window_of_bits_large (wb : Nat) (h1 : 13 ≤ wb) (h2 : wb ≤ 20) :
    (4096 : Int) < toI32 ((1 <<< wb) % 2 ^ 64) := by
  interval_cases wb <;> simp [toI32]

theorem window_overflow {σ : Type} (tr : Transport σ) (lz : lz77_t σ) (data : Nat → Nat)
    (bytes wb fuel : Nat) (h0 : lz.error = 0) (h1 : 13 ≤ wb) (h2 : wb ≤ 20) :
    lz77_compress tr lz data bytes wb = .error .table ∧
    lz77_decompress tr fuel lz data bytes wb = .error .table := by
  have hc : ¬ (wb < 10 ∨ wb > 20) := by omega
  have hw := window_of_bits_large wb h1 h2
  refine ⟨?_, ?_⟩
  · unfold lz77_compress
    rw [if_neg (by simp [h0]), if_neg hc]
    rw [init_eq _ 0x80 (by omega) (by omega), except_bind_ok]
    rw [init_fault _ _ hw, except_bind_error]
  · unfold lz77_decompress
    rw [if_neg (by simp [h0]), if_neg hc]
    rw [init_eq _ 0x80 (by omega) (by omega), except_bind_ok]
    rw [init_fault _ _ hw, except_bind_error]

/-- C3 (the documented window sizes above 12 overrun the heap tables).  With
`window_bits = 13` the validation passes and `lz77_binheap_init` is asked for `2 ^ 13`
symbols: after 4096 insertions the heap is full, the next `lz77_binheap_add` runs with
`nc = 4096 = lz77_alphabet` and its first store `ns[nc]` lies outside the table, so compress
and decompress end in `Fault.table`; the same at `window_bits = 20`. -/
theorem window_bits_13_overruns_heap :
    lz77_binheap_init blankHeap (toI32 ((1 <<< 13) % 2 ^ 64)) = .error .table ∧
    lz77_binheap_add (idHeap 4096) 4096 = .error .table ∧
    lz77_compress memTransport (memSession []) (bufferOf []) 0 13 = .error .table ∧
    lz77_decompress memTransport 0 (memSession []) (bufferOf []) 0 13 = .error .table ∧
    lz77_compress memTransport (memSession []) (bufferOf []) 0 20 = .error .table ∧
    lz77_decompress memTransport 0 (memSession []) (bufferOf []) 0 20 = .error .table := by
  refine ⟨init_fault _ _ (window_of_bits_large 13 (by omega) (by omega)), ?_,
    (window_overflow memTransport _ _ 0 13 0 rfl (by omega) (by omega)).1,
    (window_overflow memTransport _ _ 0 13 0 rfl (by omega) (by omega)).2,
    (window_overflow memTransport _ _ 0 20 0 rfl (by omega) (by omega)).1,
    (window_overflow memTransport _ _ 0 20 0 rfl (by omega) (by omega)).2⟩
  simp only [lz77_binheap_add, idHeap, bind, Except.bind]
  rw [wr_fault _ _ _ (by omega)]

/-- The check of a decoded back-reference in the main loop of decompress: at every output
position `i < bytes`, when the two flag bits read as `1, 1` and the back-reference comes out
of the decoding as `(pos, len)` with `pos = 0`, `pos >= window` or `len = 0`, the loop
returns at once with `error = EINVAL` and the data buffer as it was. -/
theorem decoder_rejects_invalid_backref {σ : Type} (tr : Transport σ)
    (bytes window base fuel : Nat) (lz : lz77_t σ) (a : Acc) (data : Nat → Nat) (i pos len : Nat)
    (hi : i < bytes)
    (he0 : (lz77_read_bit tr lz a).1.error = 0)
    (hb0 : (lz77_read_bit tr lz a).2.2 ≠ 0)
    (he1 : (lz77_read_bit tr (lz77_read_bit tr lz a).1 (lz77_read_bit tr lz a).2.1).1.error = 0)
    (hb1 : (lz77_read_bit tr (lz77_read_bit tr lz a).1 (lz77_read_bit tr lz a).2.1).2.2 ≠ 0)
    (hd : backrefOf (lz77_decode_backref tr
      (lz77_read_bit tr (lz77_read_bit tr lz a).1 (lz77_read_bit tr lz a).2.1).1
      (lz77_read_bit tr (lz77_read_bit tr lz a).1 (lz77_read_bit tr lz a).2.1).2.1 base)
        = some (pos, len))
    (hbad : pos = 0 ∨ pos ≥ window ∨ len = 0) :
    ∃ lz', lz77_decompress_loop tr bytes window base (fuel + 1) lz a data i = .ok (lz', data) ∧
      lz'.error = EINVAL := by
  rw [lz77_decompress_loop, if_pos hi]
  dsimp only
  rw [if_neg (by simp [he0]), if_pos hb0, if_neg (by simp [he1]), if_pos hb1]
  cases hdec : lz77_decode_backref tr
      (lz77_read_bit tr (lz77_read_bit tr lz a).1 (lz77_read_bit tr lz a).2.1).1
      (lz77_read_bit tr (lz77_read_bit tr lz a).1 (lz77_read_bit tr lz a).2.1).2.1 base with
  | error e => rw [hdec] at hd; simp [backrefOf] at hd
  | ok d =>
    rw [hdec] at hd
    simp only [backrefOf] at hd
    rw [except_bind_ok]
    rw [hd]
    dsimp only
    by_cases hp : 0 < pos ∧ pos < window
    · have hl : len = 0 := by omega
      rw [if_neg (by simp [hp]), if_pos hl]
      exact ⟨_, rfl, rfl⟩
    · rw [if_pos hp]
      exact ⟨_, rfl, rfl⟩

theorem flush_mem_pad (lz : lz77_t Mem) (a : Acc) (h : WOk lz a) :
    ∃ k, k < 64 ∧ (a.bp + k) % 64 = 0 ∧
      wordsBits (lz77_flush memTransport lz a).that.output
        = wbits lz a ++ List.replicate k false := by
  have herr := h.err
  have hb := h.bp
  by_cases hbp : a.bp > 0
  · have e : lz77_flush memTransport lz a =
        { lz with that := { lz.that with output := lz.that.output ++ [a.b64] },
                  written := (lz.written + 8) % 2 ^ 64 } := by
      simp [lz77_flush, hbp, herr, call_write, memTransport]
    rw [e]
    refine ⟨64 - a.bp, by omega, by omega, ?_⟩
    simp only [wbits, wordsBits_append, wordsBits, List.append_nil, List.append_assoc]
    congr 1
    have e64 : 64 = a.bp + (64 - a.bp) := by omega
    conv_lhs => rw [e64]
    rw [bitsFrom_append]
    congr 1
    have := bitsFrom_zero_of_lt a.b64 a.bp h.b64 (64 - a.bp) 0
    simpa using this
  · have e : lz77_flush memTransport lz a = lz := by
      simp [lz77_flush, hbp]
    rw [e]
    have h0 : a.bp = 0 := by omega
    refine ⟨0, by omega, by omega, ?_⟩
    simp [wbits, h0, bitsFrom]

theorem rbits_length (lz : lz77_t Mem) (a : Acc) :
    (rbits lz a).length = (if a.bp = 0 then 0 else 64 - a.bp) + 64 * lz.that.input.length := by
  unfold rbits
  rw [List.length_append, wordsBits_length]
  split_ifs <;> simp [bitsFrom_length]

/-- C10 (varint round trip).  For every `uint64_t` value `v`, chunk width 2 or 4 and writer
state `(b64, bp)` with `bp <= 64` bits accumulated: write_number succeeds without error, and
a reader over the words emitted by write_number and flush, after reading the same `bp` bits
(which are the bits of `b64`), decodes with read_number exactly `v`, has then used up every
word, and stands at the bit position where the writer stood. -/
theorem varint_round_trip (v width : Nat) (hv : v < 2 ^ 64) (hw : width = 2 ∨ width = 4)
    (lzw : lz77_t Mem) (a : Acc) (h0 : lzw.error = 0) (hout : lzw.that.output = [])
    (hbp : a.bp ≤ 64) (hb64 : a.b64 < 2 ^ a.bp) :
    ∃ lz1 a1, lz77_write_number memTransport lzw a v width = .ok (lz1, a1) ∧ lz1.error = 0 ∧
      ∀ (lzr : lz77_t Mem), lzr.error = 0 →
        lzr.that.input = (lz77_flush memTransport lz1 a1).that.output →
        (lz77_read_bits memTransport lzr ⟨0, 0⟩ a.bp).2.2 = a.b64 ∧
        ∃ lz2 a2, lz77_read_number memTransport
            (lz77_read_bits memTransport lzr ⟨0, 0⟩ a.bp).1
            (lz77_read_bits memTransport lzr ⟨0, 0⟩ a.bp).2.1 width = .ok (lz2, a2, v) ∧
          lz2.error = 0 ∧ lz2.that.input = [] ∧ a2.bp = a1.bp % 64 := by
  have hwpos : 0 < width := by omega
  have hw64 : width ≤ 64 := by omega
  obtain ⟨lz1, a1, e1, w1⟩ := write_number_mem width v hwpos lzw a ⟨h0, hbp, hb64⟩ hv
  refine ⟨lz1, a1, e1, w1.ok.err, ?_⟩
  intro lzr hr hin
  obtain ⟨k, hk1, hk2, hk3⟩ := flush_mem_pad lz1 a1 w1.ok
  have hbits : rbits lzr ⟨0, 0⟩
      = bitsFrom a.b64 0 a.bp ++ (varint width v ++ List.replicate k false) := by
    simp only [rbits, if_true, List.nil_append]
    rw [hin, hk3, w1.bits]
    simp [wbits, hout, wordsBits]
  obtain ⟨lz3, a3, e3, t3⟩ := read_bits_mem a.b64 a.bp _ lzr ⟨0, 0⟩ ⟨hr, by simp⟩ hbits hbp
  obtain ⟨lz4, a4, e4, t4⟩ := read_number_mem width v hwpos hw64 _ lz3 a3 t3.ok hv t3.bits
  rw [e3]
  refine ⟨Nat.mod_eq_of_lt hb64, lz4, a4, e4, t4.ok.err, ?_, ?_⟩
  · have hl := rbits_length lz4 a4
    rw [t4.bits, List.length_replicate] at hl
    have : lz4.that.input.length = 0 := by
      split_ifs at hl <;> omega
    exact List.length_eq_zero.mp this
  · have hl := rbits_length lz4 a4
    rw [t4.bits, List.length_replicate] at hl
    have hb4 := t4.ok.bp
    have hb1 := w1.ok.bp
    split_ifs at hl with hz <;> omega

/-- Witness of C10 at `v = 300`, width 4, three bits accumulated. -/
theorem varint_round_trip_witness :
    (300 : Nat) < 2 ^ 64 ∧ ((4 : Nat) = 2 ∨ (4 : Nat) = 4) ∧ (memSession []).error = 0 ∧
    (memSession []).that.output = [] ∧ (⟨5, 3⟩ : Acc).bp ≤ 64 ∧
    (⟨5, 3⟩ : Acc).b64 < 2 ^ (⟨5, 3⟩ : Acc).bp ∧
    ∃ lz1 a1, lz77_write_number memTransport (memSession []) ⟨5, 3⟩ 300 4 = .ok (lz1, a1) ∧
      lz1.error = 0 ∧
      ∀ (lzr : lz77_t Mem), lzr.error = 0 →
        lzr.that.input = (lz77_flush memTransport lz1 a1).that.output →
        (lz77_read_bits memTransport lzr ⟨0, 0⟩ (⟨5, 3⟩ : Acc).bp).2.2 = (⟨5, 3⟩ : Acc).b64 ∧
        ∃ lz2 a2, lz77_read_number memTransport
            (lz77_read_bits memTransport lzr ⟨0, 0⟩ (⟨5, 3⟩ : Acc).bp).1
            (lz77_read_bits memTransport lzr ⟨0, 0⟩ (⟨5, 3⟩ : Acc).bp).2.1 4 = .ok (lz2, a2, 300) ∧
          lz2.error = 0 ∧ lz2.that.input = [] ∧ a2.bp = a1.bp % 64 :=
  ⟨by decide, Or.inr rfl, rfl, rfl, by decide, by decide,
    varint_round_trip 300 4 (by decide) (Or.inr rfl) (memSession []) ⟨5, 3⟩ rfl rfl
      (by decide) (by decide)⟩

/-- C1 (adaptive codec round trip).  For every byte list `B` (bytes below 256, length a
`size_t`) and every `window_bits` from `lz77_min_window` to `lz77_max_window`: compress on a
session with `error = 0` over the in-memory transport, whose write callback never fails and
appends each word to a list that starts empty, returns with `error = 0`; and decompress of
`B.length` bytes, on any session with `error = 0` whose read callback returns the emitted
words in order, ends within `B.length` iterations of its main loop with `error = 0` and the
buffer holding exactly `B`. -/
theorem adaptive_round_trip (B : List Nat) (window_bits : Nat) (hB : ∀ b, b ∈ B → b < 256)
    (hlen : B.length < 2 ^ 64) (h1 : lz77_min_window ≤ window_bits)
    (h2 : window_bits ≤ lz77_max_window)
    (lzc0 : lz77_t Mem) (hc0 : lzc0.error = 0) (hco : lzc0.that.output = []) :
    ∃ lzc, lz77_compress memTransport lzc0 (bufferOf B) B.length window_bits = .ok lzc ∧
      lzc.error = 0 ∧
      ∀ (fuel : Nat) (lzd0 : lz77_t Mem) (buf : Nat → Nat), B.length ≤ fuel → lzd0.error = 0 →
        lzd0.that.input = lzc.that.output →
        ∃ lzd out, lz77_decompress memTransport fuel lzd0 buf B.length window_bits
            = .ok (lzd, out) ∧
          lzd.error = 0 ∧ (List.range B.length).map out = B := by
  obtain ⟨lzc, e, herr, hd⟩ := roundtrip_core (bufferOf B) B.length window_bits h1 h2 hlen
    (bufferOf_lt B hB) lzc0 hc0 hco
  refine ⟨lzc, e, herr, ?_⟩
  intro fuel lzd0 buf hf hd0 hin
  obtain ⟨lzd, out, d1, d2, d3, _⟩ := hd fuel lzd0 buf hf hd0 hin
  exact ⟨lzd, out, d1, d2, map_range_eq B out d3⟩

/-- Witness of C1 at an eight byte input with a repeated run and bytes above `0x7F`. -/
theorem adaptive_round_trip_witness :
    (∀ b, b ∈ [72, 105, 200, 72, 105, 200, 72, 105] → b < 256) ∧
    [72, 105, 200, 72, 105, 200, 72, 105].length < 2 ^ 64 ∧
    lz77_min_window ≤ 10 ∧ 10 ≤ lz77_max_window ∧ (memSession []).error = 0 ∧
    (memSession []).that.output = [] ∧
    ∃ lzc, lz77_compress memTransport (memSession [])
        (bufferOf [72, 105, 200, 72, 105, 200, 72, 105])
        [72, 105, 200, 72, 105, 200, 72, 105].length 10 = .ok lzc ∧
      lzc.error = 0 ∧
      ∀ (fuel : Nat) (lzd0 : lz77_t Mem) (buf : Nat → Nat),
        [72, 105, 200, 72, 105, 200, 72, 105].length ≤ fuel → lzd0.error = 0 →
        lzd0.that.input = lzc.that.output →
        ∃ lzd out, lz77_decompress memTransport fuel lzd0 buf
            [72, 105, 200, 72, 105, 200, 72, 105].length 10 = .ok (lzd, out) ∧
          lzd.error = 0 ∧
          (List.range [72, 105, 200, 72, 105, 200, 72, 105].length).map out
            = [72, 105, 200, 72, 105, 200, 72, 105] :=
  ⟨by decide, by decide, by decide, by decide, rfl, rfl,
    adaptive_round_trip [72, 105, 200, 72, 105, 200, 72, 105] 10 (by decide) (by decide)
      (by decide) (by decide) (memSession []) rfl rfl⟩

theorem helloBytes_eq : helloBytes =
    [72, 101, 108, 108, 111, 32, 87, 111, 114, 108, 100, 32, 72, 101, 108, 108, 111, 46, 87, 111,
     114, 108, 100, 32, 72, 101, 108, 108, 111, 32, 87, 111, 114, 108, 100] := by
  decide

theorem outputIs_ok (lz : lz77_t Mem) (ws : List Nat) (written : Nat)
    (h : outputIs (.ok lz) ws written = true) :
    lz.error = 0 ∧ lz.that.output = ws ∧ lz.written = written := by
  simpa [outputIs, and_assoc] using h

set_option maxRecDepth 100000 in
theorem hello_eval :
    outputIs (lz77_compress_loop memTransport (bufferOf helloBytes) 35 (2 ^ 10) 4 35
      (reinit (memSession []) ((2 ^ 10 : Nat) : Int)) ⟨0, 0⟩ 0)
      [4746667691738875496, 16221227052956703690, 13573290769387724] 24 = true := by
  decide!

/-- C8 (scenario).  For the 35 bytes of `Hello World Hello.World Hello World` and
`window_bits = 10`, compress on a fresh session emits exactly three words, `written` grows by
24, which is below 35, and decompress of these words gives back the 35 bytes. -/
theorem scenario_hello_world :
    helloBytes.length = 35 ∧
    ∃ lzc, lz77_compress memTransport (memSession []) (bufferOf helloBytes) 35 10 = .ok lzc ∧
      lzc.error = 0 ∧
      lzc.that.output = [4746667691738875496, 16221227052956703690, 13573290769387724] ∧
      lzc.that.output.length = 3 ∧
      lzc.written = (memSession []).written + 24 ∧ 24 < 35 ∧
      ∀ (fuel : Nat) (buf : Nat → Nat), 35 ≤ fuel →
        ∃ lzd out, lz77_decompress memTransport fuel (memSession lzc.that.output) buf 35 10
            = .ok (lzd, out) ∧
          lzd.error = 0 ∧ (List.range 35).map out = helloBytes := by
  have hl : helloBytes.length = 35 := by decide
  have hb : ∀ b, b ∈ helloBytes → b < 256 := by decide
  have hd := bufferOf_lt helloBytes hb
  rw [hl] at hd
  obtain ⟨lzc, e, herr, hdec⟩ := roundtrip_core (bufferOf helloBytes) 35 10 (by omega) (by omega)
    (by omega) hd (memSession []) rfl rfl
  have hev := hello_eval
  rw [← compress_eq_loop memTransport (memSession []) (bufferOf helloBytes) 35 10 rfl
    (by omega) (by omega), e] at hev
  obtain ⟨_, ho, hw⟩ := outputIs_ok _ _ _ hev
  refine ⟨hl, lzc, e, herr, ho, by rw [ho]; rfl, by rw [hw]; rfl, by omega, ?_⟩
  intro fuel buf hf
  obtain ⟨lzd, out, d1, d2, d3, _⟩ := hdec fuel (memSession lzc.that.output) buf hf rfl rfl
  refine ⟨lzd, out, d1, d2, ?_⟩
  have := map_range_eq helloBytes out (by rw [hl]; exact d3)
  rw [hl] at this
  exact this

theorem bufferOf_replicate_zero (n : Nat) : bufferOf (List.replicate n 0) = fun _ => 0 := by
  funext i
  simp only [bufferOf, List.getD]
  by_cases h : i < n
  · simp [h]
  · simp [h]

set_option maxRecDepth 1000000 in
theorem zeros_eval :
    outputIs (lz77_compress_loop memTransport (fun _ => 0) 4096 (2 ^ 12) 4 4096
      (reinit (memSession []) ((2 ^ 12 : Nat) : Int)) ⟨0, 0⟩ 0)
      [1073612544] 8 = true := by
  decide!

set_option maxRecDepth 1000000 in
theorem zeros_match :
    lz77_match (fun _ => 0) 4096 4096 0 = (0, 0) ∧
    lz77_match (fun _ => 0) 4096 4096 1 = (0, 0) ∧
    lz77_match (fun _ => 0) 4096 4096 2 = (4094, 1) := by
  decide!

theorem zeros_tokens {σ : Type} (tr : Transport σ) (lz : lz77_t σ) (a : Acc) :
    lz77_compress_loop tr (fun _ => 0) 4096 4096 4 4096 lz a 0 =
      (do
        let e1 ← lz77_emit_literal tr lz a 0
        match e1.2 with
        | none => pure e1.1
        | some a1 => do
          let e2 ← lz77_emit_literal tr e1.1 a1 0
          match e2.2 with
          | none => pure e2.1
          | some a2 => do
            let e3 ← lz77_emit_backref tr e2.1 a2 1 4094 4096 4
            match e3.2 with
            | none => pure e3.1
            | some a3 => pure (lz77_flush tr e3.1 a3)) := by
  obtain ⟨m0, m1, m2⟩ := zeros_match
  have l3 : ∀ (lz : lz77_t σ) (a : Acc),
      lz77_compress_loop tr (fun _ => 0) 4096 4096 4 4093 lz a (2 + 4094)
        = .ok (lz77_flush tr lz a) := by
    intro lz a
    show lz77_compress_loop tr (fun _ => 0) 4096 4096 4 (4092 + 1) lz a (2 + 4094) = _
    rw [lz77_compress_loop, if_neg (by omega)]
  have l2 : ∀ (lz : lz77_t σ) (a : Acc),
      lz77_compress_loop tr (fun _ => 0) 4096 4096 4 4094 lz a (1 + 1) =
        (do
          let e3 ← lz77_emit_backref tr lz a 1 4094 4096 4
          match e3.2 with
          | none => pure e3.1
          | some a3 => pure (lz77_flush tr e3.1 a3)) := by
    intro lz a
    show lz77_compress_loop tr (fun _ => 0) 4096 4096 4 (4093 + 1) lz a 2 = _
    rw [lz77_compress_loop, if_pos (by omega)]
    dsimp only
    rw [m2]
    dsimp only
    rw [if_pos (by omega)]
    apply congrArg
    funext e
    cases h : e.2 with
    | none => rfl
    | some a3 => exact l3 e.1 a3
  have l1 : ∀ (lz : lz77_t σ) (a : Acc),
      lz77_compress_loop tr (fun _ => 0) 4096 4096 4 4095 lz a (0 + 1) =
        (do
          let e2 ← lz77_emit_literal tr lz a 0
          match e2.2 with
          | none => pure e2.1
          | some a2 => do
            let e3 ← lz77_emit_backref tr e2.1 a2 1 4094 4096 4
            match e3.2 with
            | none => pure e3.1
            | some a3 => pure (lz77_flush tr e3.1 a3)) := by
    intro lz a
    show lz77_compress_loop tr (fun _ => 0) 4096 4096 4 (4094 + 1) lz a 1 = _
    rw [lz77_compress_loop, if_pos (by omega)]
    dsimp only
    rw [m1]
    dsimp only
    rw [if_neg (by omega)]
    apply congrArg
    funext e
    cases h : e.2 with
    | none => rfl
    | some a2 => exact l2 e.1 a2
  show lz77_compress_loop tr (fun _ => 0) 4096 4096 4 (4095 + 1) lz a 0 = _
  rw [lz77_compress_loop, if_pos (by omega)]
  dsimp only
  rw [m0]
  dsimp only
  rw [if_neg (by omega)]
  apply congrArg
  funext e
  cases h : e.2 with
  | none => rfl
  | some a1 => exact l1 e.1 a1

/-- C9 (scenario).  For 4096 zero bytes and `window_bits = 12`, compress on a session with
`error = 0` is, for every transport, the initialisation of the three heaps followed by two
literal tokens for the byte 0, one back-reference of distance 1 and length 4094 and the final
flush; on a fresh session over the in-memory transport it emits the single word
`1073612544`, `written` grows by 8, and decompress of that word gives back 4096 zero bytes. -/
theorem scenario_zero_bytes :
    (∀ {σ : Type} (tr : Transport σ) (lz : lz77_t σ), lz.error = 0 →
      lz77_compress tr lz (bufferOf (List.replicate 4096 0)) 4096 12 =
        (do
          let e1 ← lz77_emit_literal tr (reinit lz 4096) ⟨0, 0⟩ 0
          match e1.2 with
          | none => pure e1.1
          | some a1 => do
            let e2 ← lz77_emit_literal tr e1.1 a1 0
            match e2.2 with
            | none => pure e2.1
            | some a2 => do
              let e3 ← lz77_emit_backref tr e2.1 a2 1 4094 4096 4
              match e3.2 with
              | none => pure e3.1
              | some a3 => pure (lz77_flush tr e3.1 a3))) ∧
    ∃ lzc, lz77_compress memTransport (memSession []) (bufferOf (List.replicate 4096 0)) 4096 12
        = .ok lzc ∧
      lzc.error = 0 ∧ lzc.that.output = [1073612544] ∧
      lzc.written = (memSession []).written + 8 ∧
      ∀ (fuel : Nat) (buf : Nat → Nat), 4096 ≤ fuel →
        ∃ lzd out, lz77_decompress memTransport fuel (memSession lzc.that.output) buf 4096 12
            = .ok (lzd, out) ∧
          lzd.error = 0 ∧ (List.range 4096).map out = List.replicate 4096 0 := by
  rw [bufferOf_replicate_zero]
  refine ⟨fun tr lz h0 => ?_, ?_⟩
  · rw [compress_eq_loop tr lz (fun _ => 0) 4096 12 h0 (by omega) (by omega)]
    have e1 : (2 : Nat) ^ 12 = 4096 := by norm_num
    have e2 : (((2 : Nat) ^ 12 : Nat) : Int) = 4096 := by norm_num
    rw [e2, e1]
    exact zeros_tokens tr (reinit lz 4096) ⟨0, 0⟩
  · obtain ⟨lzc, e, herr, hdec⟩ := roundtrip_core (fun _ => 0) 4096 12 (by omega) (by omega)
      (by omega) (fun _ _ => by simp) (memSession []) rfl rfl
    have hev := zeros_eval
    rw [← compress_eq_loop memTransport (memSession []) (fun _ => 0) 4096 12 rfl
      (by omega) (by omega), e] at hev
    obtain ⟨_, ho, hw⟩ := outputIs_ok _ _ _ hev
    refine ⟨lzc, e, herr, ho, by rw [hw]; rfl, ?_⟩
    intro fuel buf hf
    obtain ⟨lzd, out, d1, d2, d3, _⟩ := hdec fuel (memSession lzc.that.output) buf hf rfl rfl
    refine ⟨lzd, out, d1, d2, ?_⟩
    have hl : (List.replicate 4096 0 : List Nat).length = 4096 := List.length_replicate _ _
    have := map_range_eq (List.replicate 4096 0) out (by
      rw [hl, bufferOf_replicate_zero]; exact d3)
    rw [hl] at this
    exact this

/-! ## Heap order and index consistency -/

theorem swapHeap_ns (t : lz77_binheap_t) (a b j : Int) :
    (swapHeap t a b).ns j = if j = b then t.ns a else if j = a then t.ns b else t.ns j := by
  simp only [swapHeap, Function.update_apply]

theorem up_heapify_loop_ord (n : Int) : ∀ (fuel : Nat) (t : lz77_binheap_t) (ix : Int),
    HInv t n → 0 ≤ ix → ix < n → ix.toNat ≤ fuel → AlmostOrd t ix →
    ∃ t' r, lz77_binheap_up_heapify_loop fuel t ix = .ok (t', r) ∧ HInv t' n ∧ t'.fq = t.fq
      ∧ HeapOrd t' := by
  intro fuel
  induction fuel with
  | zero =>
    intro t ix h h0 h1 hf ha
    have : ix = 0 := by omega
    subst this
    refine ⟨t, 0, by simp [lz77_binheap_up_heapify_loop], h, rfl, ?_⟩
    intro j hj0 hj1
    exact ha.other j hj0 hj1 (by omega)
  | succ f ih =>
    intro t ix h h0 h1 hf ha
    have hn := h.hi
    have hnc := h.nc
    unfold lz77_binheap_up_heapify_loop
    by_cases hpos : ix > 0
    · rw [if_pos hpos]
      have hp0 : 0 ≤ (ix - 1) / 2 := by omega
      have hp1 : (ix - 1) / 2 < ix := by omega
      have hsp := h.ns_lt _ hp0 (by omega)
      have hsi := h.ns_lt ix h0 h1
      simp only [bind, Except.bind]
      rw [rd_ok _ _ hp0 (by omega)]
      simp only []
      rw [rd_ok _ _ hsp.1 (by omega)]
      simp only []
      rw [rd_ok _ _ h0 (by omega)]
      simp only []
      rw [rd_ok _ _ hsi.1 (by omega)]
      simp only []
      split_ifs with hge
      · refine ⟨t, ix, rfl, h, rfl, ?_⟩
        intro j hj0 hj1
        by_cases e : j = ix
        · subst e; exact hge
        · exact ha.other j hj0 hj1 e
      · rw [swap_eq t n ix _ h h0 h1 hp0 (by omega)]
        simp only []
        have hlt : t.fq (t.ns ((ix - 1) / 2)) < t.fq (t.ns ix) := by
          simpa using hge
        have ha2 : AlmostOrd (swapHeap t ix ((ix - 1) / 2)) ((ix - 1) / 2) := by
          constructor
          · intro j hj0 hj1 hjp
            simp only [swapHeap_nc] at hj1
            simp only [swapHeap_fq, swapHeap_ns]
            rw [if_neg hjp]
            by_cases e1 : j = ix
            · subst e1
              rw [if_pos rfl, if_pos rfl]
              omega
            · rw [if_neg e1]
              by_cases e2 : (j - 1) / 2 = (ix - 1) / 2
              · rw [if_pos e2]
                have := ha.other j hj0 hj1 e1
                rw [e2] at this
                omega
              · rw [if_neg e2]
                by_cases e3 : (j - 1) / 2 = ix
                · rw [if_pos e3]
                  exact ha.child hpos j hj0 hj1 e3
                · rw [if_neg e3]
                  exact ha.other j hj0 hj1 e1
          · intro hp j hj0 hj1 hjp
            simp only [swapHeap_nc] at hj1
            simp only [swapHeap_fq, swapHeap_ns]
            have n1 : ¬ ((ix - 1) / 2 - 1) / 2 = (ix - 1) / 2 := by omega
            have n2 : ¬ ((ix - 1) / 2 - 1) / 2 = ix := by omega
            rw [if_neg n1, if_neg n2]
            have n3 : ¬ j = (ix - 1) / 2 := by omega
            rw [if_neg n3]
            have hpo := ha.other ((ix - 1) / 2) hp (by omega) (by omega)
            by_cases e1 : j = ix
            · rw [if_pos e1]
              exact hpo
            · rw [if_neg e1]
              have := ha.other j hj0 hj1 e1
              rw [hjp] at this
              omega
        obtain ⟨t', r, e, hi', hfq, ho⟩ :=
          ih (swapHeap t ix ((ix - 1) / 2)) ((ix - 1) / 2)
            (swap_inv t n ix _ h h0 h1 hp0 (by omega)) hp0 (by omega) (by omega) ha2
        exact ⟨t', r, e, hi', by rw [hfq]; rfl, ho⟩
    · rw [if_neg hpos]
      refine ⟨t, ix, rfl, h, rfl, ?_⟩
      intro j hj0 hj1
      exact ha.other j hj0 hj1 (by omega)

theorem inc_freq_ord (t : lz77_binheap_t) (n s : Int) (h : HInv t n) (h0 : 0 ≤ s) (h1 : s < n)
    (ho : HeapOrd t) (hw : t.fq s + 1 < 2 ^ 64) :
    ∃ t' r, lz77_binheap_inc_freq t s = .ok (t', r) ∧ HInv t' n ∧ HeapOrd t' ∧
      t'.fq = Function.update t.fq s (t.fq s + 1) := by
  have hn := h.hi
  have hnc := h.nc
  have hx := h.sx_lt s h0 h1
  have hns := h.ns_sx s h0 h1
  unfold lz77_binheap_inc_freq lz77_binheap_up_heapify
  simp only [bind, Except.bind]
  rw [rd_ok _ _ h0 (by omega)]
  simp only []
  rw [rd_ok _ _ h0 (by omega)]
  simp only []
  rw [Nat.mod_eq_of_lt hw]
  have h2 : HInv { t with fq := Function.update t.fq s (t.fq s + 1) } n :=
    ⟨h.nc, h.lo, h.hi, h.ns_lt, h.sx_ns, h.sx_lt, h.ns_sx⟩
  have hup : ∀ j, t.fq (t.ns j) ≤ Function.update t.fq s (t.fq s + 1) (t.ns j) := by
    intro j
    simp only [Function.update_apply]
    split_ifs with e
    · rw [e]; omega
    · exact le_refl _
  have hne : ∀ j, 0 ≤ j → j < n → j ≠ t.sx s →
      Function.update t.fq s (t.fq s + 1) (t.ns j) = t.fq (t.ns j) := by
    intro j hj0 hj1 hj
    simp only [Function.update_apply]
    rw [if_neg]
    intro e
    apply hj
    rw [← e, h.sx_ns j hj0 hj1]
  have ha : AlmostOrd { t with fq := Function.update t.fq s (t.fq s + 1) } (t.sx s) := by
    constructor
    · intro j hj0 hj1 hj
      simp only [] at hj1 ⊢
      rw [hne j (by omega) (by omega) hj]
      exact le_trans (ho j hj0 hj1) (hup _)
    · intro hp j hj0 hj1 hj
      simp only [] at hj1 ⊢
      have hjne : j ≠ t.sx s := by omega
      rw [hne j (by omega) (by omega) hjne]
      have a1 := ho j hj0 hj1
      rw [hj, hns] at a1
      have a2 := ho (t.sx s) hp (by omega)
      rw [hns] at a2
      exact le_trans (le_trans a1 a2) (hup _)
  obtain ⟨t', r, e, hi', hfq, ho'⟩ := up_heapify_loop_ord n _ _ (t.sx s) h2 hx.1 hx.2 (le_refl _) ha
  exact ⟨t', r, e, hi', ho', hfq⟩

theorem inc_freq_all_inv (n : Int) : ∀ (ss : List Int) (t : lz77_binheap_t), HInv t n →
    (∀ s, s ∈ ss → 0 ≤ s ∧ s < n) →
    ∃ t', inc_freq_all t ss = .ok t' ∧ HInv t' n := by
  intro ss
  induction ss with
  | nil => intro t h _; exact ⟨t, rfl, h⟩
  | cons s ss ih =>
    intro t h hs
    obtain ⟨t1, r, e, h1⟩ := inc_freq_ok t n s h (hs s (List.mem_cons_self _ _)).1
      (hs s (List.mem_cons_self _ _)).2
    obtain ⟨t', e', h'⟩ := ih t1 h1 (fun x hx => hs x (List.mem_cons_of_mem _ hx))
    refine ⟨t', ?_, h'⟩
    rw [inc_freq_all, e, except_bind_ok]
    exact e'

theorem inc_freq_all_ord (n : Int) : ∀ (ss : List Int) (t : lz77_binheap_t), HInv t n →
    HeapOrd t → (∀ s, s ∈ ss → 0 ≤ s ∧ s < n) → (∀ s, t.fq s + ss.count s < 2 ^ 64) →
    ∃ t', inc_freq_all t ss = .ok t' ∧ HInv t' n ∧ HeapOrd t' := by
  intro ss
  induction ss with
  | nil => intro t h ho _ _; exact ⟨t, rfl, h, ho⟩
  | cons s ss ih =>
    intro t h ho hs hc
    have hcs := hc s
    rw [List.count_cons_self] at hcs
    obtain ⟨t1, r, e, h1, ho1, hfq⟩ := inc_freq_ord t n s h (hs s (List.mem_cons_self _ _)).1
      (hs s (List.mem_cons_self _ _)).2 ho (by omega)
    obtain ⟨t', e', h', ho'⟩ := ih t1 h1 ho1 (fun x hx => hs x (List.mem_cons_of_mem _ hx))
      (by
        intro x
        rw [hfq]
        simp only [Function.update_apply]
        have hcx := hc x
        by_cases ex : x = s
        · subst ex
          rw [if_pos rfl]
          omega
        · rw [if_neg ex]
          rw [List.count_cons_of_ne (fun e => ex e)] at hcx
          exact hcx)
    refine ⟨t', ?_, h', ho'⟩
    rw [inc_freq_all, e, except_bind_ok]
    exact e'

theorem idHeap_ord (n : Int) : HeapOrd (idHeap n) := by
  intro ix _ _
  simp [idHeap]

theorem heap_after_eq (n : Int) (ss : List Int) (h0 : 0 ≤ n) (h1 : n ≤ 4096) :
    heap_after n ss = inc_freq_all (idHeap n) ss := by
  unfold heap_after
  rw [init_eq _ n h0 h1, except_bind_ok]

theorem inc_freq_root (t : lz77_binheap_t) (s : Int) (h0 : 0 ≤ s) (h1 : s < 4096)
    (hr : t.sx s = 0) :
    lz77_binheap_inc_freq t s
      = .ok ({ t with fq := Function.update t.fq s ((t.fq s + 1) % 2 ^ 64) }, 0) := by
  unfold lz77_binheap_inc_freq lz77_binheap_up_heapify
  rw [rd_ok _ _ h0 h1, except_bind_ok, rd_ok _ _ h0 h1, except_bind_ok, hr]
  simp [lz77_binheap_up_heapify_loop]

theorem inc_freq_all_root (s : Int) (h0 : 0 ≤ s) (h1 : s < 4096) : ∀ (k : Nat)
    (t : lz77_binheap_t), t.sx s = 0 → t.fq s < 2 ^ 64 →
    ∃ t', inc_freq_all t (List.replicate k s) = .ok t' ∧ t'.ns = t.ns ∧ t'.sx = t.sx ∧
      t'.nc = t.nc ∧ t'.fq s = (t.fq s + k) % 2 ^ 64 ∧ ∀ x, x ≠ s → t'.fq x = t.fq x := by
  intro k
  induction k with
  | zero =>
    intro t _ hf
    exact ⟨t, rfl, rfl, rfl, rfl, by rw [Nat.add_zero, Nat.mod_eq_of_lt hf], fun _ _ => rfl⟩
  | succ k ih =>
    intro t hr hf
    obtain ⟨t', e, a1, a2, a3, a4, a5⟩ :=
      ih { t with fq := Function.update t.fq s ((t.fq s + 1) % 2 ^ 64) } hr
        (by simp only [Function.update_same]; exact Nat.mod_lt _ (by positivity))
    refine ⟨t', ?_, a1, a2, a3, ?_, ?_⟩
    · rw [List.replicate_succ, inc_freq_all, inc_freq_root t s h0 h1 hr, except_bind_ok]
      exact e
    · rw [a4]
      simp only [Function.update_same]
      omega
    · intro x hx
      rw [a5 x hx]
      simp only [Function.update_apply, if_neg hx]

theorem inc_freq_second :
    lz77_binheap_inc_freq { idHeap 2 with fq := Function.update (idHeap 2).fq 0 1 } 1
      = .ok ({ idHeap 2 with fq := Function.update (Function.update (idHeap 2).fq 0 1) 1 1 }, 1) := by
  unfold lz77_binheap_inc_freq lz77_binheap_up_heapify
  rw [rd_ok _ _ (by omega) (by omega), except_bind_ok, rd_ok _ _ (by omega) (by omega),
    except_bind_ok]
  have e1 : (idHeap 2).sx 1 = 1 := by simp [idHeap]
  simp only [e1]
  have e2 : (1 : Int).toNat = 1 := rfl
  rw [e2]
  unfold lz77_binheap_up_heapify_loop
  rw [if_pos (by omega)]
  simp only []
  rw [rd_ok _ _ (by omega) (by omega), except_bind_ok]
  have e3 : (idHeap 2).ns ((1 - 1) / 2) = 0 := by simp [idHeap]
  have e4 : (idHeap 2).ns 1 = 1 := by simp [idHeap]
  rw [e3, rd_ok _ _ (by omega) (by omega), except_bind_ok, rd_ok _ _ (by omega) (by omega),
    except_bind_ok, e4, rd_ok _ _ (by omega) (by omega), except_bind_ok]
  simp [idHeap, Function.update_apply]

/-- C11, counterexample.  Two symbols; bump symbol 0, bump symbol 1, then bump symbol 0 a
further `2 ^ 64 - 1` times: the `uint64_t` frequency of symbol 0, which sits in the root
slot throughout, wraps around to 0 while symbol 1 in slot 1 keeps frequency 1, so the
non-root slot 1 holds a symbol more frequent than its parent's. -/
theorem heap_order_lost_after_wrap :
    ∃ t, heap_after 2 (0 :: 1 :: List.replicate (2 ^ 64 - 1) 0) = .ok t ∧ t.nc = 2 ∧
      t.ns 0 = 0 ∧ t.ns 1 = 1 ∧ t.fq 0 = 0 ∧ t.fq 1 = 1 ∧
      ¬ (t.fq (t.ns 1) ≤ t.fq (t.ns ((1 - 1) / 2))) := by
  obtain ⟨t, e, a1, a2, a3, a4, a5⟩ := inc_freq_all_root 0 (by omega) (by omega) (2 ^ 64 - 1)
    { idHeap 2 with fq := Function.update (Function.update (idHeap 2).fq 0 1) 1 1 }
    (by simp [idHeap]) (by simp [idHeap, Function.update_apply])
  have f0 : t.fq 0 = 0 := by
    rw [a4]
    simp [idHeap, Function.update_apply]
  have f1 : t.fq 1 = 1 := by
    rw [a5 1 (by omega)]
    simp [Function.update_apply]
  have n0 : t.ns 0 = 0 := by rw [a1]; simp [idHeap]
  have n1 : t.ns 1 = 1 := by rw [a1]; simp [idHeap]
  refine ⟨t, ?_, by rw [a3]; rfl, n0, n1, f0, f1, ?_⟩
  · rw [heap_after_eq 2 _ (by omega) (by omega), inc_freq_all,
      inc_freq_root (idHeap 2) 0 (by omega) (by omega) (by simp [idHeap]), except_bind_ok]
    have e0 : (((idHeap 2).fq 0 + 1) % 2 ^ 64) = 1 := by simp [idHeap]
    simp only [e0]
    rw [inc_freq_all, inc_freq_second, except_bind_ok]
    exact e
  · have e2 : ((1 : Int) - 1) / 2 = 0 := by omega
    rw [e2, n0, n1, f0, f1]
    omega

/-- C11, as amended.  For every symbol count `n` from 1 to `lz77_alphabet` and every finite
sequence of symbols, each in `[0, n)` and none occurring `2 ^ 64` times or more (so that no
`uint64_t` frequency wraps around): `lz77_binheap_init` for `n` symbols followed by
`lz77_binheap_inc_freq` on the symbols in order runs inside the tables, leaves `nc = n`,
and every non-root slot `ix < nc` satisfies `fq[ns[ix]] <= fq[ns[(ix - 1) / 2]]`. -/
theorem heap_order_invariant (n : Int) (ss : List Int) (hn1 : 1 ≤ n) (hn2 : n ≤ lz77_alphabet)
    (hs : ∀ s, s ∈ ss → 0 ≤ s ∧ s < n) (hc : ∀ s, ss.count s < 2 ^ 64) :
    ∃ t, heap_after n ss = .ok t ∧ t.nc = n ∧
      ∀ ix, 0 < ix → ix < t.nc → t.fq (t.ns ix) ≤ t.fq (t.ns ((ix - 1) / 2)) := by
  rw [lz77_alphabet_eq] at hn2
  obtain ⟨t, e, h, ho⟩ := inc_freq_all_ord n ss (idHeap n) (idHeap_inv n (by omega) hn2)
    (idHeap_ord n) hs (by intro s; simpa [idHeap] using hc s)
  exact ⟨t, by rw [heap_after_eq n ss (by omega) hn2]; exact e, h.nc, ho⟩

/-- Witness of C11 (amended) at three symbols and the bumps 2, 2, 1. -/
theorem heap_order_invariant_witness :
    (1 : Int) ≤ 3 ∧ (3 : Int) ≤ lz77_alphabet ∧ (∀ s, s ∈ [(2 : Int), 2, 1] → 0 ≤ s ∧ s < 3) ∧
    (∀ s, [(2 : Int), 2, 1].count s < 2 ^ 64) ∧
    ∃ t, heap_after 3 [2, 2, 1] = .ok t ∧ t.nc = 3 ∧
      ∀ ix, 0 < ix → ix < t.nc → t.fq (t.ns ix) ≤ t.fq (t.ns ((ix - 1) / 2)) :=
  ⟨by decide, by decide, by decide,
    fun s => lt_of_le_of_lt (List.count_le_length s [(2 : Int), 2, 1]) (by decide),
    heap_order_invariant 3 [2, 2, 1] (by decide) (by decide) (by decide)
      (fun s => lt_of_le_of_lt (List.count_le_length s [(2 : Int), 2, 1]) (by decide))⟩

/-- C12 (heap index consistency).  For every symbol count `n` within the table capacity
and every finite sequence of symbols in `[0, n)`: `lz77_binheap_init` for `n` symbols
followed by `lz77_binheap_inc_freq` on the symbols in order runs inside the tables and
leaves `nc = n` with `ns` and `sx` mutually inverse permutations of `0..n-1`: for every
symbol `s < n`, `sx[s]` is a slot below `n` and `ns[sx[s]] = s`; for every slot `ix < n`,
`ns[ix]` is a symbol below `n` and `sx[ns[ix]] = ix`. -/
theorem heap_index_consistency (n : Int) (ss : List Int) (hn0 : 0 ≤ n) (hn2 : n ≤ lz77_alphabet)
    (hs : ∀ s, s ∈ ss → 0 ≤ s ∧ s < n) :
    ∃ t, heap_after n ss = .ok t ∧ t.nc = n ∧
      (∀ s, 0 ≤ s → s < n → 0 ≤ t.sx s ∧ t.sx s < n ∧ t.ns (t.sx s) = s) ∧
      (∀ ix, 0 ≤ ix → ix < n → 0 ≤ t.ns ix ∧ t.ns ix < n ∧ t.sx (t.ns ix) = ix) := by
  rw [lz77_alphabet_eq] at hn2
  obtain ⟨t, e, h⟩ := inc_freq_all_inv n ss (idHeap n) (idHeap_inv n hn0 hn2) hs
  refine ⟨t, by rw [heap_after_eq n ss hn0 hn2]; exact e, h.nc, ?_, ?_⟩
  · intro s h0 h1
    exact ⟨(h.sx_lt s h0 h1).1, (h.sx_lt s h0 h1).2, h.ns_sx s h0 h1⟩
  · intro ix h0 h1
    exact ⟨(h.ns_lt ix h0 h1).1, (h.ns_lt ix h0 h1).2, h.sx_ns ix h0 h1⟩

/-- Witness of C12 at three symbols and the bumps 2, 2, 1. -/
theorem heap_index_consistency_witness :
    (0 : Int) ≤ 3 ∧ (3 : Int) ≤ lz77_alphabet ∧ (∀ s, s ∈ [(2 : Int), 2, 1] → 0 ≤ s ∧ s < 3) ∧
    ∃ t, heap_after 3 [2, 2, 1] = .ok t ∧ t.nc = 3 ∧
      (∀ s, 0 ≤ s → s < 3 → 0 ≤ t.sx s ∧ t.sx s < 3 ∧ t.ns (t.sx s) = s) ∧
      (∀ ix, 0 ≤ ix → ix < 3 → 0 ≤ t.ns ix ∧ t.ns ix < 3 ∧ t.sx (t.ns ix) = ix) :=
  ⟨by decide, by decide, by decide,
    heap_index_consistency 3 [2, 2, 1] (by decide) (by decide) (by decide)⟩

/-- C20 (heap initial arrangement).  For every `n` from 0 to `lz77_alphabet`,
`lz77_binheap_init` for `n` symbols runs inside the tables and leaves `nc = n`, `ns[i] = i`
and `sx[i] = i` for every `i < n`, and `fq[s] = 0` for every symbol `s`; and for every
`s < n` the insertion of `s` during that run, which starts from the heap `h` reached after
the insertions of `0..s-1` and is followed by the insertions of `s+1..n-1`, returns `s`, the
slot `h.nc` it stored the symbol at. -/
theorem heap_initial_arrangement (n : Int) (hn0 : 0 ≤ n) (hn2 : n ≤ lz77_alphabet)
    (t0 : lz77_binheap_t) :
    ∃ t, lz77_binheap_init t0 n = .ok t ∧ t.nc = n ∧
      (∀ i, 0 ≤ i → i < n → t.ns i = i ∧ t.sx i = i) ∧ (∀ s, t.fq s = 0) ∧
      ∀ s, 0 ≤ s → s < n → ∃ h h', lz77_binheap_init t0 s = .ok h ∧ h.nc = s ∧
        lz77_binheap_add h s = .ok (h', s) ∧
        lz77_binheap_init_loop (n - (s + 1)).toNat (s + 1) h' = .ok t := by
  rw [lz77_alphabet_eq] at hn2
  refine ⟨idHeap n, init_eq t0 n hn0 hn2, rfl, ?_, fun _ => rfl, ?_⟩
  · intro i h0 h1
    simp [idHeap, h0, h1]
  · intro s h0 h1
    refine ⟨idHeap s, idHeap (s + 1), init_eq t0 s h0 (by omega), rfl,
      add_idHeap s h0 (by omega), ?_⟩
    rw [init_loop_idHeap _ (s + 1) (by omega) (by omega)]
    congr 2
    omega

/-- Witness of C20 at `n = 3`. -/
theorem heap_initial_arrangement_witness :
    (0 : Int) ≤ 3 ∧ (3 : Int) ≤ lz77_alphabet ∧
    ∃ t, lz77_binheap_init blankHeap 3 = .ok t ∧ t.nc = 3 ∧
      (∀ i, 0 ≤ i → i < 3 → t.ns i = i ∧ t.sx i = i) ∧ (∀ s, t.fq s = 0) ∧
      ∀ s, 0 ≤ s → s < 3 → ∃ h h', lz77_binheap_init blankHeap s = .ok h ∧ h.nc = s ∧
        lz77_binheap_add h s = .ok (h', s) ∧
        lz77_binheap_init_loop (3 - (s + 1)).toNat (s + 1) h' = .ok t :=
  ⟨by decide, by decide, heap_initial_arrangement 3 (by decide) (by decide) blankHeap⟩

/-! ## Heap synchronisation, copy, match selection -/

/-- C13 (encoder and decoder heaps stay synchronised).  For every byte list `B` (bytes
below 256, length a `size_t`) and `window_bits` in 10..12: after compress of `B` in one
session over the in-memory transport, and decompress of the emitted words in any other
session with `error = 0` (whose heaps hold anything: decompress initialises them itself),
both runs return and the literal, the distance and the length heap of the decoder session
are equal to those of the encoder session, that is in each of `ns`, `sx`, `fq` and `nc`. -/
theorem heaps_synchronised (B : List Nat) (window_bits : Nat) (hB : ∀ b, b ∈ B → b < 256)
    (hlen : B.length < 2 ^ 64) (h1 : 10 ≤ window_bits) (h2 : window_bits ≤ 12)
    (lzc0 : lz77_t Mem) (hc0 : lzc0.error = 0) (hco : lzc0.that.output = []) :
    ∃ lzc, lz77_compress memTransport lzc0 (bufferOf B) B.length window_bits = .ok lzc ∧
      ∀ (fuel : Nat) (lzd0 : lz77_t Mem) (buf : Nat → Nat), B.length ≤ fuel → lzd0.error = 0 →
        lzd0.that.input = lzc.that.output →
        ∃ lzd out, lz77_decompress memTransport fuel lzd0 buf B.length window_bits
            = .ok (lzd, out) ∧
          (lzd.bh_txt.ns = lzc.bh_txt.ns ∧ lzd.bh_txt.sx = lzc.bh_txt.sx ∧
            lzd.bh_txt.fq = lzc.bh_txt.fq ∧ lzd.bh_txt.nc = lzc.bh_txt.nc) ∧
          (lzd.bh_pos.ns = lzc.bh_pos.ns ∧ lzd.bh_pos.sx = lzc.bh_pos.sx ∧
            lzd.bh_pos.fq = lzc.bh_pos.fq ∧ lzd.bh_pos.nc = lzc.bh_pos.nc) ∧
          (lzd.bh_len.ns = lzc.bh_len.ns ∧ lzd.bh_len.sx = lzc.bh_len.sx ∧
            lzd.bh_len.fq = lzc.bh_len.fq ∧ lzd.bh_len.nc = lzc.bh_len.nc) := by
  obtain ⟨lzc, e, _, hd⟩ := roundtrip_core (bufferOf B) B.length window_bits h1 h2 hlen
    (bufferOf_lt B hB) lzc0 hc0 hco
  refine ⟨lzc, e, ?_⟩
  intro fuel lzd0 buf hf hd0 hin
  obtain ⟨lzd, out, d1, _, _, _, d5, d6, d7⟩ := hd fuel lzd0 buf hf hd0 hin
  exact ⟨lzd, out, d1, by rw [d5]; exact ⟨rfl, rfl, rfl, rfl⟩,
    by rw [d6]; exact ⟨rfl, rfl, rfl, rfl⟩, by rw [d7]; exact ⟨rfl, rfl, rfl, rfl⟩⟩

/-- Witness of C13 at an eight byte input with a repeated run and bytes above `0x7F`. -/
theorem heaps_synchronised_witness :
    (∀ b, b ∈ [72, 105, 200, 72, 105, 200, 72, 105] → b < 256) ∧
    [72, 105, 200, 72, 105, 200, 72, 105].length < 2 ^ 64 ∧
    10 ≤ 11 ∧ 11 ≤ 12 ∧ (memSession []).error = 0 ∧ (memSession []).that.output = [] ∧
    ∃ lzc, lz77_compress memTransport (memSession [])
        (bufferOf [72, 105, 200, 72, 105, 200, 72, 105])
        [72, 105, 200, 72, 105, 200, 72, 105].length 11 = .ok lzc ∧
      ∀ (fuel : Nat) (lzd0 : lz77_t Mem) (buf : Nat → Nat),
        [72, 105, 200, 72, 105, 200, 72, 105].length ≤ fuel → lzd0.error = 0 →
        lzd0.that.input = lzc.that.output →
        ∃ lzd out, lz77_decompress memTransport fuel lzd0 buf
            [72, 105, 200, 72, 105, 200, 72, 105].length 11 = .ok (lzd, out) ∧
          (lzd.bh_txt.ns = lzc.bh_txt.ns ∧ lzd.bh_txt.sx = lzc.bh_txt.sx ∧
            lzd.bh_txt.fq = lzc.bh_txt.fq ∧ lzd.bh_txt.nc = lzc.bh_txt.nc) ∧
          (lzd.bh_pos.ns = lzc.bh_pos.ns ∧ lzd.bh_pos.sx = lzc.bh_pos.sx ∧
            lzd.bh_pos.fq = lzc.bh_pos.fq ∧ lzd.bh_pos.nc = lzc.bh_pos.nc) ∧
          (lzd.bh_len.ns = lzc.bh_len.ns ∧ lzd.bh_len.sx = lzc.bh_len.sx ∧
            lzd.bh_len.fq = lzc.bh_len.fq ∧ lzd.bh_len.nc = lzc.bh_len.nc) :=
  ⟨by decide, by decide, by decide, by decide, rfl, rfl,
    heaps_synchronised [72, 105, 200, 72, 105, 200, 72, 105] 11 (by decide) (by decide)
      (by decide) (by decide) (memSession []) rfl rfl⟩

theorem succ_mod_cases (k d : Nat) (hd : 0 < d) :
    (k % d + 1 = d ∧ (k + 1) % d = 0) ∨ (k % d + 1 < d ∧ (k + 1) % d = k % d + 1) := by
  have h := Nat.mod_lt k hd
  have e : (k + 1) % d = (k % d + 1) % d := by
    rw [Nat.add_mod]
    by_cases h1 : d = 1
    · subst h1; simp
    · have : 1 % d = 1 := Nat.mod_eq_of_lt (by omega)
      rw [this]
  by_cases c : k % d + 1 = d
  · left
    refine ⟨c, ?_⟩
    rw [e, c, Nat.mod_self]
  · right
    refine ⟨by omega, ?_⟩
    rw [e, Nat.mod_eq_of_lt (by omega)]

theorem copy_loop_overlap (bytes d : Nat) (hd : 0 < d) : ∀ (len i : Nat) (data : Nat → Nat),
    d ≤ i → i + len ≤ bytes →
    ∃ out, lz77_copy_loop bytes d len data i = .ok (out, i + len) ∧
      (∀ k, k < len → out (i + k) = data (i - d + k % d)) ∧
      (∀ m, m < i → out m = data m) ∧ (∀ m, i + len ≤ m → out m = data m) := by
  intro len
  induction len with
  | zero =>
    intro i data _ _
    exact ⟨data, rfl, fun k hk => by omega, fun _ _ => rfl, fun _ _ => rfl⟩
  | succ len ih =>
    intro i data hdi hle
    rw [lz77_copy_loop, if_neg (by omega), if_neg (by omega)]
    obtain ⟨out, e, h1, h2, h3⟩ := ih (i + 1) (Function.update data i (data (i - d)))
      (by omega) (by omega)
    refine ⟨out, ?_, ?_, ?_, ?_⟩
    · rw [e]; congr 2; omega
    · intro k hk
      cases k with
      | zero =>
        rw [Nat.add_zero, h2 i (by omega)]
        simp only [Function.update_same, Nat.zero_mod, Nat.add_zero]
      | succ k =>
        have e1 : i + (k + 1) = i + 1 + k := by omega
        rw [e1, h1 k (by omega)]
        simp only [Function.update_apply]
        rcases succ_mod_cases k d hd with ⟨c1, c2⟩ | ⟨c1, c2⟩
        · rw [if_pos (by omega), c2, Nat.add_zero]
        · rw [if_neg (by omega), c2]
          congr 1
          omega
    · intro m hm
      rw [h2 m (by omega)]
      simp only [Function.update_apply]
      rw [if_neg (by omega)]
    · intro m hm
      rw [h3 m (by omega)]
      simp only [Function.update_apply]
      rw [if_neg (by omega)]

/-- C14, as amended (overlapping back-reference copy).  At every state of the main loop of
decompress (output position `i`, buffer `data` of `bytes` bytes): when the two flag bits
read as `1, 1` and the back-reference is decoded as distance `d` and length `len` with
`0 < d <= i`, `d < window`, `len > 0` and the copy ends inside the buffer
(`i + len <= bytes`), the loop runs the copy loop, which returns the buffer `out` and the position `i + len`, and
goes on from there; for every `k < len` the byte `out[i + k]` is the byte `data[i - d +
k mod d]` of the buffer before the copy, also when `d < len`, and every byte outside
`[i, i + len)` is as before.  For `d = 1` every copied byte is `data[i - 1]`. -/
theorem overlapping_backref_copy {σ : Type} (tr : Transport σ)
    (bytes window base fuel : Nat) (lz : lz77_t σ) (a : Acc) (data : Nat → Nat) (i d len : Nat)
    (hbytes : bytes < 2 ^ 64)
    (he0 : (lz77_read_bit tr lz a).1.error = 0)
    (hb0 : (lz77_read_bit tr lz a).2.2 ≠ 0)
    (he1 : (lz77_read_bit tr (lz77_read_bit tr lz a).1 (lz77_read_bit tr lz a).2.1).1.error = 0)
    (hb1 : (lz77_read_bit tr (lz77_read_bit tr lz a).1 (lz77_read_bit tr lz a).2.1).2.2 ≠ 0)
    (hd : backrefOf (lz77_decode_backref tr
      (lz77_read_bit tr (lz77_read_bit tr lz a).1 (lz77_read_bit tr lz a).2.1).1
      (lz77_read_bit tr (lz77_read_bit tr lz a).1 (lz77_read_bit tr lz a).2.1).2.1 base)
        = some (d, len))
    (hd0 : 0 < d) (hdi : d ≤ i) (hdw : d < window) (hl0 : 0 < len) (hlen : i + len ≤ bytes) :
    ∃ lz1 a1 out, lz77_decode_backref tr
        (lz77_read_bit tr (lz77_read_bit tr lz a).1 (lz77_read_bit tr lz a).2.1).1
        (lz77_read_bit tr (lz77_read_bit tr lz a).1 (lz77_read_bit tr lz a).2.1).2.1 base
          = .ok (lz1, a1, some (d, len)) ∧
      lz77_copy_loop bytes d len data i = .ok (out, i + len) ∧
      lz77_decompress_loop tr bytes window base (fuel + 1) lz a data i
        = lz77_decompress_loop tr bytes window base fuel lz1 a1 out (i + len) ∧
      (∀ k, k < len → out (i + k) = data (i - d + k % d)) ∧
      (d = 1 → ∀ k, k < len → out (i + k) = data (i - 1)) ∧
      (∀ m, m < i → out m = data m) ∧ (∀ m, i + len ≤ m → out m = data m) := by
  obtain ⟨out, ec, c1, c2, c3⟩ := copy_loop_overlap bytes d hd0 len i data hdi hlen
  have hi : i < bytes := by omega
  rw [lz77_decompress_loop, if_pos hi]
  dsimp only
  rw [if_neg (by simp [he0]), if_pos hb0, if_neg (by simp [he1]), if_pos hb1]
  cases hdec : lz77_decode_backref tr
      (lz77_read_bit tr (lz77_read_bit tr lz a).1 (lz77_read_bit tr lz a).2.1).1
      (lz77_read_bit tr (lz77_read_bit tr lz a).1 (lz77_read_bit tr lz a).2.1).2.1 base with
  | error e => rw [hdec] at hd; simp [backrefOf] at hd
  | ok r =>
    rw [hdec] at hd
    simp only [backrefOf] at hd
    obtain ⟨lz1, a1, o⟩ := r
    simp only [] at hd
    subst hd
    refine ⟨lz1, a1, out, rfl, ec, ?_, c1, ?_, c2, c3⟩
    · rw [except_bind_ok]
      dsimp only
      rw [if_neg (by simp [hd0, hdw]), if_neg (by omega)]
      have en : (i + len) % 2 ^ 64 = i + len := Nat.mod_eq_of_lt (by omega)
      have el : i + len - i = len := by omega
      rw [en, el, ec, except_bind_ok]
    · intro h1 k hk
      rw [c1 k hk, h1, Nat.mod_one, Nat.add_zero]

/-- Witness of C14 (amended): distance 1 and length 10 after the single byte 65. -/
theorem overlapping_backref_copy_witness :
    (11 : Nat) < 2 ^ 64 ∧
    (lz77_read_bit memTransport overlapSession ⟨0, 0⟩).1.error = 0 ∧
    (lz77_read_bit memTransport overlapSession ⟨0, 0⟩).2.2 ≠ 0 ∧
    (lz77_read_bit memTransport (lz77_read_bit memTransport overlapSession ⟨0, 0⟩).1
      (lz77_read_bit memTransport overlapSession ⟨0, 0⟩).2.1).1.error = 0 ∧
    (lz77_read_bit memTransport (lz77_read_bit memTransport overlapSession ⟨0, 0⟩).1
      (lz77_read_bit memTransport overlapSession ⟨0, 0⟩).2.1).2.2 ≠ 0 ∧
    backrefOf (lz77_decode_backref memTransport
      (lz77_read_bit memTransport (lz77_read_bit memTransport overlapSession ⟨0, 0⟩).1
        (lz77_read_bit memTransport overlapSession ⟨0, 0⟩).2.1).1
      (lz77_read_bit memTransport (lz77_read_bit memTransport overlapSession ⟨0, 0⟩).1
        (lz77_read_bit memTransport overlapSession ⟨0, 0⟩).2.1).2.1 4) = some (1, 10) ∧
    (0 : Nat) < 1 ∧ (1 : Nat) ≤ 1 ∧ (1 : Nat) < 1024 ∧ (0 : Nat) < 10 ∧ 1 + 10 ≤ 11 ∧
    copiedBytes (lz77_copy_loop 11 1 10 (bufferOf [65]) 1) 11
      = some ([65, 65, 65, 65, 65, 65, 65, 65, 65, 65, 65], 11) ∧
    ∃ lz1 a1 out, lz77_decode_backref memTransport
        (lz77_read_bit memTransport (lz77_read_bit memTransport overlapSession ⟨0, 0⟩).1
          (lz77_read_bit memTransport overlapSession ⟨0, 0⟩).2.1).1
        (lz77_read_bit memTransport (lz77_read_bit memTransport overlapSession ⟨0, 0⟩).1
          (lz77_read_bit memTransport overlapSession ⟨0, 0⟩).2.1).2.1 4
          = .ok (lz1, a1, some (1, 10)) ∧
      lz77_copy_loop 11 1 10 (bufferOf [65]) 1 = .ok (out, 1 + 10) ∧
      lz77_decompress_loop memTransport 11 1024 4 (0 + 1) overlapSession ⟨0, 0⟩ (bufferOf [65]) 1
        = lz77_decompress_loop memTransport 11 1024 4 0 lz1 a1 out (1 + 10) ∧
      (∀ k, k < 10 → out (1 + k) = bufferOf [65] (1 - 1 + k % 1)) ∧
      ((1 : Nat) = 1 → ∀ k, k < 10 → out (1 + k) = bufferOf [65] (1 - 1)) ∧
      (∀ m, m < 1 → out m = bufferOf [65] m) ∧ (∀ m, 1 + 10 ≤ m → out m = bufferOf [65] m) :=
  ⟨by decide, by decide!, by decide!, by decide!, by decide!, by decide!, by decide, by decide,
    by decide, by decide, by decide, by decide,
    overlapping_backref_copy memTransport 11 1024 4 0 overlapSession ⟨0, 0⟩ (bufferOf [65]) 1 1 10
      (by decide) (by decide!) (by decide!) (by decide!) (by decide!) (by decide!) (by decide)
      (by decide) (by decide) (by decide) (by decide)⟩

theorem match_scan_best (data : Nat → Nat) (bytes i min_j : Nat) : ∀ (c len pos : Nat),
    min_j + c < i →
    (∀ j, min_j + c < j → j < i → lz77_match_run data i j (bytes - i) 0 ≤ len) →
    (0 < len → min_j + c < i - pos ∧ i - pos < i ∧
      lz77_match_run data i (i - pos) (bytes - i) 0 = len ∧
      ∀ j, i - pos < j → j < i → lz77_match_run data i j (bytes - i) 0 < len) →
    (len = 0 → pos = 0) →
    (∀ j, min_j < j → j < i →
      lz77_match_run data i j (bytes - i) 0 ≤ (lz77_match_scan data bytes i min_j c len pos).1) ∧
    (0 < (lz77_match_scan data bytes i min_j c len pos).1 →
      min_j < i - (lz77_match_scan data bytes i min_j c len pos).2 ∧
      i - (lz77_match_scan data bytes i min_j c len pos).2 < i ∧
      lz77_match_run data i (i - (lz77_match_scan data bytes i min_j c len pos).2) (bytes - i) 0
        = (lz77_match_scan data bytes i min_j c len pos).1 ∧
      ∀ j, i - (lz77_match_scan data bytes i min_j c len pos).2 < j → j < i →
        lz77_match_run data i j (bytes - i) 0
          < (lz77_match_scan data bytes i min_j c len pos).1) ∧
    ((lz77_match_scan data bytes i min_j c len pos).1 = 0 →
      (lz77_match_scan data bytes i min_j c len pos).2 = 0) := by
  intro c
  induction c with
  | zero =>
    intro len pos _ h1 h2 h3
    simp only [lz77_match_scan]
    exact ⟨fun j a b => h1 j (by omega) b, fun h => by
      obtain ⟨q1, q2, q3, q4⟩ := h2 h
      exact ⟨by omega, q2, q3, q4⟩, h3⟩
  | succ c ih =>
    intro len pos hc h1 h2 h3
    rw [lz77_match_scan]
    by_cases hk : lz77_match_run data i (min_j + (c + 1)) (bytes - i) 0 > len
    · rw [if_pos hk]
      have e : i - (i - (min_j + (c + 1))) = min_j + (c + 1) := by omega
      apply ih _ _ (by omega)
      · intro j hj1 hj2
        by_cases ej : j = min_j + (c + 1)
        · rw [ej]
        · have := h1 j (by omega) hj2
          omega
      · intro _
        rw [e]
        refine ⟨by omega, by omega, rfl, ?_⟩
        intro j hj1 hj2
        have := h1 j (by omega) hj2
        omega
      · intro h0
        omega
    · rw [if_neg hk]
      apply ih _ _ (by omega)
      · intro j hj1 hj2
        by_cases ej : j = min_j + (c + 1)
        · rw [ej]; omega
        · exact h1 j (by omega) hj2
      · intro h0
        obtain ⟨q1, q2, q3, q4⟩ := h2 h0
        exact ⟨by omega, q2, q3, q4⟩
      · exact h3

theorem abcabc_eval :
    outputIs (lz77_compress_loop memTransport (bufferOf [97, 98, 99, 97, 98, 99]) 6 (2 ^ 10) 4 6
      (reinit (memSession []) ((2 ^ 10 : Nat) : Int)) ⟨0, 0⟩ 0) [3694484578207562] 8 = true := by
  decide!

/-- C15, counterexample.  For the input "abcabc" at `i = 3` the candidate `j = 0` has a
run of 3 equal bytes, but the match search selects nothing (length 0, distance 0): its
loop `while (j > min_j)` tries `j = 2` and `j = 1` only; compress emits six literals. -/
theorem match_search_skips_first_candidate :
    lz77_match_run (bufferOf [97, 98, 99, 97, 98, 99]) 3 0 (6 - 3) 0 = 3 ∧
    lz77_match (bufferOf [97, 98, 99, 97, 98, 99]) 6 1024 3 = (0, 0) ∧
    outputIs (lz77_compress memTransport (memSession []) (bufferOf [97, 98, 99, 97, 98, 99]) 6 10)
      [3694484578207562] 8 = true :=
  ⟨by decide, by decide, by
    rw [compress_eq_loop memTransport (memSession []) _ 6 10 rfl (by omega) (by omega)]
    exact abcabc_eval⟩

/-- C15, as amended.  At every input position `i` the match search inside compress tries
the candidate starts `j` with `max(0, i - window) < j < i`, nearest first; the candidate
`j = max(0, i - window)` is not tried.  The run of a candidate is the number of leading
bytes equal at `j` and at `i`, at most `bytes - i`.  The length selected is the greatest
run over the candidates tried: no such candidate has a longer run, and when it is not 0
the distance selected is below `window` and belongs to a candidate tried whose run is that
length, every nearer candidate having a strictly shorter run (ties go to the smallest
distance); when it is 0 the distance is 0. -/
theorem match_selection (data : Nat → Nat) (bytes window i : Nat) (hw : 0 < window) :
    (∀ j, lz77_match_run data i j (bytes - i) 0 ≤ bytes - i ∧
      (∀ k, k < lz77_match_run data i j (bytes - i) 0 → data (j + k) = data (i + k)) ∧
      (lz77_match_run data i j (bytes - i) 0 < bytes - i →
        data (j + lz77_match_run data i j (bytes - i) 0)
          ≠ data (i + lz77_match_run data i j (bytes - i) 0))) ∧
    (∀ j, i - window < j → j < i →
      lz77_match_run data i j (bytes - i) 0 ≤ (lz77_match data bytes window i).1) ∧
    (0 < (lz77_match data bytes window i).1 →
      0 < (lz77_match data bytes window i).2 ∧ (lz77_match data bytes window i).2 < window ∧
      i - window < i - (lz77_match data bytes window i).2 ∧
      lz77_match_run data i (i - (lz77_match data bytes window i).2) (bytes - i) 0
        = (lz77_match data bytes window i).1 ∧
      ∀ j, i - (lz77_match data bytes window i).2 < j → j < i →
        lz77_match_run data i j (bytes - i) 0 < (lz77_match data bytes window i).1) ∧
    ((lz77_match data bytes window i).1 = 0 → (lz77_match data bytes window i).2 = 0) := by
  refine ⟨?_, ?_⟩
  · intro j
    obtain ⟨_, h2, h3, h4⟩ := match_run_spec data i j (bytes - i) 0
    exact ⟨by omega, fun k hk => h3 k (by omega) hk, fun h => h4 (by omega)⟩
  · unfold lz77_match
    by_cases hi : i ≥ 1
    · rw [if_pos hi]
      dsimp only
      have hmj : (if i > window then i - window else 0) = i - window := by
        by_cases c : i > window
        · rw [if_pos c]
        · rw [if_neg c]; omega
      rw [hmj]
      obtain ⟨a1, a2, a3⟩ := match_scan_best data bytes i (i - window) (i - 1 - (i - window)) 0 0
        (by omega) (fun j h1 h2 => by omega) (fun h => by omega) (fun _ => rfl)
      refine ⟨a1, ?_, a3⟩
      intro h
      obtain ⟨q1, q2, q3, q4⟩ := a2 h
      exact ⟨by omega, by omega, q1, q3, q4⟩
    · rw [if_neg hi]
      exact ⟨fun j h1 h2 => by omega, fun h => by simp at h, fun _ => rfl⟩

/-- Witness of C15 (amended): for "xabcabc" at `i = 4` the search selects length 3 at
distance 3, the candidate `j = 1`. -/
theorem match_selection_witness :
    (0 : Nat) < 1024 ∧
    lz77_match (bufferOf [120, 97, 98, 99, 97, 98, 99]) 7 1024 4 = (3, 3) ∧
    ((∀ j, lz77_match_run (bufferOf [120, 97, 98, 99, 97, 98, 99]) 4 j (7 - 4) 0 ≤ 7 - 4 ∧
      (∀ k, k < lz77_match_run (bufferOf [120, 97, 98, 99, 97, 98, 99]) 4 j (7 - 4) 0 →
        bufferOf [120, 97, 98, 99, 97, 98, 99] (j + k)
          = bufferOf [120, 97, 98, 99, 97, 98, 99] (4 + k)) ∧
      (lz77_match_run (bufferOf [120, 97, 98, 99, 97, 98, 99]) 4 j (7 - 4) 0 < 7 - 4 →
        bufferOf [120, 97, 98, 99, 97, 98, 99]
            (j + lz77_match_run (bufferOf [120, 97, 98, 99, 97, 98, 99]) 4 j (7 - 4) 0)
          ≠ bufferOf [120, 97, 98, 99, 97, 98, 99]
            (4 + lz77_match_run (bufferOf [120, 97, 98, 99, 97, 98, 99]) 4 j (7 - 4) 0))) ∧
    (∀ j, 4 - 1024 < j → j < 4 →
      lz77_match_run (bufferOf [120, 97, 98, 99, 97, 98, 99]) 4 j (7 - 4) 0
        ≤ (lz77_match (bufferOf [120, 97, 98, 99, 97, 98, 99]) 7 1024 4).1) ∧
    (0 < (lz77_match (bufferOf [120, 97, 98, 99, 97, 98, 99]) 7 1024 4).1 →
      0 < (lz77_match (bufferOf [120, 97, 98, 99, 97, 98, 99]) 7 1024 4).2 ∧
      (lz77_match (bufferOf [120, 97, 98, 99, 97, 98, 99]) 7 1024 4).2 < 1024 ∧
      4 - 1024 < 4 - (lz77_match (bufferOf [120, 97, 98, 99, 97, 98, 99]) 7 1024 4).2 ∧
      lz77_match_run (bufferOf [120, 97, 98, 99, 97, 98, 99]) 4
          (4 - (lz77_match (bufferOf [120, 97, 98, 99, 97, 98, 99]) 7 1024 4).2) (7 - 4) 0
        = (lz77_match (bufferOf [120, 97, 98, 99, 97, 98, 99]) 7 1024 4).1 ∧
      ∀ j, 4 - (lz77_match (bufferOf [120, 97, 98, 99, 97, 98, 99]) 7 1024 4).2 < j → j < 4 →
        lz77_match_run (bufferOf [120, 97, 98, 99, 97, 98, 99]) 4 j (7 - 4) 0
          < (lz77_match (bufferOf [120, 97, 98, 99, 97, 98, 99]) 7 1024 4).1) ∧
    ((lz77_match (bufferOf [120, 97, 98, 99, 97, 98, 99]) 7 1024 4).1 = 0 →
      (lz77_match (bufferOf [120, 97, 98, 99, 97, 98, 99]) 7 1024 4).2 = 0)) :=
  ⟨by decide, by decide,
    match_selection (bufferOf [120, 97, 98, 99, 97, 98, 99]) 7 1024 4 (by decide)⟩

/-- C17 (a failed first read of `lz77_read_header` is followed by the second read and by
the validation).  The read callback of `failingReader` stores `EIO` at its first call and
returns 0.  `lz77_read_header` on a fresh session then calls the callback a second time
(the caller data counts two calls), takes the 0 it returns as `window_bits` and replaces
the stored `EIO` by `EINVAL`.  The sibling `lz77_write_header` has
`lz77_if_error_return` between its two calls of the write callback; `lz77_read_header`
has none. -/
theorem read_header_reads_on_after_failure :
    (call_read failingReader (freshSession 0)).1.error = EIO ∧
    (call_read failingReader (freshSession 0)).1.that = 1 ∧
    (lz77_read_header failingReader (freshSession 0) 0 0).1.that = 2 ∧
    (lz77_read_header failingReader (freshSession 0) 0 0).1.error = EINVAL ∧
    EINVAL ≠ EIO :=
  ⟨by decide, by decide, by decide, by decide, by decide⟩

/-! ## Bit packing -/

theorem bitsFrom_get (w : Nat) : ∀ (n lo k : Nat), k < n →
    (bitsFrom w lo n)[k]? = some (w.testBit (lo + k)) := by
  intro n
  induction n with
  | zero => intro lo k h; omega
  | succ n ih =>
    intro lo k h
    rw [bitsFrom]
    cases k with
    | zero => simp
    | succ k =>
      rw [List.getElem?_cons_succ, ih (lo + 1) k (by omega)]
      congr 2
      omega

theorem wordsBits_get : ∀ (ws : List Nat) (k : Nat), k < 64 * ws.length →
    (wordsBits ws)[k]? = some ((ws.getD (k / 64) 0).testBit (k % 64)) := by
  intro ws
  induction ws with
  | nil => intro k h; simp at h
  | cons w ws ih =>
    intro k h
    rw [wordsBits]
    by_cases hk : k < 64
    · rw [List.getElem?_append_left (by rw [bitsFrom_length]; exact hk),
        bitsFrom_get w 64 0 k hk]
      have e1 : k / 64 = 0 := by omega
      have e2 : k % 64 = k := by omega
      rw [e1, e2, Nat.zero_add]
      rfl
    · rw [List.getElem?_append_right (by rw [bitsFrom_length]; omega), bitsFrom_length,
        ih (k - 64) (by simp only [List.length_cons] at h; omega)]
      have e1 : k / 64 = (k - 64) / 64 + 1 := by omega
      have e2 : (k - 64) % 64 = k % 64 := by omega
      rw [e1, e2]
      rfl

theorem write_bit_seq_mem : ∀ (bs : List Bool) (lz : lz77_t Mem) (a : Acc), WOk lz a →
    ∃ lz' a', write_bit_seq memTransport bs lz a = .ok (lz', a') ∧ Wrote lz a lz' a' bs := by
  intro bs
  induction bs with
  | nil => intro lz a h; exact ⟨lz, a, rfl, wrote_refl lz a h⟩
  | cons b bs ih =>
    intro lz a h
    obtain ⟨lz1, a1, e1, w1⟩ := write_bit_mem lz a b.toNat h (by cases b <;> simp)
    obtain ⟨lz2, a2, e2, w2⟩ := ih lz1 a1 w1.ok
    refine ⟨lz2, a2, ?_, ?_⟩
    · rw [write_bit_seq, e1, except_bind_ok]
      exact e2
    · have := wrote_trans w1 w2
      have eb : decide (b.toNat = 1) = b := by cases b <;> simp
      rw [eb] at this
      exact this

/-- C19 (bit packing).  For every list of bits written with `lz77_write_bit` in order,
starting from the empty accumulator (`b64 = 0`, `bp = 0`) on a session with `error = 0`
over the in-memory transport (its write callback never fails and appends each word to a
list that starts empty), and followed by `lz77_flush`: the writes return, the number of
words emitted is `ceil(n / 64)` for `n` bits, none for `n = 0`; bit `k mod 64` of word
`k div 64` is the `k`-th bit written, for every `k < n`; and the bits of the last word
from position `n mod 64` on (the positions `k` from `n` up to 64 times the number of
words) are zero. -/
theorem bit_packing (bs : List Bool) (lz : lz77_t Mem) (h0 : lz.error = 0)
    (hout : lz.that.output = []) :
    ∃ lz1 a1, write_bit_seq memTransport bs lz ⟨0, 0⟩ = .ok (lz1, a1) ∧
      (lz77_flush memTransport lz1 a1).error = 0 ∧
      (lz77_flush memTransport lz1 a1).that.output.length = (bs.length + 63) / 64 ∧
      (bs.length = 0 → (lz77_flush memTransport lz1 a1).that.output = []) ∧
      (∀ k, k < bs.length →
        bs[k]? = some (((lz77_flush memTransport lz1 a1).that.output.getD (k / 64) 0).testBit
          (k % 64))) ∧
      (∀ k, bs.length ≤ k → k < 64 * (lz77_flush memTransport lz1 a1).that.output.length →
        ((lz77_flush memTransport lz1 a1).that.output.getD (k / 64) 0).testBit (k % 64)
          = false) := by
  obtain ⟨lz1, a1, e1, w1⟩ := write_bit_seq_mem bs lz ⟨0, 0⟩ ⟨h0, by simp, by simp⟩
  obtain ⟨pad, hp1, hp2, hp3⟩ := flush_mem_pad lz1 a1 w1.ok
  have hf := (flush_mem lz1 a1 w1.ok).1
  have hb : wbits lz1 a1 = bs := by
    rw [w1.bits]
    simp [wbits, hout, wordsBits, bitsFrom]
  rw [hb] at hp3
  have hl := congrArg List.length hp3
  rw [wordsBits_length, List.length_append, List.length_replicate] at hl
  have hlen : (lz77_flush memTransport lz1 a1).that.output.length = (bs.length + 63) / 64 := by
    omega
  refine ⟨lz1, a1, e1, hf, hlen, ?_, ?_, ?_⟩
  · intro hz
    apply List.eq_nil_of_length_eq_zero
    omega
  · intro k hk
    have := wordsBits_get (lz77_flush memTransport lz1 a1).that.output k (by omega)
    rw [← this, hp3, List.getElem?_append_left hk]
  · intro k hk1 hk2
    have := wordsBits_get (lz77_flush memTransport lz1 a1).that.output k hk2
    rw [hp3, List.getElem?_append_right hk1] at this
    rw [List.getElem?_replicate, if_pos (by omega)] at this
    exact (Option.some.inj this).symm

/-- Witness of C19: 66 bits, alternating from `true`, give the two words
`0x5555555555555555` and `1`. -/
theorem bit_packing_witness :
    (memSession []).error = 0 ∧ (memSession []).that.output = [] ∧
    flushedWords (write_bit_seq memTransport ((List.range 66).map fun k => decide (k % 2 = 0))
      (memSession []) ⟨0, 0⟩) = some [6148914691236517205, 1] ∧
    ∃ lz1 a1, write_bit_seq memTransport ((List.range 66).map fun k => decide (k % 2 = 0))
        (memSession []) ⟨0, 0⟩ = .ok (lz1, a1) ∧
      (lz77_flush memTransport lz1 a1).error = 0 ∧
      (lz77_flush memTransport lz1 a1).that.output.length
        = (((List.range 66).map fun k => decide (k % 2 = 0)).length + 63) / 64 ∧
      (((List.range 66).map fun k => decide (k % 2 = 0)).length = 0 →
        (lz77_flush memTransport lz1 a1).that.output = []) ∧
      (∀ k, k < ((List.range 66).map fun k => decide (k % 2 = 0)).length →
        ((List.range 66).map fun k => decide (k % 2 = 0))[k]?
          = some (((lz77_flush memTransport lz1 a1).that.output.getD (k / 64) 0).testBit
            (k % 64))) ∧
      (∀ k, ((List.range 66).map fun k => decide (k % 2 = 0)).length ≤ k →
        k < 64 * (lz77_flush memTransport lz1 a1).that.output.length →
        ((lz77_flush memTransport lz1 a1).that.output.getD (k / 64) 0).testBit (k % 64)
          = false) :=
  ⟨rfl, rfl, by decide!,
    bit_packing ((List.range 66).map fun k => decide (k % 2 = 0)) (memSession []) rfl rfl⟩

/-! ## Transport failures of the writer -/

theorem sent_refl {σ : Type} (tr : Transport σ) (lz : lz77_t (σ × List Int)) :
    Sent tr lz lz [] :=
  ⟨by simp, fun c h => by simp at h, fun _ => ⟨rfl, rfl, rfl⟩,
    fun _ _ => ⟨fun c h => by simp at h, by simp⟩, fun h0 h1 => absurd h0 h1, fun h => h⟩

theorem sent_trans {σ : Type} {tr : Transport σ} {lz1 lz2 lz3 : lz77_t (σ × List Int)}
    {c1 c2 : List Int} (h1 : Sent tr lz1 lz2 c1) (h2 : Sent tr lz2 lz3 c2) :
    Sent tr lz1 lz3 (c1 ++ c2) := by
  constructor
  · rw [h2.log, h1.log, List.append_assoc]
  · intro c hc
    rcases List.mem_append.1 hc with h | h
    · exact h1.src c h
    · exact h2.src c h
  · intro h0
    obtain ⟨a1, a2, a3⟩ := h1.stuck h0
    obtain ⟨b1, b2, b3⟩ := h2.stuck (by rw [a2]; exact h0)
    exact ⟨by rw [a1, b1]; rfl, by rw [b2, a2], by rw [b3, a3]⟩
  · intro h0 h3
    have e2 : lz2.error = 0 := by
      by_contra hne
      have := (h2.stuck hne).2.1
      rw [this] at h3
      exact hne h3
    obtain ⟨a1, a2⟩ := h1.good h0 e2
    obtain ⟨b1, b2⟩ := h2.good e2 h3
    refine ⟨?_, ?_⟩
    · intro c hc
      rcases List.mem_append.1 hc with h | h
      · exact a1 c h
      · exact b1 c h
    · rw [b2, List.length_append]
      omega
  · intro h0 h3
    by_cases e2 : lz2.error = 0
    · obtain ⟨a1, a2⟩ := h1.good h0 e2
      obtain ⟨pre, b1, b2, b3⟩ := h2.bad e2 h3
      refine ⟨c1 ++ pre, by rw [b1, List.append_assoc], ?_, ?_⟩
      · intro c hc
        rcases List.mem_append.1 hc with h | h
        · exact a1 c h
        · exact b2 c h
      · rw [b3, List.length_append]
        omega
    · obtain ⟨pre, a1, a2, a3⟩ := h1.bad h0 e2
      obtain ⟨b1, b2, b3⟩ := h2.stuck e2
      exact ⟨pre, by rw [b1, List.append_nil, b2]; exact a1, a2, by rw [b3]; exact a3⟩
  · intro h
    exact h2.bound (h1.bound h)

theorem sent_congr {σ : Type} {tr : Transport σ} {lz lz' lz2 : lz77_t (σ × List Int)}
    {codes : List Int} (h : Sent tr lz lz' codes) (e1 : lz2.that = lz'.that)
    (e2 : lz2.error = lz'.error) (e3 : lz2.written = lz'.written) : Sent tr lz lz2 codes := by
  constructor
  · rw [e1]; exact h.log
  · exact h.src
  · rw [e2, e3]; exact h.stuck
  · rw [e2, e3]; exact h.good
  · rw [e2, e3]; exact h.bad
  · rw [e3]; exact h.bound

theorem sent_congr_left {σ : Type} {tr : Transport σ} {lz lz' lz0 : lz77_t (σ × List Int)}
    {codes : List Int} (h : Sent tr lz lz' codes) (e1 : lz0.that = lz.that)
    (e2 : lz0.error = lz.error) (e3 : lz0.written = lz.written) : Sent tr lz0 lz' codes := by
  constructor
  · rw [e1]; exact h.log
  · exact h.src
  · rw [e2, e3]; exact h.stuck
  · rw [e2, e3]; exact h.good
  · rw [e2, e3]; exact h.bad
  · rw [e3]; exact h.bound

theorem sent_sendWord {σ : Type} (tr : Transport σ) (lz : lz77_t (σ × List Int)) (w : Nat)
    (h0 : lz.error = 0) :
    Sent tr lz (sendWord (logWrites tr) lz w) [(tr.write lz.that.1 w).2] ∧
    (sendWord (logWrites tr) lz w).bh_txt = lz.bh_txt ∧
    (sendWord (logWrites tr) lz w).bh_pos = lz.bh_pos ∧
    (sendWord (logWrites tr) lz w).bh_len = lz.bh_len ∧
    (NeverFails tr → (sendWord (logWrites tr) lz w).error = 0) := by
  by_cases hc : (tr.write lz.that.1 w).2 = 0
  · have e1 : (sendWord (logWrites tr) lz w).that
        = ((tr.write lz.that.1 w).1, lz.that.2 ++ [(tr.write lz.that.1 w).2]) := by
      simp [sendWord, call_write, logWrites, hc, h0]
    have e2 : (sendWord (logWrites tr) lz w).error = 0 := by
      simp [sendWord, call_write, logWrites, hc, h0]
    have e3 : (sendWord (logWrites tr) lz w).written = (lz.written + 8) % 2 ^ 64 := by
      simp [sendWord, call_write, logWrites, hc, h0]
    refine ⟨⟨by rw [e1], ?_, fun h => absurd h0 h, ?_, ?_, ?_⟩, ?_, ?_, ?_, fun _ => e2⟩
    · intro c hcm
      simp only [List.mem_singleton] at hcm
      exact ⟨_, _, hcm⟩
    · intro _ _
      refine ⟨?_, ?_⟩
      · intro c hcm
        simp only [List.mem_singleton] at hcm
        rw [hcm, hc]
      · rw [e3]
        simp
    · intro _ h
      exact absurd e2 h
    · intro _
      rw [e3]
      exact Nat.mod_lt _ (by positivity)
    · simp [sendWord, call_write, logWrites, hc, h0]
    · simp [sendWord, call_write, logWrites, hc, h0]
    · simp [sendWord, call_write, logWrites, hc, h0]
  · have e1 : (sendWord (logWrites tr) lz w).that
        = ((tr.write lz.that.1 w).1, lz.that.2 ++ [(tr.write lz.that.1 w).2]) := by
      simp [sendWord, call_write, logWrites, hc, h0]
    have e2 : (sendWord (logWrites tr) lz w).error = (tr.write lz.that.1 w).2 := by
      simp [sendWord, call_write, logWrites, hc, h0]
    have e3 : (sendWord (logWrites tr) lz w).written = lz.written := by
      simp [sendWord, call_write, logWrites, hc, h0]
    refine ⟨⟨by rw [e1], ?_, fun h => absurd h0 h, ?_, ?_, ?_⟩, ?_, ?_, ?_, ?_⟩
    · intro c hcm
      simp only [List.mem_singleton] at hcm
      exact ⟨_, _, hcm⟩
    · intro _ h
      rw [e2] at h
      exact absurd h hc
    · intro _ _
      exact ⟨[], by rw [e2]; rfl, fun c h => by simp at h, by rw [e3]; simp⟩
    · intro h
      rw [e3]
      exact h
    · simp [sendWord, call_write, logWrites, hc, h0]
    · simp [sendWord, call_write, logWrites, hc, h0]
    · simp [sendWord, call_write, logWrites, hc, h0]
    · intro hn
      exact absurd (hn _ _) hc

theorem bud_mono {σ : Type} {lz : lz77_t σ} {a : Acc} {m n : Nat} (h : Bud lz a n)
    (hmn : m ≤ n) : Bud lz a m :=
  ⟨h.1, fun e => by have := h.2 e; omega⟩

theorem went_refl {σ : Type} (tr : Transport σ) (lz : lz77_t (σ × List Int)) (a : Acc)
    (m : Nat) (h : Bud lz a m) : Went tr lz lz a m :=
  ⟨⟨[], sent_refl tr lz⟩, h, rfl, rfl, rfl⟩

theorem went_trans {σ : Type} {tr : Transport σ} {lz1 lz2 lz3 : lz77_t (σ × List Int)}
    {a2 a3 : Acc} {m n : Nat} (h1 : Went tr lz1 lz2 a2 m) (h2 : Went tr lz2 lz3 a3 n) :
    Went tr lz1 lz3 a3 n := by
  obtain ⟨c1, s1⟩ := h1.sent
  obtain ⟨c2, s2⟩ := h2.sent
  exact ⟨⟨c1 ++ c2, sent_trans s1 s2⟩, h2.bud, by rw [h2.txt, h1.txt], by rw [h2.pos, h1.pos],
    by rw [h2.len, h1.len]⟩

theorem write_bit_gen {σ : Type} (tr : Transport σ) (lz : lz77_t (σ × List Int)) (a : Acc)
    (bit m : Nat) (hb : Bud lz a (m + 1)) (hm : m < 64 ∨ NeverFails tr) :
    ∃ lz' a', lz77_write_bit (logWrites tr) lz a bit = .ok (lz', a') ∧ Went tr lz lz' a' m := by
  by_cases h64 : a.bp = 64 ∧ lz.error = 0
  · have e : lz77_write_bit (logWrites tr) lz a bit
        = .ok (sendWord (logWrites tr) lz a.b64, ⟨0 ||| ((bit <<< 0) % 2 ^ 64), 0 + 1⟩) := by
      unfold lz77_write_bit
      rw [if_pos h64]
      rfl
    obtain ⟨s, t1, t2, t3, nf⟩ := sent_sendWord tr lz a.b64 h64.2
    refine ⟨_, _, e, ⟨⟨_, s⟩, ⟨fun _ => by simp, ?_⟩, t1, t2, t3⟩⟩
    intro hne
    rcases hm with h | h
    · simp only []
      omega
    · exact absurd (nf h) hne
  · have hlt : a.bp < 64 := by
      by_cases h0 : lz.error = 0
      · have := hb.1 h0
        by_contra hh
        exact h64 ⟨by omega, h0⟩
      · have := hb.2 h0
        omega
    have e : lz77_write_bit (logWrites tr) lz a bit
        = .ok (lz, ⟨a.b64 ||| ((bit <<< a.bp) % 2 ^ 64), a.bp + 1⟩) := by
      unfold lz77_write_bit
      rw [if_neg h64]
      simp only []
      rw [if_pos hlt]
    refine ⟨_, _, e, ⟨⟨[], sent_refl tr lz⟩, ⟨fun _ => by simp only []; omega, ?_⟩, rfl, rfl, rfl⟩⟩
    intro hne
    have := hb.2 hne
    simp only []
    omega

theorem write_bits_gen {σ : Type} (tr : Transport σ) : ∀ (n v : Nat)
    (lz : lz77_t (σ × List Int)) (a : Acc) (m : Nat), Bud lz a (m + n) →
    (m + n ≤ 64 ∨ NeverFails tr) →
    ∃ lz' a', lz77_write_bits (logWrites tr) lz a v n = .ok (lz', a') ∧ Went tr lz lz' a' m := by
  intro n
  induction n with
  | zero =>
    intro v lz a m hb _
    exact ⟨lz, a, rfl, went_refl tr lz a m hb⟩
  | succ n ih =>
    intro v lz a m hb hm
    obtain ⟨lz1, a1, e1, w1⟩ := write_bit_gen tr lz a (v &&& 1) (m + n) hb
      (by rcases hm with h | h; exact Or.inl (by omega); exact Or.inr h)
    obtain ⟨lz2, a2, e2, w2⟩ := ih (v >>> 1) lz1 a1 m w1.bud
      (by rcases hm with h | h; exact Or.inl (by omega); exact Or.inr h)
    refine ⟨lz2, a2, ?_, went_trans w1 w2⟩
    rw [lz77_write_bits, e1, except_bind_ok]
    exact e2

theorem shr_lt_pow (v base c : Nat) (h : v < 2 ^ (base * (c + 1))) :
    v >>> base < 2 ^ (base * c) := by
  rw [Nat.shiftRight_eq_div_pow]
  apply Nat.div_lt_of_lt_mul
  rw [← Nat.pow_add]
  have e : base + base * c = base * (c + 1) := by ring
  rw [e]
  exact h

theorem write_number_loop_gen {σ : Type} (tr : Transport σ) (base : Nat) : ∀ (c f v : Nat)
    (lz : lz77_t (σ × List Int)) (a : Acc) (m : Nat), c + 1 ≤ f → v < 2 ^ (base * (c + 1)) →
    Bud lz a (m + (c + 1) * (base + 1)) → (m + (c + 1) * (base + 1) ≤ 64 ∨ NeverFails tr) →
    ∃ lz' a', lz77_write_number_loop (logWrites tr) base f lz a v = .ok (lz', a') ∧
      Went tr lz lz' a' m := by
  intro c
  induction c with
  | zero =>
    intro f v lz a m hf hv hb hm
    obtain ⟨f, rfl⟩ : ∃ g, f = g + 1 := ⟨f - 1, by omega⟩
    have hz : v >>> base = 0 := by
      rw [Nat.shiftRight_eq_div_pow]
      apply Nat.div_eq_of_lt
      simpa using hv
    have hb1 : Bud lz a ((m + 1) + base) := by
      apply bud_mono hb
      simp only [Nat.zero_add, Nat.one_mul]
      omega
    obtain ⟨lz1, a1, e1, w1⟩ := write_bits_gen tr base v lz a (m + 1) hb1
      (by rcases hm with h | h; exact Or.inl (by simp only [Nat.zero_add, Nat.one_mul] at h; omega); exact Or.inr h)
    obtain ⟨lz2, a2, e2, w2⟩ := write_bit_gen tr lz1 a1 0 m w1.bud
      (by rcases hm with h | h; exact Or.inl (by simp only [Nat.zero_add, Nat.one_mul] at h; omega); exact Or.inr h)
    refine ⟨lz2, a2, ?_, went_trans w1 w2⟩
    rw [lz77_write_number_loop, e1, except_bind_ok]
    simp only [hz, ne_eq, not_true_eq_false, if_false]
    rw [e2, except_bind_ok]
    rfl
  | succ c ih =>
    intro f v lz a m hf hv hb hm
    obtain ⟨f, rfl⟩ : ∃ g, f = g + 1 := ⟨f - 1, by omega⟩
    have hx : (c + 1 + 1) * (base + 1) = (c + 1) * (base + 1) + 1 + base := by ring
    rw [hx] at hb hm
    have hb1 : Bud lz a ((m + (c + 1) * (base + 1) + 1) + base) := by
      apply bud_mono hb
      omega
    obtain ⟨lz1, a1, e1, w1⟩ := write_bits_gen tr base v lz a (m + (c + 1) * (base + 1) + 1) hb1
      (by rcases hm with h | h; exact Or.inl (by omega); exact Or.inr h)
    by_cases hz : v >>> base = 0
    · obtain ⟨lz2, a2, e2, w2⟩ := write_bit_gen tr lz1 a1 0 m (bud_mono w1.bud (by omega))
        (by rcases hm with h | h; exact Or.inl (by omega); exact Or.inr h)
      refine ⟨lz2, a2, ?_, went_trans w1 w2⟩
      rw [lz77_write_number_loop, e1, except_bind_ok]
      simp only [hz, ne_eq, not_true_eq_false, if_false]
      rw [e2, except_bind_ok]
      rfl
    · obtain ⟨lz2, a2, e2, w2⟩ := write_bit_gen tr lz1 a1 1 (m + (c + 1) * (base + 1)) w1.bud
        (by rcases hm with h | h; exact Or.inl (by omega); exact Or.inr h)
      obtain ⟨lz3, a3, e3, w3⟩ := ih f (v >>> base) lz2 a2 m (by omega) (shr_lt_pow v base (c + 1) hv)
        w2.bud (by rcases hm with h | h; exact Or.inl (by omega); exact Or.inr h)
      refine ⟨lz3, a3, ?_, went_trans (went_trans w1 w2) w3⟩
      rw [lz77_write_number_loop, e1, except_bind_ok]
      simp only [ne_eq, hz, not_false_eq_true, if_true]
      rw [e2, except_bind_ok]
      exact e3

theorem write_number_gen {σ : Type} (tr : Transport σ) (base c v : Nat)
    (lz : lz77_t (σ × List Int)) (a : Acc) (hc : c + 1 ≤ 64) (hv : v < 2 ^ (base * (c + 1)))
    (h0 : lz.error = 0) (hbp : a.bp ≤ 64) (hm : (c + 1) * (base + 1) ≤ 64 ∨ NeverFails tr) :
    ∃ lz' a', lz77_write_number (logWrites tr) lz a v base = .ok (lz', a') ∧
      Went tr lz lz' a' 0 := by
  apply write_number_loop_gen tr base c 64 v lz a 0 hc hv
  · exact ⟨fun _ => hbp, fun h => absurd h0 h⟩
  · rcases hm with h | h
    · exact Or.inl (by omega)
    · exact Or.inr h

theorem flush_gen {σ : Type} (tr : Transport σ) (lz : lz77_t (σ × List Int)) (a : Acc) :
    ∃ codes, Sent tr lz (lz77_flush (logWrites tr) lz a) codes := by
  by_cases h : a.bp > 0 ∧ lz.error = 0
  · have e : lz77_flush (logWrites tr) lz a = sendWord (logWrites tr) lz a.b64 := by
      unfold lz77_flush
      rw [if_pos h]
      rfl
    rw [e]
    exact ⟨_, (sent_sendWord tr lz a.b64 h.2).1⟩
  · have e : lz77_flush (logWrites tr) lz a = lz := by
      unfold lz77_flush
      rw [if_neg h]
    rw [e]
    exact ⟨[], sent_refl tr lz⟩

theorem emit_literal_gen {σ : Type} (tr : Transport σ) (lz : lz77_t (σ × List Int)) (a : Acc)
    (b : Nat) (h0 : lz.error = 0) (hbp : a.bp ≤ 64) (ht : HInv lz.bh_txt 128) :
    ∃ r, lz77_emit_literal (logWrites tr) lz a b = .ok r ∧
      (∃ codes, Sent tr lz r.1 codes) ∧ HInv r.1.bh_txt 128 ∧ r.1.bh_pos = lz.bh_pos ∧
      r.1.bh_len = lz.bh_len ∧ (∀ a', r.2 = some a' → r.1.error = 0 ∧ a'.bp ≤ 64) := by
  have hs0 : (0 : Int) ≤ ((b % 128 : Nat) : Int) := by omega
  have hs1 : ((b % 128 : Nat) : Int) < 128 := by omega
  have hx := ht.sx_lt _ hs0 hs1
  obtain ⟨t', r, ei, hi'⟩ := inc_freq_ok lz.bh_txt 128 _ ht hs0 hs1
  have hv : toU64 (lz.bh_txt.sx ((b % 128 : Nat) : Int)) % 256 < 2 ^ (2 * (3 + 1)) := by
    have : toU64 (lz.bh_txt.sx ((b % 128 : Nat) : Int)) % 256 < 256 := Nat.mod_lt _ (by omega)
    simpa using this
  have hb1 : Bud lz a (0 + 2) := ⟨fun _ => hbp, fun h => absurd h0 h⟩
  by_cases hlt : b < 128
  · have hbm : b % 128 = b := Nat.mod_eq_of_lt hlt
    rw [hbm] at hs0 hs1 hx ei hv
    obtain ⟨lz1, a1, e1, w1⟩ := write_bit_gen tr lz a 0 0 (bud_mono hb1 (by omega))
      (Or.inl (by omega))
    unfold lz77_emit_literal
    have hlt2 : b < 0x80 := hlt
    rw [if_pos hlt2, e1, except_bind_ok]
    try dsimp only
    by_cases he1 : lz1.error = 0
    · rw [if_neg (by simp [he1])]
      rw [w1.txt, rd_ok _ _ hs0 (by omega), except_bind_ok]
      try dsimp only
      obtain ⟨lz2, a2, e2, w2⟩ := write_number_gen tr 2 3 _ lz1 a1 (by omega) hv he1
        (w1.bud.1 he1) (Or.inl (by omega))
      rw [e2, except_bind_ok]
      try dsimp only
      rw [w2.txt, w1.txt, ei, except_bind_ok]
      try dsimp only
      obtain ⟨c12, s12⟩ := (went_trans w1 w2).sent
      have s3 : Sent tr lz { lz2 with bh_txt := t' } c12 := sent_congr s12 rfl rfl rfl
      by_cases he2 : lz2.error = 0
      · rw [if_neg (by simp [he2])]
        refine ⟨_, rfl, ⟨_, s3⟩, hi', ?_, ?_, ?_⟩
        · show lz2.bh_pos = lz.bh_pos
          rw [w2.pos, w1.pos]
        · show lz2.bh_len = lz.bh_len
          rw [w2.len, w1.len]
        · intro a' ha'
          simp only [Option.some.injEq] at ha'
          subst ha'
          exact ⟨he2, w2.bud.1 he2⟩
      · rw [if_pos (by simp [he2])]
        refine ⟨_, rfl, ⟨_, s3⟩, hi', ?_, ?_, ?_⟩
        · show lz2.bh_pos = lz.bh_pos
          rw [w2.pos, w1.pos]
        · show lz2.bh_len = lz.bh_len
          rw [w2.len, w1.len]
        · intro a' ha'
          simp at ha'
    · rw [if_pos (by simp [he1])]
      refine ⟨_, rfl, w1.sent, by rw [w1.txt]; exact ht, w1.pos, w1.len, ?_⟩
      intro a' ha'
      simp at ha'
  · obtain ⟨lz0, a0, e0, w0⟩ := write_bit_gen tr lz a 1 1 hb1 (Or.inl (by omega))
    obtain ⟨lz1, a1, e1, w01⟩ := write_bit_gen tr lz0 a0 0 0 w0.bud (Or.inl (by omega))
    have w1 := went_trans w0 w01
    unfold lz77_emit_literal
    have hlt2 : ¬ b < 0x80 := hlt
    rw [if_neg hlt2, e0, except_bind_ok]
    try dsimp only
    rw [e1, except_bind_ok]
    try dsimp only
    by_cases he1 : lz1.error = 0
    · rw [if_neg (by simp [he1])]
      rw [and_7F, w1.txt, rd_ok _ _ hs0 (by omega), except_bind_ok]
      try dsimp only
      obtain ⟨lz2, a2, e2, w2⟩ := write_number_gen tr 2 3 _ lz1 a1 (by omega) hv he1
        (w1.bud.1 he1) (Or.inl (by omega))
      rw [e2, except_bind_ok]
      try dsimp only
      rw [w2.txt, w1.txt, ei, except_bind_ok]
      try dsimp only
      obtain ⟨c12, s12⟩ := (went_trans w1 w2).sent
      have s3 : Sent tr lz { lz2 with bh_txt := t' } c12 := sent_congr s12 rfl rfl rfl
      by_cases he2 : lz2.error = 0
      · rw [if_neg (by simp [he2])]
        refine ⟨_, rfl, ⟨_, s3⟩, hi', ?_, ?_, ?_⟩
        · show lz2.bh_pos = lz.bh_pos
          rw [w2.pos, w1.pos]
        · show lz2.bh_len = lz.bh_len
          rw [w2.len, w1.len]
        · intro a' ha'
          simp only [Option.some.injEq] at ha'
          subst ha'
          exact ⟨he2, w2.bud.1 he2⟩
      · rw [if_pos (by simp [he2])]
        refine ⟨_, rfl, ⟨_, s3⟩, hi', ?_, ?_, ?_⟩
        · show lz2.bh_pos = lz.bh_pos
          rw [w2.pos, w1.pos]
        · show lz2.bh_len = lz.bh_len
          rw [w2.len, w1.len]
        · intro a' ha'
          simp at ha'
    · rw [if_pos (by simp [he1])]
      refine ⟨_, rfl, w1.sent, by rw [w1.txt]; exact ht, w1.pos, w1.len, ?_⟩
      intro a' ha'
      simp at ha'

theorem emit_backref_gen {σ : Type} (tr : Transport σ) (lz : lz77_t (σ × List Int)) (a : Acc)
    (pos len window : Nat) (h0 : lz.error = 0) (hbp : a.bp ≤ 64)
    (hp : HInv lz.bh_pos window) (hl : HInv lz.bh_len window)
    (hpos : pos < window) (hlen : len < 2 ^ 64) (hm : len < 2 ^ 48 ∨ NeverFails tr) :
    ∃ r, lz77_emit_backref (logWrites tr) lz a pos len window 4 = .ok r ∧
      (∃ codes, Sent tr lz r.1 codes) ∧ HInv r.1.bh_pos window ∧ HInv r.1.bh_len window ∧
      r.1.bh_txt = lz.bh_txt ∧ (∀ a', r.2 = some a' → r.1.error = 0 ∧ a'.bp ≤ 64) := by
  have hw := hp.hi
  have hp0 : (0 : Int) ≤ (pos : Int) := by omega
  have hp1 : (pos : Int) < window := by omega
  have hx := hp.sx_lt _ hp0 hp1
  obtain ⟨tp, rp, eip, hip⟩ := inc_freq_ok lz.bh_pos window _ hp hp0 hp1
  have hrank : toU64 (lz.bh_pos.sx (pos : Int)) = (lz.bh_pos.sx (pos : Int)).toNat :=
    toU64_of_nonneg _ hx.1 (by omega)
  have hv : (lz.bh_pos.sx (pos : Int)).toNat < 2 ^ (4 * (2 + 1)) := by
    have : (lz.bh_pos.sx (pos : Int)).toNat < 4096 := by omega
    simpa using this
  have hi32 : toI32 pos = (pos : Int) := toI32_of_lt pos (by omega)
  obtain ⟨lz1, a1, e1, w1⟩ := write_bits_gen tr 2 3 lz a 0
    ⟨fun _ => hbp, fun h => absurd h0 h⟩ (Or.inl (by omega))
  unfold lz77_emit_backref
  rw [e1, except_bind_ok]
  try dsimp only
  by_cases he1 : lz1.error = 0
  swap
  · rw [if_pos (by simp [he1])]
    refine ⟨_, rfl, w1.sent, by rw [w1.pos]; exact hp, by rw [w1.len]; exact hl, w1.txt, ?_⟩
    intro a' ha'
    simp at ha'
  rw [if_neg (by simp [he1])]
  rw [w1.pos, rd_ok _ _ hp0 (by omega), except_bind_ok]
  try dsimp only
  obtain ⟨lz2, a2, e2, w2⟩ := write_number_gen tr 4 2 _ lz1 a1 (by omega) hv he1
    (w1.bud.1 he1) (Or.inl (by omega))
  rw [hrank, e2, except_bind_ok]
  try dsimp only
  rw [hi32, w2.pos, w1.pos, eip, except_bind_ok]
  try dsimp only
  obtain ⟨c12, s12⟩ := (went_trans w1 w2).sent
  have s2 : Sent tr lz { lz2 with bh_pos := tp } c12 := sent_congr s12 rfl rfl rfl
  have h2txt : lz2.bh_txt = lz.bh_txt := by rw [w2.txt, w1.txt]
  have h2len : lz2.bh_len = lz.bh_len := by rw [w2.len, w1.len]
  by_cases he2 : lz2.error = 0
  swap
  · rw [if_pos (by simp [he2])]
    refine ⟨_, rfl, ⟨_, s2⟩, hip, by show HInv lz2.bh_len window; rw [h2len]; exact hl, h2txt, ?_⟩
    intro a' ha'
    simp at ha'
  rw [if_neg (by simp [he2])]
  obtain ⟨lz3, a3, e3, w3⟩ := write_bit_gen tr { lz2 with bh_pos := tp } a2
    (if len ≥ window then 1 else 0) 0
    ⟨fun _ => w2.bud.1 he2, fun h => absurd he2 h⟩ (Or.inl (by omega))
  rw [e3, except_bind_ok]
  try dsimp only
  obtain ⟨c3, s3'⟩ := w3.sent
  have s3 := sent_trans s2 s3'
  have h3txt : lz3.bh_txt = lz.bh_txt := by rw [w3.txt]; exact h2txt
  have h3pos : lz3.bh_pos = tp := by rw [w3.pos]
  have h3len : lz3.bh_len = lz.bh_len := by rw [w3.len]; exact h2len
  by_cases he3 : lz3.error = 0
  swap
  · rw [if_pos (by simp [he3])]
    refine ⟨_, rfl, ⟨_, s3⟩, by rw [h3pos]; exact hip, by rw [h3len]; exact hl, h3txt, ?_⟩
    intro a' ha'
    simp at ha'
  rw [if_neg (by simp [he3])]
  by_cases hlong : len ≥ window
  · have h4 : ∃ lz4 a4, lz77_write_number (logWrites tr) lz3 a3 len 4 = .ok (lz4, a4) ∧
        Went tr lz3 lz4 a4 0 := by
      rcases hm with h | h
      · exact write_number_gen tr 4 11 len lz3 a3 (by omega) (by simpa using h) he3
          (w3.bud.1 he3) (Or.inl (by omega))
      · exact write_number_gen tr 4 15 len lz3 a3 (by omega) (by simpa using hlen) he3
          (w3.bud.1 he3) (Or.inr h)
    obtain ⟨lz4, a4, e4, w4⟩ := h4
    obtain ⟨c4, s4'⟩ := w4.sent
    have s4 := sent_trans s3 s4'
    rw [if_pos hlong, e4, except_bind_ok]
    try dsimp only
    by_cases he4 : lz4.error = 0
    · rw [if_neg (by simp [he4])]
      refine ⟨_, rfl, ⟨_, s4⟩, by rw [w4.pos, h3pos]; exact hip,
        by rw [w4.len, h3len]; exact hl, by rw [w4.txt, h3txt], ?_⟩
      intro a' ha'
      simp only [Option.some.injEq] at ha'
      subst ha'
      exact ⟨he4, w4.bud.1 he4⟩
    · rw [if_pos (by simp [he4])]
      refine ⟨_, rfl, ⟨_, s4⟩, by rw [w4.pos, h3pos]; exact hip,
        by rw [w4.len, h3len]; exact hl, by rw [w4.txt, h3txt], ?_⟩
      intro a' ha'
      simp at ha'
  · have hl0 : (0 : Int) ≤ (len : Int) := by omega
    have hl1 : (len : Int) < window := by omega
    have hxl := hl.sx_lt _ hl0 hl1
    obtain ⟨tl, rl, eil, hil⟩ := inc_freq_ok lz.bh_len window _ hl hl0 hl1
    have hrankl : toU64 (lz.bh_len.sx (len : Int)) = (lz.bh_len.sx (len : Int)).toNat :=
      toU64_of_nonneg _ hxl.1 (by omega)
    have hvl : (lz.bh_len.sx (len : Int)).toNat < 2 ^ (4 * (2 + 1)) := by
      have : (lz.bh_len.sx (len : Int)).toNat < 4096 := by omega
      simpa using this
    have hi32l : toI32 len = (len : Int) := toI32_of_lt len (by omega)
    obtain ⟨lz4, a4, e4, w4⟩ := write_number_gen tr 4 2 _ lz3 a3 (by omega) hvl he3
      (w3.bud.1 he3) (Or.inl (by omega))
    obtain ⟨c4, s4'⟩ := w4.sent
    have s4 : Sent tr lz { lz4 with bh_len := tl } (c12 ++ c3 ++ c4) :=
      sent_congr (sent_trans s3 s4') rfl rfl rfl
    rw [if_neg hlong, h3len, rd_ok _ _ hl0 (by omega), except_bind_ok]
    try dsimp only
    rw [hrankl, e4, except_bind_ok]
    try dsimp only
    rw [hi32l, w4.len, h3len, eil, except_bind_ok]
    try dsimp only
    rw [except_pure, except_bind_ok]
    try dsimp only
    by_cases he4 : lz4.error = 0
    · rw [if_neg (by simp [he4])]
      refine ⟨_, rfl, ⟨_, s4⟩, by show HInv lz4.bh_pos window; rw [w4.pos, h3pos]; exact hip,
        hil, by show lz4.bh_txt = lz.bh_txt; rw [w4.txt, h3txt], ?_⟩
      intro a' ha'
      simp only [Option.some.injEq] at ha'
      subst ha'
      exact ⟨he4, w4.bud.1 he4⟩
    · rw [if_pos (by simp [he4])]
      refine ⟨_, rfl, ⟨_, s4⟩, by show HInv lz4.bh_pos window; rw [w4.pos, h3pos]; exact hip,
        hil, by show lz4.bh_txt = lz.bh_txt; rw [w4.txt, h3txt], ?_⟩
      intro a' ha'
      simp at ha'

theorem compress_loop_gen {σ : Type} (tr : Transport σ) (data : Nat → Nat)
    (bytes window : Nat) (hw0 : 0 < window) (hbytes : bytes < 2 ^ 64)
    (hm : bytes < 2 ^ 48 ∨ NeverFails tr) :
    ∀ (fuel : Nat) (lz : lz77_t (σ × List Int)) (a : Acc) (i : Nat), bytes - i ≤ fuel →
    i ≤ bytes → lz.error = 0 → a.bp ≤ 64 →
    HInv lz.bh_txt 128 → HInv lz.bh_pos window → HInv lz.bh_len window →
    ∃ lzf, lz77_compress_loop (logWrites tr) data bytes window 4 fuel lz a i = .ok lzf ∧
      ∃ codes, Sent tr lz lzf codes := by
  intro fuel
  induction fuel with
  | zero =>
    intro lz a i hf hi h0 hbp ht hp hl
    have hi2 : ¬ i < bytes := by omega
    refine ⟨_, ?_, flush_gen tr lz a⟩
    rw [lz77_compress_loop, if_neg hi2]
  | succ f ih =>
    intro lz a i hf hi h0 hbp ht hp hl
    by_cases hi2 : i < bytes
    · rw [lz77_compress_loop, if_pos hi2]
      dsimp only
      by_cases hlen : (lz77_match data bytes window i).1 > 2
      · rw [if_pos hlen]
        obtain ⟨hmv, hposw⟩ := match_valid data bytes window i hw0 (by omega)
        have hlen_le := hmv.len_le
        obtain ⟨r, e1, ⟨c1, s1⟩, hp1, hl1, htxt, hsome⟩ := emit_backref_gen tr lz a
          (lz77_match data bytes window i).2 (lz77_match data bytes window i).1 window h0 hbp
          hp hl hposw (by omega)
          (by rcases hm with h | h; exact Or.inl (by omega); exact Or.inr h)
        rw [e1, except_bind_ok]
        cases hr : r.2 with
        | none =>
          dsimp only
          exact ⟨_, rfl, c1, s1⟩
        | some a1 =>
          dsimp only
          obtain ⟨q1, q2⟩ := hsome a1 hr
          obtain ⟨lzf, ec, c2, s2⟩ := ih r.1 a1 (i + (lz77_match data bytes window i).1)
            (by omega) (by omega) q1 q2 (by rw [htxt]; exact ht) hp1 hl1
          exact ⟨lzf, ec, _, sent_trans s1 s2⟩
      · rw [if_neg hlen]
        obtain ⟨r, e1, ⟨c1, s1⟩, ht1, hpos, hlen', hsome⟩ := emit_literal_gen tr lz a (data i)
          h0 hbp ht
        rw [e1, except_bind_ok]
        cases hr : r.2 with
        | none =>
          dsimp only
          exact ⟨_, rfl, c1, s1⟩
        | some a1 =>
          dsimp only
          obtain ⟨q1, q2⟩ := hsome a1 hr
          obtain ⟨lzf, ec, c2, s2⟩ := ih r.1 a1 (i + 1)
            (by omega) (by omega) q1 q2 ht1 (by rw [hpos]; exact hp) (by rw [hlen']; exact hl)
          exact ⟨lzf, ec, _, sent_trans s1 s2⟩
    · refine ⟨_, ?_, flush_gen tr lz a⟩
      rw [lz77_compress_loop, if_neg hi2]

theorem compress_gen {σ : Type} (tr : Transport σ) (lz : lz77_t (σ × List Int))
    (data : Nat → Nat) (bytes wb : Nat) (h0 : lz.error = 0) (h1 : 10 ≤ wb) (h2 : wb ≤ 12)
    (hbytes : bytes < 2 ^ 64) (hm : bytes < 2 ^ 48 ∨ NeverFails tr) :
    ∃ lzf, lz77_compress (logWrites tr) lz data bytes wb = .ok lzf ∧
      ∃ codes, Sent tr lz lzf codes := by
  obtain ⟨w1, w2, w3, w4⟩ := window_of_bits wb h1 h2
  have hw4 : ((2 ^ wb : Nat) : Int) ≤ 4096 := by exact_mod_cast w4
  have hw0 : (0 : Int) ≤ ((2 ^ wb : Nat) : Int) := by positivity
  obtain ⟨lzf, e, c, s⟩ := compress_loop_gen tr data bytes (2 ^ wb) w3 hbytes hm bytes
    (reinit lz ((2 ^ wb : Nat) : Int)) ⟨0, 0⟩ 0 (by omega) (by omega) h0 (by simp)
    (idHeap_inv 128 (by omega) (by omega)) (idHeap_inv _ hw0 hw4) (idHeap_inv _ hw0 hw4)
  refine ⟨lzf, ?_, c, sent_congr_left s rfl rfl rfl⟩
  rw [compress_eq_loop (logWrites tr) lz data bytes wb h0 h1 h2]
  exact e

theorem abc_zeros_run : ∀ (r k : Nat), lz77_match_run abcZeros 4 3 r k = k + r := by
  intro r
  induction r with
  | zero => intro k; rfl
  | succ r ih =>
    intro k
    have e : abcZeros (3 + k) = abcZeros (4 + k) := by
      simp only [abcZeros]
      rw [if_neg (by omega), if_neg (by omega), if_neg (by omega), if_neg (by omega),
        if_neg (by omega), if_neg (by omega)]
    rw [lz77_match_run, if_pos e, ih (k + 1)]
    omega

set_option maxRecDepth 100000 in
theorem abc_zeros_match :
    lz77_match abcZeros 1152921504606846981 1024 0 = (0, 0) ∧
    lz77_match abcZeros 1152921504606846981 1024 1 = (0, 0) ∧
    lz77_match abcZeros 1152921504606846981 1024 2 = (0, 0) ∧
    lz77_match abcZeros 1152921504606846981 1024 3 = (0, 0) ∧
    lz77_match abcZeros 1152921504606846981 1024 4 = (1152921504606846977, 1) := by
  refine ⟨by decide, by decide, by decide, by decide, ?_⟩
  have r2 : lz77_match_run abcZeros 4 2 (1152921504606846981 - 4) 0 = 0 := by decide
  have r1 : lz77_match_run abcZeros 4 1 (1152921504606846981 - 4) 0 = 0 := by decide
  have r3 : lz77_match_run abcZeros 4 3 (1152921504606846981 - 4) 0 = 1152921504606846977 := by
    rw [abc_zeros_run]
  unfold lz77_match
  rw [if_pos (by omega)]
  show lz77_match_scan abcZeros 1152921504606846981 4 0 (2 + 1) 0 0 = _
  rw [lz77_match_scan]
  show (if lz77_match_run abcZeros 4 3 (1152921504606846981 - 4) 0 > 0 then _ else _) = _
  rw [r3, if_pos (by omega)]
  show lz77_match_scan abcZeros 1152921504606846981 4 0 (1 + 1) 1152921504606846977 (4 - 3) = _
  rw [lz77_match_scan]
  show (if lz77_match_run abcZeros 4 2 (1152921504606846981 - 4) 0 > 1152921504606846977
    then _ else _) = _
  rw [r2, if_neg (by omega)]
  show lz77_match_scan abcZeros 1152921504606846981 4 0 (0 + 1) 1152921504606846977 (4 - 3) = _
  rw [lz77_match_scan]
  show (if lz77_match_run abcZeros 4 1 (1152921504606846981 - 4) 0 > 1152921504606846977
    then _ else _) = _
  rw [r1, if_neg (by omega)]
  rfl

theorem abc_zeros_tokens {σ : Type} (tr : Transport σ) (lz : lz77_t σ) (a : Acc) :
    lz77_compress_loop tr abcZeros 1152921504606846981 1024 4 1152921504606846981 lz a 0 =
      (do
        let e1 ← lz77_emit_literal tr lz a 97
        match e1.2 with
        | none => pure e1.1
        | some a1 => do
          let e2 ← lz77_emit_literal tr e1.1 a1 98
          match e2.2 with
          | none => pure e2.1
          | some a2 => do
            let e3 ← lz77_emit_literal tr e2.1 a2 99
            match e3.2 with
            | none => pure e3.1
            | some a3 => do
              let e4 ← lz77_emit_literal tr e3.1 a3 0
              match e4.2 with
              | none => pure e4.1
              | some a4 => do
                let e5 ← lz77_emit_backref tr e4.1 a4 1 1152921504606846977 1024 4
                match e5.2 with
                | none => pure e5.1
                | some a5 =>
                  lz77_compress_loop tr abcZeros 1152921504606846981 1024 4
                    1152921504606846976 e5.1 a5 (4 + 1152921504606846977)) := by
  obtain ⟨m0, m1, m2, m3, m4⟩ := abc_zeros_match
  have l4 : ∀ (lz : lz77_t σ) (a : Acc),
      lz77_compress_loop tr abcZeros 1152921504606846981 1024 4 1152921504606846977 lz a (3 + 1) =
        (do
          let e5 ← lz77_emit_backref tr lz a 1 1152921504606846977 1024 4
          match e5.2 with
          | none => pure e5.1
          | some a5 =>
            lz77_compress_loop tr abcZeros 1152921504606846981 1024 4
              1152921504606846976 e5.1 a5 (4 + 1152921504606846977)) := by
    intro lz a
    show lz77_compress_loop tr abcZeros 1152921504606846981 1024 4 (1152921504606846976 + 1)
      lz a 4 = _
    rw [lz77_compress_loop, if_pos (by omega)]
    dsimp only
    rw [m4]
    dsimp only
    rw [if_pos (by omega)]
    try rfl
  have l3 : ∀ (lz : lz77_t σ) (a : Acc),
      lz77_compress_loop tr abcZeros 1152921504606846981 1024 4 1152921504606846978 lz a (2 + 1) =
        (do
          let e4 ← lz77_emit_literal tr lz a 0
          match e4.2 with
          | none => pure e4.1
          | some a4 => do
            let e5 ← lz77_emit_backref tr e4.1 a4 1 1152921504606846977 1024 4
            match e5.2 with
            | none => pure e5.1
            | some a5 =>
              lz77_compress_loop tr abcZeros 1152921504606846981 1024 4
                1152921504606846976 e5.1 a5 (4 + 1152921504606846977)) := by
    intro lz a
    show lz77_compress_loop tr abcZeros 1152921504606846981 1024 4 (1152921504606846977 + 1)
      lz a 3 = _
    rw [lz77_compress_loop, if_pos (by omega)]
    dsimp only
    rw [m3]
    dsimp only
    rw [if_neg (by omega)]
    apply congrArg
    funext e
    cases h : e.2 with
    | none => rfl
    | some a4 => exact l4 e.1 a4
  have l2 : ∀ (lz : lz77_t σ) (a : Acc),
      lz77_compress_loop tr abcZeros 1152921504606846981 1024 4 1152921504606846979 lz a (1 + 1) =
        (do
          let e3 ← lz77_emit_literal tr lz a 99
          match e3.2 with
          | none => pure e3.1
          | some a3 => do
            let e4 ← lz77_emit_literal tr e3.1 a3 0
            match e4.2 with
            | none => pure e4.1
            | some a4 => do
              let e5 ← lz77_emit_backref tr e4.1 a4 1 1152921504606846977 1024 4
              match e5.2 with
              | none => pure e5.1
              | some a5 =>
                lz77_compress_loop tr abcZeros 1152921504606846981 1024 4
                  1152921504606846976 e5.1 a5 (4 + 1152921504606846977)) := by
    intro lz a
    show lz77_compress_loop tr abcZeros 1152921504606846981 1024 4 (1152921504606846978 + 1)
      lz a 2 = _
    rw [lz77_compress_loop, if_pos (by omega)]
    dsimp only
    rw [m2]
    dsimp only
    rw [if_neg (by omega)]
    apply congrArg
    funext e
    cases h : e.2 with
    | none => rfl
    | some a3 => exact l3 e.1 a3
  have l1 : ∀ (lz : lz77_t σ) (a : Acc),
      lz77_compress_loop tr abcZeros 1152921504606846981 1024 4 1152921504606846980 lz a (0 + 1) =
        (do
          let e2 ← lz77_emit_literal tr lz a 98
          match e2.2 with
          | none => pure e2.1
          | some a2 => do
            let e3 ← lz77_emit_literal tr e2.1 a2 99
            match e3.2 with
            | none => pure e3.1
            | some a3 => do
              let e4 ← lz77_emit_literal tr e3.1 a3 0
              match e4.2 with
              | none => pure e4.1
              | some a4 => do
                let e5 ← lz77_emit_backref tr e4.1 a4 1 1152921504606846977 1024 4
                match e5.2 with
                | none => pure e5.1
                | some a5 =>
                  lz77_compress_loop tr abcZeros 1152921504606846981 1024 4
                    1152921504606846976 e5.1 a5 (4 + 1152921504606846977)) := by
    intro lz a
    show lz77_compress_loop tr abcZeros 1152921504606846981 1024 4 (1152921504606846979 + 1)
      lz a 1 = _
    rw [lz77_compress_loop, if_pos (by omega)]
    dsimp only
    rw [m1]
    dsimp only
    rw [if_neg (by omega)]
    apply congrArg
    funext e
    cases h : e.2 with
    | none => rfl
    | some a2 => exact l2 e.1 a2
  show lz77_compress_loop tr abcZeros 1152921504606846981 1024 4 (1152921504606846980 + 1)
    lz a 0 = _
  rw [lz77_compress_loop, if_pos (by omega)]
  dsimp only
  rw [m0]
  dsimp only
  rw [if_neg (by omega)]
  apply congrArg
  funext e
  cases h : e.2 with
  | none => rfl
  | some a1 => exact l1 e.1 a1

theorem faultOf_eq {α : Type} (r : Except Fault α) (f : Fault) (h : faultOf r = some f) :
    r = .error f := by
  cases r with
  | ok v => simp [faultOf] at h
  | error e =>
    simp only [faultOf, Option.some.injEq] at h
    rw [h]

set_option maxRecDepth 1000000 in
theorem abc_zeros_eval :
    faultOf (do
        let e1 ← lz77_emit_literal (failsAt 1) (reinit (freshSession 0) 1024) ⟨0, 0⟩ 97
        match e1.2 with
        | none => pure e1.1
        | some a1 => do
          let e2 ← lz77_emit_literal (failsAt 1) e1.1 a1 98
          match e2.2 with
          | none => pure e2.1
          | some a2 => do
            let e3 ← lz77_emit_literal (failsAt 1) e2.1 a2 99
            match e3.2 with
            | none => pure e3.1
            | some a3 => do
              let e4 ← lz77_emit_literal (failsAt 1) e3.1 a3 0
              match e4.2 with
              | none => pure e4.1
              | some a4 => do
                let e5 ← lz77_emit_backref (failsAt 1) e4.1 a4 1 1152921504606846977 1024 4
                match e5.2 with
                | none => pure e5.1
                | some a5 =>
                  lz77_compress_loop (failsAt 1) abcZeros 1152921504606846981 1024 4
                    1152921504606846976 e5.1 a5 (4 + 1152921504606846977)) = some .shift := by
  decide!

theorem abc_zeros_shift :
    lz77_compress (failsAt 1) (freshSession 0) abcZeros (2 ^ 60 + 5) 10 = .error .shift := by
  have eN : 2 ^ 60 + 5 = 1152921504606846981 := by norm_num
  rw [eN, compress_eq_loop (failsAt 1) (freshSession 0) abcZeros _ 10 rfl (by omega) (by omega)]
  have e1 : (2 : Nat) ^ 10 = 1024 := by norm_num
  have e2 : (((2 : Nat) ^ 10 : Nat) : Int) = 1024 := by norm_num
  rw [e2, e1, abc_zeros_tokens]
  exact faultOf_eq _ _ abc_zeros_eval

theorem sent_outcome {σ : Type} {tr : Transport σ} {lz lzf : lz77_t (σ × List Int)}
    {codes : List Int} (s : Sent tr lz lzf codes) (h0 : lz.error = 0)
    (hw : lz.written < 2 ^ 64) :
    lzf.that.2 = lz.that.2 ++ codes ∧
    ((lzf.error = 0 ∧ (∀ c, c ∈ codes → c = 0) ∧
        lzf.written = (lz.written + 8 * codes.length) % 2 ^ 64) ∨
     (lzf.error ≠ 0 ∧ ∃ pre, codes = pre ++ [lzf.error] ∧ (∀ c, c ∈ pre → c = 0) ∧
        lzf.written = (lz.written + 8 * pre.length) % 2 ^ 64)) := by
  have hb := s.bound hw
  refine ⟨s.log, ?_⟩
  by_cases he : lzf.error = 0
  · left
    obtain ⟨a1, a2⟩ := s.good h0 he
    exact ⟨he, a1, by rw [← a2, Nat.mod_eq_of_lt hb]⟩
  · right
    obtain ⟨pre, a1, a2, a3⟩ := s.bad h0 he
    exact ⟨he, pre, a1, a2, by rw [← a3, Nat.mod_eq_of_lt hb]⟩

theorem sent_never_fails {σ : Type} {tr : Transport σ} {lz lzf : lz77_t (σ × List Int)}
    {codes : List Int} (s : Sent tr lz lzf codes) (hn : NeverFails tr) (h0 : lz.error = 0)
    (hw : lz.written < 2 ^ 64) :
    lzf.that.2 = lz.that.2 ++ codes ∧ lzf.error = 0 ∧
      lzf.written = (lz.written + 8 * codes.length) % 2 ^ 64 := by
  obtain ⟨a1, a2⟩ := sent_outcome s h0 hw
  rcases a2 with ⟨b1, _, b3⟩ | ⟨b1, pre, b2, _, _⟩
  · exact ⟨a1, b1, b3⟩
  · exfalso
    obtain ⟨s', w', e'⟩ := s.src lzf.error (by rw [b2]; simp)
    rw [hn s' w'] at e'
    exact b1 e'

set_option maxRecDepth 1000000 in
theorem hello_fails_eval :
    logOf (lz77_compress_loop (logWrites (failsAt 2)) (bufferOf helloBytes) 35 (2 ^ 10) 4 35
      (reinit (freshSession ((0 : Nat), ([] : List Int))) ((2 ^ 10 : Nat) : Int)) ⟨0, 0⟩ 0)
      = some ([0, EIO], EIO, 8) := by
  decide!

theorem hello_fails_at_2 :
    logOf (lz77_compress (logWrites (failsAt 2)) (freshSession ((0 : Nat), ([] : List Int)))
      (bufferOf helloBytes) 35 10) = some ([0, EIO], EIO, 8) := by
  rw [compress_eq_loop (logWrites (failsAt 2)) _ (bufferOf helloBytes) 35 10 rfl (by omega)
    (by omega)]
  exact hello_fails_eval

theorem write_header_log {σ : Type} (tr : Transport σ) (lz : lz77_t (σ × List Int))
    (n wb : Nat) (hn : NeverFails tr) (h0 : lz.error = 0) (h1 : 10 ≤ wb) (h2 : wb ≤ 20) :
    (lz77_write_header (logWrites tr) lz n wb).that.2 = lz.that.2 ++ [0, 0] ∧
    (lz77_write_header (logWrites tr) lz n wb).error = 0 := by
  have hc : ¬ (wb < 10 ∨ wb > 20) := by omega
  unfold lz77_write_header
  rw [if_neg (by simp [h0]), if_neg hc]
  simp [call_write, logWrites, hn _ _, h0]

theorem write_header_written {σ : Type} (tr : Transport σ) (lz : lz77_t σ) (n wb : Nat) :
    (lz77_write_header tr lz n wb).written = lz.written := by
  unfold lz77_write_header
  by_cases h0 : lz.error ≠ 0
  · rw [if_pos h0]
  · rw [if_neg h0]
    by_cases hc : wb < 10 ∨ wb > 20
    · rw [if_pos hc]
    · rw [if_neg hc]
      dsimp only
      by_cases h1 : (call_write tr lz (n % 2 ^ 64)).error ≠ 0
      · rw [if_pos h1]
        rfl
      · rw [if_neg h1]
        rfl

/-- C18 (byte counter; the heap overrun of the window sizes above 12 limits it).  The
transport `logWrites tr` records one entry for each invocation of the write callback of
`tr`.  For every write callback that never stores an error, every input and `window_bits`
in 10..12, on a session with `error = 0`: compress returns with `error = 0` and `written`
grown by exactly 8 times the number of invocations of the write callback (modulo `2 ^ 64`,
`written` being a `uint64_t`).  `lz77_write_header` returns `written` as it was, for every
transport and argument, and with such a callback and `window_bits` in 10..20 it invokes
the callback twice.  For `window_bits` 13 to 20, which the validation accepts, compress
overruns the heap tables during its initialisation and returns nothing. -/
theorem byte_counter :
    (∀ {σ : Type} (tr : Transport σ) (lz : lz77_t (σ × List Int)) (data : Nat → Nat)
      (bytes window_bits : Nat), NeverFails tr → lz.error = 0 → lz.written < 2 ^ 64 →
      10 ≤ window_bits → window_bits ≤ 12 → bytes < 2 ^ 64 →
      ∃ lzf codes, lz77_compress (logWrites tr) lz data bytes window_bits = .ok lzf ∧
        lzf.that.2 = lz.that.2 ++ codes ∧ lzf.error = 0 ∧
        lzf.written = (lz.written + 8 * codes.length) % 2 ^ 64) ∧
    (∀ {σ : Type} (tr : Transport σ) (lz : lz77_t σ) (n window_bits : Nat),
      (lz77_write_header tr lz n window_bits).written = lz.written) ∧
    (∀ {σ : Type} (tr : Transport σ) (lz : lz77_t (σ × List Int)) (n window_bits : Nat),
      NeverFails tr → lz.error = 0 → 10 ≤ window_bits → window_bits ≤ 20 →
      (lz77_write_header (logWrites tr) lz n window_bits).that.2 = lz.that.2 ++ [0, 0] ∧
      (lz77_write_header (logWrites tr) lz n window_bits).error = 0) ∧
    (∀ {σ : Type} (tr : Transport σ) (lz : lz77_t σ) (data : Nat → Nat)
      (bytes window_bits : Nat), lz.error = 0 → 13 ≤ window_bits → window_bits ≤ 20 →
      lz77_compress tr lz data bytes window_bits = .error .table) ∧
    lz77_compress memTransport (memSession []) (bufferOf helloBytes) 35 13 = .error .table := by
  refine ⟨?_, ?_, ?_, ?_, ?_⟩
  · intro σ tr lz data bytes wb hn h0 hw h1 h2 hb
    obtain ⟨lzf, e, codes, s⟩ := compress_gen tr lz data bytes wb h0 h1 h2 hb (Or.inr hn)
    obtain ⟨a1, a2, a3⟩ := sent_never_fails s hn h0 hw
    exact ⟨lzf, codes, e, a1, a2, a3⟩
  · intro σ tr lz n wb
    exact write_header_written tr lz n wb
  · intro σ tr lz n wb hn h0 h1 h2
    exact write_header_log tr lz n wb hn h0 h1 h2
  · intro σ tr lz data bytes wb h0 h1 h2
    exact (window_overflow tr lz data bytes wb 0 h0 h1 h2).1
  · exact (window_overflow memTransport (memSession []) (bufferOf helloBytes) 35 13 0 rfl
      (by omega) (by omega)).1

/-! ## Effect of one bump -/

theorem up_heapify_loop_path (n : Int) : ∀ (fuel : Nat) (t : lz77_binheap_t) (ix : Int),
    HInv t n → 0 ≤ ix → ix < n → ix.toNat ≤ fuel →
    ∃ t' r, lz77_binheap_up_heapify_loop fuel t ix = .ok (t', r) ∧ HInv t' n ∧ t'.fq = t.fq
      ∧ 0 ≤ r ∧ r ≤ ix ∧ t'.ns r = t.ns ix ∧ OnPath ix r r ∧
      ∀ j, t'.ns j ≠ t.ns j → OnPath ix r j := by
  intro fuel
  induction fuel with
  | zero =>
    intro t ix h h0 h1 hf
    have : ix = 0 := by omega
    subst this
    exact ⟨t, 0, by simp [lz77_binheap_up_heapify_loop], h, rfl, le_refl _, le_refl _, rfl,
      ⟨le_refl _, 0, rfl⟩, fun j hj => absurd rfl hj⟩
  | succ f ih =>
    intro t ix h h0 h1 hf
    have hn := h.hi
    unfold lz77_binheap_up_heapify_loop
    by_cases hpos : ix > 0
    · rw [if_pos hpos]
      have hp0 : 0 ≤ (ix - 1) / 2 := by omega
      have hp1 : (ix - 1) / 2 < ix := by omega
      have hsp := h.ns_lt _ hp0 (by omega)
      have hsi := h.ns_lt ix h0 h1
      simp only [bind, Except.bind]
      rw [rd_ok _ _ hp0 (by omega)]
      simp only []
      rw [rd_ok _ _ hsp.1 (by omega)]
      simp only []
      rw [rd_ok _ _ h0 (by omega)]
      simp only []
      rw [rd_ok _ _ hsi.1 (by omega)]
      simp only []
      split_ifs with hge
      · exact ⟨t, ix, rfl, h, rfl, h0, le_refl _, rfl, ⟨le_refl _, 0, rfl⟩,
          fun j hj => absurd rfl hj⟩
      · rw [swap_eq t n ix _ h h0 h1 hp0 (by omega)]
        simp only []
        obtain ⟨t', r, e, hi', hfq, hr0, hr1, hns, ⟨_, k0, hk0⟩, hch⟩ :=
          ih (swapHeap t ix ((ix - 1) / 2)) ((ix - 1) / 2)
            (swap_inv t n ix _ h h0 h1 hp0 (by omega)) hp0 (by omega) (by omega)
        refine ⟨t', r, e, hi', by rw [hfq]; rfl, hr0, by omega, ?_, ⟨by omega, k0 + 1, hk0⟩, ?_⟩
        · rw [hns, swapHeap_ns, if_pos rfl]
        · intro j hj
          by_cases c : t'.ns j = (swapHeap t ix ((ix - 1) / 2)).ns j
          · rw [c, swapHeap_ns] at hj
            by_cases c1 : j = (ix - 1) / 2
            · exact ⟨by omega, 1, by rw [c1]; rfl⟩
            · rw [if_neg c1] at hj
              by_cases c2 : j = ix
              · exact ⟨by omega, 0, by rw [c2]; rfl⟩
              · rw [if_neg c2] at hj
                exact absurd rfl hj
          · obtain ⟨q1, k, q2⟩ := hch j c
            exact ⟨q1, k + 1, q2⟩
    · rw [if_neg hpos]
      exact ⟨t, ix, rfl, h, rfl, h0, le_refl _, rfl, ⟨le_refl _, 0, rfl⟩,
        fun j hj => absurd rfl hj⟩

theorem inc_freq_effect (t : lz77_binheap_t) (n s : Int) (h : HInv t n) (h0 : 0 ≤ s)
    (h1 : s < n) :
    ∃ t' r, lz77_binheap_inc_freq t s = .ok (t', r) ∧ HInv t' n ∧
      t'.fq = Function.update t.fq s ((t.fq s + 1) % 2 ^ 64) ∧
      0 ≤ r ∧ r ≤ t.sx s ∧ t'.sx s = r ∧ OnPath (t.sx s) r r ∧
      ∀ j, t'.ns j ≠ t.ns j → OnPath (t.sx s) r j := by
  have hn := h.hi
  have hx := h.sx_lt s h0 h1
  have hns := h.ns_sx s h0 h1
  unfold lz77_binheap_inc_freq lz77_binheap_up_heapify
  simp only [bind, Except.bind]
  rw [rd_ok _ _ h0 (by omega)]
  simp only []
  rw [rd_ok _ _ h0 (by omega)]
  simp only []
  have h2 : HInv { t with fq := Function.update t.fq s ((t.fq s + 1) % 2 ^ 64) } n :=
    ⟨h.nc, h.lo, h.hi, h.ns_lt, h.sx_ns, h.sx_lt, h.ns_sx⟩
  obtain ⟨t', r, e, hi', hfq, hr0, hr1, hnr, hp, hch⟩ :=
    up_heapify_loop_path n _ _ (t.sx s) h2 hx.1 hx.2 (le_refl _)
  refine ⟨t', r, e, hi', hfq, hr0, hr1, ?_, hp, hch⟩
  have := hi'.sx_ns r hr0 (by omega)
  rw [hnr] at this
  simp only [] at this
  rw [hns] at this
  exact this

theorem inc_freq_wrap :
    lz77_binheap_inc_freq { idHeap 1 with fq := fun _ => 2 ^ 64 - 1 } 0
      = .ok ({ idHeap 1 with fq := Function.update (fun _ => 2 ^ 64 - 1) 0 0 }, 0) := by
  rw [inc_freq_root _ 0 (by omega) (by omega) (by simp [idHeap])]
  rfl

/-- C21, counterexample.  The heap with the single symbol 0 whose frequency is
`2 ^ 64 - 1`, the largest `uint64_t`, satisfies index consistency and heap order (it has no
non-root slot); `lz77_binheap_inc_freq` of symbol 0 leaves the frequency 0, not
`2 ^ 64`.  This heap is the one `lz77_binheap_init` for one symbol followed by
`2 ^ 64 - 1` bumps of symbol 0 produces. -/
theorem bump_wraps_frequency :
    HInv { idHeap 1 with fq := fun _ => 2 ^ 64 - 1 } 1 ∧
    HeapOrd { idHeap 1 with fq := fun _ => 2 ^ 64 - 1 } ∧
    (∃ t, heap_after 1 (List.replicate (2 ^ 64 - 1) 0) = .ok t ∧ t.ns = (idHeap 1).ns ∧
      t.sx = (idHeap 1).sx ∧ t.nc = 1 ∧ t.fq 0 = 2 ^ 64 - 1) ∧
    ∃ t' r, lz77_binheap_inc_freq { idHeap 1 with fq := fun _ => 2 ^ 64 - 1 } 0 = .ok (t', r) ∧
      t'.fq 0 = 0 ∧ ¬ (t'.fq 0 = (2 ^ 64 - 1) + 1) := by
  refine ⟨?_, ?_, ?_, _, _, inc_freq_wrap, by simp, by simp⟩
  · have := idHeap_inv 1 (by omega) (by omega)
    exact ⟨this.nc, this.lo, this.hi, this.ns_lt, this.sx_ns, this.sx_lt, this.ns_sx⟩
  · intro ix h1 h2
    have : (idHeap 1).nc = 1 := rfl
    simp only [] at h2
    omega
  · obtain ⟨t, e, a1, a2, a3, a4, _⟩ := inc_freq_all_root 0 (by omega) (by omega) (2 ^ 64 - 1)
      (idHeap 1) (by simp [idHeap]) (by simp [idHeap])
    refine ⟨t, ?_, a1, a2, a3, ?_⟩
    · rw [heap_after_eq 1 _ (by omega) (by omega)]
      exact e
    · rw [a4]
      simp [idHeap]

/-- C21, as amended.  On every heap with consistent indices for `n` symbols within the
table capacity and every symbol `s < nc = n`, `lz77_binheap_inc_freq` of `s` returns (its
loop ends within the budget of the model and no subscript leaves the tables); it replaces
`fq[s]` by `fq[s] + 1` modulo `2 ^ 64`, which is `fq[s] + 1` unless `fq[s]` was
`2 ^ 64 - 1`, and leaves every other frequency and `nc` unchanged; the value `r` it
returns is the slot of `s` afterwards (`sx[s] = r`), is not above the slot of `s` before
the call and lies on the path from that slot to the root; `ns` is changed only at slots on
the path from the old slot of `s` up to `r`; the indices stay consistent, and when the
heap order held before and the frequency did not wrap it holds afterwards. -/
theorem effect_of_one_bump (t : lz77_binheap_t) (n s : Int) (h : HInv t n) (h0 : 0 ≤ s)
    (h1 : s < t.nc) :
    ∃ t' r, lz77_binheap_inc_freq t s = .ok (t', r) ∧
      t'.fq s = (t.fq s + 1) % 2 ^ 64 ∧ (t.fq s + 1 < 2 ^ 64 → t'.fq s = t.fq s + 1) ∧
      (∀ x, x ≠ s → t'.fq x = t.fq x) ∧ t'.nc = t.nc ∧
      t'.sx s = r ∧ 0 ≤ r ∧ r ≤ t.sx s ∧ OnPath (t.sx s) r r ∧
      (∀ j, t'.ns j ≠ t.ns j → OnPath (t.sx s) r j) ∧
      HInv t' n ∧ (HeapOrd t → t.fq s + 1 < 2 ^ 64 → HeapOrd t') := by
  rw [h.nc] at h1
  obtain ⟨t', r, e, hi', hfq, hr0, hr1, hsx, hp, hch⟩ := inc_freq_effect t n s h h0 h1
  refine ⟨t', r, e, ?_, ?_, ?_, ?_, hsx, hr0, hr1, hp, hch, hi', ?_⟩
  · rw [hfq]; simp
  · intro hw
    rw [hfq]
    simp only [Function.update_same]
    exact Nat.mod_eq_of_lt hw
  · intro x hx
    rw [hfq]
    simp only [Function.update_apply, if_neg hx]
  · rw [hi'.nc, h.nc]
  · intro ho hw
    obtain ⟨t2, r2, e2, _, ho2, _⟩ := inc_freq_ord t n s h h0 h1 ho hw
    rw [e] at e2
    have : t' = t2 := by
      have := Except.ok.inj e2
      exact congrArg Prod.fst this
    rw [this]
    exact ho2

/-- Witness of C21 (amended): three symbols, bump of symbol 2 on the initial heap. -/
theorem effect_of_one_bump_witness :
    HInv (idHeap 3) 3 ∧ (0 : Int) ≤ 2 ∧ (2 : Int) < (idHeap 3).nc ∧
    ∃ t' r, lz77_binheap_inc_freq (idHeap 3) 2 = .ok (t', r) ∧
      t'.fq 2 = ((idHeap 3).fq 2 + 1) % 2 ^ 64 ∧
      ((idHeap 3).fq 2 + 1 < 2 ^ 64 → t'.fq 2 = (idHeap 3).fq 2 + 1) ∧
      (∀ x, x ≠ 2 → t'.fq x = (idHeap 3).fq x) ∧ t'.nc = (idHeap 3).nc ∧
      t'.sx 2 = r ∧ 0 ≤ r ∧ r ≤ (idHeap 3).sx 2 ∧ OnPath ((idHeap 3).sx 2) r r ∧
      (∀ j, t'.ns j ≠ (idHeap 3).ns j → OnPath ((idHeap 3).sx 2) r j) ∧
      HInv t' 3 ∧ (HeapOrd (idHeap 3) → (idHeap 3).fq 2 + 1 < 2 ^ 64 → HeapOrd t') :=
  ⟨idHeap_inv 3 (by decide) (by decide), by decide, by decide,
    effect_of_one_bump (idHeap 3) 3 2 (idHeap_inv 3 (by decide) (by decide)) (by decide)
      (by decide)⟩

/-! ## Shape of the variable-length code -/

theorem chunkCount_le (w v c : Nat) (hw : w = 2 ∨ w = 4) (hc : 1 ≤ c) :
    chunkCount w v ≤ c ↔ v < 2 ^ (w * c) := by
  rw [← Nat.size_le]
  unfold chunkCount
  rcases hw with rfl | rfl
  · constructor
    · intro h
      have := le_trans (le_max_right _ _) h
      omega
    · intro h
      apply max_le hc
      omega
  · constructor
    · intro h
      have := le_trans (le_max_right _ _) h
      omega
    · intro h
      apply max_le hc
      omega

theorem chunkCount_pos (w v : Nat) : 1 ≤ chunkCount w v := le_max_left _ _

theorem varintBits_shape (w : Nat) (hw : 0 < w) : ∀ (c v f : Nat), c + 1 ≤ f →
    v < 2 ^ (w * (c + 1)) → (0 < c → 2 ^ (w * c) ≤ v) →
    (varintBits w f v).length = (w + 1) * (c + 1) ∧
    ∀ i, i < c + 1 →
      (∀ b, b < w → (varintBits w f v)[i * (w + 1) + b]? = some (v.testBit (i * w + b))) ∧
      (varintBits w f v)[i * (w + 1) + w]? = some (decide (i + 1 < c + 1)) := by
  intro c
  induction c with
  | zero =>
    intro v f hf hv _
    obtain ⟨f, rfl⟩ : ∃ g, f = g + 1 := ⟨f - 1, by omega⟩
    have hz : v >>> w = 0 := by
      rw [Nat.shiftRight_eq_div_pow]
      apply Nat.div_eq_of_lt
      simpa using hv
    have e : varintBits w (f + 1) v = bitsFrom v 0 w ++ [false] := by
      rw [varintBits]
      simp [hz]
    rw [e]
    refine ⟨by simp [bitsFrom_length], ?_⟩
    intro i hi
    have hi0 : i = 0 := by omega
    subst hi0
    refine ⟨?_, ?_⟩
    · intro b hb
      rw [Nat.zero_mul, Nat.zero_add, Nat.zero_mul, Nat.zero_add,
        List.getElem?_append_left (by rw [bitsFrom_length]; exact hb), bitsFrom_get v w 0 b hb,
        Nat.zero_add]
    · rw [Nat.zero_mul, Nat.zero_add,
        List.getElem?_append_right (by rw [bitsFrom_length]), bitsFrom_length]
      simp
  | succ c ih =>
    intro v f hf hv hlo
    obtain ⟨f, rfl⟩ : ∃ g, f = g + 1 := ⟨f - 1, by omega⟩
    have hlo1 := hlo (by omega)
    have hnz : v >>> w ≠ 0 := by
      rw [Nat.shiftRight_eq_div_pow]
      intro h0
      have hlt : v < 2 ^ w := by
        by_contra hge
        have : 1 ≤ v / 2 ^ w := (Nat.one_le_div_iff (by positivity)).2 (by omega)
        omega
      have hle : 2 ^ w ≤ 2 ^ (w * (c + 1)) :=
        Nat.pow_le_pow_right (by omega) (by nlinarith)
      omega
    have hv1 : v >>> w < 2 ^ (w * (c + 1)) := shr_lt_pow v w (c + 1) hv
    have hlo2 : 0 < c → 2 ^ (w * c) ≤ v >>> w := by
      intro _
      rw [Nat.shiftRight_eq_div_pow, Nat.le_div_iff_mul_le (by positivity), ← Nat.pow_add]
      have e : w * c + w = w * (c + 1) := by ring
      rw [e]
      exact hlo1
    obtain ⟨l1, l2⟩ := ih (v >>> w) f (by omega) hv1 hlo2
    have e : varintBits w (f + 1) v
        = (bitsFrom v 0 w ++ [true]) ++ varintBits w f (v >>> w) := by
      rw [varintBits]
      simp [hnz]
    rw [e]
    have hlen : (bitsFrom v 0 w ++ [true]).length = w + 1 := by simp [bitsFrom_length]
    refine ⟨?_, ?_⟩
    · rw [List.length_append, hlen, l1]
      ring
    · intro i hi
      cases i with
      | zero =>
        refine ⟨?_, ?_⟩
        · intro b hb
          rw [Nat.zero_mul, Nat.zero_add, Nat.zero_mul, Nat.zero_add,
            List.getElem?_append_left (by rw [hlen]; omega),
            List.getElem?_append_left (by rw [bitsFrom_length]; exact hb),
            bitsFrom_get v w 0 b hb, Nat.zero_add]
        · rw [Nat.zero_mul, Nat.zero_add, List.getElem?_append_left (by rw [hlen]; omega),
            List.getElem?_append_right (by rw [bitsFrom_length]), bitsFrom_length]
          simp
      | succ i =>
        obtain ⟨m1, m2⟩ := l2 i (by omega)
        refine ⟨?_, ?_⟩
        · intro b hb
          have e1 : (i + 1) * (w + 1) + b = (w + 1) + (i * (w + 1) + b) := by ring
          rw [e1, List.getElem?_append_right (by rw [hlen]; omega), hlen, Nat.add_sub_cancel_left,
            m1 b hb, Nat.testBit_shiftRight]
          congr 2
          ring
        · have e1 : (i + 1) * (w + 1) + w = (w + 1) + (i * (w + 1) + w) := by ring
          rw [e1, List.getElem?_append_right (by rw [hlen]; omega), hlen, Nat.add_sub_cancel_left,
            m2]
          simp

/-- C22 (shape of the variable-length code).  For every chunk width `w` in `{2, 4}` and
every 64-bit value `v`, `lz77_write_number` on a writer without error over the in-memory
transport returns and appends to the bits written a list of exactly
`(w + 1) * max(1, ceil(bitlength(v) / w))` bits, in which chunk `i` occupies the positions
`i * (w + 1)` to `i * (w + 1) + w - 1` and holds the bits `i * w` to `i * w + w - 1` of `v`,
least significant first, and is followed at position `i * (w + 1) + w` by a continuation
bit that is 1 for every chunk but the last and 0 for the last; for `v = 0` the list is `w`
zero bits followed by a 0. -/
theorem varint_shape (w v : Nat) (hw : w = 2 ∨ w = 4) (hv : v < 2 ^ 64) (lz : lz77_t Mem)
    (a : Acc) (h : WOk lz a) :
    ∃ lz' a' bs, lz77_write_number memTransport lz a v w = .ok (lz', a') ∧
      wbits lz' a' = wbits lz a ++ bs ∧ lz'.error = 0 ∧
      bs.length = (w + 1) * chunkCount w v ∧
      (∀ i, i < chunkCount w v →
        (∀ b, b < w → bs[i * (w + 1) + b]? = some (v.testBit (i * w + b))) ∧
        bs[i * (w + 1) + w]? = some (decide (i + 1 < chunkCount w v))) ∧
      (v = 0 → bs = List.replicate w false ++ [false]) := by
  have hw0 : 0 < w := by rcases hw with rfl | rfl <;> omega
  obtain ⟨lz', a', e, wr⟩ := write_number_mem w v hw0 lz a h hv
  obtain ⟨c, hc⟩ : ∃ c, chunkCount w v = c + 1 := ⟨chunkCount w v - 1, by
    have := chunkCount_pos w v
    omega⟩
  have hup : v < 2 ^ (w * (c + 1)) := (chunkCount_le w v (c + 1) hw (by omega)).1 (by omega)
  have hlo : 0 < c → 2 ^ (w * c) ≤ v := by
    intro hc0
    by_contra hlt
    have := (chunkCount_le w v c hw hc0).2 (by omega)
    omega
  have hc64 : c + 1 ≤ 64 := by
    have : chunkCount w v ≤ 32 := by
      apply (chunkCount_le w v 32 hw (by omega)).2
      rcases hw with rfl | rfl
      · exact hv
      · exact lt_of_lt_of_le hv (Nat.pow_le_pow_right (by omega) (by omega))
    omega
  obtain ⟨s1, s2⟩ := varintBits_shape w hw0 c v 64 hc64 hup hlo
  refine ⟨lz', a', varint w v, e, wr.bits, wr.ok.err, ?_, ?_, ?_⟩
  · rw [hc]; exact s1
  · rw [hc]; exact s2
  · intro hv0
    subst hv0
    have hz : (0 : Nat) >>> w = 0 := by simp
    show varintBits w (63 + 1) 0 = _
    rw [varintBits]
    simp only [hz, ne_eq, not_true_eq_false, if_false]
    congr 1
    have := bitsFrom_zero_of_lt 0 0 (by simp) w 0
    simpa using this

theorem chunkCount_300 : chunkCount 4 300 = 3 := by
  apply le_antisymm
  · exact (chunkCount_le 4 300 3 (Or.inr rfl) (by omega)).2 (by norm_num)
  · by_contra h
    have := (chunkCount_le 4 300 2 (Or.inr rfl) (by omega)).1 (by omega)
    norm_num at this

/-- Witness of C22: the value 300 with chunk width 4 is written as the 15 bits of the
chunks `0011`, `0100` and `1000` (in stream order), followed by the continuation bits 1, 1
and 0. -/
theorem varint_shape_witness :
    ((4 : Nat) = 2 ∨ (4 : Nat) = 4) ∧ (300 : Nat) < 2 ^ 64 ∧ WOk (memSession []) ⟨0, 0⟩ ∧
    chunkCount 4 300 = 3 ∧
    varint 4 300 = [false, false, true, true, true, false, true, false, false, true,
      true, false, false, false, false] ∧
    ∃ lz' a' bs, lz77_write_number memTransport (memSession []) ⟨0, 0⟩ 300 4 = .ok (lz', a') ∧
      wbits lz' a' = wbits (memSession []) ⟨0, 0⟩ ++ bs ∧ lz'.error = 0 ∧
      bs.length = (4 + 1) * chunkCount 4 300 ∧
      (∀ i, i < chunkCount 4 300 →
        (∀ b, b < 4 → bs[i * (4 + 1) + b]? = some ((300 : Nat).testBit (i * 4 + b))) ∧
        bs[i * (4 + 1) + 4]? = some (decide (i + 1 < chunkCount 4 300))) ∧
      ((300 : Nat) = 0 → bs = List.replicate 4 false ++ [false]) :=
  ⟨Or.inr rfl, by decide, ⟨rfl, by decide, by decide⟩, chunkCount_300, by decide,
    varint_shape 4 300 (Or.inr rfl) (by decide) (memSession []) ⟨0, 0⟩
      ⟨rfl, by decide, by decide⟩⟩

/-! ## Validity of the tokens -/

/-- C23 (every back-reference the encoder emits is valid and decodable).  For every input,
`window_bits` in 10..12 and position `i < bytes` at which the match search returns a length
above 2, so that compress takes the match branch: the length is at least 3, the distance
`pos` satisfies `0 < pos < 2 ^ window_bits` and `pos < i`, the length is at most
`bytes - i`, and `data[i - pos + k] = data[i + k]` for every `k < len` (so the two
assertions of the branch hold).  At every state of the main loop whose three heaps have
consistent indices and the symbol counts 128, `2 ^ window_bits` and `2 ^ window_bits`,
the symbol `pos` is below `nc` of the distance heap, the symbol `len` is below `nc` of the
length heap whenever that heap is used (`len < 2 ^ window_bits`), the branch runs inside
the tables and leaves such a state again.  Such states are the only ones the loop is in:
the three `lz77_binheap_init` calls give one, and the literal branch, whose symbol
`b mod 128` is below `nc = 128` of the literal heap, leaves one again. -/
theorem backrefs_valid (data : Nat → Nat) (bytes window_bits i : Nat) (h1 : 10 ≤ window_bits)
    (h2 : window_bits ≤ 12) (hbytes : bytes < 2 ^ 64) (hi : i < bytes)
    (hm : (lz77_match data bytes (2 ^ window_bits) i).1 > 2)
    (lz : lz77_t Mem) (a : Acc) (hw : WOk lz a) (ht : HInv lz.bh_txt 128)
    (hp : HInv lz.bh_pos ((2 ^ window_bits : Nat) : Int))
    (hl : HInv lz.bh_len ((2 ^ window_bits : Nat) : Int)) :
    3 ≤ (lz77_match data bytes (2 ^ window_bits) i).1 ∧
    0 < (lz77_match data bytes (2 ^ window_bits) i).2 ∧
    (lz77_match data bytes (2 ^ window_bits) i).2 < 2 ^ window_bits ∧
    (lz77_match data bytes (2 ^ window_bits) i).2 < i ∧
    (lz77_match data bytes (2 ^ window_bits) i).1 ≤ bytes - i ∧
    (∀ k, k < (lz77_match data bytes (2 ^ window_bits) i).1 →
      data (i - (lz77_match data bytes (2 ^ window_bits) i).2 + k) = data (i + k)) ∧
    (0 ≤ toI32 (lz77_match data bytes (2 ^ window_bits) i).2 ∧
      toI32 (lz77_match data bytes (2 ^ window_bits) i).2 < lz.bh_pos.nc) ∧
    ((lz77_match data bytes (2 ^ window_bits) i).1 < 2 ^ window_bits →
      0 ≤ toI32 (lz77_match data bytes (2 ^ window_bits) i).1 ∧
      toI32 (lz77_match data bytes (2 ^ window_bits) i).1 < lz.bh_len.nc) ∧
    (∃ lz' a', lz77_emit_backref memTransport lz a (lz77_match data bytes (2 ^ window_bits) i).2
        (lz77_match data bytes (2 ^ window_bits) i).1 (2 ^ window_bits) 4 = .ok (lz', some a') ∧
      WOk lz' a' ∧ HInv lz'.bh_txt 128 ∧ HInv lz'.bh_pos ((2 ^ window_bits : Nat) : Int) ∧
      HInv lz'.bh_len ((2 ^ window_bits : Nat) : Int)) ∧
    (∀ (lz0 : lz77_t Mem), lz77_binheap_init lz0.bh_txt 0x80 = .ok (idHeap 128) ∧
      lz77_binheap_init lz0.bh_pos (toI32 ((1 <<< window_bits) % 2 ^ 64))
        = .ok (idHeap ((2 ^ window_bits : Nat) : Int)) ∧
      HInv (idHeap 128) 128 ∧
      HInv (idHeap ((2 ^ window_bits : Nat) : Int)) ((2 ^ window_bits : Nat) : Int)) ∧
    (∀ b, b < 256 → (0 : Int) ≤ ((b % 128 : Nat) : Int) ∧ ((b % 128 : Nat) : Int) < lz.bh_txt.nc ∧
      ∃ lz' a', lz77_emit_literal memTransport lz a b = .ok (lz', some a') ∧
        WOk lz' a' ∧ HInv lz'.bh_txt 128 ∧ HInv lz'.bh_pos ((2 ^ window_bits : Nat) : Int) ∧
        HInv lz'.bh_len ((2 ^ window_bits : Nat) : Int)) := by
  obtain ⟨w1, w2, w3, w4⟩ := window_of_bits window_bits h1 h2
  have hw4 : ((2 ^ window_bits : Nat) : Int) ≤ 4096 := by exact_mod_cast w4
  have hw0 : (0 : Int) ≤ ((2 ^ window_bits : Nat) : Int) := by positivity
  obtain ⟨hmv, hposw⟩ := match_valid data bytes (2 ^ window_bits) i w3 (by omega)
  have hlen_le := hmv.len_le
  have hpl := hmv.pos_lt
  have hpp := hmv.pos_pos
  obtain ⟨lz1, a1, e1, em, _, hp1, _, hl1, htxt⟩ := emit_backref_mem lz a
    (lz77_match data bytes (2 ^ window_bits) i).2 (lz77_match data bytes (2 ^ window_bits) i).1
    (2 ^ window_bits) hw hp hl hposw (by omega)
  refine ⟨by omega, hpp, hposw, by omega, hlen_le, hmv.eq, ?_, ?_,
    ⟨lz1, a1, e1, em.ok, by rw [htxt]; exact ht, hp1, hl1⟩, ?_, ?_⟩
  · rw [toI32_of_lt _ (by omega), hp.nc]
    exact ⟨by omega, by exact_mod_cast hposw⟩
  · intro hlt
    rw [toI32_of_lt _ (by omega), hl.nc]
    exact ⟨by omega, by exact_mod_cast hlt⟩
  · intro lz0
    refine ⟨init_eq _ 0x80 (by omega) (by omega), ?_, idHeap_inv 128 (by omega) (by omega),
      idHeap_inv _ hw0 hw4⟩
    rw [w2]
    exact init_eq _ _ hw0 hw4
  · intro b hb
    obtain ⟨lz2, a2, e2, em2, _, ht2, hp2, hl2⟩ := emit_literal_mem lz a b hw ht hb
    refine ⟨by omega, by rw [ht.nc]; omega, lz2, a2, e2, em2.ok, ht2, by rw [hp2]; exact hp,
      by rw [hl2]; exact hl⟩

/-- Witness of C23: the input "xabcabc" at `i = 4`, with the heaps as initialised. -/
theorem backrefs_valid_witness :
    10 ≤ 10 ∧ 10 ≤ 12 ∧ 7 < 2 ^ 64 ∧ 4 < 7 ∧
    (lz77_match (bufferOf [120, 97, 98, 99, 97, 98, 99]) 7 (2 ^ 10) 4).1 > 2 ∧
    lz77_match (bufferOf [120, 97, 98, 99, 97, 98, 99]) 7 (2 ^ 10) 4 = (3, 3) ∧
    ∃ lz' a', lz77_emit_backref memTransport (reinit (memSession []) ((2 ^ 10 : Nat) : Int))
        ⟨0, 0⟩ (lz77_match (bufferOf [120, 97, 98, 99, 97, 98, 99]) 7 (2 ^ 10) 4).2
        (lz77_match (bufferOf [120, 97, 98, 99, 97, 98, 99]) 7 (2 ^ 10) 4).1 (2 ^ 10) 4
          = .ok (lz', some a') ∧
      WOk lz' a' ∧ HInv lz'.bh_txt 128 ∧ HInv lz'.bh_pos ((2 ^ 10 : Nat) : Int) ∧
      HInv lz'.bh_len ((2 ^ 10 : Nat) : Int) :=
  ⟨by decide, by decide, by decide, by decide, by decide, by decide,
    (backrefs_valid (bufferOf [120, 97, 98, 99, 97, 98, 99]) 7 10 4 (by decide) (by decide)
      (by decide) (by decide) (by decide) (reinit (memSession []) ((2 ^ 10 : Nat) : Int)) ⟨0, 0⟩
      ⟨rfl, by decide, by decide⟩ (idHeap_inv 128 (by decide) (by decide))
      (idHeap_inv _ (by decide) (by decide)) (idHeap_inv _ (by decide) (by decide))).2.2.2.2.2.2.2.2.1⟩

theorem copy_loop_overrun (bytes d : Nat) : ∀ (len i : Nat) (data : Nat → Nat),
    d ≤ i → i ≤ bytes → bytes < i + len →
    lz77_copy_loop bytes d len data i = .error .buffer := by
  intro len
  induction len with
  | zero => intro i data _ _ h; omega
  | succ len ih =>
    intro i data hdi hib hle
    rw [lz77_copy_loop]
    by_cases c1 : i < d ∨ bytes ≤ i - d
    · rw [if_pos c1]
    · rw [if_neg c1]
      by_cases c2 : bytes ≤ i
      · rw [if_pos c2]
      · rw [if_neg c2]
        exact ih (i + 1) _ (by omega) (by omega) (by omega)

theorem copy_loop_underrun (bytes d len i : Nat) (data : Nat → Nat) (h : i < d)
    (hl : 0 < len) : lz77_copy_loop bytes d len data i = .error .buffer := by
  obtain ⟨l, rfl⟩ : ∃ l, len = l + 1 := ⟨len - 1, by omega⟩
  rw [lz77_copy_loop, if_pos (Or.inl h)]

theorem bad_copy_eval :
    faultOf (lz77_decompress_loop memTransport 11 (2 ^ 10) 4 11
      (reinit (memSession [2567]) ((2 ^ 10 : Nat) : Int)) ⟨0, 0⟩ (bufferOf []) 0)
      = some .buffer := by
  decide!

/-- The copy of a decoded back-reference in the main loop of decompress (output position
`i < bytes`, buffer of `bytes` bytes, every window): when the two flag bits read as `1, 1`
and the back-reference is decoded as distance `d` and length `len` with `0 < d < window`
and `len > 0`, the copy loop is run without a check against the position or the buffer
length: if `d <= i` and `i + len <= bytes` it returns, having read and written indices in
`[0, bytes)` only, and the main loop goes on at `i + len`; if `d > i` or `i + len > bytes`
it reads before the buffer or writes past its end. -/
theorem decoder_copy_bounds {σ : Type} (tr : Transport σ)
    (bytes window base fuel : Nat) (lz : lz77_t σ) (a : Acc) (data : Nat → Nat) (i d len : Nat)
    (hi : i < bytes)
    (he0 : (lz77_read_bit tr lz a).1.error = 0)
    (hb0 : (lz77_read_bit tr lz a).2.2 ≠ 0)
    (he1 : (lz77_read_bit tr (lz77_read_bit tr lz a).1 (lz77_read_bit tr lz a).2.1).1.error = 0)
    (hb1 : (lz77_read_bit tr (lz77_read_bit tr lz a).1 (lz77_read_bit tr lz a).2.1).2.2 ≠ 0)
    (hd : backrefOf (lz77_decode_backref tr
      (lz77_read_bit tr (lz77_read_bit tr lz a).1 (lz77_read_bit tr lz a).2.1).1
      (lz77_read_bit tr (lz77_read_bit tr lz a).1 (lz77_read_bit tr lz a).2.1).2.1 base)
        = some (d, len))
    (hd0 : 0 < d) (hdw : d < window) (hl0 : 0 < len) (hlen : i + len < 2 ^ 64) :
    (d ≤ i ∧ i + len ≤ bytes →
      ∃ lz1 a1 out, lz77_copy_loop bytes d len data i = .ok (out, i + len) ∧
        (∀ m, m < i → out m = data m) ∧ (∀ m, i + len ≤ m → out m = data m) ∧
        lz77_decompress_loop tr bytes window base (fuel + 1) lz a data i
          = lz77_decompress_loop tr bytes window base fuel lz1 a1 out (i + len)) ∧
    (i < d ∨ bytes < i + len →
      lz77_copy_loop bytes d len data i = .error .buffer ∧
      lz77_decompress_loop tr bytes window base (fuel + 1) lz a data i = .error .buffer) := by
  have start : ∀ c : Except Fault ((Nat → Nat) × Nat),
      lz77_copy_loop bytes d len data i = c →
      ∃ lz1 a1, lz77_decompress_loop tr bytes window base (fuel + 1) lz a data i
        = (c >>= fun c => lz77_decompress_loop tr bytes window base fuel lz1 a1 c.1 c.2) := by
    intro c hc
    rw [lz77_decompress_loop, if_pos hi]
    dsimp only
    rw [if_neg (by simp [he0]), if_pos hb0, if_neg (by simp [he1]), if_pos hb1]
    cases hdec : lz77_decode_backref tr
        (lz77_read_bit tr (lz77_read_bit tr lz a).1 (lz77_read_bit tr lz a).2.1).1
        (lz77_read_bit tr (lz77_read_bit tr lz a).1 (lz77_read_bit tr lz a).2.1).2.1 base with
    | error e => rw [hdec] at hd; simp [backrefOf] at hd
    | ok r =>
      rw [hdec] at hd
      simp only [backrefOf] at hd
      obtain ⟨lz1, a1, o⟩ := r
      simp only [] at hd
      subst hd
      refine ⟨lz1, a1, ?_⟩
      rw [except_bind_ok]
      dsimp only
      rw [if_neg (by simp [hd0, hdw]), if_neg (by omega)]
      have en : (i + len) % 2 ^ 64 = i + len := Nat.mod_eq_of_lt hlen
      have el : i + len - i = len := by omega
      rw [en, el, hc]
  refine ⟨?_, ?_⟩
  · intro ⟨hdi, hle⟩
    obtain ⟨out, ec, _, c2, c3⟩ := copy_loop_overlap bytes d hd0 len i data hdi hle
    obtain ⟨lz1, a1, e⟩ := start _ ec
    exact ⟨lz1, a1, out, ec, c2, c3, by rw [e, except_bind_ok]⟩
  · intro hbad
    have ec : lz77_copy_loop bytes d len data i = .error .buffer := by
      by_cases c : i < d
      · exact copy_loop_underrun bytes d len i data c hl0
      · exact copy_loop_overrun bytes d len i data (by omega) (by omega) (by omega)
    obtain ⟨lz1, a1, e⟩ := start _ ec
    exact ⟨ec, by rw [e, except_bind_error]⟩

theorem bad_rank_eval :
    faultOf (lz77_decompress_loop memTransport 11 (2 ^ 10) 4 11
      (reinit distanceRankSession ((2 ^ 10 : Nat) : Int)) ⟨0, 0⟩ (bufferOf []) 0)
      = some .table := by
  decide!

/-- C26 (the decoder uses the ranks it decodes without a check).  The stream of the single
word 3688 starts with a literal token of rank 200.  The literal heap has `nc = 128`
symbols, so `ns[200]` holds the filler `-1`: decompress stores its low byte 255 at
`data[0]` and calls `lz77_binheap_inc_freq` with the symbol 255, which is not below `nc`
(the frequency of 255 becomes 1).  The stream of the single word 32451 starts with a
back-reference token of distance rank 2000, not below `nc = 1024` with `window_bits = 10`:
`ns[2000]` is the filler, and `lz77_binheap_inc_freq` with the symbol `-1` subscripts
`sx[-1]`, outside the table. -/
theorem decoder_uses_unchecked_ranks :
    (lz77_read_bit memTransport (reinit rankSession 1024) ⟨0, 0⟩).2.2 = 0 ∧
    (lz77_read_number memTransport
      (lz77_read_bit memTransport (reinit rankSession 1024) ⟨0, 0⟩).1
      (lz77_read_bit memTransport (reinit rankSession 1024) ⟨0, 0⟩).2.1 2).toOption.map
        (fun r => r.2.2) = some 200 ∧
    (reinit rankSession 1024).bh_txt.nc = 128 ∧ (reinit rankSession 1024).bh_txt.ns 200 = -1 ∧
    literalOf (lz77_decode_literal memTransport
      (lz77_read_bit memTransport (reinit rankSession 1024) ⟨0, 0⟩).1
      (lz77_read_bit memTransport (reinit rankSession 1024) ⟨0, 0⟩).2.1 (bufferOf []) 1 0 0) 0 255
        = some (255, 1, 128) ∧
    lz77_decompress memTransport 11 distanceRankSession (bufferOf []) 11 10 = .error .table := by
  refine ⟨by decide!, by decide!, by decide, by decide, by decide!, ?_⟩
  rw [decompress_eq_loop memTransport 11 distanceRankSession (bufferOf []) 11 10 rfl (by omega)
    (by omega)]
  exact faultOf_eq _ _ bad_rank_eval

/-! ## Independence from the byte counter and from stale heaps -/

@[simp] theorem setW_error {σ : Type} (lz : lz77_t σ) (w : Nat) : (setW lz w).error = lz.error :=
  rfl
@[simp] theorem setW_that {σ : Type} (lz : lz77_t σ) (w : Nat) : (setW lz w).that = lz.that :=
  rfl
@[simp] theorem setW_txt {σ : Type} (lz : lz77_t σ) (w : Nat) : (setW lz w).bh_txt = lz.bh_txt :=
  rfl
@[simp] theorem setW_pos {σ : Type} (lz : lz77_t σ) (w : Nat) : (setW lz w).bh_pos = lz.bh_pos :=
  rfl
@[simp] theorem setW_len {σ : Type} (lz : lz77_t σ) (w : Nat) : (setW lz w).bh_len = lz.bh_len :=
  rfl
@[simp] theorem wipe_setW {σ : Type} (lz : lz77_t σ) (w : Nat) : wipe (setW lz w) = wipe lz :=
  rfl

theorem wipe_eq {σ : Type} {lz lz' : lz77_t σ} (h : wipe lz = wipe lz') :
    lz' = setW lz lz'.written := by
  cases lz
  cases lz'
  simp only [wipe, lz77_t.mk.injEq] at h
  obtain ⟨h1, h2, _, h4, h5, h6⟩ := h
  subst h1 h2 h4 h5 h6
  rfl

theorem agree_refl {σ α : Type} (x : Except Fault (lz77_t σ × α)) : Agree x x := rfl

theorem agree_bind {σ α β : Type} {x y : Except Fault (lz77_t σ × α)}
    {f : lz77_t σ × α → Except Fault (lz77_t σ × β)} (hxy : Agree x y)
    (hf : ∀ (r : lz77_t σ × α) (w : Nat), Agree (f (setW r.1 w, r.2)) (f r)) :
    Agree (x >>= f) (y >>= f) := by
  cases x with
  | error e =>
    cases y with
    | error e' =>
      simp only [Agree, Except.map] at hxy
      rw [Except.error.injEq] at hxy
      subst hxy
      rfl
    | ok r' => simp [Agree, Except.map] at hxy
  | ok r =>
    cases y with
    | error e' => simp [Agree, Except.map] at hxy
    | ok r' =>
      simp only [Agree, Except.map, Except.ok.injEq, wipeR, Prod.mk.injEq] at hxy
      obtain ⟨h1, h2⟩ := hxy
      have e := wipe_eq h1
      rw [except_bind_ok, except_bind_ok]
      have := hf r r'.1.written
      rw [← e, h2] at this
      exact Eq.symm this

theorem agreeS_bind {σ α : Type} {x y : Except Fault (lz77_t σ × α)}
    {f : lz77_t σ × α → Except Fault (lz77_t σ)} (hxy : Agree x y)
    (hf : ∀ (r : lz77_t σ × α) (w : Nat), AgreeS (f (setW r.1 w, r.2)) (f r)) :
    AgreeS (x >>= f) (y >>= f) := by
  cases x with
  | error e =>
    cases y with
    | error e' =>
      simp only [Agree, Except.map] at hxy
      rw [Except.error.injEq] at hxy
      subst hxy
      rfl
    | ok r' => simp [Agree, Except.map] at hxy
  | ok r =>
    cases y with
    | error e' => simp [Agree, Except.map] at hxy
    | ok r' =>
      simp only [Agree, Except.map, Except.ok.injEq, wipeR, Prod.mk.injEq] at hxy
      obtain ⟨h1, h2⟩ := hxy
      have e := wipe_eq h1
      rw [except_bind_ok, except_bind_ok]
      have := hf r r'.1.written
      rw [← e, h2] at this
      exact Eq.symm this

theorem sendWord_w {σ : Type} (tr : Transport σ) (lz : lz77_t σ) (x w : Nat) :
    wipe (sendWord tr (setW lz w) x) = wipe (sendWord tr lz x) := by
  unfold sendWord
  have e1 : (call_write tr (setW lz w) x).error = (call_write tr lz x).error := rfl
  by_cases he : (call_write tr lz x).error = 0
  · have he' : (call_write tr (setW lz w) x).error = 0 := by rw [e1]; exact he
    rw [if_pos he, if_pos he']
    rfl
  · have he' : ¬ (call_write tr (setW lz w) x).error = 0 := by rw [e1]; exact he
    rw [if_neg he, if_neg he']
    rfl

theorem write_bit_w {σ : Type} (tr : Transport σ) (lz : lz77_t σ) (a : Acc) (bit w : Nat) :
    Agree (lz77_write_bit tr (setW lz w) a bit) (lz77_write_bit tr lz a bit) := by
  by_cases h : a.bp = 64 ∧ lz.error = 0
  · have h' : a.bp = 64 ∧ (setW lz w).error = 0 := h
    have e : ∀ l : lz77_t σ, a.bp = 64 ∧ l.error = 0 → lz77_write_bit tr l a bit
        = .ok (sendWord tr l a.b64, ⟨0 ||| ((bit <<< 0) % 2 ^ 64), 0 + 1⟩) := by
      intro l hl
      unfold lz77_write_bit
      rw [if_pos hl]
      rfl
    rw [e lz h, e (setW lz w) h']
    simp only [Agree, Except.map, wipeR, sendWord_w]
  · have h' : ¬ (a.bp = 64 ∧ (setW lz w).error = 0) := h
    have e : ∀ l : lz77_t σ, ¬ (a.bp = 64 ∧ l.error = 0) → lz77_write_bit tr l a bit
        = if a.bp < 64 then .ok (l, ⟨a.b64 ||| ((bit <<< a.bp) % 2 ^ 64), a.bp + 1⟩)
          else .error .shift := by
      intro l hl
      unfold lz77_write_bit
      rw [if_neg hl]
    rw [e lz h, e (setW lz w) h']
    by_cases hb : a.bp < 64
    · rw [if_pos hb, if_pos hb]
      rfl
    · rw [if_neg hb, if_neg hb]
      rfl

theorem write_bits_w {σ : Type} (tr : Transport σ) : ∀ (n : Nat) (lz : lz77_t σ) (a : Acc)
    (bits w : Nat),
    Agree (lz77_write_bits tr (setW lz w) a bits n) (lz77_write_bits tr lz a bits n) := by
  intro n
  induction n with
  | zero => intro lz a bits w; rfl
  | succ n ih =>
    intro lz a bits w
    rw [lz77_write_bits, lz77_write_bits]
    exact agree_bind (write_bit_w tr lz a _ w) (fun r w' => ih r.1 r.2 _ w')

theorem write_number_loop_w {σ : Type} (tr : Transport σ) (base : Nat) : ∀ (f : Nat)
    (lz : lz77_t σ) (a : Acc) (bits w : Nat),
    Agree (lz77_write_number_loop tr base f (setW lz w) a bits)
      (lz77_write_number_loop tr base f lz a bits) := by
  intro f
  induction f with
  | zero => intro lz a bits w; rfl
  | succ f ih =>
    intro lz a bits w
    rw [lz77_write_number_loop, lz77_write_number_loop]
    apply agree_bind (write_bits_w tr base lz a bits w)
    intro r w'
    dsimp only
    apply agree_bind (write_bit_w tr r.1 r.2 _ w')
    intro r2 w2
    dsimp only
    by_cases hz : bits >>> base ≠ 0
    · rw [if_pos hz, if_pos hz]
      exact ih r2.1 r2.2 _ w2
    · rw [if_neg hz, if_neg hz]
      rfl

theorem write_number_w {σ : Type} (tr : Transport σ) (base : Nat) (lz : lz77_t σ) (a : Acc)
    (bits w : Nat) :
    Agree (lz77_write_number tr (setW lz w) a bits base) (lz77_write_number tr lz a bits base) :=
  write_number_loop_w tr base 64 lz a bits w

theorem flush_w {σ : Type} (tr : Transport σ) (lz : lz77_t σ) (a : Acc) (w : Nat) :
    wipe (lz77_flush tr (setW lz w) a) = wipe (lz77_flush tr lz a) := by
  have e : ∀ l : lz77_t σ, lz77_flush tr l a
      = if a.bp > 0 ∧ l.error = 0 then sendWord tr l a.b64 else l := by
    intro l
    rfl
  rw [e lz, e (setW lz w)]
  by_cases h : a.bp > 0 ∧ lz.error = 0
  · have h' : a.bp > 0 ∧ (setW lz w).error = 0 := h
    rw [if_pos h, if_pos h']
    exact sendWord_w tr lz a.b64 w
  · have h' : ¬ (a.bp > 0 ∧ (setW lz w).error = 0) := h
    rw [if_neg h, if_neg h']
    rfl

theorem agree_pure_none {σ α : Type} (lz : lz77_t σ) (w : Nat) (x : α) :
    Agree (pure (setW lz w, x) : Except Fault (lz77_t σ × α)) (pure (lz, x)) := rfl

theorem emit_literal_w {σ : Type} (tr : Transport σ) (lz : lz77_t σ) (a : Acc) (b w : Nat) :
    Agree (lz77_emit_literal tr (setW lz w) a b) (lz77_emit_literal tr lz a b) := by
  have tail : ∀ (s : Int) (r : lz77_t σ × Acc) (w1 : Nat),
      Agree
        (if (setW r.1 w1).error ≠ 0 then pure (setW r.1 w1, none) else do
          let rank ← rd (setW r.1 w1).bh_txt.sx s
          let r2 ← lz77_write_number tr (setW r.1 w1) r.2 (toU64 rank % 256) 2
          let h ← lz77_binheap_inc_freq r2.1.bh_txt s
          if ({ r2.1 with bh_txt := h.1 } : lz77_t σ).error ≠ 0
            then pure (({ r2.1 with bh_txt := h.1 } : lz77_t σ), none)
            else pure (({ r2.1 with bh_txt := h.1 } : lz77_t σ), some r2.2))
        (if r.1.error ≠ 0 then pure (r.1, none) else do
          let rank ← rd r.1.bh_txt.sx s
          let r2 ← lz77_write_number tr r.1 r.2 (toU64 rank % 256) 2
          let h ← lz77_binheap_inc_freq r2.1.bh_txt s
          if ({ r2.1 with bh_txt := h.1 } : lz77_t σ).error ≠ 0
            then pure (({ r2.1 with bh_txt := h.1 } : lz77_t σ), none)
            else pure (({ r2.1 with bh_txt := h.1 } : lz77_t σ), some r2.2)) := by
    intro s r w1
    simp only [setW_error, setW_txt]
    by_cases he : r.1.error ≠ 0
    · rw [if_pos he, if_pos he]
      rfl
    · rw [if_neg he, if_neg he]
      cases rd r.1.bh_txt.sx s with
      | error e => rfl
      | ok rank =>
        rw [except_bind_ok, except_bind_ok]
        apply agree_bind (write_number_w tr 2 r.1 r.2 _ w1)
        intro r2 w2
        simp only [setW_txt]
        cases lz77_binheap_inc_freq r2.1.bh_txt s with
        | error e => rfl
        | ok h =>
          rw [except_bind_ok, except_bind_ok]
          have e1 : ({ setW r2.1 w2 with bh_txt := h.1 } : lz77_t σ).error = r2.1.error := rfl
          have e2 : ({ r2.1 with bh_txt := h.1 } : lz77_t σ).error = r2.1.error := rfl
          by_cases he2 : r2.1.error ≠ 0
          · rw [if_pos (by rw [e1]; exact he2), if_pos (by rw [e2]; exact he2)]
            rfl
          · rw [if_neg (by rw [e1]; exact he2), if_neg (by rw [e2]; exact he2)]
            rfl
  unfold lz77_emit_literal
  by_cases hb : b < 0x80
  · rw [if_pos hb, if_pos hb]
    apply agree_bind (write_bit_w tr lz a 0 w)
    intro r w1
    exact tail b r w1
  · rw [if_neg hb, if_neg hb]
    apply agree_bind (write_bit_w tr lz a 1 w)
    intro r w1
    apply agree_bind (write_bit_w tr r.1 r.2 0 w1)
    intro r1 w2
    exact tail ((b &&& 0x7F : Nat) : Int) r1 w2

theorem agree_tail {σ : Type} (lz : lz77_t σ) (w : Nat) (a : Acc) :
    Agree (if (setW lz w).error ≠ 0 then pure (setW lz w, (none : Option Acc))
        else pure (setW lz w, some a) : Except Fault (lz77_t σ × Option Acc))
      (if lz.error ≠ 0 then pure (lz, none) else pure (lz, some a)) := by
  simp only [setW_error]
  by_cases he : lz.error ≠ 0
  · rw [if_pos he, if_pos he]; rfl
  · rw [if_neg he, if_neg he]; rfl

theorem emit_backref_w {σ : Type} (tr : Transport σ) (lz : lz77_t σ) (a : Acc)
    (pos len window base w : Nat) :
    Agree (lz77_emit_backref tr (setW lz w) a pos len window base)
      (lz77_emit_backref tr lz a pos len window base) := by
  unfold lz77_emit_backref
  apply agree_bind (write_bits_w tr 2 lz a 3 w)
  intro r w1
  try dsimp only
  simp only [setW_error, setW_pos]
  by_cases he : r.1.error ≠ 0
  · rw [if_pos he, if_pos he]
    rfl
  rw [if_neg he, if_neg he]
  cases rd r.1.bh_pos.sx pos with
  | error e => rfl
  | ok rank =>
  rw [except_bind_ok, except_bind_ok]
  apply agree_bind (write_number_w tr base r.1 r.2 _ w1)
  intro r2 w2
  try dsimp only
  simp only [setW_pos]
  cases lz77_binheap_inc_freq r2.1.bh_pos (toI32 pos) with
  | error e => rfl
  | ok h =>
  rw [except_bind_ok, except_bind_ok]
  try dsimp only
  have e1 : ({ setW r2.1 w2 with bh_pos := h.1 } : lz77_t σ)
      = setW ({ r2.1 with bh_pos := h.1 } : lz77_t σ) w2 := rfl
  rw [e1]
  generalize ({ r2.1 with bh_pos := h.1 } : lz77_t σ) = lz3
  simp only [setW_error]
  by_cases he3 : r2.1.error ≠ 0
  · rw [if_pos he3, if_pos he3]
    rfl
  rw [if_neg he3, if_neg he3]
  apply agree_bind (write_bit_w tr lz3 r2.2 _ w2)
  intro r4 w4
  try dsimp only
  simp only [setW_error, setW_len]
  by_cases he4 : r4.1.error ≠ 0
  · rw [if_pos he4, if_pos he4]
    rfl
  rw [if_neg he4, if_neg he4]
  by_cases hl : len ≥ window
  · rw [if_pos hl, if_pos hl]
    apply agree_bind (write_number_w tr base r4.1 r4.2 len w4)
    intro r6 w6
    exact agree_tail r6.1 w6 r6.2
  · rw [if_neg hl, if_neg hl]
    cases rd r4.1.bh_len.sx len with
    | error e => rfl
    | ok rank =>
      rw [except_bind_ok, except_bind_ok]
      apply agree_bind (write_number_w tr base r4.1 r4.2 _ w4)
      intro r5 w5
      try dsimp only
      simp only [setW_len, setW_error]
      cases lz77_binheap_inc_freq r5.1.bh_len (toI32 len) with
      | error e => rfl
      | ok h =>
        rw [except_bind_ok, except_bind_ok]
        try dsimp only
        by_cases he5 : r5.1.error ≠ 0
        · simp only [except_pure, except_bind_ok, if_pos he5]
          rfl
        · simp only [except_pure, except_bind_ok, if_neg he5]
          rfl

theorem compress_loop_w {σ : Type} (tr : Transport σ) (data : Nat → Nat)
    (bytes window base : Nat) : ∀ (fuel : Nat) (lz : lz77_t σ) (a : Acc) (i w : Nat),
    AgreeS (lz77_compress_loop tr data bytes window base fuel (setW lz w) a i)
      (lz77_compress_loop tr data bytes window base fuel lz a i) := by
  intro fuel
  induction fuel with
  | zero =>
    intro lz a i w
    rw [lz77_compress_loop, lz77_compress_loop]
    by_cases hi : i < bytes
    · rw [if_pos hi, if_pos hi]
      rfl
    · rw [if_neg hi, if_neg hi]
      simp only [AgreeS, Except.map, flush_w]
  | succ f ih =>
    intro lz a i w
    rw [lz77_compress_loop, lz77_compress_loop]
    by_cases hi : i < bytes
    · rw [if_pos hi, if_pos hi]
      try dsimp only
      by_cases hm : (lz77_match data bytes window i).1 > 2
      · rw [if_pos hm, if_pos hm]
        apply agreeS_bind (emit_backref_w tr lz a _ _ window base w)
        intro r w1
        try dsimp only
        cases r.2 with
        | none => rfl
        | some a1 => exact ih r.1 a1 _ w1
      · rw [if_neg hm, if_neg hm]
        apply agreeS_bind (emit_literal_w tr lz a _ w)
        intro r w1
        try dsimp only
        cases r.2 with
        | none => rfl
        | some a1 => exact ih r.1 a1 _ w1
    · rw [if_neg hi, if_neg hi]
      simp only [AgreeS, Except.map, flush_w]

theorem read_bit_w {σ : Type} (tr : Transport σ) (lz : lz77_t σ) (a : Acc) (w : Nat) :
    lz77_read_bit tr (setW lz w) a
      = (setW (lz77_read_bit tr lz a).1 w, (lz77_read_bit tr lz a).2) := by
  unfold lz77_read_bit
  by_cases h : a.bp = 0
  · simp only [if_pos h]
    try rfl
  · simp only [if_neg h]
    try rfl

theorem read_bits_loop_w {σ : Type} (tr : Transport σ) : ∀ (n : Nat) (lz : lz77_t σ) (a : Acc)
    (bits i w : Nat),
    lz77_read_bits_loop tr n (setW lz w) a bits i
      = (setW (lz77_read_bits_loop tr n lz a bits i).1 w,
          (lz77_read_bits_loop tr n lz a bits i).2) := by
  intro n
  induction n with
  | zero => intro lz a bits i w; rfl
  | succ n ih =>
    intro lz a bits i w
    rw [lz77_read_bits_loop, lz77_read_bits_loop]
    simp only [setW_error]
    by_cases he : lz.error = 0
    · rw [if_pos he, if_pos he]
      try dsimp only
      rw [read_bit_w]
      try dsimp only
      rw [ih]
    · rw [if_neg he, if_neg he]

theorem read_bits_w {σ : Type} (tr : Transport σ) (lz : lz77_t σ) (a : Acc) (n w : Nat) :
    lz77_read_bits tr (setW lz w) a n
      = (setW (lz77_read_bits tr lz a n).1 w, (lz77_read_bits tr lz a n).2) :=
  read_bits_loop_w tr n lz a 0 0 w

theorem read_number_loop_w {σ : Type} (tr : Transport σ) (base : Nat) : ∀ (f : Nat)
    (lz : lz77_t σ) (a : Acc) (bits shift w : Nat),
    Agree (lz77_read_number_loop tr base f (setW lz w) a bits shift)
      (lz77_read_number_loop tr base f lz a bits shift) := by
  intro f
  induction f with
  | zero => intro lz a bits shift w; rfl
  | succ f ih =>
    intro lz a bits shift w
    rw [lz77_read_number_loop, lz77_read_number_loop]
    try dsimp only
    rw [read_bits_w]
    try dsimp only
    by_cases hs : shift ≥ 64
    · rw [if_pos hs, if_pos hs]
      rfl
    · rw [if_neg hs, if_neg hs]
      rw [read_bit_w]
      try dsimp only
      simp only [setW_error]
      generalize lz77_read_bit tr (lz77_read_bits tr lz a base).1
        (lz77_read_bits tr lz a base).2.1 = b
      by_cases hb : b.2.2 ≠ 0 ∧ b.1.error = 0
      · rw [if_pos hb, if_pos hb]
        exact ih _ _ _ _ _
      · rw [if_neg hb, if_neg hb]
        rfl

theorem read_number_w {σ : Type} (tr : Transport σ) (lz : lz77_t σ) (a : Acc) (base w : Nat) :
    Agree (lz77_read_number tr (setW lz w) a base) (lz77_read_number tr lz a base) :=
  read_number_loop_w tr base 65 lz a 0 0 w

theorem decode_backref_w {σ : Type} (tr : Transport σ) (lz : lz77_t σ) (a : Acc)
    (base w : Nat) :
    Agree (lz77_decode_backref tr (setW lz w) a base) (lz77_decode_backref tr lz a base) := by
  unfold lz77_decode_backref
  apply agree_bind (read_number_w tr lz a base w)
  intro r w1
  try dsimp only
  simp only [setW_error, setW_pos]
  by_cases he : r.1.error ≠ 0
  · rw [if_pos he, if_pos he]
    rfl
  rw [if_neg he, if_neg he]
  cases rd r.1.bh_pos.ns ↑r.2.2 with
  | error e =>
    rw [except_bind_error, except_bind_error]
    try rfl
  | ok sym =>
  rw [except_bind_ok, except_bind_ok]
  try dsimp only
  cases lz77_binheap_inc_freq r.1.bh_pos (toI32 (toU64 sym)) with
  | error e =>
    rw [except_bind_error, except_bind_error]
    try rfl
  | ok h =>
  rw [except_bind_ok, except_bind_ok]
  try dsimp only
  generalize hX : lz77_read_bit tr _ r.2.1 = bx
  generalize hY : lz77_read_bit tr _ r.2.1 = b
  have e1 : bx = (setW b.1 w1, b.2) := by
    rw [← hX, ← hY]
    exact read_bit_w tr ({ r.1 with bh_pos := h.1 } : lz77_t σ) r.2.1 w1
  rw [e1]
  try dsimp only
  simp only [setW_error]
  by_cases he2 : b.1.error ≠ 0
  · rw [if_pos he2, if_pos he2]
    rfl
  rw [if_neg he2, if_neg he2]
  by_cases hb : b.2.2 ≠ 0
  · rw [if_pos hb, if_pos hb]
    apply agree_bind (read_number_w tr b.1 b.2.1 base w1)
    intro r3 w3
    try dsimp only
    simp only [setW_error]
    by_cases he3 : r3.1.error ≠ 0
    · rw [if_pos he3, if_pos he3]
      rfl
    · rw [if_neg he3, if_neg he3]
      rfl
  · rw [if_neg hb, if_neg hb]
    apply agree_bind (read_number_w tr b.1 b.2.1 base w1)
    intro r3 w3
    try dsimp only
    simp only [setW_error, setW_len]
    by_cases he3 : r3.1.error ≠ 0
    · rw [if_pos he3, if_pos he3]
      rfl
    · rw [if_neg he3, if_neg he3]
      cases rd r3.1.bh_len.ns ↑r3.2.2 with
      | error e =>
    rw [except_bind_error, except_bind_error]
    try rfl
      | ok sym2 =>
        rw [except_bind_ok, except_bind_ok]
        try dsimp only
        cases lz77_binheap_inc_freq r3.1.bh_len (toI32 (toU64 sym2)) with
        | error e =>
    rw [except_bind_error, except_bind_error]
    try rfl
        | ok h2 => rfl

theorem decode_literal_w {σ : Type} (tr : Transport σ) (lz : lz77_t σ) (a : Acc)
    (data : Nat → Nat) (bytes i hi w : Nat) :
    Agree (lz77_decode_literal tr (setW lz w) a data bytes i hi)
      (lz77_decode_literal tr lz a data bytes i hi) := by
  unfold lz77_decode_literal
  apply agree_bind (read_number_w tr lz a 2 w)
  intro r w1
  try dsimp only
  simp only [setW_error, setW_txt]
  by_cases he : r.1.error ≠ 0
  · rw [if_pos he, if_pos he]
    rfl
  rw [if_neg he, if_neg he]
  cases rd r.1.bh_txt.ns ↑(r.2.2 % 256) with
  | error e =>
    rw [except_bind_error, except_bind_error]
    try rfl
  | ok sym =>
  rw [except_bind_ok, except_bind_ok]
  try dsimp only
  by_cases hi2 : bytes ≤ i
  · rw [if_pos hi2, if_pos hi2]
    rfl
  rw [if_neg hi2, if_neg hi2]
  cases lz77_binheap_inc_freq r.1.bh_txt ↑(toU64 sym % 256) with
  | error e =>
    rw [except_bind_error, except_bind_error]
    try rfl
  | ok h => rfl

theorem decompress_loop_w {σ : Type} (tr : Transport σ) (bytes window base : Nat) :
    ∀ (fuel : Nat) (lz : lz77_t σ) (a : Acc) (data : Nat → Nat) (i w : Nat),
    Agree (lz77_decompress_loop tr bytes window base fuel (setW lz w) a data i)
      (lz77_decompress_loop tr bytes window base fuel lz a data i) := by
  intro fuel
  induction fuel with
  | zero =>
    intro lz a data i w
    rw [lz77_decompress_loop, lz77_decompress_loop]
    by_cases hi : i < bytes
    · rw [if_pos hi, if_pos hi]
      rfl
    · rw [if_neg hi, if_neg hi]
      rfl
  | succ f ih =>
    intro lz a data i w
    rw [lz77_decompress_loop, lz77_decompress_loop]
    by_cases hi : i < bytes
    · rw [if_pos hi, if_pos hi]
      try dsimp only
      rw [read_bit_w]
      generalize lz77_read_bit tr lz a = b0
      try dsimp only
      simp only [setW_error]
      by_cases he0 : b0.1.error ≠ 0
      · rw [if_pos he0, if_pos he0]
        rfl
      rw [if_neg he0, if_neg he0]
      by_cases hb0 : b0.2.2 ≠ 0
      · rw [if_pos hb0, if_pos hb0]
        rw [read_bit_w]
        generalize lz77_read_bit tr b0.1 b0.2.1 = b1
        try dsimp only
        simp only [setW_error]
        by_cases he1 : b1.1.error ≠ 0
        · rw [if_pos he1, if_pos he1]
          rfl
        rw [if_neg he1, if_neg he1]
        by_cases hb1 : b1.2.2 ≠ 0
        · rw [if_pos hb1, if_pos hb1]
          apply agree_bind (decode_backref_w tr b1.1 b1.2.1 base w)
          intro d w1
          try dsimp only
          cases d.2.2 with
          | none => rfl
          | some pl =>
            try dsimp only
            by_cases hp : ¬ (0 < pl.1 ∧ pl.1 < window)
            · rw [if_pos hp, if_pos hp]
              rfl
            rw [if_neg hp, if_neg hp]
            by_cases hl : pl.2 = 0
            · rw [if_pos hl, if_pos hl]
              rfl
            rw [if_neg hl, if_neg hl]
            cases lz77_copy_loop bytes pl.1 ((i + pl.2) % 2 ^ 64 - i) data i with
            | error e =>
    rw [except_bind_error, except_bind_error]
    try rfl
            | ok c =>
              rw [except_bind_ok, except_bind_ok]
              exact ih _ _ _ _ _
        · rw [if_neg hb1, if_neg hb1]
          apply agree_bind (decode_literal_w tr b1.1 b1.2.1 data bytes i 0x80 w)
          intro d w1
          try dsimp only
          cases d.2 with
          | none => rfl
          | some ad => exact ih _ _ _ _ _
      · rw [if_neg hb0, if_neg hb0]
        apply agree_bind (decode_literal_w tr b0.1 b0.2.1 data bytes i 0 w)
        intro d w1
        try dsimp only
        cases d.2 with
        | none => rfl
        | some ad => exact ih _ _ _ _ _
    · rw [if_neg hi, if_neg hi]
      rfl

theorem reinit_stale {σ : Type} (lz1 lz2 : lz77_t σ) (window : Int)
    (ht : lz2.that = lz1.that) (he : lz2.error = lz1.error) :
    reinit lz2 window = setW (reinit lz1 window) lz2.written := by
  cases lz1
  cases lz2
  simp only at ht he
  subst ht he
  rfl

/-- C24: independence from stale session state.  For window_bits in 10..12 and two
sessions with `error = 0` and the same caller data, whatever their three heaps and their
byte counters hold, `lz77_compress` of the same input has the same outcome in both but for
the byte counter (the same caller data, hence the same words handed to the write callback,
the same error code and the same heaps, or the same fault), and `lz77_decompress` of the
same stream into the same buffer has the same outcome in both (the same output buffer). -/
theorem stale_state_independence {σ : Type} (tr : Transport σ) (lz1 lz2 : lz77_t σ)
    (data out : Nat → Nat) (bytes wb fuel : Nat) (h1 : 10 ≤ wb) (h2 : wb ≤ 12)
    (e1 : lz1.error = 0) (e2 : lz2.error = 0) (ht : lz2.that = lz1.that) :
    (lz77_compress tr lz2 data bytes wb).map wipe
        = (lz77_compress tr lz1 data bytes wb).map wipe ∧
      (lz77_decompress tr fuel lz2 out bytes wb).map wipeR
        = (lz77_decompress tr fuel lz1 out bytes wb).map wipeR := by
  have hr := reinit_stale lz1 lz2 ((2 ^ wb : Nat) : Int) ht (by rw [e1, e2])
  constructor
  · rw [compress_eq_loop tr lz1 data bytes wb e1 h1 h2,
      compress_eq_loop tr lz2 data bytes wb e2 h1 h2, hr]
    exact compress_loop_w tr data bytes (2 ^ wb) 4 bytes _ _ _ _
  · rw [decompress_eq_loop tr fuel lz1 out bytes wb e1 h1 h2,
      decompress_eq_loop tr fuel lz2 out bytes wb e2 h1 h2, hr]
    exact decompress_loop_w tr bytes (2 ^ wb) 4 fuel _ _ _ _ _

/-- Witness of C24: a fresh session and one with stale heaps and a byte counter of 77, on
the 35 bytes of "Hello World Hello.World Hello World" and on the stream of the word 2567. -/
theorem stale_state_independence_witness :
    (lz77_compress memTransport
          { memSession [2567] with bh_txt := idHeap 5, bh_len := idHeap 9, written := 77 }
          (bufferOf helloBytes) 35 10).map wipe
        = (lz77_compress memTransport (memSession [2567]) (bufferOf helloBytes) 35 10).map wipe ∧
      (lz77_decompress memTransport 35
          { memSession [2567] with bh_txt := idHeap 5, bh_len := idHeap 9, written := 77 }
          (bufferOf []) 35 10).map wipeR
        = (lz77_decompress memTransport 35 (memSession [2567]) (bufferOf []) 35 10).map wipeR :=
  stale_state_independence memTransport (memSession [2567])
    { memSession [2567] with bh_txt := idHeap 5, bh_len := idHeap 9, written := 77 }
    (bufferOf helloBytes) (bufferOf []) 35 10 35 (by decide) (by decide) rfl rfl rfl

/-! ## Baseline codec: the statistics -/

theorem baseline_entropy_loop_ok (freq : Nat → Nat) : ∀ (c i : Nat),
    i + c ≤ Baseline.freq_count → Baseline.lz77_entropy_loop freq c i = .ok () := by
  intro c
  induction c with
  | zero => intro i _; rfl
  | succ c ih =>
    intro i h
    rw [Baseline.lz77_entropy_loop, if_pos (by omega)]
    exact ih (i + 1) (by omega)

theorem baseline_entropy_loop_fault (freq : Nat → Nat) : ∀ (c i : Nat),
    i ≤ Baseline.freq_count → Baseline.freq_count < i + c →
    Baseline.lz77_entropy_loop freq c i = .error .freq := by
  intro c
  induction c with
  | zero => intro i h1 h2; omega
  | succ c ih =>
    intro i h1 h2
    rw [Baseline.lz77_entropy_loop]
    by_cases hi : i < Baseline.freq_count
    · rw [if_pos hi]
      exact ih (i + 1) (by omega) (by omega)
    · rw [if_neg hi]

theorem baseline_entropy_ok (freq : Nat → Nat) (n : Nat) (h : n ≤ Baseline.freq_count) :
    Baseline.lz77_entropy freq (n : Int) = .ok () := by
  unfold Baseline.lz77_entropy
  rw [Int.toNat_ofNat, baseline_entropy_loop_ok freq n 0 (by omega)]
  rfl

theorem baseline_entropy_fault (freq : Nat → Nat) (n : Nat) (h : Baseline.freq_count < n) :
    Baseline.lz77_entropy freq (n : Int) = .error .freq := by
  unfold Baseline.lz77_entropy
  rw [Int.toNat_ofNat, baseline_entropy_loop_fault freq n 0 (by omega) (by omega)]
  rfl

theorem baseline_probe_ok (m : Baseline.map_t) (data : Nat → Nat) (bytes : Nat) :
    ∀ (f i : Nat) (r : Int), i < Baseline.entry_count →
    (∃ d, d < f ∧ m.entry ((i + d) % Baseline.entry_count) 0 = 0) →
    ∃ j r' b, Baseline.map_put_probe m data bytes f i r = .ok (j, r', b) ∧
      j < Baseline.entry_count ∧ (b = false → m.entry j 0 = 0) := by
  intro f
  induction f with
  | zero =>
    intro i r _ h
    obtain ⟨d, hd, _⟩ := h
    omega
  | succ f ih =>
    intro i r hi h
    obtain ⟨d, hd, he⟩ := h
    rw [Baseline.map_put_probe]
    by_cases ho : m.entry i 0 > 0
    · rw [if_pos ho]
      by_cases hk : m.entry i 0 = bytes ∧ Baseline.map_key_eq m i data bytes = true
      · rw [if_pos hk]
        exact ⟨i, r, true, rfl, hi, by simp⟩
      · rw [if_neg hk]
        have hd0 : d ≠ 0 := by
          intro e
          rw [e, Nat.add_zero, Nat.mod_eq_of_lt hi] at he
          omega
        apply ih ((i + 1) % Baseline.entry_count) (r + 1) (Nat.mod_lt _ (by decide))
        refine ⟨d - 1, by omega, ?_⟩
        rw [Nat.mod_add_mod]
        have : i + 1 + (d - 1) = i + d := by omega
        rw [this]
        exact he
    · rw [if_neg ho]
      exact ⟨i, r, false, rfl, hi, fun _ => by omega⟩

theorem baseline_exists_free (m : Baseline.map_t) (S : Finset Nat)
    (hc : S.card < Baseline.entry_count)
    (hS : ∀ i, i < Baseline.entry_count → 0 < m.entry i 0 → i ∈ S) (i : Nat) :
    ∃ d, d < Baseline.entry_count ∧ m.entry ((i + d) % Baseline.entry_count) 0 = 0 := by
  by_contra hno
  have hall : ∀ d, d < Baseline.entry_count →
      (i + d) % Baseline.entry_count ∈ S := by
    intro d hd
    apply hS _ (Nat.mod_lt _ (by decide))
    by_contra h0
    exact hno ⟨d, hd, by omega⟩
  have hinj : Set.InjOn (fun d => (i + d) % Baseline.entry_count)
      (Finset.range Baseline.entry_count : Set Nat) := by
    intro x hx y hy hxy
    simp only [Finset.coe_range, Set.mem_Iio] at hx hy
    have hxy' : (i + x) % Baseline.entry_count = (i + y) % Baseline.entry_count := hxy
    have h1 : (i + x) ≡ (i + y) [MOD Baseline.entry_count] := hxy'
    have h2 : x ≡ y [MOD Baseline.entry_count] := Nat.ModEq.add_left_cancel' i h1
    have h3 : x % Baseline.entry_count = y % Baseline.entry_count := h2
    rw [Nat.mod_eq_of_lt hx, Nat.mod_eq_of_lt hy] at h3
    exact h3
  have hle := Finset.card_le_card_of_injOn (fun d => (i + d) % Baseline.entry_count)
    (fun d hd => hall d (Finset.mem_range.mp hd)) hinj
  rw [Finset.card_range] at hle
  omega

theorem baseline_map_init_inv (m : Baseline.map_t) : Baseline.MInv (Baseline.map_init m) 0 := by
  refine ⟨le_refl _, le_refl _, ∅, by simp, ?_⟩
  intro i hi h
  simp [Baseline.map_init, hi] at h

theorem baseline_map_put_inv (m : Baseline.map_t) (k : Nat) (data : Nat → Nat) (bytes : Nat)
    (h : Baseline.MInv m k) (hk : k < 393216) (h2 : 2 ≤ bytes) (h256 : bytes < 256) :
    ∃ m', Baseline.map_put m data bytes = .ok m' ∧ Baseline.MInv m' (k + 1) := by
  obtain ⟨e0, e1, S, hc, hS⟩ := h
  have hN : Baseline.entry_count = 524288 := rfl
  obtain ⟨d, hd, hfree⟩ := baseline_exists_free m S (by rw [hN]; omega) hS
    (Baseline.map_hash64 data bytes % Baseline.entry_count)
  obtain ⟨j, r', b, ep, hj, hb⟩ := baseline_probe_ok m data bytes Baseline.entry_count
    (Baseline.map_hash64 data bytes % Baseline.entry_count) 0 (Nat.mod_lt _ (by decide))
    ⟨d, hd, hfree⟩
  have s1 : Baseline.rt_swear (2 ≤ bytes ∧ bytes < 256) = .ok () := by
    unfold Baseline.rt_swear
    rw [if_pos ⟨h2, h256⟩]
  have s2 : Baseline.rt_swear (m.entries < ((Baseline.entry_count * 3 / 4 : Nat) : Int))
      = .ok () := by
    unfold Baseline.rt_swear
    rw [if_pos]
    have : ((Baseline.entry_count * 3 / 4 : Nat) : Int) = 393216 := by
      rw [hN]; norm_num
    rw [this]
    omega
  unfold Baseline.map_put
  rw [s1, except_bind_ok, s2, except_bind_ok]
  try dsimp only
  rw [ep, except_bind_ok]
  try dsimp only
  cases b with
  | true =>
    rw [if_pos rfl]
    refine ⟨m, rfl, e0, by omega, S, by omega, hS⟩
  | false =>
    rw [if_neg (by simp)]
    refine ⟨_, rfl, ?_, ?_, insert j S, ?_, ?_⟩
    · show 0 ≤ m.entries + 1
      omega
    · show m.entries + 1 ≤ ((k + 1 : Nat) : Int)
      push_cast
      omega
    · exact le_trans (Finset.card_insert_le j S) (by omega)
    · intro i hi ho
      by_cases hij : i = j
      · rw [hij]
        exact Finset.mem_insert_self j S
      · apply Finset.mem_insert_of_mem
        apply hS i hi
        simp only [Function.update_apply] at ho
        rw [if_neg hij] at ho
        exact ho

theorem baseline_freq_inc_ok (freq : Nat → Nat) (i : Nat) (h : i < Baseline.freq_count) :
    ∃ f', Baseline.freq_inc freq i = .ok f' := by
  unfold Baseline.freq_inc
  rw [if_pos h]
  exact ⟨_, rfl⟩

theorem baseline_count_match_ok (st : Baseline.Stats) (k : Nat) (data : Nat → Nat)
    (i pos len window : Nat) (h : Baseline.SInv st k) (hk : k < 393216)
    (hpf : pos < Baseline.freq_count) (hlf : len < window → len < Baseline.freq_count)
    (hp : pos < window) (hl : 3 ≤ len) :
    ∃ st', Baseline.lz77_count_match st data i pos len window = .ok st' ∧
      Baseline.SInv st' (k + 1) := by
  unfold Baseline.lz77_count_match
  have e1 : ∃ lf, (if len < window then Baseline.freq_inc st.len_freq len
      else pure st.len_freq) = Except.ok lf := by
    by_cases c : len < window
    · rw [if_pos c]
      exact baseline_freq_inc_ok _ _ (hlf c)
    · rw [if_neg c]
      exact ⟨_, rfl⟩
  obtain ⟨lf, e1⟩ := e1
  obtain ⟨pf, e2⟩ := baseline_freq_inc_ok st.pos_freq pos hpf
  have e3 : ∃ m', (if len ≤ 255 then Baseline.map_put st.map (fun k => data (i + k)) (len % 256)
      else pure st.map) = Except.ok m' ∧ Baseline.MInv m' (k + 1) := by
    by_cases c : len ≤ 255
    · rw [if_pos c]
      exact baseline_map_put_inv _ k _ _ h.map hk (by omega) (by omega)
    · rw [if_neg c]
      obtain ⟨a0, a1, S, a2, a3⟩ := h.map
      exact ⟨_, rfl, a0, by omega, S, by omega, a3⟩
  obtain ⟨m', e3, i3⟩ := e3
  obtain ⟨l', e4, i4⟩ := baseline_map_put_inv st.lens k (Baseline.size_bytes len) 8 h.lens hk
    (by omega) (by omega)
  obtain ⟨p', e5, i5⟩ := baseline_map_put_inv st.poss k (Baseline.size_bytes pos) 8 h.poss hk
    (by omega) (by omega)
  rw [e1, except_bind_ok, if_pos hp, e2, except_bind_ok, e3, except_bind_ok, e4, except_bind_ok,
    e5, except_bind_ok]
  exact ⟨_, rfl, i3, i4, i5⟩

/-! ## Baseline codec: round trip -/

theorem baseline_emit_literal_mem (lz : lz77_t Mem) (a : Acc) (b : Nat) (h : WOk lz a) :
    ∃ lz' a', Baseline.lz77_emit_literal memTransport lz a b = .ok (lz', some a') ∧
      Wrote lz a lz' a' (Baseline.litBits b) := by
  unfold Baseline.lz77_emit_literal Baseline.litBits
  by_cases hb : b < 0x80
  · have hb' : b < 128 := hb
    rw [if_pos hb, if_pos hb']
    obtain ⟨lz1, a1, e1, w1⟩ := write_bit_mem lz a 0 h (by omega)
    obtain ⟨lz2, a2, e2, w2⟩ := write_bits_mem 7 b lz1 a1 w1.ok
    refine ⟨lz2, a2, ?_, ?_⟩
    · rw [e1, except_bind_ok]
      try dsimp only
      rw [if_neg (by simp [w1.ok.err]), e2, except_bind_ok]
      try dsimp only
      rw [if_neg (by simp [w2.ok.err])]
      rfl
    · have := wrote_trans w1 w2
      simpa using this
  · have hb' : ¬ b < 128 := hb
    rw [if_neg hb, if_neg hb']
    obtain ⟨lz1, a1, e1, w1⟩ := write_bit_mem lz a 1 h (by omega)
    obtain ⟨lz2, a2, e2, w2⟩ := write_bit_mem lz1 a1 0 w1.ok (by omega)
    obtain ⟨lz3, a3, e3, w3⟩ := write_bits_mem 7 b lz2 a2 w2.ok
    refine ⟨lz3, a3, ?_, ?_⟩
    · rw [e1, except_bind_ok]
      try dsimp only
      rw [e2, except_bind_ok]
      try dsimp only
      rw [if_neg (by simp [w2.ok.err]), e3, except_bind_ok]
      try dsimp only
      rw [if_neg (by simp [w3.ok.err])]
      rfl
    · have := wrote_trans (wrote_trans w1 w2) w3
      simpa using this

theorem baseline_emit_backref_mem (lz : lz77_t Mem) (a : Acc) (pos len base : Nat)
    (h : WOk lz a) (hb : 0 < base) (hpos : pos < 2 ^ 64) (hlen : len < 2 ^ 64) :
    ∃ lz' a', Baseline.lz77_emit_backref memTransport lz a pos len base = .ok (lz', some a') ∧
      Wrote lz a lz' a' (Baseline.refBits base pos len) := by
  obtain ⟨lz1, a1, e1, w1⟩ := write_bits_mem 2 3 lz a h
  rw [bitsFrom_3_2] at w1
  obtain ⟨lz2, a2, e2, w2⟩ := write_number_mem base pos hb lz1 a1 w1.ok hpos
  obtain ⟨lz3, a3, e3, w3⟩ := write_number_mem base len hb lz2 a2 w2.ok hlen
  refine ⟨lz3, a3, ?_, ?_⟩
  · unfold Baseline.lz77_emit_backref
    rw [e1, except_bind_ok]
    try dsimp only
    rw [if_neg (by simp [w1.ok.err]), e2, except_bind_ok]
    try dsimp only
    rw [if_neg (by simp [w2.ok.err]), e3, except_bind_ok]
    try dsimp only
    rw [if_neg (by simp [w3.ok.err])]
    rfl
  · exact wrote_trans (wrote_trans w1 w2) w3

theorem baseline_decodes_done (data : Nat → Nat) (bytes window base i : Nat)
    (bs : List Bool) (hi : ¬ i < bytes) :
    Baseline.Decodes data bytes window base i bs := by
  intro fuelD lzd ad out _ hr _ hout
  refine ⟨lzd, out, ?_, hr.err, fun m hm => hout m (by omega), fun _ _ => rfl⟩
  cases fuelD with
  | zero => rw [Baseline.lz77_decompress_loop, if_neg hi]
  | succ f => rw [Baseline.lz77_decompress_loop, if_neg hi]

theorem baseline_compress_loop_done (data : Nat → Nat) (bytes window base i fuel : Nat)
    (st : Baseline.Stats) (lz : lz77_t Mem) (a : Acc) (hi : ¬ i < bytes) :
    Baseline.lz77_compress_loop memTransport data bytes window base fuel st lz a i
      = .ok (lz, st, some a) := by
  cases fuel with
  | zero => rw [Baseline.lz77_compress_loop, if_neg hi]
  | succ f => rw [Baseline.lz77_compress_loop, if_neg hi]

theorem baseline_decode_ref (data : Nat → Nat) (bytes window base i pos len : Nat)
    (rest : List Bool) (hb : 0 < base) (hb64 : base ≤ 64) (hi : i < bytes)
    (hm : MatchOk data bytes i 0 len pos) (hposw : pos < window) (hlen : 2 < len)
    (hbytes : bytes < 2 ^ 64)
    (hdec : Baseline.Decodes data bytes window base (i + len) rest) :
    Baseline.Decodes data bytes window base i (Baseline.refBits base pos len ++ rest) := by
  intro fuelD lzd ad out hfd hr hrb hout
  have hlen_le := hm.len_le
  have hpp := hm.pos_pos
  have hpl := hm.pos_lt
  obtain ⟨fd, rfl⟩ : ∃ fd, fuelD = fd + 1 := ⟨fuelD - 1, by omega⟩
  rw [Baseline.refBits, List.append_assoc, List.append_assoc] at hrb
  simp only [List.cons_append, List.nil_append] at hrb
  obtain ⟨lzd1, ad1, r1, k1⟩ := read_bit_mem lzd ad true _ hr hrb
  obtain ⟨lzd2, ad2, r2, k2⟩ := read_bit_mem lzd1 ad1 true _ k1.ok k1.bits
  obtain ⟨lzd3, ad3, r3, k3⟩ := read_number_mem base pos hb hb64 _ lzd2 ad2 k2.ok (by omega)
    k2.bits
  obtain ⟨lzd4, ad4, r4, k4⟩ := read_number_mem base len hb hb64 _ lzd3 ad3 k3.ok (by omega)
    k3.bits
  obtain ⟨out1, c1, c2, c3⟩ := copy_loop_ok data bytes pos hpp len i out (by omega)
    (by omega) hout hm.eq
  obtain ⟨lzd5, out5, d1, d2, d3, d4⟩ := hdec fd lzd4 ad4 out1 (by omega) k4.ok k4.bits c2
  refine ⟨lzd5, out5, ?_, d2, d3, ?_⟩
  · rw [Baseline.lz77_decompress_loop, if_pos hi]
    try dsimp only
    rw [r1]
    try dsimp only
    rw [if_neg (by simp [k1.ok.err]), if_pos (by simp)]
    rw [r2]
    try dsimp only
    rw [if_neg (by simp [k2.ok.err]), if_pos (by simp)]
    rw [r3, except_bind_ok]
    try dsimp only
    rw [if_neg (by simp [k3.ok.err])]
    rw [r4, except_bind_ok]
    try dsimp only
    rw [if_neg (by simp [k4.ok.err])]
    rw [if_neg (by
      simp only [not_not]
      exact ⟨hpp, hposw⟩)]
    rw [if_neg (by omega)]
    have hn : (i + len) % 2 ^ 64 - i = len := by
      rw [Nat.mod_eq_of_lt (by omega)]; omega
    rw [hn, c1, except_bind_ok]
    try dsimp only
    exact d1
  · intro m hm2
    rw [d4 m hm2, c3 m (by omega)]

theorem baseline_decode_lit (data : Nat → Nat) (bytes window base i : Nat)
    (rest : List Bool) (hi : i < bytes) (hb256 : data i < 256)
    (hdec : Baseline.Decodes data bytes window base (i + 1) rest) :
    Baseline.Decodes data bytes window base i (Baseline.litBits (data i) ++ rest) := by
  intro fuelD lzd ad out hfd hr hrb hout
  obtain ⟨fd, rfl⟩ : ∃ fd, fuelD = fd + 1 := ⟨fuelD - 1, by omega⟩
  rw [Baseline.litBits, List.append_assoc] at hrb
  have hs : data i % 2 ^ 7 < 128 := Nat.mod_lt _ (by norm_num)
  have upd : ∀ m, m < i + 1 → Function.update out i (data i) m = data m := by
    intro m hm
    simp only [Function.update_apply]
    by_cases e : m = i
    · rw [if_pos e, e]
    · rw [if_neg e]; exact hout m (by omega)
  by_cases hlt : data i < 128
  · rw [if_pos hlt] at hrb
    simp only [List.cons_append, List.nil_append] at hrb
    obtain ⟨lzd1, ad1, r1, k1⟩ := read_bit_mem lzd ad false _ hr hrb
    obtain ⟨lzd2, ad2, r2, k2⟩ := read_bits_mem (data i) 7 _ lzd1 ad1 k1.ok k1.bits (by omega)
    have hval : data i % 2 ^ 7 % 256 = data i := by omega
    obtain ⟨lzd4, out4, d1, d2, d3, d4⟩ := hdec fd lzd2 ad2
      (Function.update out i (data i)) (by omega) k2.ok k2.bits upd
    refine ⟨lzd4, out4, ?_, d2, d3, ?_⟩
    · rw [Baseline.lz77_decompress_loop, if_pos hi]
      try dsimp only
      rw [r1]
      try dsimp only
      rw [if_neg (by simp [k1.ok.err]), if_neg (by simp)]
      rw [r2]
      try dsimp only
      rw [if_neg (by simp [k2.ok.err]), hval]
      exact d1
    · intro m hm2
      rw [d4 m hm2]
      simp only [Function.update_apply]
      rw [if_neg (by omega)]
  · rw [if_neg hlt] at hrb
    simp only [List.cons_append, List.nil_append] at hrb
    obtain ⟨lzd1, ad1, r1, k1⟩ := read_bit_mem lzd ad true _ hr hrb
    obtain ⟨lzd2, ad2, r2, k2⟩ := read_bit_mem lzd1 ad1 false _ k1.ok k1.bits
    obtain ⟨lzd3, ad3, r3, k3⟩ := read_bits_mem (data i) 7 _ lzd2 ad2 k2.ok k2.bits (by omega)
    have hval : (data i % 2 ^ 7 % 256) ||| 0x80 = data i := by
      have e1 : data i % 2 ^ 7 % 256 = data i % 128 := by omega
      rw [e1, Nat.lor_comm, or_of_lt_128 _ (Nat.mod_lt _ (by omega))]
      omega
    obtain ⟨lzd4, out4, d1, d2, d3, d4⟩ := hdec fd lzd3 ad3
      (Function.update out i (data i)) (by omega) k3.ok k3.bits upd
    refine ⟨lzd4, out4, ?_, d2, d3, ?_⟩
    · rw [Baseline.lz77_decompress_loop, if_pos hi]
      try dsimp only
      rw [r1]
      try dsimp only
      rw [if_neg (by simp [k1.ok.err]), if_pos (by simp)]
      rw [r2]
      try dsimp only
      rw [if_neg (by simp [k2.ok.err]), if_neg (by simp)]
      rw [r3]
      try dsimp only
      rw [if_neg (by simp [k3.ok.err]), hval]
      exact d1
    · intro m hm2
      rw [d4 m hm2]
      simp only [Function.update_apply]
      rw [if_neg (by omega)]

theorem baseline_roundtrip_loop (data : Nat → Nat) (bytes window base : Nat) (hw0 : 0 < window)
    (hwf : window ≤ Baseline.freq_count ∨ bytes ≤ Baseline.freq_count) (hb : 0 < base) (hb64 : base ≤ 64)
    (hbytes : bytes < 2 ^ 64) (hdata : ∀ i, i < bytes → data i < 256) :
    ∀ (fuel : Nat) (st : Baseline.Stats) (lz : lz77_t Mem) (a : Acc) (i k : Nat),
    bytes - i ≤ fuel → i ≤ bytes → WOk lz a → Baseline.SInv st k →
    3 * k + (bytes - i) < 3 * 393216 →
    ∃ lzf stf af bs, Baseline.lz77_compress_loop memTransport data bytes window base fuel st lz a i
        = .ok (lzf, stf, some af) ∧
      WOk lzf af ∧ wbits lzf af = wbits lz a ++ bs ∧
      ∀ rest, Baseline.Decodes data bytes window base i (bs ++ rest) := by
  intro fuel
  induction fuel with
  | zero =>
    intro st lz a i k hf hi h hs hk
    have hi2 : ¬ i < bytes := by omega
    exact ⟨lz, st, a, [], baseline_compress_loop_done data bytes window base i 0 st lz a hi2, h,
      by simp, fun rest => baseline_decodes_done data bytes window base i _ hi2⟩
  | succ f ih =>
    intro st lz a i k hf hi h hs hk
    by_cases hi2 : i < bytes
    · rw [Baseline.lz77_compress_loop, if_pos hi2]
      try dsimp only
      by_cases hlen : (lz77_match data bytes window i).1 > 2
      · rw [if_pos hlen]
        obtain ⟨hm, hposw⟩ := match_valid data bytes window i hw0 (by omega)
        have hlen_le := hm.len_le
        have hpl := hm.pos_lt
        have hfc : Baseline.freq_count = 65536 := rfl
        obtain ⟨lz1, a1, e1, w1⟩ := baseline_emit_backref_mem lz a
          (lz77_match data bytes window i).2 (lz77_match data bytes window i).1 base h hb
          (by omega) (by omega)
        obtain ⟨st1, es, hs1⟩ := baseline_count_match_ok st k data i
          (lz77_match data bytes window i).2 (lz77_match data bytes window i).1 window hs
          (by omega) (by have := hm.pos_lt; omega) (by have := hm.pos_lt; omega) hposw
          (by omega)
        obtain ⟨lzf, stf, af, bs1, ec, hok, hbits, hdec⟩ := ih st1 lz1 a1
          (i + (lz77_match data bytes window i).1) (k + 1) (by omega) (by omega) w1.ok hs1
          (by omega)
        refine ⟨lzf, stf, af, Baseline.refBits base (lz77_match data bytes window i).2
          (lz77_match data bytes window i).1 ++ bs1, ?_, hok, ?_, ?_⟩
        · rw [e1, except_bind_ok]
          try dsimp only
          rw [es, except_bind_ok]
          exact ec
        · rw [hbits, w1.bits, List.append_assoc]
        · intro rest
          rw [List.append_assoc]
          exact baseline_decode_ref data bytes window base i _ _ _ hb hb64 hi2 hm hposw hlen
            hbytes (hdec rest)
      · rw [if_neg hlen]
        obtain ⟨lz1, a1, e1, w1⟩ := baseline_emit_literal_mem lz a (data i) h
        obtain ⟨lzf, stf, af, bs1, ec, hok, hbits, hdec⟩ := ih st lz1 a1 (i + 1) k (by omega)
          (by omega) w1.ok hs (by omega)
        refine ⟨lzf, stf, af, Baseline.litBits (data i) ++ bs1, ?_, hok, ?_, ?_⟩
        · rw [e1, except_bind_ok]
          try dsimp only
          exact ec
        · rw [hbits, w1.bits, List.append_assoc]
        · intro rest
          rw [List.append_assoc]
          exact baseline_decode_lit data bytes window base i _ hi2 (hdata i hi2) (hdec rest)
    · exact ⟨lz, st, a, [], baseline_compress_loop_done data bytes window base i (f + 1) st lz a
        hi2, h, by simp, fun rest => baseline_decodes_done data bytes window base i _ hi2⟩

theorem baseline_window (wb : Nat) (h1 : 10 ≤ wb) (h2 : wb ≤ 20) :
    (1 <<< wb) % 2 ^ 64 = 2 ^ wb ∧ toI32 ((1 <<< wb) % 2 ^ 64) = ((2 ^ wb : Nat) : Int) ∧
    0 < 2 ^ wb ∧ 0 < (wb - 4) / 2 % 256 ∧ (wb - 4) / 2 % 256 ≤ 64 ∧
    (wb ≤ 16 → 2 ^ wb ≤ Baseline.freq_count) ∧ (17 ≤ wb → Baseline.freq_count < 2 ^ wb) := by
  interval_cases wb <;> simp [toI32, Baseline.freq_count]

theorem baseline_compress_eq {σ : Type} (tr : Transport σ) (st : Baseline.Stats) (lz : lz77_t σ)
    (data : Nat → Nat) (bytes wb : Nat) (h0 : lz.error = 0) (h1 : 10 ≤ wb) (h2 : wb ≤ 20) :
    Baseline.lz77_compress tr st lz data bytes wb = (do
      let r ← Baseline.lz77_compress_loop tr data bytes (2 ^ wb) ((wb - 4) / 2 % 256) bytes
        (Baseline.lz77_reset_stats st) lz ⟨0, 0⟩ 0
      match r.2.2 with
      | none => pure (r.1, r.2.1)
      | some a => do
        Baseline.lz77_entropy r.2.1.len_freq ((2 ^ wb : Nat) : Int)
        Baseline.lz77_entropy r.2.1.pos_freq ((2 ^ wb : Nat) : Int)
        pure (lz77_flush tr r.1 a, r.2.1)) := by
  obtain ⟨w1, w2, -⟩ := baseline_window wb h1 h2
  have hc : ¬ (wb < 10 ∨ wb > 20) := by omega
  unfold Baseline.lz77_compress
  try dsimp only
  rw [if_neg (by simp [h0]), if_neg hc, w2, w1]
  try rfl

theorem baseline_decompress_eq {σ : Type} (tr : Transport σ) (fuel : Nat) (lz : lz77_t σ)
    (data : Nat → Nat) (bytes wb : Nat) (h0 : lz.error = 0) (h1 : 10 ≤ wb) (h2 : wb ≤ 20) :
    Baseline.lz77_decompress tr fuel lz data bytes wb =
      Baseline.lz77_decompress_loop tr bytes (2 ^ wb) ((wb - 4) / 2 % 256) fuel lz ⟨0, 0⟩ data 0 := by
  obtain ⟨w1, -⟩ := baseline_window wb h1 h2
  have hc : ¬ (wb < 10 ∨ wb > 20) := by omega
  unfold Baseline.lz77_decompress
  try dsimp only
  rw [if_neg (by simp [h0]), if_neg hc, w1]

theorem baseline_reset_inv (st : Baseline.Stats) :
    Baseline.SInv (Baseline.lz77_reset_stats st) 0 :=
  ⟨baseline_map_init_inv _, baseline_map_init_inv _, baseline_map_init_inv _⟩

theorem baseline_loop_mem (data : Nat → Nat) (bytes wb : Nat) (h1 : 10 ≤ wb) (h2 : wb ≤ 20)
    (hsmall : wb ≤ 16 ∨ bytes ≤ Baseline.freq_count)
    (hbytes : bytes < 2 ^ 20) (hdata : ∀ i, i < bytes → data i < 256)
    (st : Baseline.Stats) (lz0 : lz77_t Mem) (h0 : lz0.error = 0)
    (hout : lz0.that.output = []) :
    ∃ lzf stf af bs, Baseline.lz77_compress_loop memTransport data bytes (2 ^ wb)
        ((wb - 4) / 2 % 256) bytes (Baseline.lz77_reset_stats st) lz0 ⟨0, 0⟩ 0
        = .ok (lzf, stf, some af) ∧
      WOk lzf af ∧ wbits lzf af = bs ∧
      ∀ rest, Baseline.Decodes data bytes (2 ^ wb) ((wb - 4) / 2 % 256) 0 (bs ++ rest) := by
  obtain ⟨w1, w2, w3, w4, w5, w6, w7⟩ := baseline_window wb h1 h2
  have hwf : 2 ^ wb ≤ Baseline.freq_count ∨ bytes ≤ Baseline.freq_count := by
    rcases hsmall with c | c
    · exact Or.inl (w6 c)
    · exact Or.inr c
  obtain ⟨lzf, stf, af, bs, ec, hok, hbits, hdec⟩ := baseline_roundtrip_loop data bytes (2 ^ wb)
    ((wb - 4) / 2 % 256) w3 hwf w4 w5 (by omega) hdata bytes (Baseline.lz77_reset_stats st) lz0
    ⟨0, 0⟩ 0 0 (by omega) (by omega) ⟨h0, by simp, by simp⟩ (baseline_reset_inv st) (by omega)
  have hb0 : wbits lz0 ⟨0, 0⟩ = [] := by
    simp [wbits, hout, wordsBits, bitsFrom]
  rw [hb0, List.nil_append] at hbits
  exact ⟨lzf, stf, af, bs, ec, hok, hbits, hdec⟩

theorem baseline_round_trip_small (data : Nat → Nat) (bytes wb : Nat) (h1 : 10 ≤ wb)
    (h2 : wb ≤ 16) (hbytes : bytes < 2 ^ 20) (hdata : ∀ i, i < bytes → data i < 256)
    (st : Baseline.Stats) (lz0 : lz77_t Mem) (h0 : lz0.error = 0)
    (hout : lz0.that.output = []) :
    ∃ lzc stc, Baseline.lz77_compress memTransport st lz0 data bytes wb = .ok (lzc, stc) ∧
      lzc.error = 0 ∧
      ∀ (fuel : Nat) (lzd0 : lz77_t Mem) (buf : Nat → Nat), bytes ≤ fuel → lzd0.error = 0 →
        lzd0.that.input = lzc.that.output →
        ∃ lzd out, Baseline.lz77_decompress memTransport fuel lzd0 buf bytes wb
            = .ok (lzd, out) ∧
          lzd.error = 0 ∧ (∀ m, m < bytes → out m = data m) ∧
          (∀ m, bytes ≤ m → out m = buf m) := by
  obtain ⟨w1, w2, w3, w4, w5, w6, w7⟩ := baseline_window wb h1 (by omega)
  obtain ⟨lzf, stf, af, bs, ec, hok, hbits, hdec⟩ := baseline_loop_mem data bytes wb h1
    (by omega) (Or.inl h2) hbytes hdata st lz0 h0 hout
  obtain ⟨he, ⟨k, hk⟩, _⟩ := flush_mem lzf af hok
  refine ⟨lz77_flush memTransport lzf af, stf, ?_, he, ?_⟩
  · rw [baseline_compress_eq memTransport st lz0 data bytes wb h0 h1 (by omega), ec,
      except_bind_ok]
    try dsimp only
    rw [baseline_entropy_ok _ _ (w6 h2), except_bind_ok, baseline_entropy_ok _ _ (w6 h2),
      except_bind_ok]
    rfl
  · intro fuel lzd0 buf hf hd0 hin
    rw [hbits] at hk
    obtain ⟨lzd, out, d1, d2, d3, d4⟩ := hdec (List.replicate k false) fuel lzd0 ⟨0, 0⟩ buf
      (by omega) ⟨hd0, by simp⟩ (by simp [rbits, hin, hk]) (fun m hm => by omega)
    refine ⟨lzd, out, ?_, d2, d3, d4⟩
    rw [baseline_decompress_eq memTransport fuel lzd0 buf bytes wb hd0 h1 (by omega)]
    exact d1

theorem baseline_large_window_mem (data : Nat → Nat) (bytes wb : Nat) (h1 : 17 ≤ wb)
    (h2 : wb ≤ 20) (hbytes : bytes ≤ Baseline.freq_count)
    (hdata : ∀ i, i < bytes → data i < 256)
    (st : Baseline.Stats) (lz0 : lz77_t Mem) (h0 : lz0.error = 0)
    (hout : lz0.that.output = []) :
    Baseline.lz77_compress memTransport st lz0 data bytes wb = .error .freq := by
  obtain ⟨w1, w2, w3, w4, w5, w6, w7⟩ := baseline_window wb (by omega) h2
  have hfc : Baseline.freq_count = 65536 := rfl
  obtain ⟨lzf, stf, af, bs, ec, hok, hbits, hdec⟩ := baseline_loop_mem data bytes wb (by omega)
    h2 (Or.inr hbytes) (by omega) hdata st lz0 h0 hout
  rw [baseline_compress_eq memTransport st lz0 data bytes wb h0 (by omega) h2, ec,
    except_bind_ok]
  try dsimp only
  rw [baseline_entropy_fault _ _ (w7 h1), except_bind_error]

theorem baseline_tail_none {σ : Type} (l : lz77_t σ) (a : Acc) (r : lz77_t σ × Option Acc)
    (h : (if l.error ≠ 0 then pure (l, none) else pure (l, some a) :
      Except Fault (lz77_t σ × Option Acc)) = .ok r) (hn : r.2 = none) : r.1.error ≠ 0 := by
  by_cases e : l.error ≠ 0
  · rw [if_pos e] at h
    cases h
    exact e
  · rw [if_neg e] at h
    cases h
    cases hn

theorem baseline_emit_backref_none {σ : Type} (tr : Transport σ) (lz : lz77_t σ) (a : Acc)
    (pos len base : Nat) (r : lz77_t σ × Option Acc)
    (h : Baseline.lz77_emit_backref tr lz a pos len base = .ok r) (hn : r.2 = none) :
    r.1.error ≠ 0 := by
  unfold Baseline.lz77_emit_backref at h
  cases h1 : lz77_write_bits tr lz a 3 2 with
  | error e => rw [h1, except_bind_error] at h; cases h
  | ok r1 =>
    rw [h1, except_bind_ok] at h
    by_cases e1 : r1.1.error ≠ 0
    · rw [if_pos e1] at h
      cases h
      exact e1
    rw [if_neg e1] at h
    cases h2 : lz77_write_number tr r1.1 r1.2 pos base with
    | error e => rw [h2, except_bind_error] at h; cases h
    | ok r2 =>
      rw [h2, except_bind_ok] at h
      by_cases e2 : r2.1.error ≠ 0
      · rw [if_pos e2] at h
        cases h
        exact e2
      rw [if_neg e2] at h
      cases h3 : lz77_write_number tr r2.1 r2.2 len base with
      | error e => rw [h3, except_bind_error] at h; cases h
      | ok r3 =>
        rw [h3, except_bind_ok] at h
        exact baseline_tail_none r3.1 r3.2 r h hn

theorem baseline_emit_literal_none {σ : Type} (tr : Transport σ) (lz : lz77_t σ) (a : Acc)
    (b : Nat) (r : lz77_t σ × Option Acc)
    (h : Baseline.lz77_emit_literal tr lz a b = .ok r) (hn : r.2 = none) :
    r.1.error ≠ 0 := by
  have tail : ∀ (r1 : lz77_t σ × Acc),
      (if r1.1.error ≠ 0 then pure (r1.1, none) else do
        let r ← lz77_write_bits tr r1.1 r1.2 b 7
        if r.1.error ≠ 0 then pure (r.1, none) else pure (r.1, some r.2) :
          Except Fault (lz77_t σ × Option Acc)) = .ok r → r.1.error ≠ 0 := by
    intro r1 h
    by_cases e1 : r1.1.error ≠ 0
    · rw [if_pos e1] at h
      cases h
      exact e1
    rw [if_neg e1] at h
    cases h2 : lz77_write_bits tr r1.1 r1.2 b 7 with
    | error e => rw [h2, except_bind_error] at h; cases h
    | ok r2 =>
      rw [h2, except_bind_ok] at h
      exact baseline_tail_none r2.1 r2.2 r h hn
  unfold Baseline.lz77_emit_literal at h
  by_cases hb : b < 0x80
  · rw [if_pos hb] at h
    cases h1 : lz77_write_bit tr lz a 0 with
    | error e => rw [h1, except_bind_error] at h; cases h
    | ok r1 =>
      rw [h1, except_bind_ok] at h
      exact tail r1 h
  · rw [if_neg hb] at h
    cases h1 : lz77_write_bit tr lz a 1 with
    | error e => rw [h1, except_bind_error] at h; cases h
    | ok r1 =>
      rw [h1, except_bind_ok] at h
      cases h2 : lz77_write_bit tr r1.1 r1.2 0 with
      | error e => rw [h2, except_bind_error] at h; cases h
      | ok r2 =>
        rw [h2, except_bind_ok] at h
        exact tail r2 h

theorem baseline_loop_none {σ : Type} (tr : Transport σ) (data : Nat → Nat)
    (bytes window base : Nat) : ∀ (fuel : Nat) (st : Baseline.Stats) (lz : lz77_t σ) (a : Acc)
    (i : Nat) (r : lz77_t σ × Baseline.Stats × Option Acc),
    Baseline.lz77_compress_loop tr data bytes window base fuel st lz a i = .ok r →
    r.2.2 = none → r.1.error ≠ 0 := by
  intro fuel
  induction fuel with
  | zero =>
    intro st lz a i r h hn
    rw [Baseline.lz77_compress_loop] at h
    by_cases hi : i < bytes
    · rw [if_pos hi] at h
      cases h
    · rw [if_neg hi] at h
      cases h
      cases hn
  | succ f ih =>
    intro st lz a i r h hn
    rw [Baseline.lz77_compress_loop] at h
    by_cases hi : i < bytes
    · rw [if_pos hi] at h
      try dsimp only at h
      by_cases hm : (lz77_match data bytes window i).1 > 2
      · rw [if_pos hm] at h
        cases h1 : Baseline.lz77_emit_backref tr lz a (lz77_match data bytes window i).2
            (lz77_match data bytes window i).1 base with
        | error e => rw [h1, except_bind_error] at h; cases h
        | ok e =>
          rw [h1, except_bind_ok] at h
          have hb := baseline_emit_backref_none tr lz a _ _ base e h1
          obtain ⟨e1, e2⟩ := e
          cases e2 with
          | none =>
            try dsimp only at h
            cases h
            exact hb rfl
          | some a1 =>
            try dsimp only at h
            cases h2 : Baseline.lz77_count_match st data i (lz77_match data bytes window i).2
                (lz77_match data bytes window i).1 window with
            | error e => rw [h2, except_bind_error] at h; cases h
            | ok st1 =>
              rw [h2, except_bind_ok] at h
              exact ih _ _ _ _ r h hn
      · rw [if_neg hm] at h
        cases h1 : Baseline.lz77_emit_literal tr lz a (data i) with
        | error e => rw [h1, except_bind_error] at h; cases h
        | ok e =>
          rw [h1, except_bind_ok] at h
          have hb := baseline_emit_literal_none tr lz a _ e h1
          obtain ⟨e1, e2⟩ := e
          cases e2 with
          | none =>
            try dsimp only at h
            cases h
            exact hb rfl
          | some a1 =>
            try dsimp only at h
            exact ih _ _ _ _ r h hn
    · rw [if_neg hi] at h
      cases h
      cases hn

theorem baseline_large_window {σ : Type} (tr : Transport σ) (st : Baseline.Stats)
    (lz : lz77_t σ) (data : Nat → Nat) (bytes wb : Nat) (h1 : 17 ≤ wb) (h2 : wb ≤ 20)
    (r : lz77_t σ × Baseline.Stats)
    (h : Baseline.lz77_compress tr st lz data bytes wb = .ok r) : r.1.error ≠ 0 := by
  obtain ⟨w1, w2, w3, w4, w5, w6, w7⟩ := baseline_window wb (by omega) h2
  by_cases h0 : lz.error = 0
  · rw [baseline_compress_eq tr st lz data bytes wb h0 (by omega) h2] at h
    cases hl : Baseline.lz77_compress_loop tr data bytes (2 ^ wb) ((wb - 4) / 2 % 256) bytes
        (Baseline.lz77_reset_stats st) lz ⟨0, 0⟩ 0 with
    | error e => rw [hl, except_bind_error] at h; cases h
    | ok x =>
      rw [hl, except_bind_ok] at h
      have hx := baseline_loop_none tr data bytes _ _ bytes _ lz _ 0 x hl
      obtain ⟨x1, x2, x3⟩ := x
      cases x3 with
      | none =>
        try dsimp only at h
        cases h
        exact hx rfl
      | some a1 =>
        try dsimp only at h
        rw [baseline_entropy_fault _ _ (w7 h1), except_bind_error] at h
        cases h
  · unfold Baseline.lz77_compress at h
    try dsimp only at h
    rw [if_pos h0] at h
    cases h
    exact h0

/-- C27 (round trip of the baseline codec `lz77.h`; its statistics tables limit it).  First
part: for every byte list `B` of fewer than `2 ^ 20` bytes and every `window_bits` in
10..16, whatever the statics hold on entry, the baseline compress on a session with
`error = 0` over the in-memory transport (whose write callback never fails and appends each
word to a list that starts empty) returns with `error = 0`, and the baseline decompress of
`B.length` bytes, on any session with `error = 0` whose read callback returns the emitted
words in order, ends within `B.length` iterations of its main loop with `error = 0` and the
buffer holding exactly `B`.  Second part, the defect: for `window_bits` in 17..20, which the
validation accepts, compress never returns with `error = 0`, whatever the transport, the
session, the statics and the input: when its main loop ends, `lz77_entropy(len_freq, window)`
reads `len_freq[0 .. window)` from a table of `64 * 1024` entries.  Third part: over the
in-memory transport and for every input of at most `64 * 1024` bytes that read past the
table is where the run ends, for instance for the 35 bytes of
"Hello World Hello.World Hello World" and for the empty input at `window_bits = 17`. -/
theorem baseline_round_trip :
    (∀ (B : List Nat) (window_bits : Nat) (st : Baseline.Stats) (lzc0 : lz77_t Mem),
      (∀ b, b ∈ B → b < 256) → B.length < 2 ^ 20 → 10 ≤ window_bits → window_bits ≤ 16 →
      lzc0.error = 0 → lzc0.that.output = [] →
      ∃ lzc stc, Baseline.lz77_compress memTransport st lzc0 (bufferOf B) B.length window_bits
          = .ok (lzc, stc) ∧
        lzc.error = 0 ∧
        ∀ (fuel : Nat) (lzd0 : lz77_t Mem) (buf : Nat → Nat), B.length ≤ fuel →
          lzd0.error = 0 → lzd0.that.input = lzc.that.output →
          ∃ lzd out, Baseline.lz77_decompress memTransport fuel lzd0 buf B.length window_bits
              = .ok (lzd, out) ∧
            lzd.error = 0 ∧ (List.range B.length).map out = B) ∧
    (∀ {σ : Type} (tr : Transport σ) (st : Baseline.Stats) (lz : lz77_t σ) (data : Nat → Nat)
      (bytes window_bits : Nat) (r : lz77_t σ × Baseline.Stats),
      17 ≤ window_bits → window_bits ≤ 20 →
      Baseline.lz77_compress tr st lz data bytes window_bits = .ok r → r.1.error ≠ 0) ∧
    (∀ (B : List Nat) (window_bits : Nat) (st : Baseline.Stats) (lzc0 : lz77_t Mem),
      (∀ b, b ∈ B → b < 256) → B.length ≤ 64 * 1024 → 17 ≤ window_bits → window_bits ≤ 20 →
      lzc0.error = 0 → lzc0.that.output = [] →
      Baseline.lz77_compress memTransport st lzc0 (bufferOf B) B.length window_bits
        = .error .freq) ∧
    Baseline.lz77_compress memTransport Baseline.zeroStats (memSession []) (bufferOf helloBytes)
      35 17 = .error .freq ∧
    Baseline.lz77_compress memTransport Baseline.zeroStats (memSession []) (bufferOf [])
      0 17 = .error .freq := by
  refine ⟨?_, ?_, ?_, ?_, ?_⟩
  · intro B wb st lzc0 hB hlen h1 h2 hc0 hco
    obtain ⟨lzc, stc, e, herr, hd⟩ := baseline_round_trip_small (bufferOf B) B.length wb h1 h2
      hlen (bufferOf_lt B hB) st lzc0 hc0 hco
    refine ⟨lzc, stc, e, herr, ?_⟩
    intro fuel lzd0 buf hf hd0 hin
    obtain ⟨lzd, out, d1, d2, d3, _⟩ := hd fuel lzd0 buf hf hd0 hin
    exact ⟨lzd, out, d1, d2, map_range_eq B out d3⟩
  · intro σ tr st lz data bytes wb r h1 h2 h
    exact baseline_large_window tr st lz data bytes wb h1 h2 r h
  · intro B wb st lzc0 hB hlen h1 h2 hc0 hco
    exact baseline_large_window_mem (bufferOf B) B.length wb h1 h2 hlen (bufferOf_lt B hB) st
      lzc0 hc0 hco
  · have hl : helloBytes.length = 35 := by rw [helloBytes_eq]; rfl
    have := baseline_large_window_mem (bufferOf helloBytes) helloBytes.length 17 (by omega)
      (by omega) (by rw [hl]; decide) (bufferOf_lt helloBytes (by rw [helloBytes_eq]; decide))
      Baseline.zeroStats (memSession []) rfl rfl
    rw [hl] at this
    exact this
  · exact baseline_large_window_mem (bufferOf []) 0 17 (by omega) (by omega) (by decide)
      (fun i hi => by omega) Baseline.zeroStats (memSession []) rfl rfl

/-! ## Limits of the decoder's checks -/

set_option maxRecDepth 1000000 in
theorem wrap_loop_eval :
    decodedOf (lz77_decompress_loop memTransport 2 1024 4 2 wrapSession ⟨0, 0⟩ (bufferOf [65]) 1)
      2 = some (0, [65, 66]) := by
  decide!

set_option maxRecDepth 1000000 in
theorem wrap_run_eval :
    decodedOf (lz77_decompress_loop memTransport 2 (2 ^ 10) 4 3
      (reinit (memSession [18446744073708561994, 221620312473599]) ((2 ^ 10 : Nat) : Int))
      ⟨0, 0⟩ (bufferOf []) 0) 2 = some (0, [65, 66]) := by
  decide!

/-- C14, counterexample.  The stream of `wrapSession` holds a back-reference of distance 1
and length `2 ^ 64 - 1`.  At output position 1 of a 2 byte buffer whose first byte is 65 it
passes both checks of the decoder and `0 < d <= i` holds, but `n = i + len` wraps around to
0: the copy loop `while (i < n)` copies nothing, the byte at index 1 is not the byte 65 at
index `i - d`, and decompress goes on at position 1, where the next token stores 66.  The
same from position 0: a stream of two words (the literal 65, that back-reference, the
literal 66) makes decompress return the two bytes 65, 66 with `error = 0`, after three
iterations of its main loop for two bytes. -/
theorem overlap_copy_length_wraps :
    (lz77_read_bit memTransport wrapSession ⟨0, 0⟩).1.error = 0 ∧
    (lz77_read_bit memTransport wrapSession ⟨0, 0⟩).2.2 ≠ 0 ∧
    (lz77_read_bit memTransport (lz77_read_bit memTransport wrapSession ⟨0, 0⟩).1
      (lz77_read_bit memTransport wrapSession ⟨0, 0⟩).2.1).1.error = 0 ∧
    (lz77_read_bit memTransport (lz77_read_bit memTransport wrapSession ⟨0, 0⟩).1
      (lz77_read_bit memTransport wrapSession ⟨0, 0⟩).2.1).2.2 ≠ 0 ∧
    backrefOf (lz77_decode_backref memTransport
      (lz77_read_bit memTransport (lz77_read_bit memTransport wrapSession ⟨0, 0⟩).1
        (lz77_read_bit memTransport wrapSession ⟨0, 0⟩).2.1).1
      (lz77_read_bit memTransport (lz77_read_bit memTransport wrapSession ⟨0, 0⟩).1
        (lz77_read_bit memTransport wrapSession ⟨0, 0⟩).2.1).2.1 4)
      = some (1, 2 ^ 64 - 1) ∧
    (0 : Nat) < 1 ∧ (1 : Nat) ≤ 1 ∧ (1 : Nat) < 1024 ∧ (0 : Nat) < 2 ^ 64 - 1 ∧
    copiedBytes (lz77_copy_loop 2 1 ((1 + (2 ^ 64 - 1)) % 2 ^ 64 - 1) (bufferOf [65]) 1) 2
      = some ([65, 0], 1) ∧
    decodedOf (lz77_decompress_loop memTransport 2 1024 4 2 wrapSession ⟨0, 0⟩ (bufferOf [65]) 1)
      2 = some (0, [65, 66]) ∧
    ([65, 66] : List Nat).getD (1 + 0) 0 ≠ bufferOf [65] (1 - 1 + 0 % 1) ∧
    decodedOf (lz77_decompress memTransport 3
      (memSession [18446744073708561994, 221620312473599]) (bufferOf []) 2 10) 2
      = some (0, [65, 66]) := by
  refine ⟨by decide!, by decide!, by decide!, by decide!, by decide!, by decide, by decide,
    by decide, by decide, by decide!, wrap_loop_eval, by decide, ?_⟩
  rw [decompress_eq_loop memTransport 3 (memSession [18446744073708561994, 221620312473599])
    (bufferOf []) 2 10 rfl (by omega) (by omega)]
  exact wrap_run_eval

set_option maxRecDepth 1000000 in
theorem eleven_a_eval :
    outputIs (lz77_compress_loop memTransport (bufferOf (List.replicate 11 65)) 11 (2 ^ 10) 4 11
      (reinit (memSession []) ((2 ^ 10 : Nat) : Int)) ⟨0, 0⟩ 0) [302909002] 8 = true := by
  decide!

set_option maxRecDepth 1000000 in
theorem overrun_eval :
    faultOf (lz77_decompress_loop memTransport 3 (2 ^ 10) 4 3
      (reinit (memSession [302909002]) ((2 ^ 10 : Nat) : Int)) ⟨0, 0⟩ (bufferOf []) 0)
      = some .buffer := by
  decide!

/-- C25 (the decoder copies a back-reference without a check against the buffer).  First
part: the stream of the single word 2567 starts with a back-reference of distance 1 and
length 10; at output position 0 its distance exceeds the position, and decompress (11
bytes, `window_bits = 10`) copies it all the same: the copy loop reads `data[0 - 1]`.
Second part: the word 302909002 is what compress emits for eleven bytes 65 (two literals
and a back-reference of distance 1 and length 9); decompress of it into a buffer of 3 bytes
copies the back-reference at position 2 and writes `data[3]`, past the end.  Third part, at
every state of the main loop (output position `i < bytes`, every transport and window): a
back-reference `(d, len)` that passes the two checks there are, `0 < d < window` and
`len > 0`, is copied at once; with `d <= i` and `i + len <= bytes` the copy stays inside
`[0, bytes)` and the loop goes on at `i + len`, with `d > i` or `i + len > bytes` it leaves
the buffer. -/
theorem decoder_output_bounds :
    lz77_decompress memTransport 11 (memSession [2567]) (bufferOf []) 11 10 = .error .buffer ∧
    outputIs (lz77_compress memTransport (memSession []) (bufferOf (List.replicate 11 65)) 11 10)
      [302909002] 8 = true ∧
    lz77_decompress memTransport 3 (memSession [302909002]) (bufferOf []) 3 10
      = .error .buffer ∧
    (∀ {σ : Type} (tr : Transport σ) (bytes window base fuel : Nat) (lz : lz77_t σ) (a : Acc)
      (data : Nat → Nat) (i d len : Nat), i < bytes →
      (lz77_read_bit tr lz a).1.error = 0 → (lz77_read_bit tr lz a).2.2 ≠ 0 →
      (lz77_read_bit tr (lz77_read_bit tr lz a).1 (lz77_read_bit tr lz a).2.1).1.error = 0 →
      (lz77_read_bit tr (lz77_read_bit tr lz a).1 (lz77_read_bit tr lz a).2.1).2.2 ≠ 0 →
      backrefOf (lz77_decode_backref tr
        (lz77_read_bit tr (lz77_read_bit tr lz a).1 (lz77_read_bit tr lz a).2.1).1
        (lz77_read_bit tr (lz77_read_bit tr lz a).1 (lz77_read_bit tr lz a).2.1).2.1 base)
          = some (d, len) →
      0 < d → d < window → 0 < len → i + len < 2 ^ 64 →
      (d ≤ i ∧ i + len ≤ bytes →
        ∃ lz1 a1 out, lz77_copy_loop bytes d len data i = .ok (out, i + len) ∧
          (∀ m, m < i → out m = data m) ∧ (∀ m, i + len ≤ m → out m = data m) ∧
          lz77_decompress_loop tr bytes window base (fuel + 1) lz a data i
            = lz77_decompress_loop tr bytes window base fuel lz1 a1 out (i + len)) ∧
      (i < d ∨ bytes < i + len →
        lz77_copy_loop bytes d len data i = .error .buffer ∧
        lz77_decompress_loop tr bytes window base (fuel + 1) lz a data i = .error .buffer)) := by
  refine ⟨?_, ?_, ?_, ?_⟩
  · rw [decompress_eq_loop memTransport 11 (memSession [2567]) (bufferOf []) 11 10 rfl
      (by omega) (by omega)]
    exact faultOf_eq _ _ bad_copy_eval
  · rw [compress_eq_loop memTransport (memSession []) (bufferOf (List.replicate 11 65)) 11 10
      rfl (by omega) (by omega)]
    exact eleven_a_eval
  · rw [decompress_eq_loop memTransport 3 (memSession [302909002]) (bufferOf []) 3 10 rfl
      (by omega) (by omega)]
    exact faultOf_eq _ _ overrun_eval
  · intro σ tr bytes window base fuel lz a data i d len hi he0 hb0 he1 hb1 hd hd0 hdw hl0 hlen
    exact decoder_copy_bounds tr bytes window base fuel lz a data i d len hi he0 hb0 he1 hb1 hd
      hd0 hdw hl0 hlen

/-! ## Rejection of invalid back-references -/

theorem parentIter_le : ∀ (k : Nat) (ix : Int), -1 ≤ ix → parentIter k ix ≤ ix := by
  intro k
  induction k with
  | zero => intro ix _; exact le_refl _
  | succ k ih =>
    intro ix h
    rw [parentIter]
    have := ih ((ix - 1) / 2) (by omega)
    omega

theorem filler_idHeap (n : Int) : Filler (idHeap n) := by
  intro j hj
  have hj' : n ≤ j := hj
  simp only [idHeap]
  rw [if_neg (by omega)]

theorem filler_inc_freq (t : lz77_binheap_t) (n s : Int) (h : HInv t n) (hf : Filler t)
    (h0 : 0 ≤ s) (h1 : s < n) (t' : lz77_binheap_t) (r : Int)
    (e : lz77_binheap_inc_freq t s = .ok (t', r)) : Filler t' := by
  obtain ⟨t2, r2, e2, hi2, _, hr0, hr1, _, _, hframe⟩ := inc_freq_effect t n s h h0 h1
  rw [e] at e2
  simp only [Except.ok.injEq, Prod.mk.injEq] at e2
  obtain ⟨rfl, rfl⟩ := e2
  intro j hj
  have hnc : t'.nc = n := hi2.nc
  have hsx := h.sx_lt s h0 h1
  by_cases c : t'.ns j = t.ns j
  · rw [c]
    apply hf
    rw [h.nc]
    omega
  · obtain ⟨_, k, hk⟩ := hframe j c
    have := parentIter_le k (t.sx s) (by omega)
    omega

theorem read_bit_heap_pos {σ : Type} (tr : Transport σ) (lz : lz77_t σ) (a : Acc) :
    (lz77_read_bit tr lz a).1.bh_pos = lz.bh_pos := by
  unfold lz77_read_bit
  by_cases h : a.bp = 0
  · simp only [if_pos h]
    try rfl
  · simp only [if_neg h]

theorem read_bits_loop_heap_pos {σ : Type} (tr : Transport σ) : ∀ (n : Nat) (lz : lz77_t σ)
    (a : Acc) (bits i : Nat), (lz77_read_bits_loop tr n lz a bits i).1.bh_pos = lz.bh_pos := by
  intro n
  induction n with
  | zero => intro lz a bits i; rfl
  | succ n ih =>
    intro lz a bits i
    rw [lz77_read_bits_loop]
    by_cases he : lz.error = 0
    · rw [if_pos he]
      try dsimp only
      rw [ih, read_bit_heap_pos]
    · rw [if_neg he]

theorem read_number_loop_heap_pos {σ : Type} (tr : Transport σ) (base : Nat) : ∀ (f : Nat)
    (lz : lz77_t σ) (a : Acc) (bits shift : Nat) (r : lz77_t σ × Acc × Nat),
    lz77_read_number_loop tr base f lz a bits shift = .ok r → r.1.bh_pos = lz.bh_pos := by
  intro f
  induction f with
  | zero =>
    intro lz a bits shift r h
    rw [lz77_read_number_loop] at h
    cases h
  | succ f ih =>
    intro lz a bits shift r h
    rw [lz77_read_number_loop] at h
    try dsimp only at h
    by_cases hs : shift ≥ 64
    · rw [if_pos hs] at h
      cases h
    · rw [if_neg hs] at h
      have hb : (lz77_read_bit tr (lz77_read_bits tr lz a base).1
          (lz77_read_bits tr lz a base).2.1).1.bh_pos = lz.bh_pos := by
        rw [read_bit_heap_pos]
        exact read_bits_loop_heap_pos tr base lz a 0 0
      by_cases hc : (lz77_read_bit tr (lz77_read_bits tr lz a base).1
          (lz77_read_bits tr lz a base).2.1).2.2 ≠ 0 ∧
          (lz77_read_bit tr (lz77_read_bits tr lz a base).1
            (lz77_read_bits tr lz a base).2.1).1.error = 0
      · rw [if_pos hc] at h
        rw [ih _ _ _ _ r h, hb]
      · rw [if_neg hc] at h
        cases h
        exact hb

theorem neg_one_u64 : toI32 (toU64 (-1)) = -1 := by
  decide

theorem decode_backref_rank_fault {σ : Type} (tr : Transport σ) (lz : lz77_t σ) (a : Acc)
    (base : Nat) (r : lz77_t σ × Acc × Nat) (hf : Filler lz.bh_pos)
    (h : lz77_read_number tr lz a base = .ok r) (he : r.1.error = 0)
    (hr : lz.bh_pos.nc ≤ (r.2.2 : Int)) :
    lz77_decode_backref tr lz a base = .error .table := by
  have hp : r.1.bh_pos = lz.bh_pos := read_number_loop_heap_pos tr base 65 lz a 0 0 r h
  unfold lz77_decode_backref
  rw [h, except_bind_ok]
  try dsimp only
  rw [if_neg (by simp [he]), hp]
  by_cases c : (r.2.2 : Int) < 4096
  · rw [rd_ok _ _ (by omega) c, except_bind_ok, hf _ hr]
    try dsimp only
    rw [neg_one_u64]
    unfold lz77_binheap_inc_freq
    rw [rd_fault _ _ (by omega), except_bind_error, except_bind_error]
  · rw [rd_fault _ _ (by omega), except_bind_error]

theorem backrefOf_pure_none {σ : Type} (l : lz77_t σ) (a : Acc) (p : Nat × Nat) :
    backrefOf (pure (l, a, none) : Except Fault (lz77_t σ × Acc × Option (Nat × Nat)))
      = some p → False := by
  intro h
  cases h

theorem backrefOf_error {σ : Type} (e : Fault) (p : Nat × Nat) :
    backrefOf (Except.error e : Except Fault (lz77_t σ × Acc × Option (Nat × Nat)))
      = some p → False := by
  intro h
  cases h

theorem decode_backref_pos_lt {σ : Type} (tr : Transport σ) (lz : lz77_t σ) (a : Acc)
    (base window p l : Nat) (hi : HInv lz.bh_pos (window : Int)) (hf : Filler lz.bh_pos)
    (hd : backrefOf (lz77_decode_backref tr lz a base) = some (p, l)) : p < window := by
  cases h1 : lz77_read_number tr lz a base with
  | error e =>
    unfold lz77_decode_backref at hd
    rw [h1, except_bind_error] at hd
    exact absurd hd (fun h => backrefOf_error e _ h)
  | ok r =>
    have hp : r.1.bh_pos = lz.bh_pos := read_number_loop_heap_pos tr base 65 lz a 0 0 r h1
    by_cases he : r.1.error = 0
    · by_cases hr : lz.bh_pos.nc ≤ (r.2.2 : Int)
      · rw [decode_backref_rank_fault tr lz a base r hf h1 he hr] at hd
        exact absurd hd (fun h => backrefOf_error _ _ h)
      · have hnc := hi.nc
        have hhi := hi.hi
        have hns := hi.ns_lt (r.2.2 : Int) (by omega) (by omega)
        have hu : toU64 (lz.bh_pos.ns (r.2.2 : Int)) = (lz.bh_pos.ns (r.2.2 : Int)).toNat :=
          toU64_of_nonneg _ hns.1 (by omega)
        have hlt : (lz.bh_pos.ns (r.2.2 : Int)).toNat < window := by omega
        unfold lz77_decode_backref at hd
        rw [h1, except_bind_ok] at hd
        try dsimp only at hd
        rw [if_neg (by simp [he]), hp, rd_ok _ _ (by omega) (by omega), except_bind_ok, hu] at hd
        try dsimp only at hd
        cases h2 : lz77_binheap_inc_freq lz.bh_pos (toI32 (lz.bh_pos.ns (r.2.2 : Int)).toNat) with
        | error e =>
          rw [h2, except_bind_error] at hd
          exact absurd hd (fun h => backrefOf_error e _ h)
        | ok h =>
          rw [h2, except_bind_ok] at hd
          try dsimp only at hd
          generalize lz77_read_bit tr ({ r.1 with bh_pos := h.1 } : lz77_t σ) r.2.1 = b at hd
          by_cases e1 : b.1.error ≠ 0
          · rw [if_pos e1] at hd
            exact absurd hd (fun h => backrefOf_pure_none _ _ _ h)
          rw [if_neg e1] at hd
          by_cases hb : b.2.2 ≠ 0
          · rw [if_pos hb] at hd
            cases h3 : lz77_read_number tr b.1 b.2.1 base with
            | error e =>
              rw [h3, except_bind_error] at hd
              exact absurd hd (fun h => backrefOf_error e _ h)
            | ok r3 =>
              rw [h3, except_bind_ok] at hd
              try dsimp only at hd
              by_cases e3 : r3.1.error ≠ 0
              · rw [if_pos e3] at hd
                exact absurd hd (fun h => backrefOf_pure_none _ _ _ h)
              · rw [if_neg e3] at hd
                have hd' : some ((lz.bh_pos.ns (r.2.2 : Int)).toNat, r3.2.2) = some (p, l) := hd
                simp only [Option.some.injEq, Prod.mk.injEq] at hd'
                omega
          · rw [if_neg hb] at hd
            cases h3 : lz77_read_number tr b.1 b.2.1 base with
            | error e =>
              rw [h3, except_bind_error] at hd
              exact absurd hd (fun h => backrefOf_error e _ h)
            | ok r3 =>
              rw [h3, except_bind_ok] at hd
              try dsimp only at hd
              by_cases e3 : r3.1.error ≠ 0
              · rw [if_pos e3] at hd
                exact absurd hd (fun h => backrefOf_pure_none _ _ _ h)
              · rw [if_neg e3] at hd
                cases h4 : rd r3.1.bh_len.ns (r3.2.2 : Int) with
                | error e =>
                  rw [h4, except_bind_error] at hd
                  exact absurd hd (fun h => backrefOf_error e _ h)
                | ok sym =>
                  rw [h4, except_bind_ok] at hd
                  try dsimp only at hd
                  cases h5 : lz77_binheap_inc_freq r3.1.bh_len (toI32 (toU64 sym)) with
                  | error e =>
                    rw [h5, except_bind_error] at hd
                    exact absurd hd (fun h => backrefOf_error e _ h)
                  | ok h6 =>
                    rw [h5, except_bind_ok] at hd
                    have hd' : some ((lz.bh_pos.ns (r.2.2 : Int)).toNat, toU64 sym)
                        = some (p, l) := hd
                    simp only [Option.some.injEq, Prod.mk.injEq] at hd'
                    omega
    · unfold lz77_decode_backref at hd
      rw [h1, except_bind_ok] at hd
      try dsimp only at hd
      rw [if_pos he] at hd
      exact absurd hd (fun h => backrefOf_pure_none _ _ _ h)

set_option maxRecDepth 1000000 in
theorem zero_distance_eval :
    decodedOf (lz77_decompress_loop memTransport 3 (2 ^ 10) 4 3
      (reinit (memSession [1283]) ((2 ^ 10 : Nat) : Int)) ⟨0, 0⟩ (bufferOf [9, 9, 9]) 0) 3
      = some (EINVAL, [9, 9, 9]) := by
  decide!

set_option maxRecDepth 1000000 in
theorem zero_length_eval :
    decodedOf (lz77_decompress_loop memTransport 3 (2 ^ 10) 4 3
      (reinit (memSession [7]) ((2 ^ 10 : Nat) : Int)) ⟨0, 0⟩ (bufferOf [9, 9, 9]) 0) 3
      = some (EINVAL, [9, 9, 9]) := by
  decide!

/-- C4 (rejection of invalid back-references; a distance at or above the window is not
rejected but faults).  First part, at every state of the main loop of decompress (every
output position `i < bytes`, session, stream and window): when the two flag bits read as
`1, 1` and the back-reference comes out of the decoding as `(pos, len)` with `pos = 0`,
`pos >= window` or `len = 0`, the loop returns at once with `error = EINVAL` and the buffer
as it was.  Second part, two runs of decompress into the buffer 9, 9, 9 with
`window_bits = 10`: the stream of the word 1283 starts with a back-reference of distance 0
and length 5, the stream of the word 7 with one of distance 1 and length 0; both return
`EINVAL` and leave the buffer alone.  Third part: with the distance heap as
`lz77_binheap_init` builds it and the bumps keep it (consistent indices for `window`
symbols, the filler `-1` in the slots from `nc` on), no back-reference comes out of the
decoding with `pos >= window`: that half of the check is never what rejects a stream.  A
distance rank at or above `nc` decodes to the filler, and `lz77_binheap_inc_freq` is called
with it before the check is reached: it subscripts `sx[-1]` (or `ns` is subscripted outside
the table).  Fourth part: the stream of the word 32451, a back-reference of distance rank
2000 with `window_bits = 10`, ends so and not in `EINVAL`. -/
theorem invalid_backref_rejection :
    (∀ {σ : Type} (tr : Transport σ) (bytes window base fuel : Nat) (lz : lz77_t σ) (a : Acc)
      (data : Nat → Nat) (i pos len : Nat), i < bytes →
      (lz77_read_bit tr lz a).1.error = 0 → (lz77_read_bit tr lz a).2.2 ≠ 0 →
      (lz77_read_bit tr (lz77_read_bit tr lz a).1 (lz77_read_bit tr lz a).2.1).1.error = 0 →
      (lz77_read_bit tr (lz77_read_bit tr lz a).1 (lz77_read_bit tr lz a).2.1).2.2 ≠ 0 →
      backrefOf (lz77_decode_backref tr
        (lz77_read_bit tr (lz77_read_bit tr lz a).1 (lz77_read_bit tr lz a).2.1).1
        (lz77_read_bit tr (lz77_read_bit tr lz a).1 (lz77_read_bit tr lz a).2.1).2.1 base)
          = some (pos, len) →
      (pos = 0 ∨ pos ≥ window ∨ len = 0) →
      ∃ lz', lz77_decompress_loop tr bytes window base (fuel + 1) lz a data i
          = .ok (lz', data) ∧ lz'.error = EINVAL) ∧
    decodedOf (lz77_decompress memTransport 3 (memSession [1283]) (bufferOf [9, 9, 9]) 3 10) 3
      = some (EINVAL, [9, 9, 9]) ∧
    decodedOf (lz77_decompress memTransport 3 (memSession [7]) (bufferOf [9, 9, 9]) 3 10) 3
      = some (EINVAL, [9, 9, 9]) ∧
    (∀ (n : Int), Filler (idHeap n)) ∧
    (∀ (t t' : lz77_binheap_t) (n s r : Int), HInv t n → Filler t → 0 ≤ s → s < n →
      lz77_binheap_inc_freq t s = .ok (t', r) → HInv t' n ∧ Filler t') ∧
    (∀ {σ : Type} (tr : Transport σ) (lz : lz77_t σ) (a : Acc) (base window pos len : Nat),
      HInv lz.bh_pos (window : Int) → Filler lz.bh_pos →
      backrefOf (lz77_decode_backref tr lz a base) = some (pos, len) → pos < window) ∧
    (∀ {σ : Type} (tr : Transport σ) (lz : lz77_t σ) (a : Acc) (base : Nat)
      (r : lz77_t σ × Acc × Nat), Filler lz.bh_pos →
      lz77_read_number tr lz a base = .ok r → r.1.error = 0 → lz.bh_pos.nc ≤ (r.2.2 : Int) →
      lz77_decode_backref tr lz a base = .error .table) ∧
    lz77_decompress memTransport 11 distanceRankSession (bufferOf []) 11 10 = .error .table := by
  refine ⟨?_, ?_, ?_, filler_idHeap, ?_, ?_, ?_, ?_⟩
  · intro σ tr bytes window base fuel lz a data i pos len hi he0 hb0 he1 hb1 hd hbad
    exact decoder_rejects_invalid_backref tr bytes window base fuel lz a data i pos len hi he0
      hb0 he1 hb1 hd hbad
  · rw [decompress_eq_loop memTransport 3 (memSession [1283]) (bufferOf [9, 9, 9]) 3 10 rfl
      (by omega) (by omega)]
    exact zero_distance_eval
  · rw [decompress_eq_loop memTransport 3 (memSession [7]) (bufferOf [9, 9, 9]) 3 10 rfl
      (by omega) (by omega)]
    exact zero_length_eval
  · intro t t' n s r h hf h0 h1 e
    refine ⟨?_, filler_inc_freq t n s h hf h0 h1 t' r e⟩
    obtain ⟨t2, r2, e2, hi2⟩ := inc_freq_ok t n s h h0 h1
    rw [e] at e2
    simp only [Except.ok.injEq, Prod.mk.injEq] at e2
    obtain ⟨rfl, rfl⟩ := e2
    exact hi2
  · intro σ tr lz a base window pos len hi hf hd
    exact decode_backref_pos_lt tr lz a base window pos len hi hf hd
  · intro σ tr lz a base r hf h he hr
    exact decode_backref_rank_fault tr lz a base r hf h he hr
  · rw [decompress_eq_loop memTransport 11 distanceRankSession (bufferOf []) 11 10 rfl
      (by omega) (by omega)]
    exact faultOf_eq _ _ bad_rank_eval

/-- C16 (a transport failure during compress is sticky and not retried).  The transport
`logWrites tr` records the error code each invocation of the write callback of `tr` stores.
First part, for every write callback, every input shorter than `2 ^ 48` bytes and
`window_bits` in 10..12, on a session with `error = 0`: compress returns; the codes it
logged are zeros, followed by at most one non-zero code, which is then the last (no
invocation follows the failing one); `error` is 0 when there is none and that code
otherwise; `written` grew by 8 for every invocation that stored no error and by nothing for
the failed one (modulo `2 ^ 64`).  Second part, an instance: the 35 bytes of
"Hello World Hello.World Hello World" with a callback that fails at its second invocation
give the log `0, EIO`, `error = EIO` and `written = 8`.  Third part, the calls in which the
callback is not invoked at all: a session that enters with an error is returned as it is; a
`window_bits` outside 10..20 gives `EINVAL` with the caller data untouched; for
`window_bits` 13 to 20 the run ends in the initialisation of the heaps, before the first
word is written.  The bound `2 ^ 48` is on what a caller can hold in one buffer; from there
on a single length can take more than 64 bits of the stream (`abc_zeros_shift`). -/
theorem write_failure_is_sticky :
    (∀ {σ : Type} (tr : Transport σ) (lz : lz77_t (σ × List Int)) (data : Nat → Nat)
      (bytes window_bits : Nat), lz.error = 0 → lz.written < 2 ^ 64 → 10 ≤ window_bits →
      window_bits ≤ 12 → bytes < 2 ^ 48 →
      ∃ lzf codes, lz77_compress (logWrites tr) lz data bytes window_bits = .ok lzf ∧
        lzf.that.2 = lz.that.2 ++ codes ∧
        ((lzf.error = 0 ∧ (∀ c, c ∈ codes → c = 0) ∧
            lzf.written = (lz.written + 8 * codes.length) % 2 ^ 64) ∨
         (lzf.error ≠ 0 ∧ ∃ pre, codes = pre ++ [lzf.error] ∧ (∀ c, c ∈ pre → c = 0) ∧
            lzf.written = (lz.written + 8 * pre.length) % 2 ^ 64))) ∧
    logOf (lz77_compress (logWrites (failsAt 2)) (freshSession ((0 : Nat), ([] : List Int)))
      (bufferOf helloBytes) 35 10) = some ([0, EIO], EIO, 8) ∧
    (∀ {σ : Type} (tr : Transport σ) (lz : lz77_t σ) (data : Nat → Nat)
      (bytes window_bits : Nat), lz.error ≠ 0 →
      lz77_compress tr lz data bytes window_bits = .ok lz) ∧
    (∀ {σ : Type} (tr : Transport σ) (lz : lz77_t σ) (data : Nat → Nat)
      (bytes window_bits : Nat), lz.error = 0 → (window_bits < 10 ∨ 20 < window_bits) →
      lz77_compress tr lz data bytes window_bits = .ok { lz with error := EINVAL }) ∧
    (∀ {σ : Type} (tr : Transport σ) (lz : lz77_t σ) (data : Nat → Nat)
      (bytes window_bits : Nat), lz.error = 0 → 13 ≤ window_bits → window_bits ≤ 20 →
      lz77_compress tr lz data bytes window_bits = .error .table) := by
  refine ⟨?_, hello_fails_at_2, ?_, ?_, ?_⟩
  · intro σ tr lz data bytes wb h0 hw h1 h2 hb
    obtain ⟨lzf, e, codes, s⟩ := compress_gen tr lz data bytes wb h0 h1 h2 (by omega)
      (Or.inl hb)
    obtain ⟨a1, a2⟩ := sent_outcome s h0 hw
    exact ⟨lzf, codes, e, a1, a2⟩
  · intro σ tr lz data bytes wb h0
    unfold lz77_compress
    rw [if_pos h0]
  · intro σ tr lz data bytes wb h0 hw
    have hc : wb < 10 ∨ wb > 20 := by omega
    unfold lz77_compress
    rw [if_neg (by simp [h0]), if_pos hc]
  · intro σ tr lz data bytes wb h0 h1 h2
    exact (window_overflow tr lz data bytes wb 0 h0 h1 h2).1

end Lz77bn
